import Mathlib

/-! # JSON-Parser: a shallow embedding of the two parsing pipelines

The repository holds two programs.

* `parser.cpp` (the Baseline pipeline): a pull tokenizer (`Tokenizer`) with a
  cursor `pos` over the input, feeding a recursive-descent `Parser` with one
  token of lookahead.
* `simd-parser.cpp` (the Indexed pipeline): `find_structurals` lists the offsets
  of the structural bytes, `parseJsonWithIndex` builds a token vector from those
  offsets and the gaps after them, and a second `Parser` walks that vector.

Conventions of the embedding.

* A C++ `std::string` is a `List Char`; `s[i]` is `s.getD i NUL` and is only
  meaningful for `i < s.length`.
* A `size_t` is a `Nat` (inputs are far shorter than `2^64`).
* Every loop is a function that recurses on a fuel argument. The loops of the
  tokenizer, of the structural scan and of the token builder get a fuel that
  they never exhaust: the lemmas below show that each computes a function on
  lists in which no fuel occurs. The mutually recursive functions of the two
  parsers spend one unit of fuel for each call and report `outOfFuel` when none
  is left; `Baseline.parse_complete` shows that the fuel of the Baseline pipeline
  is enough for every text that starts with a derivable token list.
* A thrown exception is an `Except` error; an out-of-bounds `vector` access
  (undefined behaviour in C++) is the error `outOfRange`.
-/

/-! ## Character classes of `<cctype>` (C locale) -/

/-- The NUL character, which `Tokenizer::peek` returns at the end of the input. -/
def NUL : Char := '\x00'

/-- The `isspace` of the C locale: space, `\t`, `\n`, `\v`, `\f`, `\r`. -/
def isspace (c : Char) : Bool :=
  c = ' ' || c = '\t' || c = '\n' || c = '\x0b' || c = '\x0c' || c = '\r'

/-- The `isalpha` of the C locale: the 52 ASCII letters. -/
def isalpha (c : Char) : Bool :=
  ('a' ≤ c && c ≤ 'z') || ('A' ≤ c && c ≤ 'Z')

/-- The `isdigit` of the C locale: the ten ASCII digits. -/
def isdigit (c : Char) : Bool :=
  '0' ≤ c && c ≤ '9'

/-! ## Tokens

`parser.cpp` declares `enum class TokenType` and `struct Token {type, value}`.
`simd-parser.cpp` declares `struct Token {string type; string value}` and only
ever stores the literals `"LeftBrace"`, `"RightBrace"`, `"LeftBracket"`,
`"RightBracket"`, `"Colon"`, `"Comma"`, `"String"`, `"Number"`, `"True"`,
`"False"`, `"Null"` in `type`: these are the names of the enumeration's
constructors, so both programs share the types below. -/

/-- The `enum class TokenType` of `parser.cpp`. -/
inductive TokenType
  | LeftBrace
  | RightBrace
  | LeftBracket
  | RightBracket
  | Colon
  | Comma
  | String
  | Number
  | True
  | False
  | Null
  | EndOfFile
  | Invalid
  deriving DecidableEq

/-- The `struct Token`. -/
structure Token where
  type : TokenType
  value : List Char
  deriving DecidableEq

namespace Baseline

/-! ## The Baseline tokenizer (`class Tokenizer` of `parser.cpp`)

The tokenizer's state is the cursor `pos`; the input is constant. -/

/-- `Tokenizer::peek`: the character at the cursor, NUL at the end. -/
def peek (input : List Char) (pos : Nat) : Char :=
  if pos < input.length then input.getD pos NUL else NUL

/-- `Tokenizer::get`: the character at the cursor and the advanced cursor; at
the end, NUL and the cursor unchanged. -/
def get (input : List Char) (pos : Nat) : Char × Nat :=
  if pos < input.length then (input.getD pos NUL, pos + 1) else (NUL, pos)

/-- `Tokenizer::skipWhitespace`: `while (isspace(peek())) get();`. -/
def skipWhitespaceLoop (input : List Char) : Nat → Nat → Nat
  | 0, pos => pos
  | fuel + 1, pos =>
    if isspace (peek input pos) then skipWhitespaceLoop input fuel (get input pos).2
    else pos

/-- `Tokenizer::skipWhitespace` with the fuel of a whole pass over the input. -/
def skipWhitespace (input : List Char) (pos : Nat) : Nat :=
  skipWhitespaceLoop input input.length pos

/-- The loop `while (p(peek())) acc += get();`, which occurs with `isalpha` in
`nextToken` and with `isdigit` three times in `parseNumber`. -/
def appendWhileLoop (p : Char → Bool) (input : List Char) :
    Nat → Nat → List Char → List Char × Nat
  | 0, pos, acc => (acc, pos)
  | fuel + 1, pos, acc =>
    if p (peek input pos) then
      appendWhileLoop p input fuel (get input pos).2 (acc ++ [(get input pos).1])
    else (acc, pos)

/-- The loop `while (p(peek())) acc += get();` with the fuel of a whole pass. -/
def appendWhile (p : Char → Bool) (input : List Char) (pos : Nat) (acc : List Char) :
    List Char × Nat :=
  appendWhileLoop p input input.length pos acc

/-- The `// Exponent` block of `Tokenizer::parseNumber` and its final return. -/
def parseNumberExponent (input : List Char) (pos : Nat) (num : List Char) : Token × Nat :=
  if peek input pos = 'e' ∨ peek input pos = 'E' then
    let num1 := num ++ [(get input pos).1]
    let pos1 := (get input pos).2
    let num2 := if peek input pos1 = '+' ∨ peek input pos1 = '-' then
      num1 ++ [(get input pos1).1] else num1
    let pos2 := if peek input pos1 = '+' ∨ peek input pos1 = '-' then
      (get input pos1).2 else pos1
    if ¬ isdigit (peek input pos2) then (⟨TokenType.Invalid, num2⟩, pos2)
    else
      let r := appendWhile isdigit input pos2 num2
      (⟨TokenType.Number, r.1⟩, r.2)
  else (⟨TokenType.Number, num⟩, pos)

/-- The `// Fraction` block of `Tokenizer::parseNumber`, followed by the
exponent block. -/
def parseNumberFraction (input : List Char) (pos : Nat) (num : List Char) : Token × Nat :=
  if peek input pos = '.' then
    let num1 := num ++ [(get input pos).1]
    let pos1 := (get input pos).2
    if ¬ isdigit (peek input pos1) then (⟨TokenType.Invalid, num1⟩, pos1)
    else
      let r := appendWhile isdigit input pos1 num1
      parseNumberExponent input r.2 r.1
  else parseNumberExponent input pos num

/-- `Tokenizer::parseNumber`: optional minus, integer part (a single `0` or a
digit run), then the fraction and exponent blocks. -/
def parseNumber (input : List Char) (pos : Nat) : Token × Nat :=
  let num0 := if peek input pos = '-' then [(get input pos).1] else []
  let pos0 := if peek input pos = '-' then (get input pos).2 else pos
  if isdigit (peek input pos0) then
    if peek input pos0 = '0' then
      parseNumberFraction input (get input pos0).2 (num0 ++ [(get input pos0).1])
    else
      let r := appendWhile isdigit input pos0 num0
      parseNumberFraction input r.2 r.1
  else (⟨TokenType.Invalid, num0⟩, pos0)

/-- The `while (true)` loop of `Tokenizer::parseStringRaw`. With no fuel left it
answers `Invalid`; `parseStringRaw` passes a fuel that is never exhausted. -/
def parseStringRawLoop (input : List Char) : Nat → Nat → List Char → Token × Nat
  | 0, pos, raw => (⟨TokenType.Invalid, raw⟩, pos)
  | fuel + 1, pos, raw =>
    let c := (get input pos).1
    let pos1 := (get input pos).2
    if c = NUL then (⟨TokenType.Invalid, raw⟩, pos1)
    else if c = '"' then (⟨TokenType.String, raw⟩, pos1)
    else if c = '\\' then
      let next := (get input pos1).1
      let pos2 := (get input pos1).2
      if next = NUL then (⟨TokenType.Invalid, raw⟩, pos2)
      else parseStringRawLoop input fuel pos2 (raw ++ ['\\', next])
    else parseStringRawLoop input fuel pos1 (raw ++ [c])

/-- `Tokenizer::parseStringRaw`: consume the opening quote, then run the loop. -/
def parseStringRaw (input : List Char) (pos : Nat) : Token × Nat :=
  parseStringRawLoop input (input.length + 1) (get input pos).2 []

/-- The `for` loop of `Tokenizer::unescapeString`; the result is the pair of the
returned string and the `success` flag. -/
def unescapeLoop (raw : List Char) : Nat → Nat → List Char → List Char × Bool
  | 0, _, result => (result, true)
  | fuel + 1, i, result =>
    if i < raw.length then
      let c := raw.getD i NUL
      if c = '\\' then
        if i + 1 ≥ raw.length then (result, false)
        else
          let next := raw.getD (i + 1) NUL
          if next = '\\' then unescapeLoop raw fuel (i + 2) (result ++ ['\\'])
          else if next = '"' then unescapeLoop raw fuel (i + 2) (result ++ ['"'])
          else if next = 'n' then unescapeLoop raw fuel (i + 2) (result ++ ['\n'])
          else if next = 't' then unescapeLoop raw fuel (i + 2) (result ++ ['\t'])
          else if next = 'r' then unescapeLoop raw fuel (i + 2) (result ++ ['\r'])
          else if next = 'b' then unescapeLoop raw fuel (i + 2) (result ++ ['\x08'])
          else if next = 'f' then unescapeLoop raw fuel (i + 2) (result ++ ['\x0c'])
          else (result, false)
      else unescapeLoop raw fuel (i + 1) (result ++ [c])
    else (result, true)

/-- `Tokenizer::unescapeString`. -/
def unescapeString (raw : List Char) : List Char × Bool :=
  unescapeLoop raw raw.length 0 []

/-- `Tokenizer::nextToken`: the token at the cursor and the cursor after it. -/
def nextToken (input : List Char) (pos : Nat) : Token × Nat :=
  let p := skipWhitespace input pos
  let c := peek input p
  if c = NUL then (⟨TokenType.EndOfFile, []⟩, p)
  else if c = '{' then (⟨TokenType.LeftBrace, ['{']⟩, (get input p).2)
  else if c = '}' then (⟨TokenType.RightBrace, ['}']⟩, (get input p).2)
  else if c = '[' then (⟨TokenType.LeftBracket, ['[']⟩, (get input p).2)
  else if c = ']' then (⟨TokenType.RightBracket, [']']⟩, (get input p).2)
  else if c = ':' then (⟨TokenType.Colon, [':']⟩, (get input p).2)
  else if c = ',' then (⟨TokenType.Comma, [',']⟩, (get input p).2)
  else if isalpha c then
    let w := appendWhile isalpha input p []
    if w.1 = ['t', 'r', 'u', 'e'] then (⟨TokenType.True, w.1⟩, w.2)
    else if w.1 = ['f', 'a', 'l', 's', 'e'] then (⟨TokenType.False, w.1⟩, w.2)
    else if w.1 = ['n', 'u', 'l', 'l'] then (⟨TokenType.Null, w.1⟩, w.2)
    else (⟨TokenType.Invalid, w.1⟩, w.2)
  else if c = '-' ∨ isdigit c then parseNumber input p
  else if c = '"' then
    let rawTok := parseStringRaw input p
    if rawTok.1.type = TokenType.Invalid then rawTok
    else
      let u := unescapeString rawTok.1.value
      if ¬ u.2 then (⟨TokenType.Invalid, rawTok.1.value⟩, rawTok.2)
      else (⟨TokenType.String, u.1⟩, rawTok.2)
  else (⟨TokenType.Invalid, [(get input p).1]⟩, (get input p).2)

end Baseline

/-! ## Numbers and the value tree of `parser.cpp`

`std::stod` is a function of the C++ standard library. It is modelled on
decimal numerals only (every Number token of the tokenizer is one), as libstdc++
on glibc and x86-64 computes it: the numeral is rounded to the nearest binary64
value, a tie to the even one, and the exception `std::out_of_range` is thrown when
`strtod` sets `ERANGE`. Infinities and NaN do not occur, and the sign of zero is
not kept (`-0.0 == 0.0` in C++). -/

/-- A finite `double`: the value `mant * 2 ^ exp`, written with `exp ≤ 0` and, when
`exp < 0`, with `mant` odd, so that equal doubles are equal terms. -/
structure Double where
  mant : Int
  exp : Int
  deriving DecidableEq

/-- The value of one decimal digit. -/
def digitVal (c : Char) : Nat := c.toNat - '0'.toNat

/-- The value of a run of decimal digits. -/
def digitsVal (ds : List Char) : Nat := ds.foldl (fun n c => 10 * n + digitVal c) 0

/-- The least magnitude that rounds to infinity in binary64: `2^1024 - 2^970`,
half an ulp above the largest finite `double`. -/
def binary64Huge : Nat :=
  179769313486231580793728971405303415079934132710037826936173778980444968292764750946649017977587207096330286416692887910946555547851940402630657488671505820681908902000708383676273854845817711531764475730270069855571366959622842914819860834936475292719074168444365510704342711559699508093042880177904174497792

/-- The scale of the underflow test, `2^1076`. -/
def binary64TinyScale : Nat :=
  809609013229242473409981386875669228198226599056568473427605432109721358271981387567841534805748497980748311457267247645559234949543173907468053599762954039686069697106265445457867630968372865364959070713890980274248029933698770794472413422596638225363240226049435078209333658460922010128745310034584025053230830964373979136

/-- The scale of the exactness test, `2^1074`: the subnormal numbers are the
multiples of `2^-1074`. -/
def binary64SubnormalScale : Nat :=
  202402253307310618352495346718917307049556649764142118356901358027430339567995346891960383701437124495187077864316811911389808737385793476867013399940738509921517424276566361364466907742093216341239767678472745068562007483424692698618103355649159556340810056512358769552333414615230502532186327508646006263307707741093494784

/-- Whether `strtod` sets `ERANGE` on the magnitude `m * 10 ^ x`. Overflow: the
value rounds to infinity. Underflow: the value is not zero, is still below the
least normal number `2^-1022` after rounding to 53 bits (it is less than
`2^-1022 - 2^-1076`), and is not a multiple of `2^-1074`, so that the subnormal
result is inexact. -/
def stodRangeError (m : Nat) (x : Int) : Bool :=
  let num := m * Nat.pow 10 x.toNat
  let den := Nat.pow 10 (-x).toNat
  decide (binary64Huge * den ≤ num)
    || (decide (0 < m) && decide (num * binary64TinyScale < 18014398509481983 * den)
      && decide ((num * binary64SubnormalScale) % den ≠ 0))

/-- The number of binary digits of `n`, counted with fuel `n`. -/
def bitLength : Nat → Nat → Nat
  | 0, _ => 0
  | fuel + 1, n => if n = 0 then 0 else bitLength fuel (n / 2) + 1

/-- The quotient `n / d` rounded to the nearest whole number, a tie to the even
one. -/
def roundHalfEven (n d : Nat) : Nat :=
  if d < 2 * (n % d) ∨ (2 * (n % d) = d ∧ (n / d) % 2 = 1) then n / d + 1 else n / d

/-- The binary64 value nearest to `num / den`, as `q * 2 ^ p`: the exponent `p`
of the last place is the one that leaves 53 binary digits, and not below `-1074`,
the last place of the subnormal numbers. -/
def nearestBinary64 (num den : Nat) : Nat × Int :=
  if num = 0 then (0, 0)
  else
    let e : Int := (bitLength num num : Int) - (bitLength den den : Int)
    let p0 : Int := max (e - 52) (-1074)
    let p : Int :=
      if -1074 < p0
          ∧ num * Nat.pow 2 (-p0).toNat < 4503599627370496 * (den * Nat.pow 2 p0.toNat)
      then p0 - 1 else p0
    (roundHalfEven (num * Nat.pow 2 (-p).toNat) (den * Nat.pow 2 p.toNat), p)

/-- The loop that brings `q * 2 ^ p` to an odd `q` or to `p = 0`. -/
def stripTwos : Nat → Nat → Int → Nat × Int
  | 0, q, p => (q, p)
  | fuel + 1, q, p =>
    if p < 0 ∧ q % 2 = 0 ∧ q ≠ 0 then stripTwos fuel (q / 2) (p + 1) else (q, p)

/-- The form of `q * 2 ^ p` in which a `Double` is written. -/
def canonicalBinary (q : Nat) (p : Int) : Nat × Int :=
  if q = 0 then (0, 0)
  else if 0 ≤ p then (q * Nat.pow 2 p.toNat, 0)
  else stripTwos 64 q p

/-- The `std::stod` on decimal numerals: leading whitespace, an optional sign,
digits with an optional fraction, and an exponent when digits follow it; the
longest such prefix is converted to the nearest `double`. The answer is `none`
when `std::stod` throws: `std::invalid_argument` when there is no digit,
`std::out_of_range` when the value is outside the range of `double`. -/
def stod (s : List Char) : Option Double :=
  let s0 := s.dropWhile isspace
  let s1 := if s0.head? = some '-' ∨ s0.head? = some '+' then s0.tail else s0
  let ip := s1.takeWhile isdigit
  let s2 := s1.dropWhile isdigit
  let fp := if s2.head? = some '.' then s2.tail.takeWhile isdigit else []
  let s3 := if s2.head? = some '.' then s2.tail.dropWhile isdigit else s2
  if ip = [] ∧ fp = [] then none
  else
    let s4 := s3.tail
    let s5 := if s4.head? = some '-' ∨ s4.head? = some '+' then s4.tail else s4
    let ed := s5.takeWhile isdigit
    let e : Int :=
      if (s3.head? = some 'e' ∨ s3.head? = some 'E') ∧ ed ≠ [] then
        (if s4.head? = some '-' then - (digitsVal ed : Int) else (digitsVal ed : Int))
      else 0
    let m := digitsVal (ip ++ fp)
    let x : Int := e - fp.length
    if stodRangeError m x then none
    else
      let r := nearestBinary64 (m * Nat.pow 10 x.toNat) (Nat.pow 10 (-x).toNat)
      let c := canonicalBinary r.1 r.2
      some ⟨(if s0.head? = some '-' then -1 else 1) * (c.1 : Int), c.2⟩

/-- The `struct JsonValue` with its `variant<nullptr_t, bool, double, string,
JsonObject, JsonArray>`. A `JsonObject` (`unordered_map<string, JsonValue>`) is
a list of entries with distinct keys, whose order carries no meaning. -/
inductive JsonValue
  | null
  | bool (b : Bool)
  | number (d : Double)
  | string (s : List Char)
  | object (o : List (List Char × JsonValue))
  | array (a : List JsonValue)

namespace Baseline

/-! ## The Baseline grammar parser (`class Parser` of `parser.cpp`) -/

/-- The exceptions of the Baseline parser: the five `runtime_error` messages,
the failure of `stod`, and the exhaustion of the fuel. -/
inductive ParseError
  | unexpectedToken
  | expectedKey
  | expectedColon
  | expectedCommaOrBrace
  | expectedCommaOrBracket
  | stodFailed
  | outOfFuel
  deriving DecidableEq

/-- The state of a `Parser`: the cursor of its tokenizer and the lookahead
token `current`. -/
structure Parser where
  pos : Nat
  current : Token

/-- `Parser::advance`: `current = tokenizer.nextToken()`. -/
def advance (input : List Char) (p : Parser) : Parser :=
  ⟨(nextToken input p.pos).2, (nextToken input p.pos).1⟩

/-- The constructor `Parser(Tokenizer& t)`: the cursor is at 0 and the first
token is loaded. -/
def Parser.init (input : List Char) : Parser :=
  advance input ⟨0, ⟨TokenType.EndOfFile, []⟩⟩

/-- The `obj[key] = v` of `unordered_map`: the entry of `key` is replaced when
there is one, added otherwise. -/
def assign (obj : List (List Char × JsonValue)) (key : List Char) (v : JsonValue) :
    List (List Char × JsonValue) :=
  if obj.any (fun kv => kv.1 = key) then
    obj.map (fun kv => if kv.1 = key then (key, v) else kv)
  else obj ++ [(key, v)]

mutual
def parseValue (input : List Char) : Nat → Parser → Except ParseError (JsonValue × Parser)
  | 0, _ => .error .outOfFuel
  | fuel + 1, p =>
    match p.current.type with
    | .String => .ok (.string p.current.value, advance input p)
    | .Number =>
      match stod p.current.value with
      | none => .error .stodFailed
      | some d => .ok (.number d, advance input p)
    | .True => .ok (.bool true, advance input p)
    | .False => .ok (.bool false, advance input p)
    | .Null => .ok (.null, advance input p)
    | .LeftBrace =>
      match parseObject input fuel p with
      | .ok (o, q) => .ok (.object o, q)
      | .error e => .error e
    | .LeftBracket =>
      match parseArray input fuel p with
      | .ok (a, q) => .ok (.array a, q)
      | .error e => .error e
    | _ => .error .unexpectedToken
termination_by structural fuel _ => fuel
def parseObject (input : List Char) :
    Nat → Parser → Except ParseError (List (List Char × JsonValue) × Parser)
  | 0, _ => .error .outOfFuel
  | fuel + 1, p =>
    if (advance input p).current.type = .RightBrace then .ok ([], advance input (advance input p))
    else parseObjectLoop input fuel (advance input p) []
termination_by structural fuel _ => fuel
def parseObjectLoop (input : List Char) :
    Nat → Parser → List (List Char × JsonValue) →
      Except ParseError (List (List Char × JsonValue) × Parser)
  | 0, _, _ => .error .outOfFuel
  | fuel + 1, p, obj =>
    if p.current.type ≠ .String then .error .expectedKey
    else if (advance input p).current.type ≠ .Colon then .error .expectedColon
    else
      match parseValue input fuel (advance input (advance input p)) with
      | .error e => .error e
      | .ok (v, q) =>
        if q.current.type = .Comma then
          parseObjectLoop input fuel (advance input q) (assign obj p.current.value v)
        else if q.current.type = .RightBrace then
          .ok (assign obj p.current.value v, advance input q)
        else .error .expectedCommaOrBrace
termination_by structural fuel _ _ => fuel
def parseArray (input : List Char) : Nat → Parser → Except ParseError (List JsonValue × Parser)
  | 0, _ => .error .outOfFuel
  | fuel + 1, p =>
    if (advance input p).current.type = .RightBracket then .ok ([], advance input (advance input p))
    else parseArrayLoop input fuel (advance input p) []
termination_by structural fuel _ => fuel
def parseArrayLoop (input : List Char) :
    Nat → Parser → List JsonValue → Except ParseError (List JsonValue × Parser)
  | 0, _, _ => .error .outOfFuel
  | fuel + 1, p, arr =>
    match parseValue input fuel p with
    | .error e => .error e
    | .ok (v, q) =>
      if q.current.type = .Comma then parseArrayLoop input fuel (advance input q) (arr ++ [v])
      else if q.current.type = .RightBracket then .ok (arr ++ [v], advance input q)
      else .error .expectedCommaOrBracket
termination_by structural fuel _ _ => fuel
end

/-- The Baseline pipeline, as the `main` of `parser.cpp` runs it: a tokenizer on
the text, a parser on the tokenizer, one call of `parseValue`. -/
def parse (input : List Char) : Except ParseError (JsonValue × Parser) :=
  parseValue input (3 * input.length + 3) (Parser.init input)

end Baseline

namespace Indexed

/-- The string `chars` of `find_structurals`. -/
def chars : List Char := ['{', '}', '[', ']', ':', ',', '"']

/-- The inner loop of `find_structurals`: `for (j = i; j < end; j++)`. -/
def scanBlock (json : List Char) (end_ : Nat) : Nat → Nat → List Nat → List Nat
  | 0, _, structurals => structurals
  | fuel + 1, j, structurals =>
    if j < end_ then
      scanBlock json end_ fuel (j + 1)
        (if json.getD j NUL ∈ chars then structurals ++ [j] else structurals)
    else structurals

/-- The outer loop of `find_structurals`: `for (i = 0; i < json.size(); i += block_size)`. -/
def blockLoop (block_size : Nat) (json : List Char) : Nat → Nat → List Nat → List Nat
  | 0, _, structurals => structurals
  | fuel + 1, i, structurals =>
    if i < json.length then
      blockLoop block_size json fuel (i + block_size)
        (scanBlock json (min (i + block_size) json.length)
          (min (i + block_size) json.length - i) i structurals)
    else structurals

/-- `find_structurals` with the block size as a parameter. -/
def find_structurals_with (block_size : Nat) (json : List Char) : List Nat :=
  blockLoop block_size json json.length 0 []

/-- `find_structurals`: the block size is 16. -/
def find_structurals (json : List Char) : List Nat :=
  find_structurals_with 16 json

/-- The `std::string::substr`. -/
def substr (s : List Char) (start len : Nat) : List Char := (s.drop start).take len

/-- The loop of `extractString`: returns `(end, i)`. -/
def extractStringLoop (json : List Char) (structurals : List Nat) (start : Nat) :
    Nat → Nat → Nat × Nat
  | 0, i => (start, i)
  | fuel + 1, i =>
    if i + 1 < structurals.length then
      if json.getD (structurals.getD (i + 1) 0) NUL = '"'
          ∧ json.getD (structurals.getD (i + 1) 0 - 1) NUL ≠ '\\' then
        (structurals.getD (i + 1) 0, i + 1)
      else extractStringLoop json structurals start fuel (i + 1)
    else (start, i + 1)

/-- `extractString`: the returned string, the new `pos` and the new `i`. -/
def extractString (json : List Char) (pos : Nat) (structurals : List Nat) (i : Nat) :
    List Char × Nat × Nat :=
  let r := extractStringLoop json structurals (pos + 1) (structurals.length + 1) i
  (substr json (pos + 1) (r.1 - (pos + 1)), r.1 + 1, r.2)

/-- The loop of `extractNumber`. -/
def extractNumberLoop (json : List Char) : Nat → Nat → Nat
  | 0, pos => pos
  | fuel + 1, pos =>
    if pos < json.length ∧ (isdigit (json.getD pos NUL) ∨ json.getD pos NUL = '-'
        ∨ json.getD pos NUL = '+' ∨ json.getD pos NUL = '.' ∨ json.getD pos NUL = 'e'
        ∨ json.getD pos NUL = 'E') then
      extractNumberLoop json fuel (pos + 1)
    else pos

def extractNumber (json : List Char) (pos : Nat) : List Char × Nat :=
  let p := extractNumberLoop json json.length pos
  (substr json pos (p - pos), p)

def extractLiteralLoop (json : List Char) : Nat → Nat → Nat
  | 0, pos => pos
  | fuel + 1, pos =>
    if pos < json.length ∧ isalpha (json.getD pos NUL) then extractLiteralLoop json fuel (pos + 1)
    else pos

def extractLiteral (json : List Char) (pos : Nat) : List Char × Nat :=
  let p := extractLiteralLoop json json.length pos
  (substr json pos (p - pos), p)

/-- The gap loop of `parseJsonWithIndex`: `while (j < next)`. -/
def gapLoop (json : List Char) (next : Nat) : Nat → Nat → List Token → List Token
  | 0, _, tokens => tokens
  | fuel + 1, j, tokens =>
    if j < next then
      if isspace (json.getD j NUL) then gapLoop json next fuel (j + 1) tokens
      else if isdigit (json.getD j NUL) ∨ json.getD j NUL = '-' then
        gapLoop json next fuel (extractNumber json j).2
          (tokens ++ [⟨TokenType.Number, (extractNumber json j).1⟩])
      else if isalpha (json.getD j NUL) then
        gapLoop json next fuel (extractLiteral json j).2
          (if (extractLiteral json j).1 = ['t', 'r', 'u', 'e'] then
            tokens ++ [⟨TokenType.True, ['t', 'r', 'u', 'e']⟩]
          else if (extractLiteral json j).1 = ['f', 'a', 'l', 's', 'e'] then
            tokens ++ [⟨TokenType.False, ['f', 'a', 'l', 's', 'e']⟩]
          else if (extractLiteral json j).1 = ['n', 'u', 'l', 'l'] then
            tokens ++ [⟨TokenType.Null, ['n', 'u', 'l', 'l']⟩]
          else tokens)
      else gapLoop json next fuel (j + 1) tokens
    else tokens

/-- The `switch (c)` of `parseJsonWithIndex`: the tokens, `pos` and `i` after it. -/
def structuralToken (json : List Char) (structurals : List Nat) (i : Nat)
    (tokens : List Token) : List Token × Nat × Nat :=
  let pos := structurals.getD i 0
  let c := json.getD pos NUL
  if c = '{' then (tokens ++ [⟨TokenType.LeftBrace, ['{']⟩], pos, i)
  else if c = '}' then (tokens ++ [⟨TokenType.RightBrace, ['}']⟩], pos, i)
  else if c = '[' then (tokens ++ [⟨TokenType.LeftBracket, ['[']⟩], pos, i)
  else if c = ']' then (tokens ++ [⟨TokenType.RightBracket, [']']⟩], pos, i)
  else if c = ':' then (tokens ++ [⟨TokenType.Colon, [':']⟩], pos, i)
  else if c = ',' then (tokens ++ [⟨TokenType.Comma, [',']⟩], pos, i)
  else if c = '"' then
    let r := extractString json pos structurals i
    (tokens ++ [⟨TokenType.String, r.1⟩], r.2.1, r.2.2)
  else (tokens, pos, i)

/-- The `for` loop of `parseJsonWithIndex`. -/
def indexLoop (json : List Char) (structurals : List Nat) : Nat → Nat → List Token → List Token
  | 0, _, tokens => tokens
  | fuel + 1, i, tokens =>
    if i < structurals.length then
      let s := structuralToken json structurals i tokens
      let next := if s.2.2 + 1 < structurals.length then structurals.getD (s.2.2 + 1) 0
        else json.length
      indexLoop json structurals fuel (s.2.2 + 1)
        (gapLoop json next json.length (s.2.1 + 1) s.1)
    else tokens

def parseJsonWithIndex (json : List Char) (structurals : List Nat) : List Token :=
  indexLoop json structurals structurals.length 0 []

inductive NodeType
  | Object | Array | String | Number | True | False | Null
  deriving DecidableEq

inductive Node
  | mk (type : NodeType) (value : List Char) (obj : List (List Char × Node)) (arr : List Node)

inductive ParseError
  | unexpectedToken (type : TokenType)
  | outOfRange
  | outOfFuel
  deriving DecidableEq

def peek (tokens : List Token) (idx : Nat) : Except ParseError Token :=
  match tokens[idx]? with
  | some t => .ok t
  | none => .error .outOfRange

def get (tokens : List Token) (idx : Nat) : Except ParseError (Token × Nat) :=
  match tokens[idx]? with
  | some t => .ok (t, idx + 1)
  | none => .error .outOfRange

mutual
def parseValue (tokens : List Token) : Nat → Nat → Except ParseError (Node × Nat)
  | 0, _ => .error .outOfFuel
  | fuel + 1, idx =>
    match peek tokens idx with
    | .error e => .error e
    | .ok t =>
      if t.type = .String then
        match get tokens idx with
        | .error e => .error e
        | .ok g => .ok (.mk .String t.value [] [], g.2)
      else if t.type = .Number then
        match get tokens idx with
        | .error e => .error e
        | .ok g => .ok (.mk .Number t.value [] [], g.2)
      else if t.type = .True then
        match get tokens idx with
        | .error e => .error e
        | .ok g => .ok (.mk .True ['t', 'r', 'u', 'e'] [] [], g.2)
      else if t.type = .False then
        match get tokens idx with
        | .error e => .error e
        | .ok g => .ok (.mk .False ['f', 'a', 'l', 's', 'e'] [] [], g.2)
      else if t.type = .Null then
        match get tokens idx with
        | .error e => .error e
        | .ok g => .ok (.mk .Null ['n', 'u', 'l', 'l'] [] [], g.2)
      else if t.type = .LeftBrace then parseObject tokens fuel idx
      else if t.type = .LeftBracket then parseArray tokens fuel idx
      else .error (.unexpectedToken t.type)
termination_by structural fuel _ => fuel

def parseObject (tokens : List Token) : Nat → Nat → Except ParseError (Node × Nat)
  | 0, _ => .error .outOfFuel
  | fuel + 1, idx =>
    match get tokens idx with
    | .error e => .error e
    | .ok g =>
      match parseObjectLoop tokens fuel g.2 [] with
      | .error e => .error e
      | .ok r =>
        match get tokens r.2 with
        | .error e => .error e
        | .ok g2 => .ok (.mk .Object [] r.1 [], g2.2)
termination_by structural fuel _ => fuel

def parseObjectLoop (tokens : List Token) : Nat → Nat → List (List Char × Node) →
    Except ParseError (List (List Char × Node) × Nat)
  | 0, _, _ => .error .outOfFuel
  | fuel + 1, idx, obj =>
    match peek tokens idx with
    | .error e => .error e
    | .ok t =>
      if t.type ≠ .RightBrace then
        match get tokens idx with
        | .error e => .error e
        | .ok key =>
          match get tokens key.2 with
          | .error e => .error e
          | .ok colon =>
            match parseValue tokens fuel colon.2 with
            | .error e => .error e
            | .ok v =>
              match peek tokens v.2 with
              | .error e => .error e
              | .ok t2 =>
                if t2.type = .Comma then
                  match get tokens v.2 with
                  | .error e => .error e
                  | .ok g => parseObjectLoop tokens fuel g.2 (obj ++ [(key.1.value, v.1)])
                else parseObjectLoop tokens fuel v.2 (obj ++ [(key.1.value, v.1)])
      else .ok (obj, idx)
termination_by structural fuel _ _ => fuel

def parseArray (tokens : List Token) : Nat → Nat → Except ParseError (Node × Nat)
  | 0, _ => .error .outOfFuel
  | fuel + 1, idx =>
    match get tokens idx with
    | .error e => .error e
    | .ok g =>
      match parseArrayLoop tokens fuel g.2 [] with
      | .error e => .error e
      | .ok r =>
        match get tokens r.2 with
        | .error e => .error e
        | .ok g2 => .ok (.mk .Array [] [] r.1, g2.2)
termination_by structural fuel _ => fuel

def parseArrayLoop (tokens : List Token) : Nat → Nat → List Node →
    Except ParseError (List Node × Nat)
  | 0, _, _ => .error .outOfFuel
  | fuel + 1, idx, arr =>
    match peek tokens idx with
    | .error e => .error e
    | .ok t =>
      if t.type ≠ .RightBracket then
        match parseValue tokens fuel idx with
        | .error e => .error e
        | .ok v =>
          match peek tokens v.2 with
          | .error e => .error e
          | .ok t2 =>
            if t2.type = .Comma then
              match get tokens v.2 with
              | .error e => .error e
              | .ok g => parseArrayLoop tokens fuel g.2 (arr ++ [v.1])
            else parseArrayLoop tokens fuel v.2 (arr ++ [v.1])
      else .ok (arr, idx)
termination_by structural fuel _ _ => fuel
end

/-- The Indexed pipeline, as the `main` of `simd-parser.cpp` runs it: the
structural scan, the token builder, one call of `parseValue` at index 0. Every
call of the parser reads a token of the text or closes a container, so the fuel
is taken one above that of the Baseline pipeline. -/
def parse (json : List Char) : Except ParseError (Node × Nat) :=
  parseValue (parseJsonWithIndex json (find_structurals json)) (3 * json.length + 4) 0

end Indexed

/-! ## The list view of the tokenizer

The functions of this section restate the tokenizer's loops on the unread
suffix `input.drop pos` of the input. They are not translations of further
source code: the lemmas of the next part prove that each loop of the tokenizer
computes its list view, and the theorems about the tokenizer are then proved on
lists. Where the tokenizer returns a cursor, the list view returns the number of
characters consumed. -/

namespace ListView

/-- The first character of the unread suffix, NUL when nothing is left: what
`Tokenizer::peek` sees. -/
def hd : List Char → Char
  | [] => NUL
  | c :: _ => c

/-- The number of characters one `Tokenizer::get` consumes: none at the end. -/
def step : List Char → Nat
  | [] => 0
  | _ :: _ => 1

/-- The list view of `parseStringRawLoop`. -/
def rawScan : List Char → List Char → Token × Nat
  | [], raw => (⟨TokenType.Invalid, raw⟩, 0)
  | c :: rest, raw =>
    if c = NUL then (⟨TokenType.Invalid, raw⟩, 1)
    else if c = '"' then (⟨TokenType.String, raw⟩, 1)
    else if c = '\\' then
      match rest with
      | [] => (⟨TokenType.Invalid, raw⟩, 1)
      | next :: rest2 =>
        if next = NUL then (⟨TokenType.Invalid, raw⟩, 2)
        else ((rawScan rest2 (raw ++ ['\\', next])).1, (rawScan rest2 (raw ++ ['\\', next])).2 + 2)
    else ((rawScan rest (raw ++ [c])).1, (rawScan rest (raw ++ [c])).2 + 1)

/-- The character an escape letter stands for, `none` for any other letter: the
`switch (next)` of `unescapeString`. -/
def escapeChar (next : Char) : Option Char :=
  if next = '\\' then some '\\'
  else if next = '"' then some '"'
  else if next = 'n' then some '\n'
  else if next = 't' then some '\t'
  else if next = 'r' then some '\r'
  else if next = 'b' then some '\x08'
  else if next = 'f' then some '\x0c'
  else none

/-- The list view of `unescapeLoop`. -/
def unescape : List Char → List Char → List Char × Bool
  | [], result => (result, true)
  | c :: rest, result =>
    if c = '\\' then
      match rest with
      | [] => (result, false)
      | next :: rest2 =>
        match escapeChar next with
        | some e => unescape rest2 (result ++ [e])
        | none => (result, false)
    else unescape rest (result ++ [c])

end ListView

namespace ListView

/-- The list view of the `// Exponent` block of `parseNumber`. -/
def exponent (l num : List Char) : Token × Nat :=
  if hd l = 'e' ∨ hd l = 'E' then
    if hd l.tail = '+' ∨ hd l.tail = '-' then
      if ¬ isdigit (hd l.tail.tail) then (⟨TokenType.Invalid, num ++ [hd l, hd l.tail]⟩, 2)
      else (⟨TokenType.Number, num ++ [hd l, hd l.tail] ++ l.tail.tail.takeWhile isdigit⟩,
        2 + (l.tail.tail.takeWhile isdigit).length)
    else
      if ¬ isdigit (hd l.tail) then (⟨TokenType.Invalid, num ++ [hd l]⟩, 1)
      else (⟨TokenType.Number, num ++ [hd l] ++ l.tail.takeWhile isdigit⟩,
        1 + (l.tail.takeWhile isdigit).length)
  else (⟨TokenType.Number, num⟩, 0)

/-- The list view of the `// Fraction` block of `parseNumber`. -/
def fraction (l num : List Char) : Token × Nat :=
  if hd l = '.' then
    if ¬ isdigit (hd l.tail) then (⟨TokenType.Invalid, num ++ ['.']⟩, 1)
    else
      ((exponent (l.tail.dropWhile isdigit) (num ++ ['.'] ++ l.tail.takeWhile isdigit)).1,
        1 + (l.tail.takeWhile isdigit).length
          + (exponent (l.tail.dropWhile isdigit) (num ++ ['.'] ++ l.tail.takeWhile isdigit)).2)
  else exponent l num

/-- The list view of the `// Digits` block of `parseNumber` and what follows it. -/
def digits (l num : List Char) : Token × Nat :=
  if isdigit (hd l) then
    if hd l = '0' then ((fraction l.tail (num ++ ['0'])).1, 1 + (fraction l.tail (num ++ ['0'])).2)
    else
      ((fraction (l.dropWhile isdigit) (num ++ l.takeWhile isdigit)).1,
        (l.takeWhile isdigit).length
          + (fraction (l.dropWhile isdigit) (num ++ l.takeWhile isdigit)).2)
  else (⟨TokenType.Invalid, num⟩, 0)

/-- The list view of `parseNumber`. -/
def number (l : List Char) : Token × Nat :=
  if hd l = '-' then ((digits l.tail ['-']).1, 1 + (digits l.tail ['-']).2)
  else digits l []

/-- The list view of the string branch of `nextToken`: `parseStringRaw`, then
`unescapeString`. -/
def string (l : List Char) : Token × Nat :=
  if (rawScan l.tail []).1.type = TokenType.Invalid then
    ((rawScan l.tail []).1, 1 + (rawScan l.tail []).2)
  else if ¬ (unescape (rawScan l.tail []).1.value []).2 then
    (⟨TokenType.Invalid, (rawScan l.tail []).1.value⟩, 1 + (rawScan l.tail []).2)
  else (⟨TokenType.String, (unescape (rawScan l.tail []).1.value []).1⟩,
    1 + (rawScan l.tail []).2)

/-- The list view of `nextToken` once the whitespace is skipped. -/
def token (l : List Char) : Token × Nat :=
  if hd l = NUL then (⟨TokenType.EndOfFile, []⟩, 0)
  else if hd l = '{' then (⟨TokenType.LeftBrace, ['{']⟩, 1)
  else if hd l = '}' then (⟨TokenType.RightBrace, ['}']⟩, 1)
  else if hd l = '[' then (⟨TokenType.LeftBracket, ['[']⟩, 1)
  else if hd l = ']' then (⟨TokenType.RightBracket, [']']⟩, 1)
  else if hd l = ':' then (⟨TokenType.Colon, [':']⟩, 1)
  else if hd l = ',' then (⟨TokenType.Comma, [',']⟩, 1)
  else if isalpha (hd l) then
    if l.takeWhile isalpha = ['t', 'r', 'u', 'e'] then
      (⟨TokenType.True, l.takeWhile isalpha⟩, (l.takeWhile isalpha).length)
    else if l.takeWhile isalpha = ['f', 'a', 'l', 's', 'e'] then
      (⟨TokenType.False, l.takeWhile isalpha⟩, (l.takeWhile isalpha).length)
    else if l.takeWhile isalpha = ['n', 'u', 'l', 'l'] then
      (⟨TokenType.Null, l.takeWhile isalpha⟩, (l.takeWhile isalpha).length)
    else (⟨TokenType.Invalid, l.takeWhile isalpha⟩, (l.takeWhile isalpha).length)
  else if hd l = '-' ∨ isdigit (hd l) then number l
  else if hd l = '"' then string l
  else (⟨TokenType.Invalid, [hd l]⟩, 1)

/-- The list view of `nextToken`: the token and the number of characters
consumed, whitespace included. -/
def lex (l : List Char) : Token × Nat :=
  ((token (l.dropWhile isspace)).1,
    (l.takeWhile isspace).length + (token (l.dropWhile isspace)).2)

end ListView

/-! ## The list view of the Indexed token builder

As for the tokenizer, the functions of this section restate the loops of
`parseJsonWithIndex` on lists: a gap on its text, the walk over the structural
offsets on the unread suffix of the input. -/

namespace IndexView

/-- The characters `extractNumber` accepts. -/
def numClass (c : Char) : Bool :=
  isdigit c || c = '-' || c = '+' || c = '.' || c = 'e' || c = 'E'

/-- Whether the character is not one of the seven structural characters. -/
def plainChar (c : Char) : Bool := !decide (c ∈ Indexed.chars)

/-- The tokens that the literal branch of the gap loop pushes for a word. -/
def literalTokens (w : List Char) : List Token :=
  if w = ['t', 'r', 'u', 'e'] then [⟨TokenType.True, ['t', 'r', 'u', 'e']⟩]
  else if w = ['f', 'a', 'l', 's', 'e'] then [⟨TokenType.False, ['f', 'a', 'l', 's', 'e']⟩]
  else if w = ['n', 'u', 'l', 'l'] then [⟨TokenType.Null, ['n', 'u', 'l', 'l']⟩]
  else []

/-- The list view of the gap loop: the tokens of a gap text. -/
def gapTokens : List Char → List Token
  | [] => []
  | c :: r =>
    if isspace c then gapTokens r
    else if isdigit c ∨ c = '-' then
      ⟨TokenType.Number, c :: r.takeWhile numClass⟩ :: gapTokens (r.dropWhile numClass)
    else if isalpha c then
      literalTokens (c :: r.takeWhile isalpha) ++ gapTokens (r.dropWhile isalpha)
    else gapTokens r
termination_by l => l.length
decreasing_by
  all_goals simp_wf
  all_goals first
    | omega
    | exact Nat.lt_succ_of_le (List.dropWhile_sublist _).length_le

/-- The offset of the closing quote that `extractString` finds. -/
def findClose : Char → List Char → Option Nat
  | _, [] => none
  | prev, c :: r =>
    if c = '"' ∧ prev ≠ '\\' then some 0
    else (findClose c r).map (fun k => k + 1)

/-- The token of a structural character other than the quote. -/
def punctTokens (c : Char) : List Token :=
  if c = '{' then [⟨TokenType.LeftBrace, ['{']⟩]
  else if c = '}' then [⟨TokenType.RightBrace, ['}']⟩]
  else if c = '[' then [⟨TokenType.LeftBracket, ['[']⟩]
  else if c = ']' then [⟨TokenType.RightBracket, [']']⟩]
  else if c = ':' then [⟨TokenType.Colon, [':']⟩]
  else if c = ',' then [⟨TokenType.Comma, [',']⟩]
  else []

/-- The list view of the `for` loop of `parseJsonWithIndex`, on a text that
starts at a structural character. -/
def structTokens : List Char → List Token
  | [] => []
  | c :: rest =>
    if c = '"' then
      match findClose '"' rest with
      | some k =>
        ⟨TokenType.String, rest.take k⟩
          :: (gapTokens (((rest.drop (k + 1)).takeWhile plainChar).tail)
            ++ structTokens ((rest.drop (k + 1)).dropWhile plainChar))
      | none => ⟨TokenType.String, []⟩ :: gapTokens (rest.drop 2)
    else
      punctTokens c
        ++ (gapTokens (rest.takeWhile plainChar) ++ structTokens (rest.dropWhile plainChar))
termination_by l => l.length
decreasing_by
  all_goals simp_wf
  all_goals first
    | exact Nat.lt_succ_of_le (List.dropWhile_sublist _).length_le
    | exact Nat.lt_succ_of_le (Nat.le_trans (List.dropWhile_sublist _).length_le
        (by rw [List.length_drop]; omega))

/-- The structural offsets of a text whose first character is at offset `base`. -/
def offsetsFrom : List Char → Nat → List Nat
  | [], _ => []
  | c :: r, base =>
    if c ∈ Indexed.chars then base :: offsetsFrom r (base + 1) else offsetsFrom r (base + 1)

/-- The tokens the Indexed token builder derives from a text that starts in a gap:
the tokens of the gap up to the first structural character, then those of the
walk over the structural offsets. -/
def ixLex (l : List Char) : List Token :=
  gapTokens (l.takeWhile plainChar) ++ structTokens (l.dropWhile plainChar)

end IndexView

/-! ## Notions the properties are stated with -/

/-- Every character of the list is a decimal digit. -/
def IsDigits (ds : List Char) : Prop := ∀ c ∈ ds, isdigit c = true

/-- The integer part `0|[1-9][0-9]*` of a JSON number. -/
def IsIntPart (s : List Char) : Prop :=
  s = ['0'] ∨ ∃ d ds, s = d :: ds ∧ isdigit d = true ∧ d ≠ '0' ∧ IsDigits ds

/-- The fraction `\.[0-9]+` of a JSON number. -/
def IsFracPart (s : List Char) : Prop :=
  ∃ ds, s = '.' :: ds ∧ ds ≠ [] ∧ IsDigits ds

/-- The exponent `[eE][+-]?[0-9]+` of a JSON number. -/
def IsExpPart (s : List Char) : Prop :=
  ∃ e sg ds, s = e :: (sg ++ ds) ∧ (e = 'e' ∨ e = 'E')
    ∧ (sg = [] ∨ sg = ['+'] ∨ sg = ['-']) ∧ ds ≠ [] ∧ IsDigits ds

/-- The texts that match `-?(0|[1-9][0-9]*)(\.[0-9]+)?([eE][+-]?[0-9]+)?`. -/
def IsJsonNumber (s : List Char) : Prop :=
  ∃ sg ip fp ep, s = sg ++ ip ++ fp ++ ep ∧ (sg = [] ∨ sg = ['-']) ∧ IsIntPart ip
    ∧ (fp = [] ∨ IsFracPart fp) ∧ (ep = [] ∨ IsExpPart ep)

/-- Whether the text begins with a decimal digit. -/
def startsWithDigit : List Char → Bool
  | [] => false
  | c :: _ => isdigit c

/-- Whether the text begins with `+` or `-`. -/
def startsWithSign : List Char → Bool
  | [] => false
  | c :: _ => c = '+' || c = '-'

/-- The beginnings of a number text that lack a required digit: a minus sign,
a decimal point after the integer part, or an exponent letter with its optional
sign, none of them followed by a digit. -/
inductive MalformedNumber : List Char → Prop
  | minus (tail : List Char) :
    startsWithDigit tail = false → MalformedNumber ('-' :: tail)
  | point (sg ip tail : List Char) :
    (sg = [] ∨ sg = ['-']) → IsIntPart ip → startsWithDigit tail = false →
    MalformedNumber (sg ++ ip ++ '.' :: tail)
  | exponent (sg ip fp : List Char) (e : Char) (tail : List Char) :
    (sg = [] ∨ sg = ['-']) → IsIntPart ip → (fp = [] ∨ IsFracPart fp) → (e = 'e' ∨ e = 'E') →
    startsWithSign tail = false → startsWithDigit tail = false →
    MalformedNumber (sg ++ ip ++ fp ++ e :: tail)
  | signedExponent (sg ip fp : List Char) (e s : Char) (tail : List Char) :
    (sg = [] ∨ sg = ['-']) → IsIntPart ip → (fp = [] ∨ IsFracPart fp) → (e = 'e' ∨ e = 'E') →
    (s = '+' ∨ s = '-') → startsWithDigit tail = false →
    MalformedNumber (sg ++ ip ++ fp ++ e :: s :: tail)

/-- One item of the body of a string literal in the source text: an ordinary
character, or a backslash followed by a character. -/
inductive StrItem
  | plain (c : Char)
  | escape (c : Char)

/-- The seven escape letters and the character each one names: backslash,
quote, newline, tab, carriage return, backspace, form feed. -/
def escapeTable : List (Char × Char) :=
  [('\\', '\\'), ('"', '"'), ('n', '\n'), ('t', '\t'), ('r', '\r'), ('b', '\x08'),
    ('f', '\x0c')]

/-- The character an escape letter names, `none` for any other character. -/
def namedChar (x : Char) : Option Char := escapeTable.lookup x

/-- The source text of an item: the character, or the two-character escape. -/
def StrItem.source : StrItem → List Char
  | StrItem.plain c => [c]
  | StrItem.escape x => ['\\', x]

/-- The text an item stands for: the character, or the character the escape
names (nothing for an escape outside the table). -/
def StrItem.decoded : StrItem → List Char
  | StrItem.plain c => [c]
  | StrItem.escape x => (namedChar x).toList

/-- An item the raw scan steps over: an ordinary character is not NUL, a quote
or a backslash; the character after a backslash is not NUL. -/
def StrItem.Scannable : StrItem → Prop
  | StrItem.plain c => c ≠ NUL ∧ c ≠ '"' ∧ c ≠ '\\'
  | StrItem.escape x => x ≠ NUL

/-- An item of a well-formed body: an ordinary character, or one of the seven
escapes. -/
def StrItem.Valid : StrItem → Prop
  | StrItem.plain c => c ≠ NUL ∧ c ≠ '"' ∧ c ≠ '\\'
  | StrItem.escape x => (namedChar x).isSome = true

/-- The source text of a body. -/
def sourceText : List StrItem → List Char
  | [] => []
  | it :: its => it.source ++ sourceText its

/-- The text a body stands for, every escape replaced by the character it names. -/
def decodedText : List StrItem → List Char
  | [] => []
  | it :: its => it.decoded ++ decodedText its

/-- The text after an opening quote ends before an unescaped closing quote. -/
def EndsUnclosed (t : List Char) : Prop :=
  ∃ items : List StrItem, (∀ it ∈ items, it.Scannable) ∧ t = sourceText items

/-- The text after an opening quote ends right after a backslash. -/
def EndsAfterBackslash (t : List Char) : Prop :=
  ∃ items : List StrItem, (∀ it ∈ items, it.Scannable) ∧ t = sourceText items ++ ['\\']

/-- The text after an opening quote has a closed body that contains a backslash
followed by a character outside the escape table. -/
def HasBadEscape (t : List Char) : Prop :=
  ∃ (items : List StrItem) (rest : List Char), (∀ it ∈ items, it.Scannable)
    ∧ t = sourceText items ++ '"' :: rest
    ∧ ∃ x, StrItem.escape x ∈ items ∧ namedChar x = none

namespace Indexed

/-- Whether the byte at offset `j` is one of the seven structural characters. -/
def structuralAt (json : List Char) (j : Nat) : Bool :=
  decide (json.getD j NUL ∈ chars)

/-- The structural scan as one plain loop over all offsets `0 ≤ j < json.size()`,
without blocks. -/
def find_structurals_plain (json : List Char) : List Nat :=
  scanBlock json json.length json.length 0 []

end Indexed

namespace IndexView

/-- Whether a character starts a number or a literal in a gap. -/
def startsGapToken (c : Char) : Bool := isdigit c || c = '-' || isalpha c

end IndexView

namespace Baseline

/-- Repeated `nextToken` calls from the cursor `pos` until the first EndOfFile:
each token returned before it, with the cursor after the token. -/
def tokenRun (input : List Char) : Nat → Nat → List (Token × Nat)
  | 0, _ => []
  | fuel + 1, pos =>
    if (nextToken input pos).1.type = TokenType.EndOfFile then []
    else nextToken input pos :: tokenRun input fuel (nextToken input pos).2

/-- The tokens that repeated `nextToken` calls return on a text before
EndOfFile. Every token before EndOfFile consumes a character, so `input.length + 1`
calls reach it. -/
def tokens (input : List Char) : List Token :=
  (tokenRun input (input.length + 1) 0).map Prod.fst

end Baseline

namespace Indexed

mutual
/-- The Baseline value that a node of the Indexed tree denotes: the same variant,
the same string, the number that `stod` reads from the Number text, the elements
in order, and the entries assigned to a map in order. -/
def Node.toJson : Node → Option JsonValue
  | .mk .String s _ _ => some (.string s)
  | .mk .Number s _ _ => (stod s).map JsonValue.number
  | .mk .True _ _ _ => some (.bool true)
  | .mk .False _ _ _ => some (.bool false)
  | .mk .Null _ _ _ => some .null
  | .mk .Array _ _ arr => (toJsonList arr).map JsonValue.array
  | .mk .Object _ obj _ =>
    (toJsonFields obj).map
      (fun fs => JsonValue.object (fs.foldl (fun o kv => Baseline.assign o kv.1 kv.2) []))
/-- The values of the elements of an array node, in order. -/
def toJsonList : List Node → Option (List JsonValue)
  | [] => some []
  | n :: ns =>
    match Node.toJson n, toJsonList ns with
    | some v, some vs => some (v :: vs)
    | _, _ => none
/-- The keys and values of the entries of an object node, in order. -/
def toJsonFields : List (List Char × Node) → Option (List (List Char × JsonValue))
  | [] => some []
  | (k, n) :: r =>
    match Node.toJson n, toJsonFields r with
    | some v, some vs => some ((k, v) :: vs)
    | _, _ => none
end

end Indexed

/-! ## The two parsers side by side -/

/-- The states of the two parsers agree: the lookahead token of the Baseline
parser was read at some offset `k`, its cursor is right after that token, and the
tokens of the Indexed parser from index `idx` on are those that the token builder
derives from the text from `k` on. -/
def StatesAgree (input : List Char) (T : List Token) (p : Baseline.Parser) (idx : Nat) : Prop :=
  ∃ k, Baseline.nextToken input k = (p.current, p.pos)
    ∧ T.drop idx = IndexView.ixLex (input.drop k)

/-- The character after the lookahead token ends it for the token builder too: it
is no character of a number after a Number token and starts no gap token after a
String token. -/
def FollowOK (input : List Char) (p : Baseline.Parser) : Prop :=
  (p.current.type = TokenType.Number
      → IndexView.numClass (ListView.hd (input.drop p.pos)) = false)
    ∧ (p.current.type = TokenType.String
      → IndexView.startsGapToken (ListView.hd (input.drop p.pos)) = false)

/-- The entries of an object node of the Indexed tree, assigned in order to an
empty map, give the map `o`. -/
def FieldsDenote (obj : List (List Char × Indexed.Node)) (o : List (List Char × JsonValue)) :
    Prop :=
  (Indexed.toJsonFields obj).map
    (fun fs => fs.foldl (fun m kv => Baseline.assign m kv.1 kv.2) []) = some o

/-! ## Unterminated strings -/

/-- Whether the text after an opening quote holds a closing quote: a quote that
is not the character right after the backslash of an escape pair. -/
def hasClosingQuote : List Char → Bool
  | [] => false
  | c :: r =>
    if c = '"' then true
    else if c = '\\' then
      match r with
      | [] => false
      | _ :: r2 => hasClosingQuote r2
    else hasClosingQuote r

/-! ## Unique keys -/

mutual
/-- Every object of the value tree holds each key once. -/
def JsonValue.KeysUnique : JsonValue → Prop
  | .object o => (o.map Prod.fst).Nodup ∧ fieldsKeysUnique o
  | .array a => listKeysUnique a
  | .null => True
  | .bool _ => True
  | .number _ => True
  | .string _ => True
/-- Every value of the entries of an object holds each key once in its objects. -/
def fieldsKeysUnique : List (List Char × JsonValue) → Prop
  | [] => True
  | (_, v) :: r => JsonValue.KeysUnique v ∧ fieldsKeysUnique r
/-- Every element of an array holds each key once in its objects. -/
def listKeysUnique : List JsonValue → Prop
  | [] => True
  | v :: r => JsonValue.KeysUnique v ∧ listKeysUnique r
end

/-! ## The grammar of the Grammar Parser over token lists

```
value   := String | Number | True | False | Null | object | array
object  := '{' (pair (',' pair)*)? '}'
pair    := String ':' value
array   := '[' (value (',' value)*)? ']'
```
Each relation holds between a token list and the tree that its derivation
denotes. A Number token denotes the number that `stod` reads from its text, the
elements of an array are in source order, and the pairs of an object denote the
map `denotedObject`: one entry for each key, with the value of its last pair. -/

/-- The value of the last pair of `ps` whose key is `k`. -/
def lastValue {α : Type} (ps : List (List Char × α)) (k : List Char) : Option α :=
  ((ps.filter (fun kv => kv.1 = k)).getLast?).map Prod.snd

/-- The map that the pairs `ps`, in source order, denote: one entry for each key
of `ps`, holding the value of the last pair with that key. In the embedding a map
is a list of entries; the entries stand in the order in which the keys first
occur. -/
def denotedObject {α : Type} : List (List Char × α) → List (List Char × α)
  | [] => []
  | (k, v) :: rest =>
    (k, (lastValue rest k).getD v) :: (denotedObject rest).filter (fun kv => kv.1 ≠ k)


mutual
/-- A token list derivable from `value`, with the value it denotes. -/
inductive DerivesValue : List Token → JsonValue → Prop
  | string (t : Token) (h : t.type = TokenType.String) :
    DerivesValue [t] (JsonValue.string t.value)
  | number (t : Token) (d : Double) (h : t.type = TokenType.Number)
    (hd : stod t.value = some d) : DerivesValue [t] (JsonValue.number d)
  | litTrue (t : Token) (h : t.type = TokenType.True) :
    DerivesValue [t] (JsonValue.bool true)
  | litFalse (t : Token) (h : t.type = TokenType.False) :
    DerivesValue [t] (JsonValue.bool false)
  | litNull (t : Token) (h : t.type = TokenType.Null) : DerivesValue [t] JsonValue.null
  | emptyObject (l r : Token) (hl : l.type = TokenType.LeftBrace)
    (hr : r.type = TokenType.RightBrace) : DerivesValue [l, r] (JsonValue.object [])
  | object (l r : Token) (ts : List Token) (ps : List (List Char × JsonValue))
    (hl : l.type = TokenType.LeftBrace) (hp : DerivesPairs ts ps)
    (hr : r.type = TokenType.RightBrace) :
    DerivesValue (l :: (ts ++ [r]))
      (JsonValue.object (denotedObject ps))
  | emptyArray (l r : Token) (hl : l.type = TokenType.LeftBracket)
    (hr : r.type = TokenType.RightBracket) : DerivesValue [l, r] (JsonValue.array [])
  | array (l r : Token) (ts : List Token) (vs : List JsonValue)
    (hl : l.type = TokenType.LeftBracket) (he : DerivesElems ts vs)
    (hr : r.type = TokenType.RightBracket) :
    DerivesValue (l :: (ts ++ [r])) (JsonValue.array vs)
/-- A token list derivable from `pair (',' pair)*`, with the keys and values of
the pairs in source order. -/
inductive DerivesPairs : List Token → List (List Char × JsonValue) → Prop
  | one (k c : Token) (ts : List Token) (v : JsonValue) (hk : k.type = TokenType.String)
    (hc : c.type = TokenType.Colon) (hv : DerivesValue ts v) :
    DerivesPairs (k :: c :: ts) [(k.value, v)]
  | more (k c s : Token) (ts rest : List Token) (v : JsonValue)
    (ps : List (List Char × JsonValue)) (hk : k.type = TokenType.String)
    (hc : c.type = TokenType.Colon) (hv : DerivesValue ts v)
    (hs : s.type = TokenType.Comma) (hp : DerivesPairs rest ps) :
    DerivesPairs (k :: c :: (ts ++ s :: rest)) ((k.value, v) :: ps)
/-- A token list derivable from `value (',' value)*`, with the values in source
order. -/
inductive DerivesElems : List Token → List JsonValue → Prop
  | one (ts : List Token) (v : JsonValue) (hv : DerivesValue ts v) : DerivesElems ts [v]
  | more (s : Token) (ts rest : List Token) (v : JsonValue) (vs : List JsonValue)
    (hv : DerivesValue ts v) (hs : s.type = TokenType.Comma) (he : DerivesElems rest vs) :
    DerivesElems (ts ++ s :: rest) (v :: vs)
end

namespace Baseline

/-- The Baseline parser reads the tokens `ts` from the state `p` and is then in
the state `q`: the lookahead token of `p` is the first token, every `advance`
loads the next one, and the lookahead token of `q` is the token after `ts`. -/
def Reads (input : List Char) : Parser → List Token → Parser → Prop
  | p, [], q => q = p
  | p, t :: ts, q => p.current = t ∧ Reads input (advance input p) ts q

end Baseline

namespace Indexed

/-- The test of the loop of `extractString` at the candidate offset `q`:
`json[q] == '"' && json[q - 1] != '\\'`. -/
def closingQuoteAt (json : List Char) (q : Nat) : Prop :=
  json.getD q NUL = '"' ∧ json.getD (q - 1) NUL ≠ '\\'

instance (json : List Char) (q : Nat) : Decidable (closingQuoteAt json q) := by
  unfold closingQuoteAt
  exact inferInstance

end Indexed

namespace Baseline

/-- The cursor of a `Tokenizer` after `n` calls of `nextToken`. -/
def cursorAfter (input : List Char) : Nat → Nat
  | 0 => 0
  | n + 1 => (nextToken input (cursorAfter input n)).2

/-- The token that call `n` of `nextToken` returns, counted from 0. -/
def tokenAt (input : List Char) (n : Nat) : Token :=
  (nextToken input (cursorAfter input n)).1

/-- A bound for the number of tokens other than EndOfFile that a parser state
still holds: none when the lookahead token is EndOfFile, else the lookahead token
and one for each character after the cursor. -/
def unread (input : List Char) (p : Parser) : Nat :=
  if p.current.type = TokenType.EndOfFile then 0 else input.length - p.pos + 1

end Baseline

/-! ## The grammar with optional commas

```
value   := String | Number | True | False | Null | object | array
object  := '{' (pair ','?)* '}'
pair    := String ':' value
array   := '[' (value ','?)* ']'
```
The grammar of the Grammar Parser with every comma optional, after the last pair
or element too. Each relation holds between a token list and the tree of the
Indexed pipeline that its derivation denotes, with the pairs and the elements in
source order. -/

mutual
/-- A token list derivable from `value` when commas are optional, with the node it
denotes. -/
inductive LooseValue : List Token → Indexed.Node → Prop
  | string (t : Token) (h : t.type = TokenType.String) :
    LooseValue [t] (Indexed.Node.mk .String t.value [] [])
  | number (t : Token) (h : t.type = TokenType.Number) :
    LooseValue [t] (Indexed.Node.mk .Number t.value [] [])
  | litTrue (t : Token) (h : t.type = TokenType.True) :
    LooseValue [t] (Indexed.Node.mk .True ['t', 'r', 'u', 'e'] [] [])
  | litFalse (t : Token) (h : t.type = TokenType.False) :
    LooseValue [t] (Indexed.Node.mk .False ['f', 'a', 'l', 's', 'e'] [] [])
  | litNull (t : Token) (h : t.type = TokenType.Null) :
    LooseValue [t] (Indexed.Node.mk .Null ['n', 'u', 'l', 'l'] [] [])
  | object (l r : Token) (ts : List Token) (ps : List (List Char × Indexed.Node))
    (hl : l.type = TokenType.LeftBrace) (hp : LoosePairs ts ps)
    (hr : r.type = TokenType.RightBrace) :
    LooseValue (l :: (ts ++ [r])) (Indexed.Node.mk .Object [] ps [])
  | array (l r : Token) (ts : List Token) (vs : List Indexed.Node)
    (hl : l.type = TokenType.LeftBracket) (he : LooseElems ts vs)
    (hr : r.type = TokenType.RightBracket) :
    LooseValue (l :: (ts ++ [r])) (Indexed.Node.mk .Array [] [] vs)
/-- A token list derivable from `(pair ','?)*`, with the keys and nodes of the
pairs in source order. -/
inductive LoosePairs : List Token → List (List Char × Indexed.Node) → Prop
  | nil : LoosePairs [] []
  | pair (k c : Token) (ts rest : List Token) (v : Indexed.Node)
    (ps : List (List Char × Indexed.Node)) (hk : k.type = TokenType.String)
    (hc : c.type = TokenType.Colon) (hv : LooseValue ts v) (hp : LoosePairs rest ps) :
    LoosePairs (k :: c :: (ts ++ rest)) ((k.value, v) :: ps)
  | pairComma (k c s : Token) (ts rest : List Token) (v : Indexed.Node)
    (ps : List (List Char × Indexed.Node)) (hk : k.type = TokenType.String)
    (hc : c.type = TokenType.Colon) (hv : LooseValue ts v)
    (hs : s.type = TokenType.Comma) (hp : LoosePairs rest ps) :
    LoosePairs (k :: c :: (ts ++ s :: rest)) ((k.value, v) :: ps)
/-- A token list derivable from `(value ','?)*`, with the nodes of the elements in
source order. -/
inductive LooseElems : List Token → List Indexed.Node → Prop
  | nil : LooseElems [] []
  | elem (ts rest : List Token) (v : Indexed.Node) (vs : List Indexed.Node)
    (hv : LooseValue ts v) (he : LooseElems rest vs) : LooseElems (ts ++ rest) (v :: vs)
  | elemComma (s : Token) (ts rest : List Token) (v : Indexed.Node) (vs : List Indexed.Node)
    (hv : LooseValue ts v) (hs : s.type = TokenType.Comma) (he : LooseElems rest vs) :
    LooseElems (ts ++ s :: rest) (v :: vs)
end

/-! # Lemmas: the tokenizer computes its list view -/

namespace Baseline
open ListView

theorem peek_eq (input : List Char) (pos : Nat) : peek input pos = hd (input.drop pos) := by
  unfold peek
  by_cases h : pos < input.length
  · rw [if_pos h, List.drop_eq_getElem_cons h, List.getD_eq_getElem _ _ h]
    rfl
  · rw [if_neg h, List.drop_of_length_le (by omega)]
    rfl

theorem get_fst (input : List Char) (pos : Nat) : (get input pos).1 = hd (input.drop pos) := by
  unfold get
  by_cases h : pos < input.length
  · rw [if_pos h, List.drop_eq_getElem_cons h, List.getD_eq_getElem _ _ h]
    rfl
  · rw [if_neg h, List.drop_of_length_le (by omega)]
    rfl

theorem get_snd (input : List Char) (pos : Nat) :
    (get input pos).2 = pos + step (input.drop pos) := by
  unfold get
  by_cases h : pos < input.length
  · rw [if_pos h, List.drop_eq_getElem_cons h]
    rfl
  · rw [if_neg h, List.drop_of_length_le (by omega)]
    rfl

theorem drop_succ_of_cons {input : List Char} {pos : Nat} {c : Char} {rest : List Char}
    (h : input.drop pos = c :: rest) : input.drop (pos + 1) = rest := by
  rw [← List.tail_drop, h]
  rfl

theorem parseStringRawLoop_eq (input : List Char) :
    ∀ (fuel : Nat) (l : List Char) (pos : Nat) (raw : List Char),
      input.drop pos = l → l.length < fuel →
      parseStringRawLoop input fuel pos raw = ((rawScan l raw).1, pos + (rawScan l raw).2) := by
  intro fuel
  induction fuel with
  | zero => intro l pos raw _ h; omega
  | succ n ih =>
    intro l pos raw hl hf
    unfold parseStringRawLoop
    simp only [get_fst, get_snd, hl]
    cases l with
    | nil => simp [hd, step, rawScan]
    | cons c rest =>
      have h1 := drop_succ_of_cons hl
      simp only [List.length_cons] at hf
      simp only [hd, step, h1]
      unfold rawScan
      by_cases c0 : c = NUL
      · simp [c0]
      · simp only [c0, if_false]
        by_cases c1 : c = '"'
        · simp [c1]
        · simp only [c1, if_false]
          by_cases c2 : c = '\\'
          · simp only [c2, if_true]
            cases rest with
            | nil => simp [hd, step]
            | cons next rest2 =>
              have h2 := drop_succ_of_cons h1
              simp only [List.length_cons] at hf
              by_cases c3 : next = NUL
              · simp [hd, step, c3]
              · simp only [hd, step, c3, if_false, if_true]
                rw [ih rest2 (pos + 1 + 1) _ h2 (by omega)]
                exact Prod.ext rfl (by simp only []; omega)
          · simp only [c2, if_false]
            rw [ih rest (pos + 1) _ h1 (by omega)]
            exact Prod.ext rfl (by simp only []; omega)


theorem step_of_hd {l : List Char} (h : hd l ≠ NUL) : step l = 1 := by
  cases l with
  | nil => exact absurd rfl h
  | cons c rest => rfl

theorem drop_add_of_drop {input : List Char} {pos : Nat} {l : List Char}
    (h : input.drop pos = l) (n : Nat) : input.drop (pos + n) = l.drop n := by
  rw [← List.drop_drop, h]

theorem drop_one_eq_tail (l : List Char) : l.drop 1 = l.tail := by
  cases l <;> rfl

theorem drop_takeWhile_length (p : Char → Bool) (l : List Char) :
    l.drop (l.takeWhile p).length = l.dropWhile p := by
  induction l with
  | nil => rfl
  | cons c rest ih =>
    by_cases h : p c
    · simp [List.takeWhile_cons, List.dropWhile_cons, h, ih]
    · simp [List.takeWhile_cons, List.dropWhile_cons, h]

theorem hd_dropWhile (p : Char → Bool) (l : List Char) : p (hd (l.dropWhile p)) = p NUL ∨
    p (hd (l.dropWhile p)) = false := by
  induction l with
  | nil => left; rfl
  | cons c rest ih =>
    by_cases h : p c
    · simp only [List.dropWhile_cons, h, if_true]
      exact ih
    · right; simp [List.dropWhile_cons, h, hd]

theorem skipWhitespaceLoop_eq (input : List Char) :
    ∀ (fuel : Nat) (l : List Char) (pos : Nat), input.drop pos = l → l.length ≤ fuel →
      skipWhitespaceLoop input fuel pos = pos + (l.takeWhile isspace).length := by
  intro fuel
  induction fuel with
  | zero =>
    intro l pos _ hf
    have : l = [] := List.eq_nil_of_length_eq_zero (by omega)
    subst this
    rfl
  | succ n ih =>
    intro l pos hl hf
    unfold skipWhitespaceLoop
    rw [peek_eq, get_snd, hl]
    cases l with
    | nil => simp [hd, isspace, NUL]
    | cons c rest =>
      have h1 := drop_succ_of_cons hl
      simp only [List.length_cons] at hf
      by_cases hc : isspace c = true
      · simp only [hd, step, hc, if_true]
        rw [ih rest (pos + 1) h1 (by omega), List.takeWhile_cons_of_pos hc]
        simp only [List.length_cons]
        omega
      · simp [hd, hc]

theorem skipWhitespace_eq (input : List Char) (pos : Nat) :
    skipWhitespace input pos = pos + ((input.drop pos).takeWhile isspace).length :=
  skipWhitespaceLoop_eq input _ _ pos rfl (by simp)

theorem appendWhileLoop_eq (p : Char → Bool) (hp : p NUL = false) (input : List Char) :
    ∀ (fuel : Nat) (l : List Char) (pos : Nat) (acc : List Char),
      input.drop pos = l → l.length ≤ fuel →
      appendWhileLoop p input fuel pos acc
        = (acc ++ l.takeWhile p, pos + (l.takeWhile p).length) := by
  intro fuel
  induction fuel with
  | zero =>
    intro l pos acc _ hf
    have : l = [] := List.eq_nil_of_length_eq_zero (by omega)
    subst this
    simp [appendWhileLoop]
  | succ n ih =>
    intro l pos acc hl hf
    unfold appendWhileLoop
    rw [peek_eq, get_snd, get_fst, hl]
    cases l with
    | nil => simp [hd, hp]
    | cons c rest =>
      have h1 := drop_succ_of_cons hl
      simp only [List.length_cons] at hf
      by_cases hc : p c = true
      · simp only [hd, step, hc, if_true]
        rw [ih rest (pos + 1) _ h1 (by omega), List.takeWhile_cons_of_pos hc]
        exact Prod.ext (by simp) (by simp only [List.length_cons]; omega)
      · simp [hd, hc]

theorem appendWhile_eq (p : Char → Bool) (hp : p NUL = false) (input : List Char)
    (pos : Nat) (acc : List Char) :
    appendWhile p input pos acc
      = (acc ++ (input.drop pos).takeWhile p, pos + ((input.drop pos).takeWhile p).length) :=
  appendWhileLoop_eq p hp input _ _ pos acc rfl (by simp)

theorem unescapeLoop_eq (raw : List Char) :
    ∀ (fuel : Nat) (l : List Char) (i : Nat) (result : List Char),
      raw.drop i = l → l.length ≤ fuel →
      unescapeLoop raw fuel i result = unescape l result := by
  intro fuel
  induction fuel with
  | zero =>
    intro l i result _ hf
    have : l = [] := List.eq_nil_of_length_eq_zero (by omega)
    subst this
    rfl
  | succ n ih =>
    intro l i result hl hf
    unfold unescapeLoop
    cases l with
    | nil =>
      have : ¬ i < raw.length := by
        have := List.drop_eq_nil_iff.mp hl
        omega
      simp [this, unescape]
    | cons c rest =>
      have hi : i < raw.length := by
        by_contra hcon
        rw [List.drop_of_length_le (by omega)] at hl
        cases hl
      have hc : raw.getD i NUL = c := by
        rw [List.getD_eq_getElem _ _ hi]
        have := List.drop_eq_getElem_cons hi
        rw [hl] at this
        exact (List.cons.inj this).1.symm
      have h1 := drop_succ_of_cons hl
      simp only [List.length_cons] at hf
      simp only [hi, if_true, hc]
      unfold unescape
      by_cases c2 : c = '\\'
      · simp only [c2, if_true]
        cases rest with
        | nil =>
          have : raw.length ≤ i + 1 := List.drop_eq_nil_iff.mp h1
          simp [this]
        | cons next rest2 =>
          have hi1 : i + 1 < raw.length := by
            by_contra hcon
            rw [List.drop_of_length_le (by omega)] at h1
            cases h1
          have hn : raw.getD (i + 1) NUL = next := by
            rw [List.getD_eq_getElem _ _ hi1]
            have := List.drop_eq_getElem_cons hi1
            rw [h1] at this
            exact (List.cons.inj this).1.symm
          have h2 := drop_succ_of_cons h1
          simp only [List.length_cons] at hf
          have hge : ¬ (i + 1 ≥ raw.length) := by omega
          simp only [hge, if_false, hn]
          have ih2 := fun r => ih rest2 (i + 2) r h2 (by omega)
          unfold escapeChar
          split_ifs <;> simp [ih2]
      · simp only [c2, if_false]
        exact ih rest (i + 1) _ h1 (by omega)

theorem unescapeString_eq (raw : List Char) : unescapeString raw = unescape raw [] :=
  unescapeLoop_eq raw _ _ 0 [] rfl (by simp)


theorem isdigit_NUL : isdigit NUL = false := by decide

theorem isalpha_NUL : isalpha NUL = false := by decide

theorem isspace_NUL : isspace NUL = false := by decide

theorem parseNumberExponent_eq (input : List Char) (pos : Nat) (num l : List Char)
    (hl : input.drop pos = l) :
    parseNumberExponent input pos num = ((exponent l num).1, pos + (exponent l num).2) := by
  unfold parseNumberExponent exponent
  simp only [peek_eq, get_fst, get_snd, hl]
  by_cases he : hd l = 'e' ∨ hd l = 'E'
  · have hs : step l = 1 := step_of_hd (by rcases he with h | h <;> rw [h] <;> decide)
    have h1 : input.drop (pos + 1) = l.tail := by
      rw [drop_add_of_drop hl, drop_one_eq_tail]
    simp only [he, if_true, hs, h1]
    by_cases hsg : hd l.tail = '+' ∨ hd l.tail = '-'
    · have hs2 : step l.tail = 1 :=
        step_of_hd (by rcases hsg with h | h <;> rw [h] <;> decide)
      have h2 : input.drop (pos + 1 + 1) = l.tail.tail := by
        rw [drop_add_of_drop h1, drop_one_eq_tail]
      simp only [hsg, if_true, hs2, h2, peek_eq]
      by_cases hd2 : isdigit (hd l.tail.tail) = true
      · simp only [hd2, not_true_eq_false, if_false]
        rw [appendWhile_eq isdigit isdigit_NUL, h2]
        exact Prod.ext (by simp) (by simp only []; omega)
      · simp [hd2]
    · simp only [hsg, if_false, h1, peek_eq]
      by_cases hd2 : isdigit (hd l.tail) = true
      · simp only [hd2, not_true_eq_false, if_false]
        rw [appendWhile_eq isdigit isdigit_NUL, h1]
        exact Prod.ext (by simp) (by simp only []; omega)
      · simp [hd2]
  · simp [he]

theorem parseNumberFraction_eq (input : List Char) (pos : Nat) (num l : List Char)
    (hl : input.drop pos = l) :
    parseNumberFraction input pos num = ((fraction l num).1, pos + (fraction l num).2) := by
  unfold parseNumberFraction fraction
  simp only [peek_eq, get_fst, get_snd, hl]
  by_cases hdot : hd l = '.'
  · have hs : step l = 1 := step_of_hd (by rw [hdot]; decide)
    have h1 : input.drop (pos + 1) = l.tail := by
      rw [drop_add_of_drop hl, drop_one_eq_tail]
    simp only [hdot, if_true, hs, h1]
    by_cases hd2 : isdigit (hd l.tail) = true
    · simp only [hd2, not_true_eq_false, if_false]
      rw [appendWhile_eq isdigit isdigit_NUL, h1]
      have h3 : input.drop (pos + 1 + (l.tail.takeWhile isdigit).length)
          = l.tail.dropWhile isdigit := by
        rw [drop_add_of_drop h1, drop_takeWhile_length]
      rw [parseNumberExponent_eq input _ _ _ h3]
      exact Prod.ext (by simp) (by simp only []; omega)
    · simp [hd2]
  · simp only [hdot, if_false]
    exact parseNumberExponent_eq input pos num l hl

theorem parseNumberDigits_eq (input : List Char) (pos : Nat) (num l : List Char)
    (hl : input.drop pos = l) :
    (if isdigit (peek input pos) then
      if peek input pos = '0' then
        parseNumberFraction input (get input pos).2 (num ++ [(get input pos).1])
      else
        parseNumberFraction input (appendWhile isdigit input pos num).2
          (appendWhile isdigit input pos num).1
    else (⟨TokenType.Invalid, num⟩, pos))
      = ((digits l num).1, pos + (digits l num).2) := by
  unfold digits
  simp only [peek_eq, get_fst, get_snd, hl]
  by_cases hdig : isdigit (hd l) = true
  · have hs : step l = 1 := step_of_hd (by
      intro h
      rw [h] at hdig
      exact absurd hdig (by decide))
    simp only [hdig, if_true, hs]
    by_cases hz : hd l = '0'
    · have h1 : input.drop (pos + 1) = l.tail := by
        rw [drop_add_of_drop hl, drop_one_eq_tail]
      simp only [hz, if_true]
      rw [parseNumberFraction_eq input _ _ _ h1]
      exact Prod.ext (by simp) (by simp only []; omega)
    · simp only [hz, if_false]
      rw [appendWhile_eq isdigit isdigit_NUL, hl]
      have h3 : input.drop (pos + (l.takeWhile isdigit).length) = l.dropWhile isdigit := by
        rw [drop_add_of_drop hl, drop_takeWhile_length]
      rw [parseNumberFraction_eq input _ _ _ h3]
      exact Prod.ext (by simp) (by simp only []; omega)
  · simp [hdig]

theorem parseNumber_eq (input : List Char) (pos : Nat) (l : List Char)
    (hl : input.drop pos = l) :
    parseNumber input pos = ((number l).1, pos + (number l).2) := by
  unfold parseNumber number
  by_cases hm : hd l = '-'
  · have hs : step l = 1 := step_of_hd (by rw [hm]; decide)
    have h1 : input.drop (pos + 1) = l.tail := by
      rw [drop_add_of_drop hl, drop_one_eq_tail]
    have hp : peek input pos = '-' := by rw [peek_eq, hl, hm]
    simp only [hp, if_true, hm]
    rw [get_snd, get_fst, hl, hs, hm]
    have := parseNumberDigits_eq input (pos + 1) ['-'] l.tail h1
    simp only [] at this ⊢
    rw [this]
    exact Prod.ext (by simp) (by simp only []; omega)
  · have hp : ¬ peek input pos = '-' := by rw [peek_eq, hl]; exact hm
    simp only [hp, if_false, hm]
    exact parseNumberDigits_eq input pos [] l hl


theorem parseStringRaw_eq (input : List Char) (pos : Nat) (l : List Char)
    (hl : input.drop pos = l) (hq : hd l = '"') :
    parseStringRaw input pos = ((rawScan l.tail []).1, pos + (1 + (rawScan l.tail []).2)) := by
  unfold parseStringRaw
  have hs : step l = 1 := step_of_hd (by rw [hq]; decide)
  have h1 : input.drop (pos + 1) = l.tail := by
    rw [drop_add_of_drop hl, drop_one_eq_tail]
  rw [get_snd, hl, hs]
  have hlen : l.tail.length < input.length + 1 := by
    rw [← h1, List.length_drop]
    omega
  rw [parseStringRawLoop_eq input _ _ _ _ h1 hlen]
  exact Prod.ext rfl (by simp only []; omega)

theorem takeWhile_eq_nil_of_hd {p : Char → Bool} {l : List Char}
    (h : p (hd l) = false) : l.takeWhile p = [] := by
  cases l with
  | nil => rfl
  | cons c rest => simp [List.takeWhile_cons, hd] at h ⊢; simp [h]

theorem hd_dropWhile_false {p : Char → Bool} (hp : p NUL = false) (l : List Char) :
    p (hd (l.dropWhile p)) = false := by
  rcases hd_dropWhile p l with h | h
  · rw [h, hp]
  · exact h

theorem nextToken_of_not_space (input : List Char) (pos : Nat) (l : List Char)
    (hl : input.drop pos = l) (hsp : isspace (hd l) = false) :
    nextToken input pos = ((token l).1, pos + (token l).2) := by
  have hskip : skipWhitespace input pos = pos := by
    rw [skipWhitespace_eq, hl, takeWhile_eq_nil_of_hd hsp]
    rfl
  unfold nextToken token
  simp only [hskip, peek_eq, hl]
  by_cases h0 : hd l = NUL
  · simp [h0]
  simp only [h0, if_false]
  have hs : step l = 1 := step_of_hd h0
  have hg : (get input pos).2 = pos + 1 := by rw [get_snd, hl, hs]
  have hg1 : (get input pos).1 = hd l := by rw [get_fst, hl]
  simp only [hg, hg1]
  by_cases h1 : hd l = '{'
  · simp [h1]
  simp only [h1, if_false]
  by_cases h2 : hd l = '}'
  · simp [h2]
  simp only [h2, if_false]
  by_cases h3 : hd l = '['
  · simp [h3]
  simp only [h3, if_false]
  by_cases h4 : hd l = ']'
  · simp [h4]
  simp only [h4, if_false]
  by_cases h5 : hd l = ':'
  · simp [h5]
  simp only [h5, if_false]
  by_cases h6 : hd l = ','
  · simp [h6]
  simp only [h6, if_false]
  by_cases h7 : isalpha (hd l) = true
  · rw [if_pos h7, if_pos h7, appendWhile_eq isalpha isalpha_NUL, hl]
    simp only [List.nil_append]
    split_ifs <;> rfl
  rw [if_neg h7, if_neg h7]
  by_cases h8 : hd l = '-' ∨ isdigit (hd l) = true
  · rw [if_pos h8, if_pos h8]
    exact parseNumber_eq input pos l hl
  rw [if_neg h8, if_neg h8]
  by_cases h9 : hd l = '"'
  · rw [if_pos h9, if_pos h9, parseStringRaw_eq input pos l hl h9, unescapeString_eq]
    unfold ListView.string
    simp only []
    split_ifs <;> rfl
  simp [h9]

theorem nextToken_skip (input : List Char) (pos : Nat) :
    nextToken input pos = nextToken input (skipWhitespace input pos) := by
  have hidem : skipWhitespace input (skipWhitespace input pos) = skipWhitespace input pos := by
    have hl : input.drop (pos + ((input.drop pos).takeWhile isspace).length)
        = (input.drop pos).dropWhile isspace := by
      rw [drop_add_of_drop rfl, drop_takeWhile_length]
    rw [skipWhitespace_eq input pos, skipWhitespace_eq, hl,
      takeWhile_eq_nil_of_hd (hd_dropWhile_false isspace_NUL _)]
    rfl
  unfold nextToken
  simp only [hidem]

theorem nextToken_eq (input : List Char) (pos : Nat) :
    nextToken input pos = ((lex (input.drop pos)).1, pos + (lex (input.drop pos)).2) := by
  have hl : input.drop (pos + ((input.drop pos).takeWhile isspace).length)
      = (input.drop pos).dropWhile isspace := by
    rw [drop_add_of_drop rfl, drop_takeWhile_length]
  rw [nextToken_skip, skipWhitespace_eq,
    nextToken_of_not_space input _ _ hl (hd_dropWhile_false isspace_NUL _)]
  unfold lex
  exact Prod.ext rfl (by simp only []; omega)

end Baseline

/-! # Lemmas: number lexing -/

namespace ListView

theorem cons_of_hd {l : List Char} (h : hd l ≠ NUL) : l = hd l :: l.tail := by
  cases l with
  | nil => exact absurd rfl h
  | cons c rest => rfl

theorem take_takeWhile_length (p : Char → Bool) (l : List Char) :
    l.take (l.takeWhile p).length = l.takeWhile p := by
  induction l with
  | nil => rfl
  | cons c rest ih =>
    by_cases h : p c
    · simp [List.takeWhile_cons, h, ih]
    · simp [List.takeWhile_cons, h]

theorem isDigits_takeWhile (l : List Char) : IsDigits (l.takeWhile isdigit) := by
  intro c hc
  exact List.mem_takeWhile_imp hc

theorem takeWhile_ne_nil_of_hd {p : Char → Bool} {l : List Char} (hp : p NUL = false)
    (h : p (hd l) = true) : l.takeWhile p ≠ [] := by
  cases l with
  | nil => simp [hd, hp] at h
  | cons c rest =>
    simp only [hd] at h
    simp [List.takeWhile_cons, h]

theorem take_succ_of_hd {l : List Char} (h : hd l ≠ NUL) (n : Nat) :
    l.take (1 + n) = hd l :: l.tail.take n := by
  cases l with
  | nil => exact absurd rfl h
  | cons c rest => simp [hd, Nat.add_comm 1 n]

theorem exponent_spec (l num : List Char)
    (h : (exponent l num).1.type = TokenType.Number) :
    ∃ ep, (exponent l num).1.value = num ++ ep ∧ ep = l.take (exponent l num).2
      ∧ (ep = [] ∨ IsExpPart ep) := by
  unfold exponent at h ⊢
  by_cases he : hd l = 'e' ∨ hd l = 'E'
  · have h0 : hd l ≠ NUL := by rcases he with h | h <;> rw [h] <;> decide
    rw [if_pos he] at h ⊢
    by_cases hsg : hd l.tail = '+' ∨ hd l.tail = '-'
    · have h1 : hd l.tail ≠ NUL := by rcases hsg with h | h <;> rw [h] <;> decide
      rw [if_pos hsg] at h ⊢
      by_cases hd2 : isdigit (hd l.tail.tail) = true
      · rw [if_neg (by simpa using hd2)] at h ⊢
        refine ⟨hd l :: ([hd l.tail] ++ l.tail.tail.takeWhile isdigit), by simp, ?_, Or.inr ?_⟩
        · simp only []
          rw [show 2 + (l.tail.tail.takeWhile isdigit).length
            = 1 + (1 + (l.tail.tail.takeWhile isdigit).length) by omega,
            take_succ_of_hd h0, take_succ_of_hd h1, take_takeWhile_length]
          rfl
        · refine ⟨hd l, [hd l.tail], _, rfl, he, ?_, ?_, isDigits_takeWhile _⟩
          · rcases hsg with h | h <;> simp [h]
          · exact takeWhile_ne_nil_of_hd (by decide) hd2
      · rw [if_pos (by simpa using hd2)] at h
        cases h
    · rw [if_neg hsg] at h ⊢
      by_cases hd2 : isdigit (hd l.tail) = true
      · rw [if_neg (by simpa using hd2)] at h ⊢
        refine ⟨hd l :: ([] ++ l.tail.takeWhile isdigit), by simp, ?_, Or.inr ?_⟩
        · simp only []
          rw [take_succ_of_hd h0, take_takeWhile_length]
          rfl
        · exact ⟨hd l, [], _, rfl, he, Or.inl rfl,
            takeWhile_ne_nil_of_hd (by decide) hd2, isDigits_takeWhile _⟩
      · rw [if_pos (by simpa using hd2)] at h
        cases h
  · rw [if_neg he]
    exact ⟨[], by simp, by simp, Or.inl rfl⟩


theorem take_add_dropWhile (p : Char → Bool) (l : List Char) (n : Nat) :
    l.take ((l.takeWhile p).length + n) = l.takeWhile p ++ (l.dropWhile p).take n := by
  rw [List.take_add, take_takeWhile_length, Baseline.drop_takeWhile_length]

theorem fraction_spec (l num : List Char)
    (h : (fraction l num).1.type = TokenType.Number) :
    ∃ fp ep, (fraction l num).1.value = num ++ fp ++ ep ∧ fp ++ ep = l.take (fraction l num).2
      ∧ (fp = [] ∨ IsFracPart fp) ∧ (ep = [] ∨ IsExpPart ep) := by
  unfold fraction at h ⊢
  by_cases hdot : hd l = '.'
  · have h0 : hd l ≠ NUL := by rw [hdot]; decide
    rw [if_pos hdot] at h ⊢
    by_cases hd2 : isdigit (hd l.tail) = true
    · rw [if_neg (by simpa using hd2)] at h ⊢
      obtain ⟨ep, hv, hep, hE⟩ := exponent_spec _ _ h
      refine ⟨'.' :: l.tail.takeWhile isdigit, ep, ?_, ?_, Or.inr ?_, hE⟩
      · rw [hv]; simp
      · simp only []
        rw [Nat.add_assoc, take_succ_of_hd h0, take_add_dropWhile, hdot, ← hep]
        rfl
      · exact ⟨_, rfl, takeWhile_ne_nil_of_hd (by decide) hd2, isDigits_takeWhile _⟩
    · rw [if_pos (by simpa using hd2)] at h
      cases h
  · rw [if_neg hdot] at h ⊢
    obtain ⟨ep, hv, hep, hE⟩ := exponent_spec _ _ h
    exact ⟨[], ep, by simpa using hv, by simpa using hep, Or.inl rfl, hE⟩

theorem digits_spec (l num : List Char)
    (h : (digits l num).1.type = TokenType.Number) :
    ∃ ip fp ep, (digits l num).1.value = num ++ ip ++ fp ++ ep
      ∧ ip ++ fp ++ ep = l.take (digits l num).2
      ∧ IsIntPart ip ∧ (fp = [] ∨ IsFracPart fp) ∧ (ep = [] ∨ IsExpPart ep) := by
  unfold digits at h ⊢
  by_cases hdig : isdigit (hd l) = true
  · have h0 : hd l ≠ NUL := by
      intro hn
      rw [hn] at hdig
      exact absurd hdig (by decide)
    rw [if_pos hdig] at h ⊢
    by_cases hz : hd l = '0'
    · rw [if_pos hz] at h ⊢
      obtain ⟨fp, ep, hv, hfe, hF, hE⟩ := fraction_spec _ _ h
      refine ⟨['0'], fp, ep, ?_, ?_, Or.inl rfl, hF, hE⟩
      · rw [hv]
      · simp only []
        rw [take_succ_of_hd h0, hz, ← hfe]
        simp
    · rw [if_neg hz] at h ⊢
      obtain ⟨fp, ep, hv, hfe, hF, hE⟩ := fraction_spec _ _ h
      refine ⟨l.takeWhile isdigit, fp, ep, ?_, ?_, Or.inr ?_, hF, hE⟩
      · rw [hv]
      · simp only []
        rw [take_add_dropWhile, ← hfe]
        simp
      · rw [cons_of_hd h0, List.takeWhile_cons_of_pos hdig]
        refine ⟨hd l, _, rfl, hdig, hz, ?_⟩
        intro c hc
        exact List.mem_takeWhile_imp hc
  · rw [if_neg hdig] at h
    cases h

theorem number_spec (l : List Char) (h : (number l).1.type = TokenType.Number) :
    (number l).1.value = l.take (number l).2 ∧ IsJsonNumber (number l).1.value := by
  unfold number at h ⊢
  by_cases hm : hd l = '-'
  · have h0 : hd l ≠ NUL := by rw [hm]; decide
    rw [if_pos hm] at h ⊢
    obtain ⟨ip, fp, ep, hv, hall, hI, hF, hE⟩ := digits_spec _ _ h
    refine ⟨?_, ['-'], ip, fp, ep, hv, Or.inr rfl, hI, hF, hE⟩
    simp only []
    rw [take_succ_of_hd h0, hm, ← hall, hv]
    simp
  · rw [if_neg hm] at h ⊢
    obtain ⟨ip, fp, ep, hv, hall, hI, hF, hE⟩ := digits_spec _ _ h
    refine ⟨?_, [], ip, fp, ep, hv, Or.inl rfl, hI, hF, hE⟩
    rw [← hall, hv]
    simp

theorem string_type (l : List Char) :
    (string l).1.type = TokenType.Invalid ∨ (string l).1.type = TokenType.String := by
  unfold string
  by_cases h1 : (rawScan l.tail []).1.type = TokenType.Invalid
  · rw [if_pos h1]
    exact Or.inl h1
  · rw [if_neg h1]
    by_cases h2 : ¬ (unescape (rawScan l.tail []).1.value []).2 = true
    · rw [if_pos h2]
      exact Or.inl rfl
    · rw [if_neg h2]
      exact Or.inr rfl

theorem token_number (l : List Char) (h : (token l).1.type = TokenType.Number) :
    token l = number l := by
  unfold token at h ⊢
  by_cases h0 : hd l = NUL
  · rw [if_pos h0] at h; cases h
  rw [if_neg h0] at h ⊢
  by_cases h1 : hd l = '{'
  · rw [if_pos h1] at h; cases h
  rw [if_neg h1] at h ⊢
  by_cases h2 : hd l = '}'
  · rw [if_pos h2] at h; cases h
  rw [if_neg h2] at h ⊢
  by_cases h3 : hd l = '['
  · rw [if_pos h3] at h; cases h
  rw [if_neg h3] at h ⊢
  by_cases h4 : hd l = ']'
  · rw [if_pos h4] at h; cases h
  rw [if_neg h4] at h ⊢
  by_cases h5 : hd l = ':'
  · rw [if_pos h5] at h; cases h
  rw [if_neg h5] at h ⊢
  by_cases h6 : hd l = ','
  · rw [if_pos h6] at h; cases h
  rw [if_neg h6] at h ⊢
  by_cases h7 : isalpha (hd l) = true
  · rw [if_pos h7] at h
    split_ifs at h
  rw [if_neg h7] at h ⊢
  by_cases h8 : hd l = '-' ∨ isdigit (hd l) = true
  · rw [if_pos h8]
  rw [if_neg h8] at h
  by_cases h9 : hd l = '"'
  · rw [if_pos h9] at h
    rcases string_type l with h' | h' <;> rw [h'] at h <;> cases h
  · rw [if_neg h9] at h; cases h

end ListView

/-! # Lemmas: character classes and lexing of given texts -/

theorem isalpha_of_isdigit {c : Char} (h : isdigit c = true) : isalpha c = false := by
  unfold isdigit at h
  unfold isalpha
  simp only [Bool.and_eq_true, decide_eq_true_eq, Bool.or_eq_false_iff, Bool.and_eq_false_iff,
    decide_eq_false_iff_not] at h ⊢
  obtain ⟨h1, h2⟩ := h
  have h1' : '0'.toNat ≤ c.toNat := h1
  have h2' : c.toNat ≤ '9'.toNat := h2
  have e0 : '0'.toNat = 48 := by decide
  have e9 : '9'.toNat = 57 := by decide
  constructor
  · left
    intro h3
    have h3' : 'a'.toNat ≤ c.toNat := h3
    have : 'a'.toNat = 97 := by decide
    omega
  · left
    intro h3
    have h3' : 'A'.toNat ≤ c.toNat := h3
    have : 'A'.toNat = 65 := by decide
    omega

theorem isspace_of_isdigit {c : Char} (h : isdigit c = true) : isspace c = false := by
  by_contra hs
  have hs' : isspace c = true := by simpa using hs
  unfold isspace at hs'
  simp only [Bool.or_eq_true, decide_eq_true_eq] at hs'
  rcases hs' with ((((h1 | h1) | h1) | h1) | h1) | h1 <;> subst h1 <;> exact absurd h (by decide)

namespace ListView

theorem hd_cons (c : Char) (l : List Char) : hd (c :: l) = c := rfl

theorem hd_nil : hd [] = NUL := rfl

theorem takeWhile_append_stop {p : Char → Bool} {run rest : List Char}
    (hrun : ∀ c ∈ run, p c = true) (hrest : p (hd rest) = false) :
    (run ++ rest).takeWhile p = run := by
  rw [List.takeWhile_append_of_pos hrun, Baseline.takeWhile_eq_nil_of_hd hrest]
  simp

theorem dropWhile_append_stop {p : Char → Bool} {run rest : List Char}
    (hrun : ∀ c ∈ run, p c = true) (hrest : p (hd rest) = false) :
    (run ++ rest).dropWhile p = rest := by
  rw [List.dropWhile_append_of_pos hrun]
  cases rest with
  | nil => rfl
  | cons c r =>
    simp only [hd] at hrest
    simp [List.dropWhile_cons, hrest]

theorem lex_append_ws {ws rest : List Char} (hws : ∀ c ∈ ws, isspace c = true)
    (hrest : isspace (hd rest) = false) :
    lex (ws ++ rest) = ((token rest).1, ws.length + (token rest).2) := by
  unfold lex
  rw [takeWhile_append_stop hws hrest, dropWhile_append_stop hws hrest]

theorem token_of_number_start {l : List Char} (h : hd l = '-' ∨ isdigit (hd l) = true) :
    token l = number l := by
  have hne : ∀ c : Char, isdigit c = false → isalpha c = true ∨ c ≠ '-' → hd l ≠ c := by
    intro c hc1 hc2 hcon
    rcases h with h | h
    · rcases hc2 with hc2 | hc2
      · rw [← hcon, h] at hc2
        exact absurd hc2 (by decide)
      · exact hc2 (by rw [← hcon, h])
    · rw [hcon, hc1] at h
      cases h
  have halpha : isalpha (hd l) = false := by
    rcases h with h | h
    · rw [h]; decide
    · exact isalpha_of_isdigit h
  unfold token
  rw [if_neg (hne NUL (by decide) (Or.inr (by decide))),
    if_neg (hne '{' (by decide) (Or.inr (by decide))),
    if_neg (hne '}' (by decide) (Or.inr (by decide))),
    if_neg (hne '[' (by decide) (Or.inr (by decide))),
    if_neg (hne ']' (by decide) (Or.inr (by decide))),
    if_neg (hne ':' (by decide) (Or.inr (by decide))),
    if_neg (hne ',' (by decide) (Or.inr (by decide))),
    if_neg (by rw [halpha]; decide), if_pos h]

theorem isspace_hd_number_start {l : List Char} (h : hd l = '-' ∨ isdigit (hd l) = true) :
    isspace (hd l) = false := by
  rcases h with h | h
  · rw [h]; decide
  · exact isspace_of_isdigit h

/-- The integer part of a numeral is lexed as a whole when no digit follows it. -/
theorem digits_intPart {ip rest : List Char} (num : List Char) (hip : IsIntPart ip)
    (hrest : isdigit (hd rest) = false) :
    digits (ip ++ rest) num
      = ((fraction rest (num ++ ip)).1, ip.length + (fraction rest (num ++ ip)).2) := by
  unfold digits
  rcases hip with h0 | ⟨d, ds, hds, hd1, hd2, hd3⟩
  · subst h0
    simp only [List.cons_append, List.nil_append, hd_cons, List.tail_cons, List.length_cons,
      List.length_nil, if_true]
    rw [if_pos (by decide)]
  · subst hds
    have hrun : ∀ c ∈ d :: ds, isdigit c = true := by
      intro c hc
      rcases List.mem_cons.mp hc with h | h
      · rw [h]; exact hd1
      · exact hd3 c h
    rw [takeWhile_append_stop hrun hrest, dropWhile_append_stop hrun hrest]
    simp only [List.cons_append, hd_cons]
    rw [if_pos hd1, if_neg hd2]

/-- The fraction of a numeral is lexed as a whole when no digit follows it. -/
theorem fraction_fracPart {fp rest : List Char} (num : List Char) (hfp : IsFracPart fp)
    (hrest : isdigit (hd rest) = false) :
    fraction (fp ++ rest) num
      = ((exponent rest (num ++ fp)).1, fp.length + (exponent rest (num ++ fp)).2) := by
  obtain ⟨ds, hds, hne, hdig⟩ := hfp
  subst hds
  unfold fraction
  have hd1 : isdigit (hd (ds ++ rest)) = true := by
    cases ds with
    | nil => exact absurd rfl hne
    | cons c r => exact hdig c (List.mem_cons_self _ _)
  simp only [List.cons_append, hd_cons, List.tail_cons, List.length_cons, if_true]
  have e : num ++ ['.'] ++ ds = num ++ '.' :: ds := by simp
  rw [if_neg (by simpa using hd1), takeWhile_append_stop hdig hrest,
    dropWhile_append_stop hdig hrest, e]
  exact Prod.ext rfl (by show _ = _; omega)

/-- A fraction-free text goes straight to the exponent block. -/
theorem fraction_of_not_dot {l : List Char} (num : List Char) (h : hd l ≠ '.') :
    fraction l num = exponent l num := by
  unfold fraction
  rw [if_neg h]

end ListView

/-! # Lemmas: malformed numbers -/

namespace ListView

theorem isdigit_hd (l : List Char) : isdigit (hd l) = startsWithDigit l := by
  cases l with
  | nil => rfl
  | cons c r => rfl

theorem hd_intPart {ip : List Char} (rest : List Char) (hip : IsIntPart ip) :
    isdigit (hd (ip ++ rest)) = true := by
  rcases hip with h0 | ⟨d, ds, hds, hd1, _, _⟩
  · subst h0; rfl
  · subst hds; exact hd1

theorem hd_ne_of_isdigit {l : List Char} {c : Char} (h : isdigit (hd l) = true)
    (hc : isdigit c = false) : hd l ≠ c := by
  intro hcon
  rw [hcon, hc] at h
  cases h

/-- A sign and an integer part are lexed as a whole when no digit follows. -/
theorem number_sign_intPart {sg ip rest : List Char} (hsg : sg = [] ∨ sg = ['-'])
    (hip : IsIntPart ip) (hrest : isdigit (hd rest) = false) :
    number (sg ++ ip ++ rest)
      = ((fraction rest (sg ++ ip)).1, sg.length + ip.length + (fraction rest (sg ++ ip)).2) := by
  unfold number
  rcases hsg with h | h
  · subst h
    simp only [List.nil_append, List.length_nil, Nat.zero_add]
    rw [if_neg (hd_ne_of_isdigit (hd_intPart rest hip) (by decide)),
      digits_intPart [] hip hrest]
    simp
  · subst h
    simp only [List.cons_append, List.nil_append, hd_cons, List.tail_cons, if_true,
      List.length_cons, List.length_nil]
    rw [digits_intPart ['-'] hip hrest]
    exact Prod.ext rfl (by show _ = _; simp only [List.cons_append, List.nil_append]; omega)

theorem exponent_invalid_unsigned {e : Char} {tail : List Char} (num : List Char)
    (he : e = 'e' ∨ e = 'E') (hs : startsWithSign tail = false)
    (hd1 : startsWithDigit tail = false) :
    (exponent (e :: tail) num).1.type = TokenType.Invalid := by
  unfold exponent
  simp only [hd_cons, List.tail_cons]
  have hns : ¬ (hd tail = '+' ∨ hd tail = '-') := by
    cases tail with
    | nil => simp [hd, NUL]
    | cons c r => simpa [startsWithSign, hd] using hs
  rw [if_pos he, if_neg hns, if_pos (by rw [isdigit_hd, hd1]; decide)]

theorem exponent_invalid_signed {e s : Char} {tail : List Char} (num : List Char)
    (he : e = 'e' ∨ e = 'E') (hs : s = '+' ∨ s = '-')
    (hd1 : startsWithDigit tail = false) :
    (exponent (e :: s :: tail) num).1.type = TokenType.Invalid := by
  unfold exponent
  simp only [hd_cons, List.tail_cons]
  rw [if_pos he, if_pos hs, if_pos (by rw [isdigit_hd, hd1]; decide)]

theorem fraction_to_exponent {fp : List Char} {e : Char} (tail num : List Char)
    (hfp : fp = [] ∨ IsFracPart fp) (he : e = 'e' ∨ e = 'E') :
    (fraction (fp ++ e :: tail) num).1 = (exponent (e :: tail) (num ++ fp)).1 := by
  have hne : isdigit (hd (e :: tail)) = false := by
    rw [hd_cons]
    rcases he with h | h <;> rw [h] <;> decide
  rcases hfp with h | h
  · subst h
    rw [List.nil_append, List.append_nil, fraction_of_not_dot]
    rw [hd_cons]
    rcases he with h | h <;> rw [h] <;> decide
  · rw [fraction_fracPart num h hne]

theorem not_digit_after_intPart {fp : List Char} {e : Char} (tail : List Char)
    (hfp : fp = [] ∨ IsFracPart fp) (he : e = 'e' ∨ e = 'E') :
    isdigit (hd (fp ++ e :: tail)) = false := by
  rcases hfp with h | ⟨ds, h, _, _⟩
  · subst h
    rw [List.nil_append, hd_cons]
    rcases he with h | h <;> rw [h] <;> decide
  · subst h
    rfl

theorem number_malformed {l : List Char} (h : MalformedNumber l) :
    (number l).1.type = TokenType.Invalid := by
  cases h with
  | minus tail hd1 =>
    unfold number digits
    simp only [hd_cons, List.tail_cons, if_true]
    rw [if_neg (by rw [isdigit_hd, hd1]; decide)]
  | point sg ip tail hsg hip hd1 =>
    rw [number_sign_intPart hsg hip (by rw [hd_cons]; decide)]
    unfold fraction
    simp only [hd_cons, List.tail_cons, if_true]
    rw [if_pos (by rw [isdigit_hd, hd1]; decide)]
  | exponent sg ip fp e tail hsg hip hfp he hs hd1 =>
    rw [List.append_assoc (sg ++ ip), number_sign_intPart hsg hip]
    · show (fraction (fp ++ e :: tail) (sg ++ ip)).1.type = _
      rw [fraction_to_exponent tail _ hfp he]
      exact exponent_invalid_unsigned _ he hs hd1
    · exact not_digit_after_intPart _ hfp he
  | signedExponent sg ip fp e s tail hsg hip hfp he hs hd1 =>
    rw [List.append_assoc (sg ++ ip), number_sign_intPart hsg hip]
    · show (fraction (fp ++ e :: s :: tail) (sg ++ ip)).1.type = _
      rw [fraction_to_exponent _ _ hfp he]
      exact exponent_invalid_signed _ he hs hd1
    · exact not_digit_after_intPart _ hfp he

theorem hd_malformed {l : List Char} (h : MalformedNumber l) :
    hd l = '-' ∨ isdigit (hd l) = true := by
  have key : ∀ (sg ip rest : List Char), (sg = [] ∨ sg = ['-']) → IsIntPart ip →
      hd (sg ++ ip ++ rest) = '-' ∨ isdigit (hd (sg ++ ip ++ rest)) = true := by
    intro sg ip rest hsg hip
    rcases hsg with h | h
    · subst h
      right
      rw [List.nil_append]
      exact hd_intPart rest hip
    · subst h
      left
      rfl
  cases h with
  | minus tail hd1 => left; rfl
  | point sg ip tail hsg hip hd1 => exact key sg ip _ hsg hip
  | exponent sg ip fp e tail hsg hip hfp he hs hd1 =>
    rw [List.append_assoc (sg ++ ip)]
    exact key sg ip _ hsg hip
  | signedExponent sg ip fp e s tail hsg hip hfp he hs hd1 =>
    rw [List.append_assoc (sg ++ ip)]
    exact key sg ip _ hsg hip

theorem lex_number_start {ws rest : List Char} (hws : ∀ c ∈ ws, isspace c = true)
    (h : hd rest = '-' ∨ isdigit (hd rest) = true) :
    lex (ws ++ rest) = ((number rest).1, ws.length + (number rest).2) := by
  rw [lex_append_ws hws (isspace_hd_number_start h), token_of_number_start h]

end ListView


namespace Baseline
open ListView

theorem parse_of_first_invalid (input : List Char)
    (h : (nextToken input 0).1.type = TokenType.Invalid) :
    parse input = Except.error ParseError.unexpectedToken := by
  unfold parse Parser.init advance
  rw [show 3 * input.length + 3 = (3 * input.length + 2) + 1 by omega]
  unfold parseValue
  simp only [h]

end Baseline

/-! # Lemmas: string lexing -/

namespace ListView

theorem escapeChar_eq_namedChar (x : Char) : escapeChar x = namedChar x := by
  by_cases h1 : x = '\\'
  · subst h1; rfl
  by_cases h2 : x = '"'
  · subst h2; rfl
  by_cases h3 : x = 'n'
  · subst h3; rfl
  by_cases h4 : x = 't'
  · subst h4; rfl
  by_cases h5 : x = 'r'
  · subst h5; rfl
  by_cases h6 : x = 'b'
  · subst h6; rfl
  by_cases h7 : x = 'f'
  · subst h7; rfl
  have b1 : (x == '\\') = false := beq_eq_false_iff_ne.mpr h1
  have b2 : (x == '"') = false := beq_eq_false_iff_ne.mpr h2
  have b3 : (x == 'n') = false := beq_eq_false_iff_ne.mpr h3
  have b4 : (x == 't') = false := beq_eq_false_iff_ne.mpr h4
  have b5 : (x == 'r') = false := beq_eq_false_iff_ne.mpr h5
  have b6 : (x == 'b') = false := beq_eq_false_iff_ne.mpr h6
  have b7 : (x == 'f') = false := beq_eq_false_iff_ne.mpr h7
  unfold escapeChar namedChar escapeTable
  simp only [List.lookup, b1, b2, b3, b4, b5, b6, b7]
  rw [if_neg h1, if_neg h2, if_neg h3, if_neg h4, if_neg h5, if_neg h6, if_neg h7]

theorem valid_scannable {it : StrItem} (h : it.Valid) : it.Scannable := by
  cases it with
  | plain c => exact h
  | escape x =>
    intro hx
    subst hx
    have h2 : (namedChar NUL).isSome = true := h
    revert h2
    decide

theorem rawScan_nil (raw : List Char) : rawScan [] raw = (⟨TokenType.Invalid, raw⟩, 0) := by
  rw [rawScan.eq_def]

theorem rawScan_cons_nul (rest raw : List Char) :
    rawScan (NUL :: rest) raw = (⟨TokenType.Invalid, raw⟩, 1) := by
  rw [rawScan.eq_def]
  simp only [if_true]

theorem rawScan_cons_quote (rest raw : List Char) :
    rawScan ('"' :: rest) raw = (⟨TokenType.String, raw⟩, 1) := by
  rw [rawScan.eq_def]
  simp only [if_true, if_false]
  rw [if_neg (by decide)]

theorem rawScan_backslash_end (raw : List Char) :
    rawScan ['\\'] raw = (⟨TokenType.Invalid, raw⟩, 1) := by
  rw [rawScan.eq_def]
  simp only [if_true, if_false]
  rw [if_neg (by decide), if_neg (by decide)]

theorem rawScan_backslash_nul (rest raw : List Char) :
    rawScan ('\\' :: NUL :: rest) raw = (⟨TokenType.Invalid, raw⟩, 2) := by
  rw [rawScan.eq_def]
  simp only [if_true, if_false]
  rw [if_neg (by decide), if_neg (by decide)]

theorem rawScan_cons_escape (x : Char) (rest raw : List Char) (x0 : x ≠ NUL) :
    rawScan ('\\' :: x :: rest) raw
      = ((rawScan rest (raw ++ ['\\', x])).1, (rawScan rest (raw ++ ['\\', x])).2 + 2) := by
  rw [rawScan.eq_def]
  simp only [if_true, if_false, x0]
  rw [if_neg (by decide), if_neg (by decide)]

theorem rawScan_cons_plain (c : Char) (rest raw : List Char) (c0 : c ≠ NUL) (c1 : c ≠ '"')
    (c2 : c ≠ '\\') :
    rawScan (c :: rest) raw
      = ((rawScan rest (raw ++ [c])).1, (rawScan rest (raw ++ [c])).2 + 1) := by
  rw [rawScan.eq_def]
  simp only []
  rw [if_neg c0, if_neg c1, if_neg c2]

theorem unescape_nil (result : List Char) : unescape [] result = (result, true) := by
  rw [unescape.eq_def]

theorem unescape_cons_plain (c : Char) (rest result : List Char) (c2 : c ≠ '\\') :
    unescape (c :: rest) result = unescape rest (result ++ [c]) := by
  rw [unescape.eq_def]
  simp only []
  rw [if_neg c2]

theorem unescape_cons_escape_some {x e : Char} (rest result : List Char)
    (h : namedChar x = some e) :
    unescape ('\\' :: x :: rest) result = unescape rest (result ++ [e]) := by
  rw [unescape.eq_def]
  simp only [if_true, escapeChar_eq_namedChar, h]

theorem unescape_cons_escape_none {x : Char} (rest result : List Char)
    (h : namedChar x = none) :
    unescape ('\\' :: x :: rest) result = (result, false) := by
  rw [unescape.eq_def]
  simp only [if_true, escapeChar_eq_namedChar, h]

/-- The raw scan steps over a run of scannable items. -/
theorem rawScan_items (items : List StrItem) (rest : List Char)
    (h : ∀ it ∈ items, it.Scannable) (raw : List Char) :
    rawScan (sourceText items ++ rest) raw
      = ((rawScan rest (raw ++ sourceText items)).1,
          (sourceText items).length + (rawScan rest (raw ++ sourceText items)).2) := by
  induction items generalizing raw with
  | nil => simp [sourceText]
  | cons it its ih =>
    have hit := h it (List.mem_cons_self _ _)
    have hits : ∀ i ∈ its, i.Scannable := fun i hi => h i (List.mem_cons_of_mem _ hi)
    cases it with
    | plain c =>
      obtain ⟨c0, c1, c2⟩ := hit
      simp only [sourceText, StrItem.source, List.cons_append, List.nil_append]
      rw [rawScan_cons_plain c _ _ c0 c1 c2, ih hits]
      refine Prod.ext (by simp) ?_
      simp only [List.append_assoc, List.singleton_append, List.length_cons]
      omega
    | escape x =>
      have x0 : x ≠ NUL := hit
      simp only [sourceText, StrItem.source, List.cons_append, List.nil_append]
      rw [rawScan_cons_escape x _ _ x0, ih hits]
      refine Prod.ext (by simp) ?_
      simp only [List.append_assoc, List.cons_append, List.nil_append, List.length_cons]
      omega

/-- The raw scan of a body that ends with a closing quote. -/
theorem rawScan_closed (items : List StrItem) (rest : List Char)
    (h : ∀ it ∈ items, it.Scannable) (raw : List Char) :
    rawScan (sourceText items ++ '"' :: rest) raw
      = (⟨TokenType.String, raw ++ sourceText items⟩, (sourceText items).length + 1) := by
  rw [rawScan_items items _ h, rawScan_cons_quote]

/-- The raw scan of a body that the end of the input cuts short. -/
theorem rawScan_ended (items : List StrItem) (h : ∀ it ∈ items, it.Scannable)
    (raw : List Char) :
    (rawScan (sourceText items) raw).1.type = TokenType.Invalid := by
  have := rawScan_items items [] h raw
  rw [List.append_nil] at this
  rw [this]
  rfl

/-- The raw scan of a body that ends right after a backslash. -/
theorem rawScan_dangling (items : List StrItem) (h : ∀ it ∈ items, it.Scannable)
    (raw : List Char) :
    (rawScan (sourceText items ++ ['\\']) raw).1.type = TokenType.Invalid := by
  rw [rawScan_items items _ h]
  rfl

/-- The raw scan of a body that runs into a NUL. -/
theorem rawScan_nul (items : List StrItem) (rest : List Char)
    (h : ∀ it ∈ items, it.Scannable) (raw : List Char) :
    (rawScan (sourceText items ++ NUL :: rest) raw).1.type = TokenType.Invalid := by
  rw [rawScan_items items _ h, rawScan_cons_nul]

/-- The raw scan of a body that runs into a backslash followed by a NUL. -/
theorem rawScan_escaped_nul (items : List StrItem) (rest : List Char)
    (h : ∀ it ∈ items, it.Scannable) (raw : List Char) :
    (rawScan (sourceText items ++ '\\' :: NUL :: rest) raw).1.type = TokenType.Invalid := by
  rw [rawScan_items items _ h, rawScan_backslash_nul]

/-- Every text is a run of scannable items followed by the end of the text, by a
NUL, by a backslash at the end or before a NUL, or by a quote. -/
theorem scan_shapes (t : List Char) :
    ∃ items : List StrItem, (∀ it ∈ items, it.Scannable) ∧
      (t = sourceText items
        ∨ (∃ rest, t = sourceText items ++ NUL :: rest)
        ∨ t = sourceText items ++ ['\\']
        ∨ (∃ rest, t = sourceText items ++ '\\' :: NUL :: rest)
        ∨ (∃ rest, t = sourceText items ++ '"' :: rest)) := by
  suffices H : ∀ (n : Nat) (t : List Char), t.length = n →
      ∃ items : List StrItem, (∀ it ∈ items, it.Scannable) ∧
        (t = sourceText items
          ∨ (∃ rest, t = sourceText items ++ NUL :: rest)
          ∨ t = sourceText items ++ ['\\']
          ∨ (∃ rest, t = sourceText items ++ '\\' :: NUL :: rest)
          ∨ (∃ rest, t = sourceText items ++ '"' :: rest)) from H _ t rfl
  intro n
  induction n using Nat.strong_induction_on with
  | _ n ih =>
    intro t h
    cases t with
    | nil => exact ⟨[], by simp, Or.inl rfl⟩
    | cons c rest =>
      by_cases c0 : c = NUL
      · exact ⟨[], by simp, Or.inr (Or.inl ⟨rest, by simp [sourceText, c0]⟩)⟩
      by_cases c1 : c = '"'
      · exact ⟨[], by simp, Or.inr (Or.inr (Or.inr (Or.inr ⟨rest, by simp [sourceText, c1]⟩)))⟩
      by_cases c2 : c = '\\'
      · cases rest with
        | nil => exact ⟨[], by simp, Or.inr (Or.inr (Or.inl (by simp [sourceText, c2])))⟩
        | cons x rest2 =>
          by_cases x0 : x = NUL
          · exact ⟨[], by simp,
              Or.inr (Or.inr (Or.inr (Or.inl ⟨rest2, by simp [sourceText, c2, x0]⟩)))⟩
          · obtain ⟨items, hsc, hshape⟩ := ih rest2.length (by simp at h; omega) rest2 rfl
            refine ⟨StrItem.escape x :: items, ?_, ?_⟩
            · intro it hit
              rcases List.mem_cons.mp hit with e | e
              · subst e; exact x0
              · exact hsc it e
            · subst c2
              rcases hshape with e | ⟨r, e⟩ | e | ⟨r, e⟩ | ⟨r, e⟩
              · exact Or.inl (by simp [sourceText, StrItem.source, e])
              · exact Or.inr (Or.inl ⟨r, by simp [sourceText, StrItem.source, e]⟩)
              · exact Or.inr (Or.inr (Or.inl (by simp [sourceText, StrItem.source, e])))
              · exact Or.inr (Or.inr (Or.inr (Or.inl
                  ⟨r, by simp [sourceText, StrItem.source, e]⟩)))
              · exact Or.inr (Or.inr (Or.inr (Or.inr
                  ⟨r, by simp [sourceText, StrItem.source, e]⟩)))
      · obtain ⟨items, hsc, hshape⟩ := ih rest.length (by simp at h; omega) rest rfl
        refine ⟨StrItem.plain c :: items, ?_, ?_⟩
        · intro it hit
          rcases List.mem_cons.mp hit with e | e
          · subst e; exact ⟨c0, c1, c2⟩
          · exact hsc it e
        · rcases hshape with e | ⟨r, e⟩ | e | ⟨r, e⟩ | ⟨r, e⟩
          · exact Or.inl (by simp [sourceText, StrItem.source, e])
          · exact Or.inr (Or.inl ⟨r, by simp [sourceText, StrItem.source, e]⟩)
          · exact Or.inr (Or.inr (Or.inl (by simp [sourceText, StrItem.source, e])))
          · exact Or.inr (Or.inr (Or.inr (Or.inl
              ⟨r, by simp [sourceText, StrItem.source, e]⟩)))
          · exact Or.inr (Or.inr (Or.inr (Or.inr
              ⟨r, by simp [sourceText, StrItem.source, e]⟩)))


/-- A raw scan that answers a String token has read a closed body. -/
theorem rawScan_string {t raw : List Char}
    (h : (rawScan t raw).1.type = TokenType.String) :
    ∃ (items : List StrItem) (rest : List Char), (∀ it ∈ items, it.Scannable)
      ∧ t = sourceText items ++ '"' :: rest
      ∧ rawScan t raw
          = (⟨TokenType.String, raw ++ sourceText items⟩, (sourceText items).length + 1) := by
  obtain ⟨items, hsc, hshape⟩ := scan_shapes t
  rcases hshape with e | ⟨r, e⟩ | e | ⟨r, e⟩ | ⟨r, e⟩
  · rw [e, rawScan_ended items hsc] at h; cases h
  · rw [e, rawScan_nul items r hsc] at h; cases h
  · rw [e, rawScan_dangling items hsc] at h; cases h
  · rw [e, rawScan_escaped_nul items r hsc] at h; cases h
  · exact ⟨items, r, hsc, e, by rw [e, rawScan_closed items r hsc]⟩

/-- The unescaping of a body whose escapes are all in the table. -/
theorem unescape_valid (items : List StrItem) (h : ∀ it ∈ items, it.Valid)
    (result : List Char) :
    unescape (sourceText items) result = (result ++ decodedText items, true) := by
  induction items generalizing result with
  | nil => simp [sourceText, decodedText, unescape]
  | cons it its ih =>
    have hit := h it (List.mem_cons_self _ _)
    have hits : ∀ i ∈ its, i.Valid := fun i hi => h i (List.mem_cons_of_mem _ hi)
    cases it with
    | plain c =>
      obtain ⟨_, _, c2⟩ := hit
      simp only [sourceText, decodedText, StrItem.source, StrItem.decoded, List.cons_append,
        List.nil_append]
      rw [unescape_cons_plain c _ _ c2, ih hits]
      simp
    | escape x =>
      have hx : (namedChar x).isSome = true := hit
      obtain ⟨e, he⟩ := Option.isSome_iff_exists.mp hx
      simp only [sourceText, decodedText, StrItem.source, StrItem.decoded, List.cons_append,
        List.nil_append]
      rw [unescape_cons_escape_some _ _ he, he, ih hits]
      simp

/-- The unescaping of a body with an escape outside the table fails. -/
theorem unescape_invalid (items : List StrItem) (hsc : ∀ it ∈ items, it.Scannable)
    (h : ∃ it ∈ items, ¬ it.Valid) (result : List Char) :
    (unescape (sourceText items) result).2 = false := by
  induction items generalizing result with
  | nil =>
    obtain ⟨it, hit, _⟩ := h
    cases hit
  | cons it its ih =>
    have hit := hsc it (List.mem_cons_self _ _)
    have hits : ∀ i ∈ its, i.Scannable := fun i hi => hsc i (List.mem_cons_of_mem _ hi)
    cases it with
    | plain c =>
      obtain ⟨c0, c1, c2⟩ := hit
      simp only [sourceText, StrItem.source, List.cons_append, List.nil_append]
      rw [unescape_cons_plain c _ _ c2]
      apply ih hits
      obtain ⟨i, hi, hv⟩ := h
      rcases List.mem_cons.mp hi with e | e
      · subst e
        exact absurd (show (StrItem.plain c).Valid from ⟨c0, c1, c2⟩) hv
      · exact ⟨i, e, hv⟩
    | escape x =>
      simp only [sourceText, StrItem.source, List.cons_append, List.nil_append]
      cases hx : namedChar x with
      | none => rw [unescape_cons_escape_none _ _ hx]
      | some e =>
        rw [unescape_cons_escape_some _ _ hx]
        apply ih hits
        obtain ⟨i, hi, hv⟩ := h
        rcases List.mem_cons.mp hi with e2 | e2
        · subst e2
          exact absurd (show (StrItem.escape x).Valid by
            show (namedChar x).isSome = true
            rw [hx]; rfl) hv
        · exact ⟨i, e2, hv⟩

end ListView

namespace ListView

theorem token_of_quote {l : List Char} (h : hd l = '"') : token l = string l := by
  unfold token
  rw [h, if_neg (by decide), if_neg (by decide), if_neg (by decide), if_neg (by decide),
    if_neg (by decide), if_neg (by decide), if_neg (by decide), if_neg (by decide),
    if_neg (by decide), if_pos rfl]

theorem lex_quote {ws t : List Char} (hws : ∀ c ∈ ws, isspace c = true) :
    lex (ws ++ '"' :: t)
      = ((string ('"' :: t)).1, ws.length + (string ('"' :: t)).2) := by
  rw [lex_append_ws hws (by rw [hd_cons]; decide), token_of_quote (hd_cons _ _)]

theorem rawScan_type (t raw : List Char) :
    (rawScan t raw).1.type = TokenType.Invalid ∨ (rawScan t raw).1.type = TokenType.String := by
  obtain ⟨items, hsc, hshape⟩ := scan_shapes t
  rcases hshape with e | ⟨r, e⟩ | e | ⟨r, e⟩ | ⟨r, e⟩
  · left; rw [e, rawScan_ended items hsc]
  · left; rw [e, rawScan_nul items r hsc]
  · left; rw [e, rawScan_dangling items hsc]
  · left; rw [e, rawScan_escaped_nul items r hsc]
  · right; rw [e, rawScan_closed items r hsc]

/-- A scannable item that is not valid is an escape outside the table. -/
theorem bad_escape_of_not_valid {it : StrItem} (hs : it.Scannable) (hv : ¬ it.Valid) :
    ∃ x, it = StrItem.escape x ∧ namedChar x = none := by
  cases it with
  | plain c => exact absurd hs hv
  | escape x =>
    refine ⟨x, rfl, ?_⟩
    cases hx : namedChar x with
    | none => rfl
    | some e =>
      exfalso
      apply hv
      show (namedChar x).isSome = true
      rw [hx]
      rfl

/-- The string branch on a closed body whose escapes are all in the table. -/
theorem string_valid (items : List StrItem) (rest : List Char) (h : ∀ it ∈ items, it.Valid) :
    string ('"' :: (sourceText items ++ '"' :: rest))
      = (⟨TokenType.String, decodedText items⟩, 1 + ((sourceText items).length + 1)) := by
  have hsc : ∀ it ∈ items, it.Scannable := fun it hit => valid_scannable (h it hit)
  unfold string
  simp only [List.tail_cons]
  rw [rawScan_closed items rest hsc]
  simp only [List.nil_append]
  rw [if_neg (by decide), unescape_valid items h]
  simp

/-- The string branch on a closed body with an escape outside the table. -/
theorem string_bad_escape (items : List StrItem) (rest : List Char)
    (hsc : ∀ it ∈ items, it.Scannable) (h : ∃ it ∈ items, ¬ it.Valid) :
    (string ('"' :: (sourceText items ++ '"' :: rest))).1.type = TokenType.Invalid := by
  unfold string
  simp only [List.tail_cons]
  rw [rawScan_closed items rest hsc]
  simp only [List.nil_append]
  rw [if_neg (by decide), unescape_invalid items hsc h]
  simp

/-- The string branch answers Invalid whenever the raw scan does. -/
theorem string_of_raw_invalid {t : List Char}
    (h : (rawScan t []).1.type = TokenType.Invalid) :
    (string ('"' :: t)).1.type = TokenType.Invalid := by
  unfold string
  simp only [List.tail_cons]
  rw [if_pos h]
  exact h

/-- A String token of the string branch comes from a closed body whose escapes
are all in the table, and its text is the decoded body. -/
theorem string_string {t : List Char}
    (h : (string ('"' :: t)).1.type = TokenType.String) :
    ∃ (items : List StrItem) (rest : List Char), (∀ it ∈ items, it.Valid)
      ∧ t = sourceText items ++ '"' :: rest
      ∧ string ('"' :: t)
          = (⟨TokenType.String, decodedText items⟩, 1 + ((sourceText items).length + 1)) := by
  rcases rawScan_type t [] with hr | hr
  · rw [string_of_raw_invalid hr] at h
    cases h
  · obtain ⟨items, rest, hsc, ht, _⟩ := rawScan_string hr
    by_cases hv : ∀ it ∈ items, it.Valid
    · exact ⟨items, rest, hv, ht, by rw [ht, string_valid items rest hv]⟩
    · exfalso
      have hbad : ∃ it ∈ items, ¬ it.Valid := by
        by_contra hcon
        apply hv
        intro it hit
        by_contra hnv
        exact hcon ⟨it, hit, hnv⟩
      rw [ht, string_bad_escape items rest hsc hbad] at h
      cases h

theorem exponent_type (l num : List Char) :
    (exponent l num).1.type = TokenType.Invalid ∨ (exponent l num).1.type = TokenType.Number := by
  unfold exponent
  split_ifs <;> simp

theorem fraction_type (l num : List Char) :
    (fraction l num).1.type = TokenType.Invalid ∨ (fraction l num).1.type = TokenType.Number := by
  unfold fraction
  split_ifs <;> first | exact exponent_type _ _ | exact Or.inl rfl

theorem digits_type (l num : List Char) :
    (digits l num).1.type = TokenType.Invalid ∨ (digits l num).1.type = TokenType.Number := by
  unfold digits
  split_ifs <;> first | exact fraction_type _ _ | exact Or.inl rfl

theorem number_type (l : List Char) :
    (number l).1.type = TokenType.Invalid ∨ (number l).1.type = TokenType.Number := by
  unfold number
  split_ifs
  · exact digits_type _ _
  · exact digits_type _ _

theorem token_string {l : List Char} (h : (token l).1.type = TokenType.String) :
    hd l = '"' := by
  unfold token at h
  by_cases h9 : hd l = '"'
  · exact h9
  exfalso
  by_cases h0 : hd l = NUL
  · rw [if_pos h0] at h; cases h
  rw [if_neg h0] at h
  by_cases h1 : hd l = '{'
  · rw [if_pos h1] at h; cases h
  rw [if_neg h1] at h
  by_cases h2 : hd l = '}'
  · rw [if_pos h2] at h; cases h
  rw [if_neg h2] at h
  by_cases h3 : hd l = '['
  · rw [if_pos h3] at h; cases h
  rw [if_neg h3] at h
  by_cases h4 : hd l = ']'
  · rw [if_pos h4] at h; cases h
  rw [if_neg h4] at h
  by_cases h5 : hd l = ':'
  · rw [if_pos h5] at h; cases h
  rw [if_neg h5] at h
  by_cases h6 : hd l = ','
  · rw [if_pos h6] at h; cases h
  rw [if_neg h6] at h
  by_cases h7 : isalpha (hd l) = true
  · rw [if_pos h7] at h
    split_ifs at h
  rw [if_neg h7] at h
  by_cases h8 : hd l = '-' ∨ isdigit (hd l) = true
  · rw [if_pos h8] at h
    rcases number_type l with h' | h' <;> rw [h'] at h <;> cases h
  rw [if_neg h8, if_neg h9] at h
  cases h


theorem mem_of_drop_eq {input : List Char} {pos : Nat} {a b : List Char}
    (h : input.drop pos = a ++ b) {c : Char} (hc : c ∈ b) : c ∈ input := by
  have : c ∈ input.drop pos := by
    rw [h]
    exact List.mem_append_right _ hc
  exact List.mem_of_mem_drop this

end ListView


/-! # Lemmas: the structural scan -/

namespace Indexed

theorem scanBlock_eq (json : List Char) (end_ : Nat) :
    ∀ (fuel j : Nat) (acc : List Nat), end_ - j ≤ fuel →
      scanBlock json end_ fuel j acc
        = acc ++ (List.range' j (end_ - j)).filter (structuralAt json) := by
  intro fuel
  induction fuel with
  | zero =>
    intro j acc h
    have h0 : end_ - j = 0 := by omega
    simp [scanBlock, h0]
  | succ n ih =>
    intro j acc h
    unfold scanBlock
    by_cases hj : j < end_
    · have hlen : end_ - j = (end_ - (j + 1)) + 1 := by omega
      rw [if_pos hj, ih (j + 1) _ (by omega), hlen, List.range'_succ]
      by_cases hs : json.getD j NUL ∈ chars
      · rw [if_pos hs, List.filter_cons_of_pos (by simpa [structuralAt] using hs)]
        simp
      · rw [if_neg hs, List.filter_cons_of_neg (by simpa [structuralAt] using hs)]
    · have h0 : end_ - j = 0 := by omega
      simp [hj, h0]

theorem blockLoop_eq (b : Nat) (hb : 1 ≤ b) (json : List Char) :
    ∀ (fuel i : Nat) (acc : List Nat), json.length - i ≤ fuel →
      blockLoop b json fuel i acc
        = acc ++ (List.range' i (json.length - i)).filter (structuralAt json) := by
  intro fuel
  induction fuel with
  | zero =>
    intro i acc h
    have h0 : json.length - i = 0 := by omega
    simp [blockLoop, h0]
  | succ n ih =>
    intro i acc h
    unfold blockLoop
    by_cases hi : i < json.length
    · rw [if_pos hi, ih (i + b) _ (by omega), scanBlock_eq json _ _ _ _ (le_refl _),
        List.append_assoc, ← List.filter_append]
      congr 2
      by_cases hle : i + b ≤ json.length
      · have e1 : min (i + b) json.length - i = b := by
          rw [Nat.min_eq_left hle]
          omega
        rw [e1, List.range'_append_1]
        congr 1
        omega
      · have e1 : min (i + b) json.length - i = json.length - i := by
          rw [Nat.min_eq_right (by omega)]
        have e2 : json.length - (i + b) = 0 := by omega
        rw [e1, e2]
        simp
    · have h0 : json.length - i = 0 := by omega
      simp [hi, h0]

theorem find_structurals_with_eq (b : Nat) (hb : 1 ≤ b) (json : List Char) :
    find_structurals_with b json = (List.range json.length).filter (structuralAt json) := by
  unfold find_structurals_with
  rw [blockLoop_eq b hb json _ _ _ (by omega), List.range_eq_range']
  simp

end Indexed

/-! # Lemmas: a leading zero -/

namespace ListView

theorem digits_zero (rest num : List Char) :
    digits ('0' :: rest) num
      = ((fraction rest (num ++ ['0'])).1, 1 + (fraction rest (num ++ ['0'])).2) := by
  rw [digits, hd_cons, if_pos (by decide), if_pos rfl, List.tail_cons]

theorem number_zero (rest : List Char) :
    number ('0' :: rest) = ((fraction rest ['0']).1, 1 + (fraction rest ['0']).2) := by
  rw [number, hd_cons, if_neg (by decide), digits_zero, List.nil_append]

theorem exponent_of_not_e {l : List Char} (num : List Char) (h1 : hd l ≠ 'e')
    (h2 : hd l ≠ 'E') : exponent l num = (⟨TokenType.Number, num⟩, 0) := by
  rw [exponent, if_neg (by
    intro h
    rcases h with h | h
    · exact h1 h
    · exact h2 h)]

theorem lex_zero_digit (d : Char) (rest : List Char) (hd1 : isdigit d = true) :
    lex ('0' :: d :: rest) = (⟨TokenType.Number, ['0']⟩, 1) := by
  have h := @lex_number_start [] ('0' :: d :: rest) (by simp)
    (Or.inr (by rw [hd_cons]; decide))
  rw [List.nil_append] at h
  have hne : ∀ c : Char, isdigit c = false → d ≠ c := by
    intro c hc hcon
    rw [hcon, hc] at hd1
    cases hd1
  rw [h, number_zero, fraction_of_not_dot _ (by rw [hd_cons]; exact hne '.' (by decide)),
    exponent_of_not_e _ (by rw [hd_cons]; exact hne 'e' (by decide))
      (by rw [hd_cons]; exact hne 'E' (by decide))]
  rfl

end ListView

namespace Baseline
open ListView

theorem parse_zero_digit (d : Char) (rest : List Char) (hd1 : isdigit d = true) :
    parse ('0' :: d :: rest)
      = Except.ok (JsonValue.number ⟨0, 0⟩,
          advance ('0' :: d :: rest) ⟨1, ⟨TokenType.Number, ['0']⟩⟩) := by
  have h0 : nextToken ('0' :: d :: rest) 0 = (⟨TokenType.Number, ['0']⟩, 1) := by
    rw [nextToken_eq, List.drop_zero, lex_zero_digit d rest hd1]
    rfl
  unfold parse Parser.init
  rw [show 3 * ('0' :: d :: rest).length + 3 = (3 * ('0' :: d :: rest).length + 2) + 1 by omega]
  have hadv : advance ('0' :: d :: rest) ⟨0, ⟨TokenType.EndOfFile, []⟩⟩
      = ⟨1, ⟨TokenType.Number, ['0']⟩⟩ := by
    unfold advance
    simp only [h0]
  rw [hadv]
  unfold parseValue
  simp only []
  rfl

end Baseline

/-! # Lemmas: the Indexed token builder computes its list view -/

namespace IndexView
open ListView

theorem filter_range_eq_offsetsFrom (json : List Char) :
    ∀ (l : List Char) (p : Nat), json.drop p = l →
      (List.range' p l.length).filter (Indexed.structuralAt json) = offsetsFrom l p := by
  intro l
  induction l with
  | nil => intro p _; rfl
  | cons c r ih =>
    intro p hl
    have hp : p < json.length := by
      by_contra hcon
      rw [List.drop_of_length_le (by omega)] at hl
      cases hl
    have hc : json.getD p NUL = c := by
      rw [List.getD_eq_getElem _ _ hp]
      have := List.drop_eq_getElem_cons hp
      rw [hl] at this
      exact (List.cons.inj this).1.symm
    have h1 := Baseline.drop_succ_of_cons hl
    rw [List.length_cons, List.range'_succ, offsetsFrom]
    by_cases hs : c ∈ Indexed.chars
    · rw [List.filter_cons_of_pos (by simp only [Indexed.structuralAt, hc]; simpa using hs),
        if_pos hs, ih (p + 1) h1]
    · rw [List.filter_cons_of_neg (by simp only [Indexed.structuralAt, hc]; simpa using hs),
        if_neg hs, ih (p + 1) h1]

theorem find_structurals_eq_offsetsFrom (json : List Char) :
    Indexed.find_structurals json = offsetsFrom json 0 := by
  have h := Indexed.find_structurals_with_eq 16 (by decide) json
  unfold Indexed.find_structurals
  rw [h, List.range_eq_range', filter_range_eq_offsetsFrom json json 0 rfl]

theorem offsetsFrom_plain (g : List Char) (base : Nat) (hg : ∀ c ∈ g, plainChar c = true) :
    offsetsFrom g base = [] := by
  induction g generalizing base with
  | nil => rfl
  | cons c r ih =>
    have hc : c ∉ Indexed.chars := by
      have := hg c (List.mem_cons_self _ _)
      simpa [plainChar] using this
    rw [offsetsFrom, if_neg hc]
    exact ih _ (fun x hx => hg x (List.mem_cons_of_mem _ hx))

theorem offsetsFrom_append_plain (g l : List Char) (base : Nat)
    (hg : ∀ c ∈ g, plainChar c = true) :
    offsetsFrom (g ++ l) base = offsetsFrom l (base + g.length) := by
  induction g generalizing base with
  | nil => rfl
  | cons c r ih =>
    have hc : c ∉ Indexed.chars := by
      have := hg c (List.mem_cons_self _ _)
      simpa [plainChar] using this
    rw [List.cons_append, offsetsFrom, if_neg hc,
      ih _ (fun x hx => hg x (List.mem_cons_of_mem _ hx)), List.length_cons]
    congr 1
    omega

/-- The offsets of a text, split at its first structural character. -/
theorem offsetsFrom_split (l : List Char) (base : Nat) :
    offsetsFrom l base
      = offsetsFrom (l.dropWhile plainChar) (base + (l.takeWhile plainChar).length) := by
  conv_lhs => rw [← List.takeWhile_append_dropWhile plainChar l]
  exact offsetsFrom_append_plain _ _ _ (fun c hc => List.mem_takeWhile_imp hc)

theorem hd_dropWhile_plain (l : List Char) :
    l.dropWhile plainChar = [] ∨ ∃ c r, l.dropWhile plainChar = c :: r ∧ c ∈ Indexed.chars := by
  cases h : l.dropWhile plainChar with
  | nil => exact Or.inl rfl
  | cons c r =>
    right
    refine ⟨c, r, rfl, ?_⟩
    have := List.head_dropWhile_not plainChar l (by rw [h]; simp)
    simp only [h, List.head_cons] at this
    simpa [plainChar] using this

end IndexView

namespace Indexed
open IndexView ListView

theorem lt_length_of_drop_cons {json : List Char} {pos : Nat} {c : Char} {r : List Char}
    (h : json.drop pos = c :: r) : pos < json.length := by
  by_contra hcon
  rw [List.drop_of_length_le (by omega)] at h
  cases h

theorem getD_of_drop_cons {json : List Char} {pos : Nat} {c : Char} {r : List Char}
    (h : json.drop pos = c :: r) : json.getD pos NUL = c := by
  have hp := lt_length_of_drop_cons h
  rw [List.getD_eq_getElem _ _ hp]
  have := List.drop_eq_getElem_cons hp
  rw [h] at this
  exact (List.cons.inj this).1.symm

theorem not_lt_length_of_drop_nil {json : List Char} {pos : Nat}
    (h : json.drop pos = []) : ¬ pos < json.length := by
  have := List.drop_eq_nil_iff.mp h
  omega

theorem getD_eq_hd_drop (json : List Char) (pos : Nat) :
    json.getD pos NUL = hd (json.drop pos) := by
  cases h : json.drop pos with
  | nil =>
    have := not_lt_length_of_drop_nil h
    rw [List.getD_eq_default _ _ (by omega)]
    rfl
  | cons c r => rw [getD_of_drop_cons h]; rfl

theorem numClass_iff (c : Char) :
    (isdigit c = true ∨ c = '-' ∨ c = '+' ∨ c = '.' ∨ c = 'e' ∨ c = 'E')
      ↔ numClass c = true := by
  unfold numClass
  simp only [Bool.or_eq_true, decide_eq_true_eq]
  tauto

theorem extractNumberLoop_eq (json : List Char) :
    ∀ (fuel : Nat) (l : List Char) (pos : Nat), json.drop pos = l → l.length ≤ fuel →
      extractNumberLoop json fuel pos = pos + (l.takeWhile numClass).length := by
  intro fuel
  induction fuel with
  | zero =>
    intro l pos _ hf
    have : l = [] := List.eq_nil_of_length_eq_zero (by omega)
    subst this
    rfl
  | succ n ih =>
    intro l pos hl hf
    unfold extractNumberLoop
    cases l with
    | nil => rw [if_neg (fun h => not_lt_length_of_drop_nil hl h.1)]; rfl
    | cons c r =>
      have hc := getD_of_drop_cons hl
      have hp := lt_length_of_drop_cons hl
      have h1 := Baseline.drop_succ_of_cons hl
      simp only [List.length_cons] at hf
      rw [hc]
      by_cases hn : numClass c = true
      · rw [if_pos ⟨hp, (numClass_iff c).mpr hn⟩, ih r (pos + 1) h1 (by omega),
          List.takeWhile_cons_of_pos hn, List.length_cons]
        omega
      · rw [if_neg (fun h => hn ((numClass_iff c).mp h.2)), List.takeWhile_cons_of_neg hn]
        rfl

theorem extractNumber_eq (json : List Char) (pos : Nat) :
    extractNumber json pos
      = ((json.drop pos).takeWhile numClass,
          pos + ((json.drop pos).takeWhile numClass).length) := by
  unfold extractNumber substr
  simp only []
  rw [extractNumberLoop_eq json _ _ pos rfl (by simp)]
  refine Prod.ext ?_ rfl
  show List.take _ _ = _
  rw [Nat.add_sub_cancel_left, take_takeWhile_length]

theorem extractLiteralLoop_eq (json : List Char) :
    ∀ (fuel : Nat) (l : List Char) (pos : Nat), json.drop pos = l → l.length ≤ fuel →
      extractLiteralLoop json fuel pos = pos + (l.takeWhile isalpha).length := by
  intro fuel
  induction fuel with
  | zero =>
    intro l pos _ hf
    have : l = [] := List.eq_nil_of_length_eq_zero (by omega)
    subst this
    rfl
  | succ n ih =>
    intro l pos hl hf
    unfold extractLiteralLoop
    cases l with
    | nil => rw [if_neg (fun h => not_lt_length_of_drop_nil hl h.1)]; rfl
    | cons c r =>
      have hc := getD_of_drop_cons hl
      have hp := lt_length_of_drop_cons hl
      have h1 := Baseline.drop_succ_of_cons hl
      simp only [List.length_cons] at hf
      rw [hc]
      by_cases hn : isalpha c = true
      · rw [if_pos ⟨hp, hn⟩, ih r (pos + 1) h1 (by omega),
          List.takeWhile_cons_of_pos hn, List.length_cons]
        omega
      · rw [if_neg (fun h => hn h.2), List.takeWhile_cons_of_neg hn]
        rfl

theorem extractLiteral_eq (json : List Char) (pos : Nat) :
    extractLiteral json pos
      = ((json.drop pos).takeWhile isalpha,
          pos + ((json.drop pos).takeWhile isalpha).length) := by
  unfold extractLiteral substr
  simp only []
  rw [extractLiteralLoop_eq json _ _ pos rfl (by simp)]
  refine Prod.ext ?_ rfl
  show List.take _ _ = _
  rw [Nat.add_sub_cancel_left, take_takeWhile_length]

end Indexed

namespace IndexView
open ListView

theorem gapTokens_nil : gapTokens [] = [] := by
  rw [gapTokens]

theorem gapTokens_cons_space {c : Char} (r : List Char) (h : isspace c = true) :
    gapTokens (c :: r) = gapTokens r := by
  rw [gapTokens, if_pos h]

theorem gapTokens_cons_number {c : Char} (r : List Char) (h1 : isspace c = false)
    (h2 : isdigit c = true ∨ c = '-') :
    gapTokens (c :: r)
      = ⟨TokenType.Number, c :: r.takeWhile numClass⟩ :: gapTokens (r.dropWhile numClass) := by
  rw [gapTokens, if_neg (by rw [h1]; decide), if_pos h2]

theorem gapTokens_cons_alpha {c : Char} (r : List Char) (h1 : isspace c = false)
    (h2 : ¬ (isdigit c = true ∨ c = '-')) (h3 : isalpha c = true) :
    gapTokens (c :: r)
      = literalTokens (c :: r.takeWhile isalpha) ++ gapTokens (r.dropWhile isalpha) := by
  rw [gapTokens, if_neg (by rw [h1]; decide), if_neg h2, if_pos h3]

theorem gapTokens_cons_other {c : Char} (r : List Char) (h1 : isspace c = false)
    (h2 : ¬ (isdigit c = true ∨ c = '-')) (h3 : isalpha c = false) :
    gapTokens (c :: r) = gapTokens r := by
  rw [gapTokens, if_neg (by rw [h1]; decide), if_neg h2, if_neg (by rw [h3]; decide)]

/-- A run of `p` inside the first `k` characters, when the character at offset
`k` does not satisfy `p`. -/
theorem run_within (p : Char → Bool) :
    ∀ (l : List Char) (k : Nat), p (hd (l.drop k)) = false →
      (l.take k).takeWhile p = l.takeWhile p
      ∧ (l.takeWhile p).length ≤ k
      ∧ (l.take k).dropWhile p = (l.drop (l.takeWhile p).length).take (k - (l.takeWhile p).length) := by
  intro l
  induction l with
  | nil => intro k _; simp
  | cons c r ih =>
    intro k hk
    cases k with
    | zero =>
      have hc : p c = false := hk
      simp [List.takeWhile_cons, hc]
    | succ k =>
      have hk2 : p (hd (r.drop k)) = false := hk
      obtain ⟨h1, h2, h3⟩ := ih k hk2
      by_cases hc : p c = true
      · simp only [List.take_succ_cons, List.takeWhile_cons_of_pos hc,
          List.dropWhile_cons_of_pos hc, List.length_cons, List.drop_succ_cons]
        refine ⟨by rw [h1], by omega, ?_⟩
        rw [h3]
        congr 1
        omega
      · simp [List.takeWhile_cons, List.dropWhile_cons, hc]

end IndexView

namespace Indexed
open IndexView ListView

theorem numClass_of_start {c : Char} (h : isdigit c = true ∨ c = '-') : numClass c = true := by
  apply (numClass_iff c).mp
  rcases h with h | h
  · exact Or.inl h
  · exact Or.inr (Or.inl h)

theorem gapLoop_eq (json : List Char) (next : Nat) (hnext : next ≤ json.length)
    (hstop1 : numClass (hd (json.drop next)) = false)
    (hstop2 : isalpha (hd (json.drop next)) = false) :
    ∀ (fuel j : Nat) (toks : List Token), next - j ≤ fuel →
      gapLoop json next fuel j toks
        = toks ++ gapTokens ((json.drop j).take (next - j)) := by
  intro fuel
  induction fuel with
  | zero =>
    intro j toks hf
    have : next - j = 0 := by omega
    rw [this]
    simp [gapLoop, gapTokens_nil]
  | succ n ih =>
    intro j toks hf
    unfold gapLoop
    by_cases hj : j < next
    · rw [if_pos hj]
      have hjl : j < json.length := by omega
      have hl := List.drop_eq_getElem_cons hjl
      generalize json[j] = c at hl
      generalize hr : json.drop (j + 1) = r at hl
      have hc := getD_of_drop_cons hl
      have hk : next - j = (next - (j + 1)) + 1 := by omega
      have hdk : hd (r.drop (next - (j + 1))) = hd (json.drop next) := by
        rw [← hr, List.drop_drop]
        congr 2
        omega
      rw [hc, hl, hk, List.take_succ_cons]
      by_cases hsp : isspace c = true
      · rw [if_pos hsp, ih (j + 1) toks (by omega), hr, gapTokens_cons_space _ hsp]
      · have hsp2 : isspace c = false := by simpa using hsp
        rw [if_neg hsp]
        by_cases hnum : isdigit c = true ∨ c = '-'
        · rw [if_pos hnum, extractNumber_eq, hl,
            List.takeWhile_cons_of_pos (numClass_of_start hnum)]
          simp only [List.length_cons]
          obtain ⟨h1, h2, h3⟩ := run_within numClass r (next - (j + 1)) (by rw [hdk]; exact hstop1)
          rw [ih _ _ (by omega), gapTokens_cons_number _ hsp2 hnum, h1, h3]
          have e1 : json.drop (j + ((r.takeWhile numClass).length + 1))
              = r.drop (r.takeWhile numClass).length := by
            rw [← hr, List.drop_drop]
            congr 1
            omega
          have e2 : next - (j + ((r.takeWhile numClass).length + 1))
              = next - (j + 1) - (r.takeWhile numClass).length := by omega
          rw [e1, e2]
          simp
        · rw [if_neg hnum]
          by_cases hal : isalpha c = true
          · rw [if_pos hal, extractLiteral_eq, hl, List.takeWhile_cons_of_pos hal]
            simp only [List.length_cons]
            obtain ⟨h1, h2, h3⟩ := run_within isalpha r (next - (j + 1))
              (by rw [hdk]; exact hstop2)
            rw [ih _ _ (by omega), gapTokens_cons_alpha _ hsp2 hnum hal, h1, h3]
            have e1 : json.drop (j + ((r.takeWhile isalpha).length + 1))
                = r.drop (r.takeWhile isalpha).length := by
              rw [← hr, List.drop_drop]
              congr 1
              omega
            have e2 : next - (j + ((r.takeWhile isalpha).length + 1))
                = next - (j + 1) - (r.takeWhile isalpha).length := by omega
            rw [e1, e2]
            unfold literalTokens
            split_ifs <;> simp
          · have hal2 : isalpha c = false := by simpa using hal
            rw [if_neg hal, ih (j + 1) toks (by omega), hr,
              gapTokens_cons_other _ hsp2 hnum hal2]
    · have h0 : next - j = 0 := by omega
      rw [if_neg hj, h0]
      simp [gapTokens_nil]

end Indexed

namespace IndexView
open ListView

theorem findClose_nil (prev : Char) : findClose prev [] = none := rfl

theorem findClose_cons (prev c : Char) (r : List Char) :
    findClose prev (c :: r)
      = if c = '"' ∧ prev ≠ '\\' then some 0 else (findClose c r).map (fun k => k + 1) := rfl

theorem plain_ne_quote {c : Char} (h : plainChar c = true) : c ≠ '"' := by
  intro hc
  subst hc
  exact absurd h (by decide)

/-- The search for the closing quote steps over a run of plain characters. -/
theorem findClose_plain_prefix (g l : List Char) (prev : Char)
    (hg : ∀ c ∈ g, plainChar c = true) :
    findClose prev (g ++ l) = (findClose (g.getLastD prev) l).map (fun k => k + g.length) := by
  induction g generalizing prev with
  | nil => simp
  | cons c r ih =>
    have hc := plain_ne_quote (hg c (List.mem_cons_self _ _))
    rw [List.cons_append, findClose_cons, if_neg (fun h => hc h.1),
      ih c (fun x hx => hg x (List.mem_cons_of_mem _ hx))]
    have e : (c :: r).getLastD prev = r.getLastD c := by
      cases r <;> rfl
    rw [e, Option.map_map]
    congr 1

theorem findClose_plain (g : List Char) (prev : Char) (hg : ∀ c ∈ g, plainChar c = true) :
    findClose prev g = none := by
  have := findClose_plain_prefix g [] prev hg
  rw [List.append_nil] at this
  rw [this, findClose_nil]
  rfl

theorem drop_after_run {p : Char → Bool} {l l2 : List Char} {c : Char}
    (hm : l.dropWhile p = c :: l2) (n : Nat) :
    l.drop ((l.takeWhile p).length + 1 + n) = l2.drop n := by
  rw [Nat.add_assoc, ← List.drop_drop, Baseline.drop_takeWhile_length, hm, Nat.add_comm 1 n,
    List.drop_succ_cons]

theorem hd_drop_prefix_last (g rest : List Char) (prevc : Char) :
    hd ((prevc :: (g ++ rest)).drop g.length) = g.getLastD prevc := by
  induction g generalizing prevc with
  | nil => rfl
  | cons c r ih =>
    have e : (c :: r).getLastD prevc = r.getLastD c := by
      cases r <;> rfl
    rw [e, List.length_cons, List.drop_succ_cons]
    exact ih c

end IndexView

namespace Indexed
open IndexView ListView

theorem of_drop_eq_cons {S : List Nat} {n a : Nat} {rest : List Nat}
    (h : S.drop n = a :: rest) : n < S.length ∧ S.getD n 0 = a ∧ S.drop (n + 1) = rest := by
  have hn : n < S.length := by
    by_contra hcon
    rw [List.drop_of_length_le (by omega)] at h
    cases h
  have h2 := List.drop_eq_getElem_cons hn
  rw [h] at h2
  obtain ⟨e1, e2⟩ := List.cons.inj h2
  exact ⟨hn, by rw [List.getD_eq_getElem _ _ hn, e1], e2.symm⟩

theorem getD_prefix_last (json : List Char) (b0 : Nat) (prevc : Char) (g rest : List Char)
    (h : json.drop b0 = prevc :: (g ++ rest)) :
    json.getD (b0 + g.length) NUL = g.getLastD prevc := by
  rw [getD_eq_hd_drop, ← List.drop_drop, h]
  exact hd_drop_prefix_last g rest prevc

theorem extractStringLoop_eq (json : List Char) (S : List Nat) (start : Nat) :
    ∀ (fuel i b0 : Nat) (prevc : Char) (l : List Char),
      json.drop b0 = prevc :: l → S.drop (i + 1) = offsetsFrom l (b0 + 1) → i < S.length →
      (offsetsFrom l (b0 + 1)).length < fuel →
      (findClose prevc l = none → extractStringLoop json S start fuel i = (start, S.length))
      ∧ (∀ k, findClose prevc l = some k →
          ∃ i2, extractStringLoop json S start fuel i = (b0 + 1 + k, i2) ∧ i < i2
            ∧ S.drop (i2 + 1) = offsetsFrom (l.drop (k + 1)) (b0 + 1 + k + 1)) := by
  intro fuel
  induction fuel with
  | zero => intro i b0 prevc l _ _ _ hf; omega
  | succ n ih =>
    intro i b0 prevc l hl hS hi hf
    have hsplit := offsetsFrom_split l (b0 + 1)
    have hg : ∀ c ∈ l.takeWhile plainChar, plainChar c = true :=
      fun c hc => List.mem_takeWhile_imp hc
    have hfc := findClose_plain_prefix (l.takeWhile plainChar) (l.dropWhile plainChar) prevc hg
    rw [List.takeWhile_append_dropWhile] at hfc
    unfold extractStringLoop
    rcases hd_dropWhile_plain l with hm | ⟨c, l2, hm, hc⟩
    · -- no structural character is left
      rw [hm] at hsplit hfc
      have hoff : offsetsFrom l (b0 + 1) = [] := by rw [hsplit]; rfl
      rw [hoff] at hS
      have hlen : S.length ≤ i + 1 := List.drop_eq_nil_iff.mp hS
      rw [if_neg (by omega)]
      constructor
      · intro _
        exact Prod.ext rfl (by show i + 1 = S.length; omega)
      · intro k hk
        rw [hfc, findClose_nil] at hk
        cases hk
    · -- the next structural character is `c`
      rw [hm] at hsplit hfc
      have hoff : offsetsFrom l (b0 + 1)
          = (b0 + 1 + (l.takeWhile plainChar).length)
            :: offsetsFrom l2 (b0 + 1 + (l.takeWhile plainChar).length + 1) := by
        rw [hsplit, offsetsFrom, if_pos hc]
      rw [hoff] at hS hf
      obtain ⟨hi1, hcand, hS2⟩ := of_drop_eq_cons hS
      have hjson : json.drop (b0 + 1 + (l.takeWhile plainChar).length) = c :: l2 := by
        rw [Nat.add_assoc, ← List.drop_drop, hl, Nat.add_comm 1, List.drop_succ_cons,
          Baseline.drop_takeWhile_length, hm]
      have hcur := getD_of_drop_cons hjson
      have hprev : json.getD (b0 + 1 + (l.takeWhile plainChar).length - 1) NUL
          = (l.takeWhile plainChar).getLastD prevc := by
        have e : b0 + 1 + (l.takeWhile plainChar).length - 1
            = b0 + (l.takeWhile plainChar).length := by omega
        rw [e]
        apply getD_prefix_last json b0 prevc _ (l.dropWhile plainChar)
        rw [List.takeWhile_append_dropWhile]
        exact hl
      rw [if_pos hi1, hcand, hcur, hprev]
      rw [findClose_cons] at hfc
      by_cases hq : c = '"' ∧ (l.takeWhile plainChar).getLastD prevc ≠ '\\'
      · rw [if_pos hq]
        rw [if_pos hq] at hfc
        constructor
        · intro hnone
          rw [hfc] at hnone
          cases hnone
        · intro k hk
          rw [hfc] at hk
          simp only [Option.map_some', Nat.zero_add, Option.some.injEq] at hk
          subst hk
          refine ⟨i + 1, rfl, by omega, ?_⟩
          rw [hS2]
          have e4 := drop_after_run hm 0
          rw [List.drop_zero, Nat.add_zero] at e4
          rw [e4]
      · rw [if_neg hq]
        rw [if_neg hq] at hfc
        simp only [List.length_cons] at hf
        obtain ⟨ih1, ih2⟩ := ih (i + 1) (b0 + 1 + (l.takeWhile plainChar).length) c l2
          hjson hS2 hi1 (by omega)
        constructor
        · intro hnone
          rw [hfc] at hnone
          apply ih1
          cases hfc2 : findClose c l2 with
          | none => rfl
          | some k2 =>
            rw [hfc2] at hnone
            cases hnone
        · intro k hk
          rw [hfc] at hk
          cases hfc2 : findClose c l2 with
          | none =>
            rw [hfc2] at hk
            cases hk
          | some k2 =>
            rw [hfc2] at hk
            simp only [Option.map_some', Option.some.injEq] at hk
            obtain ⟨i2, e1, e2, e3⟩ := ih2 k2 hfc2
            refine ⟨i2, ?_, by omega, ?_⟩
            · rw [e1]
              exact Prod.ext (by show _ = _; omega) rfl
            · rw [e3]
              have e4 : l.drop (k + 1) = l2.drop (k2 + 1) := by
                rw [← hk, show k2 + 1 + (l.takeWhile plainChar).length + 1
                  = (l.takeWhile plainChar).length + 1 + (k2 + 1) by omega]
                exact drop_after_run hm (k2 + 1)
              rw [e4]
              congr 1
              omega

end Indexed

namespace IndexView
open ListView

theorem structTokens_nil : structTokens [] = [] := by
  rw [structTokens]

theorem structTokens_cons_punct {c : Char} (rest : List Char) (h : c ≠ '"') :
    structTokens (c :: rest)
      = punctTokens c
        ++ (gapTokens (rest.takeWhile plainChar) ++ structTokens (rest.dropWhile plainChar)) := by
  rw [structTokens, if_neg h]

theorem structTokens_quote_some {rest : List Char} {k : Nat}
    (h : findClose '"' rest = some k) :
    structTokens ('"' :: rest)
      = ⟨TokenType.String, rest.take k⟩
        :: (gapTokens (((rest.drop (k + 1)).takeWhile plainChar).tail)
          ++ structTokens ((rest.drop (k + 1)).dropWhile plainChar)) := by
  rw [structTokens, if_pos rfl]
  simp only [h]

theorem structTokens_quote_none {rest : List Char} (h : findClose '"' rest = none) :
    structTokens ('"' :: rest) = ⟨TokenType.String, []⟩ :: gapTokens (rest.drop 2) := by
  rw [structTokens, if_pos rfl]
  simp only [h]

theorem stop_of_structural {c : Char} (h : c ∈ Indexed.chars) :
    numClass c = false ∧ isalpha c = false := by
  unfold Indexed.chars at h
  simp only [List.mem_cons, List.mem_singleton, List.not_mem_nil, or_false] at h
  rcases h with h | h | h | h | h | h | h <;> subst h <;> exact ⟨by decide, by decide⟩

/-- The first character of the text after a run of plain characters stops both
`extractNumber` and `extractLiteral`. -/
theorem stop_after_plain (l : List Char) :
    numClass (hd (l.dropWhile plainChar)) = false
    ∧ isalpha (hd (l.dropWhile plainChar)) = false := by
  rcases hd_dropWhile_plain l with h | ⟨c, r, h, hc⟩
  · rw [h]
    exact ⟨by decide, by decide⟩
  · rw [h]
    exact stop_of_structural hc

end IndexView

namespace Indexed
open IndexView ListView

/-- The offset of the next structural character and the text from it, when the
structural offsets from index `i2` on are those of the text `l` at offset `b`. -/
theorem next_structural (json : List Char) (S : List Nat) (i2 b : Nat) (l : List Char)
    (hl : json.drop b = l) (hb : b ≤ json.length) (hS : S.drop i2 = offsetsFrom l b) :
    (if i2 < S.length then S.getD i2 0 else json.length) = b + (l.takeWhile plainChar).length
    ∧ json.drop (b + (l.takeWhile plainChar).length) = l.dropWhile plainChar
    ∧ S.drop i2 = offsetsFrom (l.dropWhile plainChar) (b + (l.takeWhile plainChar).length) := by
  have hdrop : json.drop (b + (l.takeWhile plainChar).length) = l.dropWhile plainChar := by
    rw [← List.drop_drop, hl, Baseline.drop_takeWhile_length]
  have hS2 := hS
  rw [offsetsFrom_split] at hS2
  refine ⟨?_, hdrop, hS2⟩
  rcases hd_dropWhile_plain l with hm | ⟨c, r, hm, hc⟩
  · rw [hm] at hS2 hdrop
    have h0 : S.drop i2 = [] := by rw [hS2]; rfl
    have h1 : S.length ≤ i2 := List.drop_eq_nil_iff.mp h0
    have h2 : json.length ≤ b + (l.takeWhile plainChar).length := List.drop_eq_nil_iff.mp hdrop
    have h3 : (l.takeWhile plainChar).length ≤ l.length :=
      (List.takeWhile_sublist plainChar).length_le
    have h4 : l.length = json.length - b := by rw [← hl, List.length_drop]
    rw [if_neg (by omega)]
    omega
  · rw [hm, offsetsFrom, if_pos hc] at hS2
    obtain ⟨h1, h2, _⟩ := of_drop_eq_cons hS2
    rw [if_pos h1, h2]

end Indexed

namespace IndexView
open ListView

theorem findClose_lt {prev : Char} {l : List Char} {k : Nat} (h : findClose prev l = some k) :
    k < l.length := by
  induction l generalizing prev k with
  | nil => cases h
  | cons c r ih =>
    rw [findClose_cons] at h
    by_cases hq : c = '"' ∧ prev ≠ '\\'
    · rw [if_pos hq] at h
      cases h
      simp
    · rw [if_neg hq] at h
      cases h2 : findClose c r with
      | none => rw [h2] at h; cases h
      | some k2 =>
        rw [h2] at h
        cases h
        have := ih h2
        simp only [List.length_cons]
        omega

theorem tail_takeWhile (p : Char → Bool) (l : List Char) :
    (l.takeWhile p).tail = l.tail.take ((l.takeWhile p).length - 1) := by
  cases l with
  | nil => rfl
  | cons c r =>
    by_cases hc : p c = true
    · rw [List.takeWhile_cons_of_pos hc]
      simp only [List.tail_cons, List.length_cons, Nat.add_sub_cancel]
      rw [take_takeWhile_length]
    · rw [List.takeWhile_cons_of_neg hc]
      rfl

end IndexView

namespace Indexed
open IndexView ListView

theorem indexLoop_done (json : List Char) (S : List Nat) (fuel i : Nat) (toks : List Token)
    (h : S.length ≤ i) : indexLoop json S fuel i toks = toks := by
  cases fuel with
  | zero => rfl
  | succ n =>
    unfold indexLoop
    rw [if_neg (by omega)]

theorem structuralToken_punct (json : List Char) (S : List Nat) (i p : Nat) (c : Char)
    (toks : List Token) (hp : S.getD i 0 = p) (hc : json.getD p NUL = c)
    (hne : c ≠ '"') :
    structuralToken json S i toks = (toks ++ punctTokens c, p, i) := by
  unfold structuralToken punctTokens
  simp only [hp, hc]
  split_ifs <;> simp_all

theorem structuralToken_quote (json : List Char) (S : List Nat) (i p : Nat)
    (toks : List Token) (hp : S.getD i 0 = p) (hc : json.getD p NUL = '"') :
    structuralToken json S i toks
      = (toks ++ [⟨TokenType.String, (extractString json p S i).1⟩],
          (extractString json p S i).2.1, (extractString json p S i).2.2) := by
  unfold structuralToken
  simp only [hp, hc]
  split_ifs <;> simp_all

theorem indexLoop_eq (json : List Char) (S : List Nat) :
    ∀ (fuel i p : Nat) (l : List Char) (toks : List Token),
      json.drop p = l → S.drop i = offsetsFrom l p →
      (l = [] ∨ ∃ c r, l = c :: r ∧ c ∈ chars) → S.length - i ≤ fuel →
      indexLoop json S fuel i toks = toks ++ structTokens l := by
  intro fuel
  induction fuel with
  | zero =>
    intro i p l toks hl hS hstart hf
    rcases hstart with h | ⟨c, r, h, hc⟩
    · subst h
      rw [structTokens_nil, List.append_nil]
      rfl
    · exfalso
      rw [h, offsetsFrom, if_pos hc] at hS
      have := (of_drop_eq_cons hS).1
      omega
  | succ n ih =>
    intro i p l toks hl hS hstart hf
    rcases hstart with h | ⟨c, rest, h, hc⟩
    · subst h
      have h0 : S.drop i = [] := by rw [hS]; rfl
      rw [indexLoop_done json S _ i toks (List.drop_eq_nil_iff.mp h0), structTokens_nil,
        List.append_nil]
    · subst h
      rw [offsetsFrom, if_pos hc] at hS
      obtain ⟨hi, hget, hS1⟩ := of_drop_eq_cons hS
      have hcur := getD_of_drop_cons hl
      have hp := lt_length_of_drop_cons hl
      have hrest := Baseline.drop_succ_of_cons hl
      have hrlen : rest.length = json.length - (p + 1) := by rw [← hrest, List.length_drop]
      unfold indexLoop
      rw [if_pos hi]
      simp only []
      by_cases hq : c = '"'
      · -- a string
        subst hq
        rw [structuralToken_quote json S i p toks hget hcur]
        simp only []
        have hloop := extractStringLoop_eq json S (p + 1) (S.length + 1) i p '"' rest hl hS1 hi
          (by
            rw [← hS1, List.length_drop]
            omega)
        unfold extractString
        simp only []
        cases hfc : findClose '"' rest with
        | none =>
          rw [hloop.1 hfc, structTokens_quote_none hfc]
          simp only []
          rw [if_neg (by omega), indexLoop_done json S n _ _ (by omega),
            gapLoop_eq json json.length (Nat.le_refl _)
              (by rw [List.drop_length]; decide) (by rw [List.drop_length]; decide)
              _ _ _ (by omega)]
          have e1 : json.drop (p + 1 + 1 + 1) = rest.drop 2 := by
            rw [← hrest, List.drop_drop]
          have e2 : substr json (p + 1) (p + 1 - (p + 1)) = [] := by
            unfold substr
            rw [Nat.sub_self, List.take_zero]
          rw [e1, e2, List.take_of_length_le (by rw [List.length_drop]; omega)]
          simp
        | some k =>
          obtain ⟨i2, e, hlt, hS2⟩ := hloop.2 k hfc
          have hk := findClose_lt hfc
          rw [e, structTokens_quote_some hfc]
          simp only []
          have hafter : json.drop (p + 1 + k + 1) = rest.drop (k + 1) := by
            rw [← hrest, List.drop_drop]
            congr 1
          obtain ⟨hn1, hn2, hn3⟩ := next_structural json S (i2 + 1) (p + 1 + k + 1)
            (rest.drop (k + 1)) hafter (by omega) hS2
          have hnle : p + 1 + k + 1 + ((rest.drop (k + 1)).takeWhile plainChar).length
              ≤ json.length := by
            have h3 : ((rest.drop (k + 1)).takeWhile plainChar).length
                ≤ (rest.drop (k + 1)).length :=
              (List.takeWhile_sublist plainChar).length_le
            rw [List.length_drop] at h3
            omega
          rw [hn1, gapLoop_eq json _ hnle
              (by rw [hn2]; exact (stop_after_plain _).1)
              (by rw [hn2]; exact (stop_after_plain _).2) _ _ _ (by omega),
            ih (i2 + 1) _ _ _ hn2 hn3 (hd_dropWhile_plain _) (by omega)]
          have e1 : substr json (p + 1) (p + 1 + k - (p + 1)) = rest.take k := by
            unfold substr
            rw [hrest, Nat.add_sub_cancel_left]
          have e2 : (json.drop (p + 1 + k + 1 + 1)).take
              (p + 1 + k + 1 + ((rest.drop (k + 1)).takeWhile plainChar).length
                - (p + 1 + k + 1 + 1))
              = ((rest.drop (k + 1)).takeWhile plainChar).tail := by
            have e3 : json.drop (p + 1 + k + 1 + 1) = (rest.drop (k + 1)).tail := by
              rw [← Baseline.drop_one_eq_tail, ← hafter, List.drop_drop]
            rw [tail_takeWhile, e3]
            congr 1
            omega
          rw [e1, e2]
          simp
      · -- a punctuation character
        rw [structuralToken_punct json S i p c toks hget hcur hq,
          structTokens_cons_punct rest hq]
        simp only []
        obtain ⟨hn1, hn2, hn3⟩ := next_structural json S (i + 1) (p + 1) rest hrest
          (by omega) hS1
        have hnle : p + 1 + (rest.takeWhile plainChar).length ≤ json.length := by
          have h3 : (rest.takeWhile plainChar).length ≤ rest.length :=
            (List.takeWhile_sublist plainChar).length_le
          omega
        rw [hn1, gapLoop_eq json _ hnle
            (by rw [hn2]; exact (stop_after_plain _).1)
            (by rw [hn2]; exact (stop_after_plain _).2) _ _ _ (by omega),
          ih (i + 1) _ _ _ hn2 hn3 (hd_dropWhile_plain _) (by omega)]
        rw [hrest, Nat.add_sub_cancel_left, take_takeWhile_length]
        simp

/-- The token vector of the Indexed pipeline is the list view of the input from
its first structural character on. -/
theorem parseJsonWithIndex_eq (json : List Char) :
    parseJsonWithIndex json (find_structurals json)
      = structTokens (json.dropWhile plainChar) := by
  unfold parseJsonWithIndex
  have hS := find_structurals_eq_offsetsFrom json
  obtain ⟨_, hn2, hn3⟩ := next_structural json (find_structurals json) 0 0 json rfl
    (by omega) (by rw [List.drop_zero]; exact hS)
  have := indexLoop_eq json (find_structurals json) (find_structurals json).length 0 _ _ []
    hn2 hn3 (hd_dropWhile_plain _) (by omega)
  rw [this, List.nil_append]

end Indexed

namespace IndexView
open ListView

theorem literalTokens_type {w : List Char} {tok : Token} (h : tok ∈ literalTokens w) :
    tok.type = TokenType.True ∨ tok.type = TokenType.False ∨ tok.type = TokenType.Null := by
  unfold literalTokens at h
  split_ifs at h <;> simp at h <;> subst h <;> simp

/-- A gap holds no String token. -/
theorem gapTokens_not_string (t : List Char) :
    ∀ tok ∈ gapTokens t, tok.type ≠ TokenType.String := by
  suffices H : ∀ (n : Nat) (t : List Char), t.length = n →
      ∀ tok ∈ gapTokens t, tok.type ≠ TokenType.String from H _ t rfl
  intro n
  induction n using Nat.strong_induction_on with
  | _ n ih =>
    intro t hn tok htok
    cases t with
    | nil => rw [gapTokens_nil] at htok; cases htok
    | cons c r =>
      simp only [List.length_cons] at hn
      by_cases hsp : isspace c = true
      · rw [gapTokens_cons_space _ hsp] at htok
        exact ih r.length (by omega) r rfl tok htok
      · have hsp2 : isspace c = false := by simpa using hsp
        by_cases hnum : isdigit c = true ∨ c = '-'
        · rw [gapTokens_cons_number _ hsp2 hnum] at htok
          rcases List.mem_cons.mp htok with e | h2
          · rw [e]; simp
          · exact ih _ (by
              have := (List.dropWhile_sublist numClass (l := r)).length_le
              omega) _ rfl tok h2
        · by_cases hal : isalpha c = true
          · rw [gapTokens_cons_alpha _ hsp2 hnum hal] at htok
            rcases List.mem_append.mp htok with h1 | h2
            · rcases literalTokens_type h1 with e | e | e <;> rw [e] <;> simp
            · exact ih _ (by
                have := (List.dropWhile_sublist isalpha (l := r)).length_le
                omega) _ rfl tok h2
          · have hal2 : isalpha c = false := by simpa using hal
            rw [gapTokens_cons_other _ hsp2 hnum hal2] at htok
            exact ih r.length (by omega) r rfl tok htok

theorem punctTokens_not_string {c : Char} {tok : Token} (h : tok ∈ punctTokens c) :
    tok.type ≠ TokenType.String := by
  unfold punctTokens at h
  split_ifs at h <;> simp at h <;> subst h <;> simp

theorem findClose_spec {prev : Char} {l : List Char} {k : Nat}
    (h : findClose prev l = some k) : l = l.take k ++ '"' :: l.drop (k + 1) := by
  induction l generalizing prev k with
  | nil => cases h
  | cons c r ih =>
    rw [findClose_cons] at h
    by_cases hq : c = '"' ∧ prev ≠ '\\'
    · rw [if_pos hq] at h
      cases h
      simp [hq.1]
    · rw [if_neg hq] at h
      cases h2 : findClose c r with
      | none => rw [h2] at h; cases h
      | some k2 =>
        rw [h2] at h
        cases h
        simp only [List.take_succ_cons, List.drop_succ_cons, List.cons_append]
        rw [← ih h2]

/-- Every String token of the list view is a slice of the text that starts right
after a quote and, unless it is empty, ends right before a quote. -/
theorem structTokens_string_slice (l : List Char) :
    ∀ tok ∈ structTokens l, tok.type = TokenType.String →
      ∃ pre post, l = pre ++ '"' :: (tok.value ++ post)
        ∧ (tok.value = [] ∨ ∃ post2, post = '"' :: post2) := by
  suffices H : ∀ (n : Nat) (l : List Char), l.length = n →
      ∀ tok ∈ structTokens l, tok.type = TokenType.String →
        ∃ pre post, l = pre ++ '"' :: (tok.value ++ post)
          ∧ (tok.value = [] ∨ ∃ post2, post = '"' :: post2) from H _ l rfl
  intro n
  induction n using Nat.strong_induction_on with
  | _ n ih =>
    intro l hn tok htok hty
    -- a String token of a later part of the text is a slice of the whole text
    have lift : ∀ (pre0 m : List Char), l = pre0 ++ m → m.length < n →
        tok ∈ structTokens m →
        ∃ pre post, l = pre ++ '"' :: (tok.value ++ post)
          ∧ (tok.value = [] ∨ ∃ post2, post = '"' :: post2) := by
      intro pre0 m hlm hlen hmem
      obtain ⟨pre, post, e, h⟩ := ih m.length hlen m rfl tok hmem hty
      exact ⟨pre0 ++ pre, post, by rw [hlm, e, List.append_assoc], h⟩
    cases l with
    | nil => rw [structTokens_nil] at htok; cases htok
    | cons c rest =>
      simp only [List.length_cons] at hn
      by_cases hq : c = '"'
      · subst hq
        cases hfc : findClose '"' rest with
        | none =>
          rw [structTokens_quote_none hfc] at htok
          rcases List.mem_cons.mp htok with e | h2
          · subst e
            exact ⟨[], rest, rfl, Or.inl rfl⟩
          · exact absurd hty (gapTokens_not_string _ tok h2)
        | some k =>
          rw [structTokens_quote_some hfc] at htok
          rcases List.mem_cons.mp htok with e | h2
          · subst e
            refine ⟨[], rest.drop k, ?_, Or.inr ⟨rest.drop (k + 1), ?_⟩⟩
            · simp
            · have := findClose_spec hfc
              have h3 : rest.drop k = (rest.take k ++ '"' :: rest.drop (k + 1)).drop k := by
                rw [← this]
              rw [h3, List.drop_left' (by
                rw [List.length_take]
                exact Nat.min_eq_left (Nat.le_of_lt (findClose_lt hfc)))]
          · rcases List.mem_append.mp h2 with h3 | h3
            · exact absurd hty (gapTokens_not_string _ tok h3)
            · have hsplit : '"' :: rest
                  = ('"' :: (rest.take (k + 1)
                      ++ (rest.drop (k + 1)).takeWhile plainChar))
                    ++ (rest.drop (k + 1)).dropWhile plainChar := by
                simp
              refine lift _ _ hsplit ?_ h3
              have h4 := (List.dropWhile_sublist plainChar (l := rest.drop (k + 1))).length_le
              rw [List.length_drop] at h4
              omega
      · rw [structTokens_cons_punct rest hq] at htok
        rcases List.mem_append.mp htok with h1 | h2
        · exact absurd hty (punctTokens_not_string h1)
        · rcases List.mem_append.mp h2 with h3 | h3
          · exact absurd hty (gapTokens_not_string _ tok h3)
          · have hsplit : c :: rest
                = (c :: rest.takeWhile plainChar) ++ rest.dropWhile plainChar := by
              simp
            refine lift _ _ hsplit ?_ h3
            have h4 := (List.dropWhile_sublist plainChar (l := rest)).length_le
            omega

end IndexView

namespace IndexView
open ListView

theorem takeWhile_takeWhile_of_imp {p q : Char → Bool} (hpq : ∀ c, p c = true → q c = true)
    (l : List Char) : (l.takeWhile q).takeWhile p = l.takeWhile p := by
  induction l with
  | nil => rfl
  | cons c r ih =>
    by_cases hp : p c = true
    · rw [List.takeWhile_cons_of_pos (hpq c hp), List.takeWhile_cons_of_pos hp,
        List.takeWhile_cons_of_pos hp, ih]
    · by_cases hq : q c = true
      · rw [List.takeWhile_cons_of_pos hq, List.takeWhile_cons_of_neg hp,
          List.takeWhile_cons_of_neg hp]
      · rw [List.takeWhile_cons_of_neg hq, List.takeWhile_cons_of_neg hp]
        rfl

theorem dropWhile_takeWhile_of_imp {p q : Char → Bool} (hpq : ∀ c, p c = true → q c = true)
    (l : List Char) : (l.takeWhile q).dropWhile p = (l.dropWhile p).takeWhile q := by
  induction l with
  | nil => rfl
  | cons c r ih =>
    by_cases hp : p c = true
    · rw [List.takeWhile_cons_of_pos (hpq c hp), List.dropWhile_cons_of_pos hp,
        List.dropWhile_cons_of_pos hp, ih]
    · by_cases hq : q c = true
      · rw [List.takeWhile_cons_of_pos hq, List.dropWhile_cons_of_neg hp,
          List.dropWhile_cons_of_neg hp, List.takeWhile_cons_of_pos hq]
      · rw [List.takeWhile_cons_of_neg hq, List.dropWhile_cons_of_neg hp,
          List.takeWhile_cons_of_neg hq]
        rfl

theorem dropWhile_dropWhile_of_imp {p q : Char → Bool} (hpq : ∀ c, p c = true → q c = true)
    (l : List Char) : (l.dropWhile p).dropWhile q = l.dropWhile q := by
  induction l with
  | nil => rfl
  | cons c r ih =>
    by_cases hp : p c = true
    · rw [List.dropWhile_cons_of_pos hp, List.dropWhile_cons_of_pos (hpq c hp), ih]
    · rw [List.dropWhile_cons_of_neg hp]

theorem plain_of_isspace {c : Char} (h : isspace c = true) : plainChar c = true := by
  unfold isspace at h
  simp only [Bool.or_eq_true, decide_eq_true_eq] at h
  rcases h with ((((h | h) | h) | h) | h) | h <;> subst h <;> decide

theorem plain_of_not_structural {c : Char} (h : c ∉ Indexed.chars) : plainChar c = true := by
  simpa [plainChar] using h

theorem structural_of_not_plain {c : Char} (h : plainChar c = false) : c ∈ Indexed.chars := by
  simpa [plainChar] using h

theorem plain_of_isalpha {c : Char} (h : isalpha c = true) : plainChar c = true := by
  apply plain_of_not_structural
  intro hc
  exact absurd h (by rw [(stop_of_structural hc).2]; decide)

theorem plain_of_numClass {c : Char} (h : numClass c = true) : plainChar c = true := by
  apply plain_of_not_structural
  intro hc
  exact absurd h (by rw [(stop_of_structural hc).1]; decide)

/-- Whitespace before a text adds no token. -/
theorem ixLex_cons_space {c : Char} (r : List Char) (h : isspace c = true) :
    ixLex (c :: r) = ixLex r := by
  unfold ixLex
  rw [List.takeWhile_cons_of_pos (plain_of_isspace h),
    List.dropWhile_cons_of_pos (plain_of_isspace h), gapTokens_cons_space _ h]

theorem ixLex_append_ws {ws : List Char} (l : List Char) (hws : ∀ c ∈ ws, isspace c = true) :
    ixLex (ws ++ l) = ixLex l := by
  induction ws with
  | nil => rfl
  | cons c r ih =>
    rw [List.cons_append, ixLex_cons_space _ (hws c (List.mem_cons_self _ _)),
      ih (fun x hx => hws x (List.mem_cons_of_mem _ hx))]

/-- A character that starts no token in a gap and is not structural is skipped. -/
theorem ixLex_cons_other {c : Char} (r : List Char) (h0 : plainChar c = true)
    (h2 : ¬ (isdigit c = true ∨ c = '-')) (h3 : isalpha c = false) :
    ixLex (c :: r) = ixLex r := by
  by_cases h1 : isspace c = true
  · exact ixLex_cons_space r h1
  · unfold ixLex
    rw [List.takeWhile_cons_of_pos h0, List.dropWhile_cons_of_pos h0,
      gapTokens_cons_other _ (by simpa using h1) h2 h3]

theorem ixLex_cons_punct {c : Char} (r : List Char) (hc : c ∈ Indexed.chars) (hq : c ≠ '"') :
    ixLex (c :: r) = punctTokens c ++ ixLex r := by
  have hnp : ¬ plainChar c = true := by simpa [plainChar] using hc
  unfold ixLex
  rw [List.takeWhile_cons_of_neg hnp, List.dropWhile_cons_of_neg hnp, gapTokens_nil,
    List.nil_append, structTokens_cons_punct r hq]

theorem ixLex_cons_number {c : Char} (r : List Char) (h : isdigit c = true ∨ c = '-') :
    ixLex (c :: r)
      = ⟨TokenType.Number, c :: r.takeWhile numClass⟩ :: ixLex (r.dropWhile numClass) := by
  have hn := Indexed.numClass_of_start h
  have hp := plain_of_numClass hn
  have hsp : isspace c = false := by
    rcases h with h | h
    · exact isspace_of_isdigit h
    · rw [h]; decide
  unfold ixLex
  rw [List.takeWhile_cons_of_pos hp, List.dropWhile_cons_of_pos hp,
    gapTokens_cons_number _ hsp h,
    takeWhile_takeWhile_of_imp (fun c => plain_of_numClass) r,
    dropWhile_takeWhile_of_imp (fun c => plain_of_numClass) r,
    dropWhile_dropWhile_of_imp (fun c => plain_of_numClass) r]
  rfl

theorem ixLex_cons_alpha {c : Char} (r : List Char) (h : isalpha c = true) :
    ixLex (c :: r)
      = literalTokens (c :: r.takeWhile isalpha) ++ ixLex (r.dropWhile isalpha) := by
  have hp := plain_of_isalpha h
  have hsp : isspace c = false := by
    by_contra hcon
    have hs : isspace c = true := by simpa using hcon
    unfold isspace at hs
    simp only [Bool.or_eq_true, decide_eq_true_eq] at hs
    rcases hs with ((((h1 | h1) | h1) | h1) | h1) | h1 <;> subst h1 <;>
      exact absurd h (by decide)
  have hnum : ¬ (isdigit c = true ∨ c = '-') := by
    intro hcon
    rcases hcon with h1 | h1
    · rw [isalpha_of_isdigit h1] at h; cases h
    · subst h1; exact absurd h (by decide)
  unfold ixLex
  rw [List.takeWhile_cons_of_pos hp, List.dropWhile_cons_of_pos hp,
    gapTokens_cons_alpha _ hsp hnum h,
    takeWhile_takeWhile_of_imp (fun c => plain_of_isalpha) r,
    dropWhile_takeWhile_of_imp (fun c => plain_of_isalpha) r,
    dropWhile_dropWhile_of_imp (fun c => plain_of_isalpha) r, List.append_assoc]

/-- After a closed string the token builder skips one character, which adds no
token when that character starts no number and no literal. -/
theorem ixLex_quote {r : List Char} {k : Nat} (hfc : findClose '"' r = some k)
    (h2 : ¬ (isdigit (hd (r.drop (k + 1))) = true ∨ hd (r.drop (k + 1)) = '-'))
    (h3 : isalpha (hd (r.drop (k + 1))) = false) :
    ixLex ('"' :: r) = ⟨TokenType.String, r.take k⟩ :: ixLex (r.drop (k + 1)) := by
  have hnp : ¬ plainChar '"' = true := by decide
  unfold ixLex
  rw [List.takeWhile_cons_of_neg hnp, List.dropWhile_cons_of_neg hnp, gapTokens_nil,
    List.nil_append, structTokens_quote_some hfc]
  congr 2
  cases hafter : r.drop (k + 1) with
  | nil => rfl
  | cons x g =>
    rw [hafter, hd_cons] at h2 h3
    by_cases hx : plainChar x = true
    · rw [List.takeWhile_cons_of_pos hx, List.tail_cons]
      by_cases hsp : isspace x = true
      · rw [gapTokens_cons_space _ hsp]
      · rw [gapTokens_cons_other _ (by simpa using hsp) h2 h3]
    · rw [List.takeWhile_cons_of_neg hx]
      rfl

end IndexView

namespace IndexView
open ListView

theorem numClass_of_isdigit {c : Char} (h : isdigit c = true) : numClass c = true :=
  Indexed.numClass_of_start (Or.inl h)

theorem isJsonNumber_numClass {s : List Char} (h : IsJsonNumber s) :
    ∀ c ∈ s, numClass c = true := by
  obtain ⟨sg, ip, fp, ep, hs, hsg, hip, hfp, hep⟩ := h
  have h1 : ∀ c ∈ sg, numClass c = true := by
    intro c hc
    rcases hsg with e | e
    · rw [e] at hc; cases hc
    · rw [e] at hc
      simp only [List.mem_singleton] at hc
      subst hc
      decide
  have h2 : ∀ c ∈ ip, numClass c = true := by
    intro c hc
    rcases hip with e | ⟨d, ds, e, hd1, _, hds⟩
    · rw [e] at hc
      simp only [List.mem_singleton] at hc
      subst hc
      decide
    · rw [e] at hc
      rcases List.mem_cons.mp hc with e2 | e2
      · rw [e2]; exact numClass_of_isdigit hd1
      · exact numClass_of_isdigit (hds c e2)
  have h3 : ∀ c ∈ fp, numClass c = true := by
    intro c hc
    rcases hfp with e | ⟨ds, e, _, hds⟩
    · rw [e] at hc; cases hc
    · rw [e] at hc
      rcases List.mem_cons.mp hc with e2 | e2
      · rw [e2]; decide
      · exact numClass_of_isdigit (hds c e2)
  have h4 : ∀ c ∈ ep, numClass c = true := by
    intro c hc
    rcases hep with e | ⟨x, sgn, ds, e, hx, hsgn, _, hds⟩
    · rw [e] at hc; cases hc
    · rw [e] at hc
      rcases List.mem_cons.mp hc with e2 | e2
      · rw [e2]
        rcases hx with hx | hx <;> rw [hx] <;> decide
      · rcases List.mem_append.mp e2 with e3 | e3
        · rcases hsgn with e4 | e4 | e4
          · rw [e4] at e3; cases e3
          · rw [e4] at e3
            simp only [List.mem_singleton] at e3
            subst e3
            decide
          · rw [e4] at e3
            simp only [List.mem_singleton] at e3
            subst e3
            decide
        · exact numClass_of_isdigit (hds c e3)
  intro c hc
  rw [hs] at hc
  simp only [List.mem_append] at hc
  rcases hc with ((hc | hc) | hc) | hc
  · exact h1 c hc
  · exact h2 c hc
  · exact h3 c hc
  · exact h4 c hc

theorem run_eq_take {p : Char → Bool} {l : List Char} {n : Nat}
    (h1 : ∀ c ∈ l.take n, p c = true) (h2 : p (hd (l.drop n)) = false) :
    l.takeWhile p = l.take n ∧ l.dropWhile p = l.drop n := by
  have e := List.take_append_drop n l
  constructor
  · conv_lhs => rw [← e]
    exact takeWhile_append_stop h1 h2
  · conv_lhs => rw [← e]
    exact dropWhile_append_stop h1 h2

/-- In a text without backslashes every item of a body is an ordinary character. -/
theorem sourceText_eq_decodedText (items : List StrItem)
    (h : ∀ c ∈ sourceText items, c ≠ '\\') : sourceText items = decodedText items := by
  induction items with
  | nil => rfl
  | cons it its ih =>
    cases it with
    | plain c =>
      simp only [sourceText, decodedText, StrItem.source, StrItem.decoded]
      rw [ih (fun x hx => h x (by
        simp only [sourceText]
        exact List.mem_append_right _ hx))]
    | escape x =>
      exfalso
      exact h '\\' (by simp [sourceText, StrItem.source]) rfl

theorem sourceText_no_quote (items : List StrItem) (hv : ∀ it ∈ items, it.Valid)
    (h : ∀ c ∈ sourceText items, c ≠ '\\') : ∀ c ∈ sourceText items, c ≠ '"' := by
  induction items with
  | nil => intro c hc; cases hc
  | cons it its ih =>
    have hits := ih (fun i hi => hv i (List.mem_cons_of_mem _ hi))
      (fun x hx => h x (by
        simp only [sourceText]
        exact List.mem_append_right _ hx))
    cases it with
    | plain c0 =>
      intro c hc
      simp only [sourceText, StrItem.source, List.singleton_append, List.mem_cons] at hc
      rcases hc with e | e
      · rw [e]
        exact (hv (StrItem.plain c0) (List.mem_cons_self _ _)).2.1
      · exact hits c e
    | escape x =>
      exfalso
      exact h '\\' (by simp [sourceText, StrItem.source]) rfl

/-- The closing quote of a body without quotes and backslashes is the first
quote after it. -/
theorem findClose_body (body rest : List Char) (prev : Char) (hprev : prev ≠ '\\')
    (hq : ∀ c ∈ body, c ≠ '"') (hb : ∀ c ∈ body, c ≠ '\\') :
    findClose prev (body ++ '"' :: rest) = some body.length := by
  induction body generalizing prev with
  | nil =>
    rw [List.nil_append, findClose_cons, if_pos ⟨rfl, hprev⟩]
    rfl
  | cons c r ih =>
    rw [List.cons_append, findClose_cons,
      if_neg (fun h => hq c (List.mem_cons_self _ _) h.1),
      ih c (hb c (List.mem_cons_self _ _)) (fun x hx => hq x (List.mem_cons_of_mem _ hx))
        (fun x hx => hb x (List.mem_cons_of_mem _ hx))]
    rfl

end IndexView

namespace IndexView
open ListView

theorem not_startsGapToken {c : Char} (h : startsGapToken c = false) :
    ¬ (isdigit c = true ∨ c = '-') ∧ isalpha c = false := by
  unfold startsGapToken at h
  simp only [Bool.or_eq_false_iff, decide_eq_false_iff_not] at h
  refine ⟨?_, h.2⟩
  intro hcon
  rcases hcon with h1 | h1
  · rw [h.1.1] at h1; cases h1
  · exact h.1.2 h1

/-- One token of the Baseline tokenizer, read from a text with no NUL and no
backslash that does not start with whitespace, is also the first token the
Indexed token builder derives from that text, and the builder goes on with the
text after the token. -/
theorem ixLex_token_step (l : List Char) (hnul : ∀ c ∈ l, c ≠ NUL) (hbs : ∀ c ∈ l, c ≠ '\\')
    (h1 : (token l).1.type ≠ TokenType.EndOfFile) (h2 : (token l).1.type ≠ TokenType.Invalid)
    (hnum : (token l).1.type = TokenType.Number → numClass (hd (l.drop (token l).2)) = false)
    (hstr : (token l).1.type = TokenType.String
      → startsGapToken (hd (l.drop (token l).2)) = false) :
    ixLex l = (token l).1 :: ixLex (l.drop (token l).2) := by
  cases l with
  | nil => exact absurd rfl h1
  | cons c r =>
    have hc0 : c ≠ NUL := hnul c (List.mem_cons_self _ _)
    by_cases p1 : c = '{'
    · subst p1; exact ixLex_cons_punct r (by decide) (by decide)
    by_cases p2 : c = '}'
    · subst p2; exact ixLex_cons_punct r (by decide) (by decide)
    by_cases p3 : c = '['
    · subst p3; exact ixLex_cons_punct r (by decide) (by decide)
    by_cases p4 : c = ']'
    · subst p4; exact ixLex_cons_punct r (by decide) (by decide)
    by_cases p5 : c = ':'
    · subst p5; exact ixLex_cons_punct r (by decide) (by decide)
    by_cases p6 : c = ','
    · subst p6; exact ixLex_cons_punct r (by decide) (by decide)
    have htok : token (c :: r)
        = if isalpha c then
            (if (c :: r).takeWhile isalpha = ['t', 'r', 'u', 'e'] then
              (⟨TokenType.True, (c :: r).takeWhile isalpha⟩, ((c :: r).takeWhile isalpha).length)
            else if (c :: r).takeWhile isalpha = ['f', 'a', 'l', 's', 'e'] then
              (⟨TokenType.False, (c :: r).takeWhile isalpha⟩,
                ((c :: r).takeWhile isalpha).length)
            else if (c :: r).takeWhile isalpha = ['n', 'u', 'l', 'l'] then
              (⟨TokenType.Null, (c :: r).takeWhile isalpha⟩, ((c :: r).takeWhile isalpha).length)
            else (⟨TokenType.Invalid, (c :: r).takeWhile isalpha⟩,
              ((c :: r).takeWhile isalpha).length))
          else if c = '-' ∨ isdigit c = true then number (c :: r)
          else if c = '"' then string (c :: r)
          else (⟨TokenType.Invalid, [c]⟩, 1) := by
      rw [token, hd_cons, if_neg hc0, if_neg p1, if_neg p2, if_neg p3, if_neg p4, if_neg p5,
        if_neg p6]
    by_cases hal : isalpha c = true
    · -- a literal
      rw [htok, if_pos hal] at h2 hnum hstr ⊢
      rw [ixLex_cons_alpha r hal]
      rw [List.takeWhile_cons_of_pos hal] at h2 hnum hstr ⊢
      have hdrop : (c :: r).drop ((c :: r.takeWhile isalpha).length)
          = r.dropWhile isalpha := by
        rw [List.length_cons, List.drop_succ_cons, Baseline.drop_takeWhile_length]
      unfold literalTokens
      by_cases w1 : c :: r.takeWhile isalpha = ['t', 'r', 'u', 'e']
      · rw [if_pos w1, if_pos w1]
        simp only []
        rw [hdrop, w1]
        rfl
      · rw [if_neg w1, if_neg w1] at *
        by_cases w2 : c :: r.takeWhile isalpha = ['f', 'a', 'l', 's', 'e']
        · rw [if_pos w2, if_pos w2]
          simp only []
          rw [hdrop, w2]
          rfl
        · rw [if_neg w2, if_neg w2] at *
          by_cases w3 : c :: r.takeWhile isalpha = ['n', 'u', 'l', 'l']
          · rw [if_pos w3, if_pos w3]
            simp only []
            rw [hdrop, w3]
            rfl
          · rw [if_neg w3] at h2
            exact absurd rfl h2
    · rw [htok, if_neg hal] at h1 h2 hnum hstr ⊢
      by_cases hn : c = '-' ∨ isdigit c = true
      · -- a number
        rw [if_pos hn] at h1 h2 hnum hstr ⊢
        have hty : (number (c :: r)).1.type = TokenType.Number := by
          rcases number_type (c :: r) with h | h
          · exact absurd h h2
          · exact h
        obtain ⟨hv, hj⟩ := number_spec _ hty
        have hstart : isdigit c = true ∨ c = '-' := by
          rcases hn with h | h
          · exact Or.inr h
          · exact Or.inl h
        have hrun := run_eq_take (p := numClass) (l := c :: r) (n := (number (c :: r)).2)
          (by rw [← hv]; exact isJsonNumber_numClass hj) (hnum hty)
        rw [List.takeWhile_cons_of_pos (Indexed.numClass_of_start hstart),
          List.dropWhile_cons_of_pos (Indexed.numClass_of_start hstart)] at hrun
        rw [ixLex_cons_number r hstart, hrun.1, hrun.2, ← hv]
        congr 1
        cases hx : (number (c :: r)).1 with
        | mk ty v =>
          rw [hx] at hty
          simp only [] at hty
          rw [hty]
      · rw [if_neg hn] at h1 h2 hnum hstr ⊢
        by_cases hq : c = '"'
        · -- a string
          subst hq
          rw [if_pos rfl] at h1 h2 hnum hstr ⊢
          have hty : (string ('"' :: r)).1.type = TokenType.String := by
            rcases string_type ('"' :: r) with h | h
            · exact absurd h h2
            · exact h
          obtain ⟨items, rest, hv, hr, hs⟩ := string_string hty
          have hbs2 : ∀ x ∈ sourceText items, x ≠ '\\' := by
            intro x hx
            apply hbs x
            rw [hr]
            exact List.mem_cons_of_mem _ (List.mem_append_left _ hx)
          have hfc : findClose '"' r = some (sourceText items).length := by
            rw [hr]
            exact findClose_body _ rest '"' (by decide) (sourceText_no_quote items hv hbs2) hbs2
          have hafter : r.drop ((sourceText items).length + 1) = rest := by
            rw [hr, ← List.drop_drop, List.drop_left]
            rfl
          have hdrop : ('"' :: r).drop (1 + ((sourceText items).length + 1)) = rest := by
            rw [Nat.add_comm 1, List.drop_succ_cons, hafter]
          have hgap := hstr hty
          rw [hs] at hgap ⊢
          simp only [] at hgap ⊢
          rw [hdrop] at hgap ⊢
          have hg := not_startsGapToken hgap
          rw [ixLex_quote hfc (by rw [hafter]; exact hg.1) (by rw [hafter]; exact hg.2), hafter,
            ← sourceText_eq_decodedText items hbs2]
          congr 2
          rw [hr, List.take_left]
        · rw [if_neg hq] at h2
          exact absurd rfl h2

end IndexView

namespace Baseline
open ListView

/-- A String token of the tokenizer was read from a quoted body of valid items
and carries the decoded body. -/
theorem string_token_decoded (input : List Char) (pos : Nat)
    (h : (nextToken input pos).1.type = TokenType.String) :
    ∃ (ws : List Char) (items : List StrItem) (rest : List Char),
      input.drop pos = ws ++ '"' :: (sourceText items ++ '"' :: rest)
      ∧ (∀ c ∈ ws, isspace c = true) ∧ (∀ it ∈ items, it.Valid)
      ∧ (nextToken input pos).1.value = decodedText items := by
  rw [nextToken_eq] at h ⊢
  unfold lex at h ⊢
  simp only [] at h ⊢
  have hq := token_string h
  have hcons := cons_of_hd (l := (input.drop pos).dropWhile isspace) (by rw [hq]; decide)
  rw [hq] at hcons
  rw [token_of_quote hq] at h ⊢
  rw [hcons] at h ⊢
  obtain ⟨items, rest, hv, ht, hs⟩ := string_string h
  refine ⟨(input.drop pos).takeWhile isspace, items, rest, ?_, ?_, hv, ?_⟩
  · rw [← ht, ← hcons, List.takeWhile_append_dropWhile]
  · intro c hc
    exact List.mem_takeWhile_imp hc
  · rw [hs]

end Baseline

namespace Indexed
open IndexView

/-- A String token of the token builder is a slice of the input that starts right
after a quote and, unless it is empty, ends right before a quote. -/
theorem string_token_slice (json : List Char) (tok : Token)
    (hm : tok ∈ parseJsonWithIndex json (find_structurals json))
    (ht : tok.type = TokenType.String) :
    ∃ pre post, json = pre ++ '"' :: (tok.value ++ post)
      ∧ (tok.value = [] ∨ ∃ post2, post = '"' :: post2) := by
  rw [parseJsonWithIndex_eq] at hm
  obtain ⟨pre, post, h1, h2⟩ := structTokens_string_slice _ tok hm ht
  refine ⟨json.takeWhile plainChar ++ pre, post, ?_, h2⟩
  rw [List.append_assoc, ← h1, List.takeWhile_append_dropWhile]

end Indexed

namespace ListView

theorem number_progress (l : List Char) (hn : hd l = '-' ∨ isdigit (hd l) = true) :
    1 ≤ (number l).2 := by
  unfold number
  by_cases hm : hd l = '-'
  · rw [if_pos hm]; show 1 ≤ 1 + _; omega
  · rw [if_neg hm]
    have hd1 : isdigit (hd l) = true := by
      rcases hn with h | h
      · exact absurd h hm
      · exact h
    unfold digits
    rw [if_pos hd1]
    by_cases hz : hd l = '0'
    · rw [if_pos hz]; show 1 ≤ 1 + _; omega
    · rw [if_neg hz]
      have := takeWhile_ne_nil_of_hd Baseline.isdigit_NUL hd1
      have hlen : 1 ≤ (l.takeWhile isdigit).length := by
        cases hx : l.takeWhile isdigit with
        | nil => exact absurd hx this
        | cons a b => simp
      show 1 ≤ _ + _
      omega

theorem string_progress (l : List Char) : 1 ≤ (string l).2 := by
  unfold string
  split_ifs
  · show 1 ≤ 1 + _; omega
  · show 1 ≤ 1 + _; omega
  · show 1 ≤ 1 + _; omega

/-- Every token other than EndOfFile consumes at least one character. -/
theorem token_progress (l : List Char) (h : (token l).1.type ≠ TokenType.EndOfFile) :
    1 ≤ (token l).2 := by
  unfold token at h ⊢
  by_cases h0 : hd l = NUL
  · rw [if_pos h0] at h; exact absurd rfl h
  rw [if_neg h0]
  by_cases p1 : hd l = '{'
  · rw [if_pos p1]
  rw [if_neg p1]
  by_cases p2 : hd l = '}'
  · rw [if_pos p2]
  rw [if_neg p2]
  by_cases p3 : hd l = '['
  · rw [if_pos p3]
  rw [if_neg p3]
  by_cases p4 : hd l = ']'
  · rw [if_pos p4]
  rw [if_neg p4]
  by_cases p5 : hd l = ':'
  · rw [if_pos p5]
  rw [if_neg p5]
  by_cases p6 : hd l = ','
  · rw [if_pos p6]
  rw [if_neg p6]
  by_cases hal : isalpha (hd l) = true
  · have := takeWhile_ne_nil_of_hd Baseline.isalpha_NUL hal
    have hlen : 1 ≤ (l.takeWhile isalpha).length := by
      cases hx : l.takeWhile isalpha with
      | nil => exact absurd hx this
      | cons a b => simp
    rw [if_pos hal]
    split_ifs <;> exact hlen
  rw [if_neg hal]
  by_cases hn : hd l = '-' ∨ isdigit (hd l) = true
  · rw [if_pos hn]
    exact number_progress l hn
  rw [if_neg hn]
  by_cases hq : hd l = '"'
  · rw [if_pos hq]; exact string_progress l
  · rw [if_neg hq]

/-- The tokenizer returns EndOfFile only at a NUL or at the end of the text. -/
theorem token_eof {l : List Char} (h : (token l).1.type = TokenType.EndOfFile) : hd l = NUL := by
  by_contra h0
  unfold token at h
  rw [if_neg h0] at h
  by_cases hal : isalpha (hd l) = true
  · rw [if_pos hal] at h
    split_ifs at h
  rw [if_neg hal] at h
  by_cases hn : hd l = '-' ∨ isdigit (hd l) = true
  · rw [if_pos hn] at h
    have := number_type l
    split_ifs at h
    all_goals (rcases this with h3 | h3 <;> rw [h3] at h <;> cases h)
  rw [if_neg hn] at h
  have := string_type l
  split_ifs at h
  all_goals (rcases this with h3 | h3 <;> rw [h3] at h <;> cases h)

theorem lex_progress (l : List Char) (h : (lex l).1.type ≠ TokenType.EndOfFile) :
    1 ≤ (lex l).2 := by
  unfold lex at h ⊢
  have := token_progress _ h
  show 1 ≤ _ + _
  omega

end ListView

namespace IndexView
open ListView

theorem ixLex_nil : ixLex [] = [] := by
  unfold ixLex
  rw [List.takeWhile_nil, List.dropWhile_nil, gapTokens_nil, structTokens_nil]
  rfl

theorem ixLex_dropWhile_space (l : List Char) : ixLex (l.dropWhile isspace) = ixLex l := by
  conv_rhs => rw [← List.takeWhile_append_dropWhile isspace l]
  rw [ixLex_append_ws _ (fun c hc => List.mem_takeWhile_imp hc)]

/-- On a text without NUL, the token builder derives no token where the tokenizer
returns EndOfFile. -/
theorem ixLex_of_eof (l : List Char) (hnul : ∀ c ∈ l, c ≠ NUL)
    (h : (lex l).1.type = TokenType.EndOfFile) : ixLex l = [] := by
  unfold lex at h
  have h0 := token_eof h
  rw [← ixLex_dropWhile_space]
  cases hx : l.dropWhile isspace with
  | nil => exact ixLex_nil
  | cons c r =>
    rw [hx, hd_cons] at h0
    have hc : c ∈ l := (List.dropWhile_sublist _).subset (by rw [hx]; exact List.mem_cons_self _ _)
    exact absurd h0 (hnul c hc)

/-- One `nextToken` of the Baseline tokenizer against the token builder, on the
unread text. -/
theorem ixLex_lex_step (l : List Char) (hnul : ∀ c ∈ l, c ≠ NUL) (hbs : ∀ c ∈ l, c ≠ '\\')
    (h1 : (lex l).1.type ≠ TokenType.EndOfFile) (h2 : (lex l).1.type ≠ TokenType.Invalid)
    (hnum : (lex l).1.type = TokenType.Number → numClass (hd (l.drop (lex l).2)) = false)
    (hstr : (lex l).1.type = TokenType.String
      → startsGapToken (hd (l.drop (lex l).2)) = false) :
    ixLex l = (lex l).1 :: ixLex (l.drop (lex l).2) := by
  have hdrop : l.drop (lex l).2 = (l.dropWhile isspace).drop (token (l.dropWhile isspace)).2 := by
    unfold lex
    show l.drop (_ + _) = _
    rw [← List.drop_drop, Baseline.drop_takeWhile_length]
  rw [hdrop] at hnum hstr ⊢
  have hsub : ∀ c ∈ l.dropWhile isspace, c ∈ l := fun c hc =>
    (List.dropWhile_sublist _).subset hc
  rw [← ixLex_dropWhile_space l]
  exact ixLex_token_step _ (fun c hc => hnul c (hsub c hc)) (fun c hc => hbs c (hsub c hc))
    h1 h2 hnum hstr

end IndexView

namespace Baseline
open ListView IndexView

theorem nextToken_progress (input : List Char) (pos : Nat)
    (h : (nextToken input pos).1.type ≠ TokenType.EndOfFile) :
    pos + 1 ≤ (nextToken input pos).2 ∧ pos < input.length := by
  rw [nextToken_eq] at h ⊢
  have := lex_progress _ h
  refine ⟨by show _ ≤ _ + _; omega, ?_⟩
  by_contra hlt
  have hnil : input.drop pos = [] := List.drop_eq_nil_of_le (by omega)
  rw [hnil] at h
  exact h rfl

/-- The run of `nextToken` calls ends at EndOfFile, not with the fuel: any two
amounts of fuel that cover the unread text give the same run. -/
theorem tokenRun_fuel (input : List Char) :
    ∀ (fuel1 fuel2 pos : Nat), input.length + 1 ≤ fuel1 + pos → input.length + 1 ≤ fuel2 + pos →
      tokenRun input fuel1 pos = tokenRun input fuel2 pos := by
  intro fuel1
  induction fuel1 with
  | zero =>
    intro fuel2 pos h1 h2
    have hnil : input.drop pos = [] := List.drop_eq_nil_of_le (by omega)
    have heof : (nextToken input pos).1.type = TokenType.EndOfFile := by
      rw [nextToken_eq, hnil]; rfl
    cases fuel2 with
    | zero => rfl
    | succ f2 => rw [tokenRun, tokenRun, if_pos heof]
  | succ f1 ih =>
    intro fuel2 pos h1 h2
    by_cases heof : (nextToken input pos).1.type = TokenType.EndOfFile
    · cases fuel2 with
      | zero => rw [tokenRun, tokenRun, if_pos heof]
      | succ f2 => rw [tokenRun, tokenRun, if_pos heof, if_pos heof]
    · have hp := nextToken_progress input pos heof
      cases fuel2 with
      | zero => omega
      | succ f2 =>
        rw [tokenRun, tokenRun, if_neg heof, if_neg heof, ih f2 _ (by omega) (by omega)]

/-- On a text without NUL and without backslash, the token builder, started in a
gap at the cursor, derives the tokens of the run of `nextToken` calls, provided
that no token of the run is Invalid, no Number token is directly followed by a
character of a number, and no String token by a character that starts a gap
token. -/
theorem tokenRun_ixLex (input : List Char) (hnul : ∀ c ∈ input, c ≠ NUL)
    (hbs : ∀ c ∈ input, c ≠ '\\') :
    ∀ (fuel pos : Nat), input.length + 1 ≤ fuel + pos →
      (∀ p ∈ tokenRun input fuel pos, p.1.type ≠ TokenType.Invalid) →
      (∀ p ∈ tokenRun input fuel pos, p.1.type = TokenType.Number →
        numClass (input.getD p.2 NUL) = false) →
      (∀ p ∈ tokenRun input fuel pos, p.1.type = TokenType.String →
        startsGapToken (input.getD p.2 NUL) = false) →
      ixLex (input.drop pos) = (tokenRun input fuel pos).map Prod.fst := by
  intro fuel
  induction fuel with
  | zero =>
    intro pos h1 _ _ _
    have hnil : input.drop pos = [] := List.drop_eq_nil_of_le (by omega)
    rw [hnil, tokenRun]
    exact ixLex_nil
  | succ f ih =>
    intro pos h1 hinv hnum hstr
    have hsub : ∀ c ∈ input.drop pos, c ∈ input := fun c hc => List.mem_of_mem_drop hc
    by_cases heof : (nextToken input pos).1.type = TokenType.EndOfFile
    · rw [tokenRun, if_pos heof]
      rw [nextToken_eq] at heof
      exact ixLex_of_eof _ (fun c hc => hnul c (hsub c hc)) heof
    · have hp := nextToken_progress input pos heof
      rw [tokenRun, if_neg heof] at hinv hnum hstr ⊢
      have hhead := List.mem_cons_self (nextToken input pos)
        (tokenRun input f (nextToken input pos).2)
      have htail : ∀ p ∈ tokenRun input f (nextToken input pos).2,
          p ∈ nextToken input pos :: tokenRun input f (nextToken input pos).2 :=
        fun p hp => List.mem_cons_of_mem _ hp
      have e1 : (nextToken input pos).1 = (lex (input.drop pos)).1 := by rw [nextToken_eq]
      have e2 : (nextToken input pos).2 = pos + (lex (input.drop pos)).2 := by rw [nextToken_eq]
      have e3 : (input.drop pos).drop (lex (input.drop pos)).2
          = input.drop (nextToken input pos).2 := by
        rw [e2, List.drop_drop, Nat.add_comm]
      rw [List.map_cons, ← ih _ (by omega) (fun p hp => hinv p (htail p hp))
        (fun p hp => hnum p (htail p hp)) (fun p hp => hstr p (htail p hp)), e1, ← e3]
      refine ixLex_lex_step _ (fun c hc => hnul c (hsub c hc)) (fun c hc => hbs c (hsub c hc))
        (by rw [← e1]; exact heof) (by rw [← e1]; exact hinv _ hhead) ?_ ?_
      · intro hty
        rw [e3, ← Indexed.getD_eq_hd_drop]
        exact hnum _ hhead (by rw [e1]; exact hty)
      · intro hty
        rw [e3, ← Indexed.getD_eq_hd_drop]
        exact hstr _ hhead (by rw [e1]; exact hty)

end Baseline

namespace IndexView
open ListView

theorem gapTokens_of_space (ws : List Char) (h : ∀ c ∈ ws, isspace c = true) :
    gapTokens ws = [] := by
  induction ws with
  | nil => exact gapTokens_nil
  | cons c r ih =>
    rw [gapTokens_cons_space _ (h c (List.mem_cons_self _ _)),
      ih (fun x hx => h x (List.mem_cons_of_mem _ hx))]

end IndexView

namespace Indexed
open IndexView

/-- When only whitespace precedes the first structural character, the token
builder derives the tokens of the whole text. -/
theorem parseJsonWithIndex_eq_ixLex (json : List Char)
    (h : ∀ c ∈ json.takeWhile plainChar, isspace c = true) :
    parseJsonWithIndex json (find_structurals json) = ixLex json := by
  rw [parseJsonWithIndex_eq]
  unfold ixLex
  rw [gapTokens_of_space _ h, List.nil_append]

end Indexed

namespace ListView

/-- A token that separates or closes is read at its character. -/
theorem token_separator_hd {l : List Char}
    (h : (token l).1.type = TokenType.Colon ∨ (token l).1.type = TokenType.Comma
      ∨ (token l).1.type = TokenType.RightBrace ∨ (token l).1.type = TokenType.RightBracket) :
    hd l = ':' ∨ hd l = ',' ∨ hd l = '}' ∨ hd l = ']' := by
  by_cases p2 : hd l = '}'
  · exact Or.inr (Or.inr (Or.inl p2))
  by_cases p4 : hd l = ']'
  · exact Or.inr (Or.inr (Or.inr p4))
  by_cases p5 : hd l = ':'
  · exact Or.inl p5
  by_cases p6 : hd l = ','
  · exact Or.inr (Or.inl p6)
  exfalso
  unfold token at h
  rw [if_neg p2, if_neg p4, if_neg p5, if_neg p6] at h
  by_cases h0 : hd l = NUL
  · rw [if_pos h0] at h
    rcases h with h | h | h | h <;> cases h
  rw [if_neg h0] at h
  by_cases p1 : hd l = '{'
  · rw [if_pos p1] at h
    rcases h with h | h | h | h <;> cases h
  rw [if_neg p1] at h
  by_cases p3 : hd l = '['
  · rw [if_pos p3] at h
    rcases h with h | h | h | h <;> cases h
  rw [if_neg p3] at h
  by_cases hal : isalpha (hd l) = true
  · rw [if_pos hal] at h
    split_ifs at h <;> rcases h with h | h | h | h <;> cases h
  rw [if_neg hal] at h
  by_cases hn : hd l = '-' ∨ isdigit (hd l) = true
  · rw [if_pos hn] at h
    rcases number_type l with h3 | h3 <;> rw [h3] at h <;> rcases h with h | h | h | h <;> cases h
  rw [if_neg hn] at h
  by_cases hq : hd l = '"'
  · rw [if_pos hq] at h
    rcases string_type l with h3 | h3 <;> rw [h3] at h <;> rcases h with h | h | h | h <;> cases h
  · rw [if_neg hq] at h
    rcases h with h | h | h | h <;> cases h

end ListView

namespace IndexView
open ListView

theorem stop_of_isspace {c : Char} (h : isspace c = true) :
    numClass c = false ∧ startsGapToken c = false := by
  unfold isspace at h
  simp only [Bool.or_eq_true, decide_eq_true_eq] at h
  rcases h with ((((h | h) | h) | h) | h) | h <;> subst h <;> exact ⟨by decide, by decide⟩

/-- The character before a token that separates or closes, whitespace skipped,
ends a Number and starts no gap token. -/
theorem stop_of_separator (l : List Char)
    (h : (lex l).1.type = TokenType.Colon ∨ (lex l).1.type = TokenType.Comma
      ∨ (lex l).1.type = TokenType.RightBrace ∨ (lex l).1.type = TokenType.RightBracket) :
    numClass (hd l) = false ∧ startsGapToken (hd l) = false := by
  unfold lex at h
  have hh := token_separator_hd h
  cases l with
  | nil => exact ⟨by decide, by decide⟩
  | cons c r =>
    by_cases hsp : isspace c = true
    · exact stop_of_isspace hsp
    · rw [List.dropWhile_cons_of_neg hsp, hd_cons] at hh
      rw [hd_cons]
      rcases hh with h | h | h | h <;> subst h <;> exact ⟨by decide, by decide⟩

end IndexView

section
open ListView IndexView

theorem getElem?_of_drop_cons {T : List Token} {idx : Nat} {a : Token} {rest : List Token}
    (h : T.drop idx = a :: rest) : T[idx]? = some a ∧ T.drop (idx + 1) = rest := by
  constructor
  · have := congrArg (fun l => l[0]?) h
    simpa using this
  · have := congrArg List.tail h
    simpa using this

/-- The Indexed parser finds the lookahead token of the Baseline parser at its
index, and the states agree again once both have moved past it. -/
theorem agree_consume {input : List Char} {T : List Token} {p : Baseline.Parser} {idx : Nat}
    (hnul : ∀ c ∈ input, c ≠ NUL) (hbs : ∀ c ∈ input, c ≠ '\\')
    (ha : StatesAgree input T p idx)
    (h1 : p.current.type ≠ TokenType.EndOfFile) (h2 : p.current.type ≠ TokenType.Invalid)
    (hf : FollowOK input p) :
    T[idx]? = some p.current ∧ StatesAgree input T (Baseline.advance input p) (idx + 1) := by
  obtain ⟨k, hk, hT⟩ := ha
  have e := Baseline.nextToken_eq input k
  rw [hk] at e
  have e1 : p.current = (lex (input.drop k)).1 := congrArg Prod.fst e
  have e2 : p.pos = k + (lex (input.drop k)).2 := congrArg Prod.snd e
  have e3 : (input.drop k).drop (lex (input.drop k)).2 = input.drop p.pos := by
    rw [e2, List.drop_drop, Nat.add_comm]
  have hsub : ∀ c ∈ input.drop k, c ∈ input := fun c hc => List.mem_of_mem_drop hc
  have hstep := ixLex_lex_step (input.drop k) (fun c hc => hnul c (hsub c hc))
    (fun c hc => hbs c (hsub c hc)) (by rw [← e1]; exact h1) (by rw [← e1]; exact h2)
    (by intro hty; rw [e3]; exact hf.1 (by rw [e1]; exact hty))
    (by intro hty; rw [e3]; exact hf.2 (by rw [e1]; exact hty))
  rw [e3, ← e1] at hstep
  obtain ⟨g1, g2⟩ := getElem?_of_drop_cons (hT.trans hstep)
  exact ⟨g1, p.pos, rfl, g2⟩

/-- A separator or closing token as the next token makes the lookahead token end
for the token builder too. -/
theorem followOK_of_separator {input : List Char} {p : Baseline.Parser}
    (h : (Baseline.advance input p).current.type = TokenType.Colon
      ∨ (Baseline.advance input p).current.type = TokenType.Comma
      ∨ (Baseline.advance input p).current.type = TokenType.RightBrace
      ∨ (Baseline.advance input p).current.type = TokenType.RightBracket) :
    FollowOK input p := by
  have e : (Baseline.advance input p).current = (lex (input.drop p.pos)).1 := by
    unfold Baseline.advance
    rw [Baseline.nextToken_eq]
  rw [e] at h
  have := stop_of_separator _ h
  exact ⟨fun _ => this.1, fun _ => this.2⟩

theorem followOK_of_type {input : List Char} {p : Baseline.Parser}
    (h1 : p.current.type ≠ TokenType.Number) (h2 : p.current.type ≠ TokenType.String) :
    FollowOK input p :=
  ⟨fun h => absurd h h1, fun h => absurd h h2⟩

namespace Baseline

/-- A scalar value is returned with the parser advanced by one token. -/
theorem parseValue_scalar {input : List Char} {fuel : Nat} {p : Parser} {v : JsonValue}
    {q : Parser} (h : parseValue input fuel p = .ok (v, q))
    (hty : p.current.type = TokenType.Number ∨ p.current.type = TokenType.String) :
    q = advance input p := by
  cases fuel with
  | zero => rw [parseValue] at h; cases h
  | succ f =>
    rw [parseValue] at h
    rcases hty with hty | hty
    · rw [hty] at h
      simp only [] at h
      cases hs : stod p.current.value with
      | none => rw [hs] at h; cases h
      | some d =>
        rw [hs] at h
        simp only [Except.ok.injEq, Prod.mk.injEq] at h
        exact h.2.symm
    · rw [hty] at h
      simp only [Except.ok.injEq, Prod.mk.injEq] at h
      exact h.2.symm

end Baseline

end

namespace Indexed

theorem peek_of {T : List Token} {idx : Nat} {t : Token} (h : T[idx]? = some t) :
    peek T idx = .ok t := by
  unfold peek
  rw [h]

theorem get_of {T : List Token} {idx : Nat} {t : Token} (h : T[idx]? = some t) :
    get T idx = .ok (t, idx + 1) := by
  unfold get
  rw [h]

theorem parseValue_string {T : List Token} {idx : Nat} {t : Token} (fuel : Nat)
    (h : T[idx]? = some t) (hty : t.type = TokenType.String) :
    parseValue T (fuel + 1) idx = .ok (.mk .String t.value [] [], idx + 1) := by
  rw [parseValue, peek_of h]
  simp only []
  rw [if_pos hty, get_of h]

theorem parseValue_number {T : List Token} {idx : Nat} {t : Token} (fuel : Nat)
    (h : T[idx]? = some t) (hty : t.type = TokenType.Number) :
    parseValue T (fuel + 1) idx = .ok (.mk .Number t.value [] [], idx + 1) := by
  rw [parseValue, peek_of h]
  simp only []
  rw [if_neg (by rw [hty]; decide), if_pos hty, get_of h]

theorem parseValue_true {T : List Token} {idx : Nat} {t : Token} (fuel : Nat)
    (h : T[idx]? = some t) (hty : t.type = TokenType.True) :
    parseValue T (fuel + 1) idx = .ok (.mk .True ['t', 'r', 'u', 'e'] [] [], idx + 1) := by
  rw [parseValue, peek_of h]
  simp only []
  rw [if_neg (by rw [hty]; decide), if_neg (by rw [hty]; decide), if_pos hty, get_of h]

theorem parseValue_false {T : List Token} {idx : Nat} {t : Token} (fuel : Nat)
    (h : T[idx]? = some t) (hty : t.type = TokenType.False) :
    parseValue T (fuel + 1) idx = .ok (.mk .False ['f', 'a', 'l', 's', 'e'] [] [], idx + 1) := by
  rw [parseValue, peek_of h]
  simp only []
  rw [if_neg (by rw [hty]; decide), if_neg (by rw [hty]; decide), if_neg (by rw [hty]; decide),
    if_pos hty, get_of h]

theorem parseValue_null {T : List Token} {idx : Nat} {t : Token} (fuel : Nat)
    (h : T[idx]? = some t) (hty : t.type = TokenType.Null) :
    parseValue T (fuel + 1) idx = .ok (.mk .Null ['n', 'u', 'l', 'l'] [] [], idx + 1) := by
  rw [parseValue, peek_of h]
  simp only []
  rw [if_neg (by rw [hty]; decide), if_neg (by rw [hty]; decide), if_neg (by rw [hty]; decide),
    if_neg (by rw [hty]; decide), if_pos hty, get_of h]

theorem parseValue_object {T : List Token} {idx : Nat} {t : Token} (fuel : Nat)
    (h : T[idx]? = some t) (hty : t.type = TokenType.LeftBrace) :
    parseValue T (fuel + 1) idx = parseObject T fuel idx := by
  rw [parseValue, peek_of h]
  simp only []
  rw [if_neg (by rw [hty]; decide), if_neg (by rw [hty]; decide), if_neg (by rw [hty]; decide),
    if_neg (by rw [hty]; decide), if_neg (by rw [hty]; decide), if_pos hty]

theorem parseValue_array {T : List Token} {idx : Nat} {t : Token} (fuel : Nat)
    (h : T[idx]? = some t) (hty : t.type = TokenType.LeftBracket) :
    parseValue T (fuel + 1) idx = parseArray T fuel idx := by
  rw [parseValue, peek_of h]
  simp only []
  rw [if_neg (by rw [hty]; decide), if_neg (by rw [hty]; decide), if_neg (by rw [hty]; decide),
    if_neg (by rw [hty]; decide), if_neg (by rw [hty]; decide), if_neg (by rw [hty]; decide),
    if_pos hty]

theorem parseObject_of_loop {T : List Token} {idx idx2 : Nat} {t t2 : Token} (fuel : Nat)
    {o : List (List Char × Node)} (h : T[idx]? = some t)
    (hl : parseObjectLoop T fuel (idx + 1) [] = .ok (o, idx2)) (h2 : T[idx2]? = some t2) :
    parseObject T (fuel + 1) idx = .ok (.mk .Object [] o [], idx2 + 1) := by
  rw [parseObject, get_of h]
  simp only []
  rw [hl]
  simp only []
  rw [get_of h2]

theorem parseArray_of_loop {T : List Token} {idx idx2 : Nat} {t t2 : Token} (fuel : Nat)
    {a : List Node} (h : T[idx]? = some t)
    (hl : parseArrayLoop T fuel (idx + 1) [] = .ok (a, idx2)) (h2 : T[idx2]? = some t2) :
    parseArray T (fuel + 1) idx = .ok (.mk .Array [] [] a, idx2 + 1) := by
  rw [parseArray, get_of h]
  simp only []
  rw [hl]
  simp only []
  rw [get_of h2]

theorem parseObjectLoop_close {T : List Token} {idx : Nat} {t : Token} (fuel : Nat)
    (obj : List (List Char × Node)) (h : T[idx]? = some t)
    (hty : t.type = TokenType.RightBrace) :
    parseObjectLoop T (fuel + 1) idx obj = .ok (obj, idx) := by
  rw [parseObjectLoop, peek_of h]
  simp only []
  rw [if_neg (by rw [hty]; exact fun h => h rfl)]

theorem parseArrayLoop_close {T : List Token} {idx : Nat} {t : Token} (fuel : Nat)
    (arr : List Node) (h : T[idx]? = some t) (hty : t.type = TokenType.RightBracket) :
    parseArrayLoop T (fuel + 1) idx arr = .ok (arr, idx) := by
  rw [parseArrayLoop, peek_of h]
  simp only []
  rw [if_neg (by rw [hty]; exact fun h => h rfl)]

theorem parseObjectLoop_entry {T : List Token} {idx idx3 : Nat} {key colon t2 : Token}
    {n : Node} (fuel : Nat) (obj : List (List Char × Node)) (h : T[idx]? = some key)
    (hty : key.type ≠ TokenType.RightBrace) (hc : T[idx + 1]? = some colon)
    (hv : parseValue T fuel (idx + 2) = .ok (n, idx3)) (h2 : T[idx3]? = some t2) :
    parseObjectLoop T (fuel + 1) idx obj
      = if t2.type = TokenType.Comma then
          parseObjectLoop T fuel (idx3 + 1) (obj ++ [(key.value, n)])
        else parseObjectLoop T fuel idx3 (obj ++ [(key.value, n)]) := by
  rw [parseObjectLoop, peek_of h]
  simp only []
  rw [if_pos hty, get_of h]
  simp only []
  rw [get_of hc]
  simp only []
  rw [hv]
  simp only []
  rw [peek_of h2]
  simp only []
  rw [get_of h2]

theorem parseArrayLoop_entry {T : List Token} {idx idx3 : Nat} {t t2 : Token}
    {n : Node} (fuel : Nat) (arr : List Node) (h : T[idx]? = some t)
    (hty : t.type ≠ TokenType.RightBracket)
    (hv : parseValue T fuel idx = .ok (n, idx3)) (h2 : T[idx3]? = some t2) :
    parseArrayLoop T (fuel + 1) idx arr
      = if t2.type = TokenType.Comma then parseArrayLoop T fuel (idx3 + 1) (arr ++ [n])
        else parseArrayLoop T fuel idx3 (arr ++ [n]) := by
  rw [parseArrayLoop, peek_of h]
  simp only []
  rw [if_pos hty, hv]
  simp only []
  rw [peek_of h2]
  simp only []
  rw [get_of h2]

end Indexed

namespace Indexed

theorem toJsonList_append {arr : List Node} {a : List JsonValue} {n : Node} {v : JsonValue}
    (h : toJsonList arr = some a) (hn : n.toJson = some v) :
    toJsonList (arr ++ [n]) = some (a ++ [v]) := by
  induction arr generalizing a with
  | nil =>
    rw [toJsonList] at h
    cases h
    rw [List.nil_append, toJsonList, hn, toJsonList]
    rfl
  | cons m ms ih =>
    rw [toJsonList] at h
    cases hm : m.toJson with
    | none => rw [hm] at h; cases h
    | some w =>
      cases hms : toJsonList ms with
      | none => rw [hm, hms] at h; cases h
      | some ws =>
        rw [hm, hms] at h
        cases h
        rw [List.cons_append, toJsonList, hm, ih hms]
        rfl

theorem toJsonFields_append {obj : List (List Char × Node)}
    {o : List (List Char × JsonValue)} {k : List Char} {n : Node} {v : JsonValue}
    (h : toJsonFields obj = some o) (hn : n.toJson = some v) :
    toJsonFields (obj ++ [(k, n)]) = some (o ++ [(k, v)]) := by
  induction obj generalizing o with
  | nil =>
    rw [toJsonFields] at h
    cases h
    rw [List.nil_append, toJsonFields, hn, toJsonFields]
    rfl
  | cons m ms ih =>
    obtain ⟨mk, mn⟩ := m
    rw [toJsonFields] at h
    cases hm : mn.toJson with
    | none => rw [hm] at h; cases h
    | some w =>
      cases hms : toJsonFields ms with
      | none => rw [hm, hms] at h; cases h
      | some ws =>
        rw [hm, hms] at h
        cases h
        rw [List.cons_append, toJsonFields, hm, ih hms]
        rfl

end Indexed

theorem fieldsDenote_nil : FieldsDenote [] [] := rfl

theorem fieldsDenote_append {obj : List (List Char × Indexed.Node)}
    {o : List (List Char × JsonValue)} {k : List Char} {n : Indexed.Node} {v : JsonValue}
    (h : FieldsDenote obj o) (hn : n.toJson = some v) :
    FieldsDenote (obj ++ [(k, n)]) (Baseline.assign o k v) := by
  unfold FieldsDenote at h ⊢
  cases hf : Indexed.toJsonFields obj with
  | none => rw [hf] at h; cases h
  | some fs =>
    rw [hf] at h
    rw [Indexed.toJsonFields_append hf hn]
    simp only [Option.map_some', Option.some.injEq] at h ⊢
    rw [List.foldl_append, h]
    rfl

theorem toJson_object {obj : List (List Char × Indexed.Node)}
    {o : List (List Char × JsonValue)} (h : FieldsDenote obj o) :
    (Indexed.Node.mk .Object [] obj []).toJson = some (.object o) := by
  unfold FieldsDenote at h
  rw [Indexed.Node.toJson]
  cases hf : Indexed.toJsonFields obj with
  | none => rw [hf] at h; cases h
  | some fs =>
    rw [hf] at h
    simp only [Option.map_some', Option.some.injEq] at h ⊢
    rw [h]

theorem toJson_array {arr : List Indexed.Node} {a : List JsonValue}
    (h : Indexed.toJsonList arr = some a) :
    (Indexed.Node.mk .Array [] [] arr).toJson = some (.array a) := by
  rw [Indexed.Node.toJson, h]
  rfl

namespace Baseline

/-- The lookahead token on which `parseValue` returns a value starts a value. -/
theorem parseValue_ok_type {input : List Char} {fuel : Nat} {p : Parser} {v : JsonValue}
    {q : Parser} (h : parseValue input fuel p = .ok (v, q)) :
    p.current.type ≠ TokenType.RightBracket ∧ p.current.type ≠ TokenType.RightBrace
      ∧ p.current.type ≠ TokenType.EndOfFile ∧ p.current.type ≠ TokenType.Invalid := by
  cases fuel with
  | zero => rw [parseValue] at h; cases h
  | succ f =>
    rw [parseValue] at h
    cases hty : p.current.type <;> rw [hty] at h <;> simp only [] at h
    all_goals first
      | exact ⟨by decide, by decide, by decide, by decide⟩
      | cases h

end Baseline

section
open ListView IndexView

/-- The five functions of the two parsers side by side. Whenever a function of the
Baseline parser returns on states that agree, the function of the Indexed parser
returns with one more unit of fuel, the node denotes the Baseline value, and the
states agree again. -/
theorem parsers_agree (input : List Char) (T : List Token)
    (hnul : ∀ c ∈ input, c ≠ NUL) (hbs : ∀ c ∈ input, c ≠ '\\') (fuel : Nat) :
    (∀ p idx v q, StatesAgree input T p idx → FollowOK input p →
        Baseline.parseValue input fuel p = .ok (v, q) →
        ∃ n idx2, Indexed.parseValue T (fuel + 1) idx = .ok (n, idx2)
          ∧ n.toJson = some v ∧ StatesAgree input T q idx2)
    ∧ (∀ p idx o q, StatesAgree input T p idx → p.current.type = TokenType.LeftBrace →
        Baseline.parseObject input fuel p = .ok (o, q) →
        ∃ n idx2, Indexed.parseObject T (fuel + 1) idx = .ok (n, idx2)
          ∧ n.toJson = some (.object o) ∧ StatesAgree input T q idx2)
    ∧ (∀ p idx obj obj2 o q, StatesAgree input T p idx → FieldsDenote obj2 obj →
        Baseline.parseObjectLoop input fuel p obj = .ok (o, q) →
        ∃ o2 idx2 t, Indexed.parseObjectLoop T (fuel + 1) idx obj2 = .ok (o2, idx2)
          ∧ FieldsDenote o2 o ∧ T[idx2]? = some t ∧ StatesAgree input T q (idx2 + 1))
    ∧ (∀ p idx a q, StatesAgree input T p idx → p.current.type = TokenType.LeftBracket →
        Baseline.parseArray input fuel p = .ok (a, q) →
        ∃ n idx2, Indexed.parseArray T (fuel + 1) idx = .ok (n, idx2)
          ∧ n.toJson = some (.array a) ∧ StatesAgree input T q idx2)
    ∧ (∀ p idx arr arr2 a q, StatesAgree input T p idx → Indexed.toJsonList arr2 = some arr →
        Baseline.parseArrayLoop input fuel p arr = .ok (a, q) →
        ∃ a2 idx2 t, Indexed.parseArrayLoop T (fuel + 1) idx arr2 = .ok (a2, idx2)
          ∧ Indexed.toJsonList a2 = some a ∧ T[idx2]? = some t
          ∧ StatesAgree input T q (idx2 + 1)) := by
  induction fuel with
  | zero =>
    refine ⟨?_, ?_, ?_, ?_, ?_⟩
    · intro p idx v q _ _ h
      rw [Baseline.parseValue] at h; cases h
    · intro p idx o q _ _ h
      rw [Baseline.parseObject] at h; cases h
    · intro p idx obj obj2 o q _ _ h
      rw [Baseline.parseObjectLoop] at h; cases h
    · intro p idx a q _ _ h
      rw [Baseline.parseArray] at h; cases h
    · intro p idx arr arr2 a q _ _ h
      rw [Baseline.parseArrayLoop] at h; cases h
  | succ f ih =>
    obtain ⟨ihV, ihO, ihOL, ihA, ihAL⟩ := ih
    refine ⟨?_, ?_, ?_, ?_, ?_⟩
    · -- parseValue
      intro p idx v q ha hf h
      have hok := Baseline.parseValue_ok_type h
      obtain ⟨hT, hA⟩ := agree_consume hnul hbs ha hok.2.2.1 hok.2.2.2 hf
      rw [Baseline.parseValue] at h
      cases hty : p.current.type with
      | String =>
        rw [hty] at h
        simp only [Except.ok.injEq, Prod.mk.injEq] at h
        obtain ⟨hv, hq⟩ := h
        subst hv; subst hq
        exact ⟨_, _, Indexed.parseValue_string (f + 1) hT hty, by rw [Indexed.Node.toJson], hA⟩
      | Number =>
        rw [hty] at h
        simp only [] at h
        cases hs : stod p.current.value with
        | none => rw [hs] at h; cases h
        | some d =>
          rw [hs] at h
          simp only [Except.ok.injEq, Prod.mk.injEq] at h
          obtain ⟨hv, hq⟩ := h
          subst hv; subst hq
          exact ⟨_, _, Indexed.parseValue_number (f + 1) hT hty,
            by rw [Indexed.Node.toJson, hs]; rfl, hA⟩
      | True =>
        rw [hty] at h
        simp only [Except.ok.injEq, Prod.mk.injEq] at h
        obtain ⟨hv, hq⟩ := h
        subst hv; subst hq
        exact ⟨_, _, Indexed.parseValue_true (f + 1) hT hty, by rw [Indexed.Node.toJson], hA⟩
      | False =>
        rw [hty] at h
        simp only [Except.ok.injEq, Prod.mk.injEq] at h
        obtain ⟨hv, hq⟩ := h
        subst hv; subst hq
        exact ⟨_, _, Indexed.parseValue_false (f + 1) hT hty, by rw [Indexed.Node.toJson], hA⟩
      | Null =>
        rw [hty] at h
        simp only [Except.ok.injEq, Prod.mk.injEq] at h
        obtain ⟨hv, hq⟩ := h
        subst hv; subst hq
        exact ⟨_, _, Indexed.parseValue_null (f + 1) hT hty, by rw [Indexed.Node.toJson], hA⟩
      | LeftBrace =>
        rw [hty] at h
        simp only [] at h
        cases ho : Baseline.parseObject input f p with
        | error e => rw [ho] at h; cases h
        | ok r =>
          obtain ⟨o, q2⟩ := r
          rw [ho] at h
          simp only [Except.ok.injEq, Prod.mk.injEq] at h
          obtain ⟨hv, hq⟩ := h
          subst hv; subst hq
          obtain ⟨n, idx2, h1, h2, h3⟩ := ihO p idx o q2 ha hty ho
          exact ⟨n, idx2, by rw [Indexed.parseValue_object (f + 1) hT hty]; exact h1, h2, h3⟩
      | LeftBracket =>
        rw [hty] at h
        simp only [] at h
        cases ho : Baseline.parseArray input f p with
        | error e => rw [ho] at h; cases h
        | ok r =>
          obtain ⟨o, q2⟩ := r
          rw [ho] at h
          simp only [Except.ok.injEq, Prod.mk.injEq] at h
          obtain ⟨hv, hq⟩ := h
          subst hv; subst hq
          obtain ⟨n, idx2, h1, h2, h3⟩ := ihA p idx o q2 ha hty ho
          exact ⟨n, idx2, by rw [Indexed.parseValue_array (f + 1) hT hty]; exact h1, h2, h3⟩
      | RightBrace => rw [hty] at h; cases h
      | RightBracket => rw [hty] at h; cases h
      | Colon => rw [hty] at h; cases h
      | Comma => rw [hty] at h; cases h
      | EndOfFile => rw [hty] at h; cases h
      | Invalid => rw [hty] at h; cases h
    · -- parseObject
      intro p idx o q ha hty h
      rw [Baseline.parseObject] at h
      obtain ⟨hT, hA⟩ := agree_consume hnul hbs ha (by rw [hty]; decide) (by rw [hty]; decide)
        (followOK_of_type (by rw [hty]; decide) (by rw [hty]; decide))
      by_cases hrb : (Baseline.advance input p).current.type = TokenType.RightBrace
      · rw [if_pos hrb] at h
        simp only [Except.ok.injEq, Prod.mk.injEq] at h
        obtain ⟨ho, hq⟩ := h
        subst ho; subst hq
        obtain ⟨hT2, hA2⟩ := agree_consume hnul hbs hA (by rw [hrb]; decide)
          (by rw [hrb]; decide) (followOK_of_type (by rw [hrb]; decide) (by rw [hrb]; decide))
        exact ⟨_, _, Indexed.parseObject_of_loop (f + 1) hT
          (Indexed.parseObjectLoop_close f [] hT2 hrb) hT2, toJson_object fieldsDenote_nil, hA2⟩
      · rw [if_neg hrb] at h
        obtain ⟨o2, idx2, t, h1, h2, h3, h4⟩ := ihOL _ (idx + 1) [] [] o q hA fieldsDenote_nil h
        exact ⟨_, _, Indexed.parseObject_of_loop (f + 1) hT h1 h3, toJson_object h2, h4⟩
    · -- parseObjectLoop
      intro p idx obj obj2 o q ha hfd h
      rw [Baseline.parseObjectLoop] at h
      by_cases hk : p.current.type ≠ TokenType.String
      · rw [if_pos hk] at h; cases h
      rw [if_neg hk] at h
      have hk2 : p.current.type = TokenType.String := not_not.mp hk
      by_cases hc : (Baseline.advance input p).current.type ≠ TokenType.Colon
      · rw [if_pos hc] at h; cases h
      rw [if_neg hc] at h
      have hc2 : (Baseline.advance input p).current.type = TokenType.Colon := not_not.mp hc
      obtain ⟨hT, hA⟩ := agree_consume hnul hbs ha (by rw [hk2]; decide) (by rw [hk2]; decide)
        (followOK_of_separator (Or.inl hc2))
      obtain ⟨hT1, hA1⟩ := agree_consume hnul hbs hA (by rw [hc2]; decide) (by rw [hc2]; decide)
        (followOK_of_type (by rw [hc2]; decide) (by rw [hc2]; decide))
      cases hv : Baseline.parseValue input f
          (Baseline.advance input (Baseline.advance input p)) with
      | error e => rw [hv] at h; cases h
      | ok r =>
        obtain ⟨v, q1⟩ := r
        rw [hv] at h
        simp only [] at h
        have hsep : q1.current.type = TokenType.Comma
            ∨ q1.current.type = TokenType.RightBrace := by
          by_contra hcon
          push_neg at hcon
          rw [if_neg hcon.1, if_neg hcon.2] at h
          cases h
        have hfol : FollowOK input (Baseline.advance input (Baseline.advance input p)) := by
          by_cases hsc : (Baseline.advance input (Baseline.advance input p)).current.type
                = TokenType.Number
              ∨ (Baseline.advance input (Baseline.advance input p)).current.type
                = TokenType.String
          · have hq := Baseline.parseValue_scalar hv hsc
            rw [hq] at hsep
            rcases hsep with h5 | h5
            · exact followOK_of_separator (Or.inr (Or.inl h5))
            · exact followOK_of_separator (Or.inr (Or.inr (Or.inl h5)))
          · push_neg at hsc
            exact followOK_of_type hsc.1 hsc.2
        obtain ⟨n, idx3, g1, g2, g3⟩ := ihV _ (idx + 2) v q1 hA1 hfol hv
        have hne : q1.current.type ≠ TokenType.EndOfFile ∧ q1.current.type ≠ TokenType.Invalid
            ∧ q1.current.type ≠ TokenType.Number ∧ q1.current.type ≠ TokenType.String := by
          rcases hsep with h5 | h5 <;> rw [h5] <;> exact ⟨by decide, by decide, by decide, by decide⟩
        obtain ⟨hT3, hA3⟩ := agree_consume hnul hbs g3 hne.1 hne.2.1
          (followOK_of_type hne.2.2.1 hne.2.2.2)
        have hentry := Indexed.parseObjectLoop_entry (f + 1) obj2 hT (by rw [hk2]; decide) hT1
          g1 hT3
        rcases hsep with hcm | hrb
        · rw [if_pos hcm] at h
          obtain ⟨o2, idx2, t, r1, r2, r3, r4⟩ := ihOL _ (idx3 + 1) _
            (obj2 ++ [(p.current.value, n)]) o q hA3 (fieldsDenote_append hfd g2) h
          exact ⟨o2, idx2, t, by rw [hentry, if_pos hcm]; exact r1, r2, r3, r4⟩
        · have hncm : q1.current.type ≠ TokenType.Comma := by rw [hrb]; decide
          rw [if_neg hncm, if_pos hrb] at h
          simp only [Except.ok.injEq, Prod.mk.injEq] at h
          obtain ⟨ho, hq⟩ := h
          subst ho; subst hq
          exact ⟨_, idx3, q1.current,
            by rw [hentry, if_neg hncm]; exact Indexed.parseObjectLoop_close f _ hT3 hrb,
            fieldsDenote_append hfd g2, hT3, hA3⟩
    · -- parseArray
      intro p idx a q ha hty h
      rw [Baseline.parseArray] at h
      obtain ⟨hT, hA⟩ := agree_consume hnul hbs ha (by rw [hty]; decide) (by rw [hty]; decide)
        (followOK_of_type (by rw [hty]; decide) (by rw [hty]; decide))
      by_cases hrb : (Baseline.advance input p).current.type = TokenType.RightBracket
      · rw [if_pos hrb] at h
        simp only [Except.ok.injEq, Prod.mk.injEq] at h
        obtain ⟨ho, hq⟩ := h
        subst ho; subst hq
        obtain ⟨hT2, hA2⟩ := agree_consume hnul hbs hA (by rw [hrb]; decide)
          (by rw [hrb]; decide) (followOK_of_type (by rw [hrb]; decide) (by rw [hrb]; decide))
        exact ⟨_, _, Indexed.parseArray_of_loop (f + 1) hT
          (Indexed.parseArrayLoop_close f [] hT2 hrb) hT2, toJson_array rfl, hA2⟩
      · rw [if_neg hrb] at h
        obtain ⟨a2, idx2, t, h1, h2, h3, h4⟩ := ihAL _ (idx + 1) [] [] a q hA rfl h
        exact ⟨_, _, Indexed.parseArray_of_loop (f + 1) hT h1 h3, toJson_array h2, h4⟩
    · -- parseArrayLoop
      intro p idx arr arr2 a q ha harr h
      rw [Baseline.parseArrayLoop] at h
      cases hv : Baseline.parseValue input f p with
      | error e => rw [hv] at h; cases h
      | ok r =>
        obtain ⟨v, q1⟩ := r
        rw [hv] at h
        simp only [] at h
        have hok := Baseline.parseValue_ok_type hv
        have hsep : q1.current.type = TokenType.Comma
            ∨ q1.current.type = TokenType.RightBracket := by
          by_contra hcon
          push_neg at hcon
          rw [if_neg hcon.1, if_neg hcon.2] at h
          cases h
        have hfol : FollowOK input p := by
          by_cases hsc : p.current.type = TokenType.Number ∨ p.current.type = TokenType.String
          · have hq := Baseline.parseValue_scalar hv hsc
            rw [hq] at hsep
            rcases hsep with h5 | h5
            · exact followOK_of_separator (Or.inr (Or.inl h5))
            · exact followOK_of_separator (Or.inr (Or.inr (Or.inr h5)))
          · push_neg at hsc
            exact followOK_of_type hsc.1 hsc.2
        obtain ⟨hT, _⟩ := agree_consume hnul hbs ha hok.2.2.1 hok.2.2.2 hfol
        obtain ⟨n, idx3, g1, g2, g3⟩ := ihV p idx v q1 ha hfol hv
        have hne : q1.current.type ≠ TokenType.EndOfFile ∧ q1.current.type ≠ TokenType.Invalid
            ∧ q1.current.type ≠ TokenType.Number ∧ q1.current.type ≠ TokenType.String := by
          rcases hsep with h5 | h5 <;> rw [h5] <;> exact ⟨by decide, by decide, by decide, by decide⟩
        obtain ⟨hT3, hA3⟩ := agree_consume hnul hbs g3 hne.1 hne.2.1
          (followOK_of_type hne.2.2.1 hne.2.2.2)
        have hentry := Indexed.parseArrayLoop_entry (f + 1) arr2 hT hok.1 g1 hT3
        rcases hsep with hcm | hrb
        · rw [if_pos hcm] at h
          obtain ⟨a2, idx2, t, r1, r2, r3, r4⟩ := ihAL _ (idx3 + 1) _ (arr2 ++ [n]) a q hA3
            (Indexed.toJsonList_append harr g2) h
          exact ⟨a2, idx2, t, by rw [hentry, if_pos hcm]; exact r1, r2, r3, r4⟩
        · have hncm : q1.current.type ≠ TokenType.Comma := by rw [hrb]; decide
          rw [if_neg hncm, if_pos hrb] at h
          simp only [Except.ok.injEq, Prod.mk.injEq] at h
          obtain ⟨ho, hq⟩ := h
          subst ho; subst hq
          exact ⟨_, idx3, q1.current,
            by rw [hentry, if_neg hncm]; exact Indexed.parseArrayLoop_close f _ hT3 hrb,
            Indexed.toJsonList_append harr g2, hT3, hA3⟩

end

namespace ListView

/-- A Number token is read at a minus sign or a digit. -/
theorem token_number_hd {l : List Char} (h : (token l).1.type = TokenType.Number) :
    hd l = '-' ∨ isdigit (hd l) = true := by
  unfold token at h
  by_cases h8 : hd l = '-' ∨ isdigit (hd l) = true
  · exact h8
  exfalso
  by_cases h0 : hd l = NUL
  · rw [if_pos h0] at h; cases h
  rw [if_neg h0] at h
  by_cases h1 : hd l = '{'
  · rw [if_pos h1] at h; cases h
  rw [if_neg h1] at h
  by_cases h2 : hd l = '}'
  · rw [if_pos h2] at h; cases h
  rw [if_neg h2] at h
  by_cases h3 : hd l = '['
  · rw [if_pos h3] at h; cases h
  rw [if_neg h3] at h
  by_cases h4 : hd l = ']'
  · rw [if_pos h4] at h; cases h
  rw [if_neg h4] at h
  by_cases h5 : hd l = ':'
  · rw [if_pos h5] at h; cases h
  rw [if_neg h5] at h
  by_cases h6 : hd l = ','
  · rw [if_pos h6] at h; cases h
  rw [if_neg h6] at h
  by_cases h7 : isalpha (hd l) = true
  · rw [if_pos h7] at h
    split_ifs at h
  rw [if_neg h7, if_neg h8] at h
  by_cases h9 : hd l = '"'
  · rw [if_pos h9] at h
    rcases string_type l with h3 | h3 <;> rw [h3] at h <;> cases h
  rw [if_neg h9] at h
  cases h

end ListView

namespace IndexView
open ListView

/-- The first character after the leading whitespace, when it is not structural,
belongs to the text before the first structural character. -/
theorem mem_takeWhile_of_first {l : List Char} {c : Char} {r : List Char}
    (h : l.dropWhile isspace = c :: r) (hc : plainChar c = true) :
    c ∈ l.takeWhile plainChar := by
  induction l with
  | nil => cases h
  | cons a t ih =>
    by_cases hsp : isspace a = true
    · rw [List.dropWhile_cons_of_pos hsp] at h
      rw [List.takeWhile_cons_of_pos (plain_of_isspace hsp)]
      exact List.mem_cons_of_mem _ (ih h)
    · rw [List.dropWhile_cons_of_neg hsp] at h
      cases h
      rw [List.takeWhile_cons_of_pos hc]
      exact List.mem_cons_self _ _

/-- The token builder starts with the String token of the tokenizer on a text
without backslash that starts with one, whatever follows the token. -/
theorem ixLex_string_head (l : List Char) (hbs : ∀ c ∈ l, c ≠ '\\')
    (hty : (lex l).1.type = TokenType.String) : ∃ rest, ixLex l = (lex l).1 :: rest := by
  unfold lex at hty ⊢
  simp only [] at hty ⊢
  rw [← ixLex_dropWhile_space l]
  have hq := token_string hty
  have hcons := cons_of_hd (l := l.dropWhile isspace) (by rw [hq]; decide)
  rw [hq] at hcons
  have hsub : ∀ c ∈ l.dropWhile isspace, c ∈ l := fun c hc =>
    (List.dropWhile_sublist _).subset hc
  rw [token_of_quote hq] at hty ⊢
  rw [hcons] at hty hsub ⊢
  obtain ⟨items, rest, hv, hr, hs⟩ := string_string hty
  have hbs2 : ∀ x ∈ sourceText items, x ≠ '\\' := by
    intro x hx
    apply hbs x
    apply hsub
    rw [hr]
    exact List.mem_cons_of_mem _ (List.mem_append_left _ hx)
  have hfc : findClose '"' (l.dropWhile isspace).tail = some (sourceText items).length := by
    rw [hr]
    exact findClose_body _ rest '"' (by decide) (sourceText_no_quote items hv hbs2) hbs2
  rw [hs]
  unfold ixLex
  rw [List.takeWhile_cons_of_neg (by decide), List.dropWhile_cons_of_neg (by decide),
    gapTokens_nil, List.nil_append, structTokens_quote_some hfc,
    ← sourceText_eq_decodedText items hbs2]
  refine ⟨gapTokens ((((l.dropWhile isspace).tail.drop
    ((sourceText items).length + 1)).takeWhile plainChar).tail)
    ++ structTokens (((l.dropWhile isspace).tail.drop
      ((sourceText items).length + 1)).dropWhile plainChar), ?_⟩
  congr 2
  rw [hr, List.take_left]

end IndexView

section
open ListView IndexView

/-- The two pipelines on one text: whenever a run of the Baseline `parseValue`
returns on a text without NUL and without backslash in which only whitespace
precedes the first structural character, the Indexed `parseValue` returns, with
one more unit of fuel, a node that denotes the Baseline value. -/
theorem pipelines_agree (input : List Char) (fuel : Nat)
    (hnul : ∀ c ∈ input, c ≠ NUL) (hbs : ∀ c ∈ input, c ≠ '\\')
    (hlead : ∀ c ∈ input.takeWhile plainChar, isspace c = true)
    (v : JsonValue) (q : Baseline.Parser)
    (h : Baseline.parseValue input fuel (Baseline.Parser.init input) = .ok (v, q)) :
    ∃ n idx, Indexed.parseValue
        (Indexed.parseJsonWithIndex input (Indexed.find_structurals input)) (fuel + 1) 0
          = .ok (n, idx)
      ∧ n.toJson = some v := by
  rw [Indexed.parseJsonWithIndex_eq_ixLex input hlead]
  have ha : StatesAgree input (ixLex input) (Baseline.Parser.init input) 0 :=
    ⟨0, rfl, by rw [List.drop_zero, List.drop_zero]⟩
  have hcur : (Baseline.Parser.init input).current = (lex input).1 := by
    unfold Baseline.Parser.init Baseline.advance
    rw [Baseline.nextToken_eq, List.drop_zero]
  by_cases hs : (Baseline.Parser.init input).current.type = TokenType.String
  · -- a string at the top: only the head of the token list matters
    obtain ⟨rest, hrest⟩ := ixLex_string_head input hbs (by rw [← hcur]; exact hs)
    have hT : (ixLex input)[0]? = some (Baseline.Parser.init input).current := by
      rw [hrest, hcur]
      exact List.getElem?_cons_zero
    cases fuel with
    | zero => rw [Baseline.parseValue] at h; cases h
    | succ f =>
      rw [Baseline.parseValue, hs] at h
      simp only [Except.ok.injEq, Prod.mk.injEq] at h
      obtain ⟨hv, _⟩ := h
      subst hv
      exact ⟨_, _, Indexed.parseValue_string (f + 1) hT hs, by rw [Indexed.Node.toJson]⟩
  · have hf : FollowOK input (Baseline.Parser.init input) := by
      refine ⟨?_, fun h2 => absurd h2 hs⟩
      intro hn
      exfalso
      rw [hcur] at hn
      unfold lex at hn
      have hstart := token_number_hd hn
      have hcons := cons_of_hd (l := input.dropWhile isspace) (by
        intro h0
        rw [h0] at hstart
        rcases hstart with h1 | h1
        · exact absurd h1 (by decide)
        · exact absurd h1 (by decide))
      have hplain : plainChar (hd (input.dropWhile isspace)) = true :=
        plain_of_numClass (Indexed.numClass_of_start (by
          rcases hstart with h1 | h1
          · exact Or.inr h1
          · exact Or.inl h1))
      have hsp := hlead _ (mem_takeWhile_of_first hcons hplain)
      rw [Baseline.hd_dropWhile_false Baseline.isspace_NUL] at hsp
      cases hsp
    obtain ⟨n, idx, h1, h2, _⟩ := (parsers_agree input (ixLex input) hnul hbs fuel).1 _ 0 v q
      ha hf h
    exact ⟨n, idx, h1, h2⟩

end

namespace Baseline
open ListView

/-- After an EndOfFile the tokenizer stays where it is: the next call returns
EndOfFile again and does not move the cursor. -/
theorem nextToken_eof_again (input : List Char) (pos : Nat)
    (h : (nextToken input pos).1.type = TokenType.EndOfFile) :
    nextToken input (nextToken input pos).2 = (⟨TokenType.EndOfFile, []⟩, (nextToken input pos).2) := by
  have e2 : (nextToken input pos).2 = pos + (lex (input.drop pos)).2 := by rw [nextToken_eq]
  rw [nextToken_eq input pos] at h
  unfold lex at h e2
  simp only [] at h e2
  have h0 := token_eof h
  have htok : token ((input.drop pos).dropWhile isspace) = (⟨TokenType.EndOfFile, []⟩, 0) := by
    rw [token, if_pos h0]
  rw [htok] at e2
  have hdrop : input.drop (nextToken input pos).2 = (input.drop pos).dropWhile isspace := by
    rw [e2, Nat.add_zero, ← List.drop_drop, drop_takeWhile_length]
  rw [nextToken_eq input (nextToken input pos).2, hdrop]
  have hsp : isspace (hd ((input.drop pos).dropWhile isspace)) = false := by
    rw [h0]; decide
  unfold lex
  rw [takeWhile_eq_nil_of_hd hsp]
  have hdd : ((input.drop pos).dropWhile isspace).dropWhile isspace
      = (input.drop pos).dropWhile isspace := by
    cases hx : (input.drop pos).dropWhile isspace with
    | nil => rfl
    | cons c r =>
      rw [hx, hd_cons] at hsp
      rw [List.dropWhile_cons_of_neg (by rw [hsp]; decide)]
  rw [hdd, htok]
  rfl

end Baseline

namespace ListView

theorem exponent_value_prefix (l num : List Char) :
    ∃ s, (exponent l num).1.value = num ++ s := by
  unfold exponent
  split_ifs
  all_goals first
    | exact ⟨[], (List.append_nil _).symm⟩
    | exact ⟨_, rfl⟩
    | exact ⟨_, List.append_assoc _ _ _⟩

theorem fraction_value_prefix (l num : List Char) :
    ∃ s, (fraction l num).1.value = num ++ s := by
  unfold fraction
  obtain ⟨s, hs⟩ := exponent_value_prefix (l.tail.dropWhile isdigit)
    (num ++ ['.'] ++ l.tail.takeWhile isdigit)
  split_ifs
  all_goals first
    | exact ⟨_, rfl⟩
    | exact exponent_value_prefix l num
    | exact ⟨['.'] ++ l.tail.takeWhile isdigit ++ s, by
        rw [hs, List.append_assoc, List.append_assoc, List.append_assoc]⟩

/-- The token read at a digit is a Number or Invalid token whose text begins with
that digit. -/
theorem lex_digit_value (d : Char) (rest : List Char) (hd1 : isdigit d = true) :
    ∃ s, (lex (d :: rest)).1.value = d :: s := by
  have h := @lex_number_start [] (d :: rest) (by simp) (Or.inr (by rw [hd_cons]; exact hd1))
  rw [List.nil_append] at h
  rw [h]
  have hm : d ≠ '-' := by
    intro hcon
    rw [hcon] at hd1
    exact absurd hd1 (by decide)
  rw [number, hd_cons, if_neg hm, digits, hd_cons, if_pos hd1]
  by_cases hz : d = '0'
  · rw [if_pos hz]
    obtain ⟨s, hs⟩ := fraction_value_prefix (d :: rest).tail ([] ++ ['0'])
    exact ⟨s, by rw [hs, hz]; rfl⟩
  · rw [if_neg hz]
    obtain ⟨s, hs⟩ := fraction_value_prefix ((d :: rest).dropWhile isdigit)
      ([] ++ (d :: rest).takeWhile isdigit)
    refine ⟨rest.takeWhile isdigit ++ s, ?_⟩
    rw [hs, List.takeWhile_cons_of_pos hd1]
    rfl

theorem lex_minus_zero_digit (d : Char) (rest : List Char) (hd1 : isdigit d = true) :
    lex ('-' :: '0' :: d :: rest) = (⟨TokenType.Number, ['-', '0']⟩, 2) := by
  have h := @lex_number_start [] ('-' :: '0' :: d :: rest) (by simp)
    (Or.inl (by rw [hd_cons]))
  rw [List.nil_append] at h
  have hne : ∀ c : Char, isdigit c = false → d ≠ c := by
    intro c hc hcon
    rw [hcon, hc] at hd1
    cases hd1
  rw [h, number, hd_cons, if_pos rfl, List.tail_cons, digits_zero,
    fraction_of_not_dot _ (by rw [hd_cons]; exact hne '.' (by decide)),
    exponent_of_not_e _ (by rw [hd_cons]; exact hne 'e' (by decide))
      (by rw [hd_cons]; exact hne 'E' (by decide))]
  rfl

end ListView

section
open ListView IndexView

theorem hasClosingQuote_nil : hasClosingQuote [] = false := rfl

theorem hasClosingQuote_quote (r : List Char) : hasClosingQuote ('"' :: r) = true := by
  rw [hasClosingQuote.eq_def]
  simp only [if_true]

theorem hasClosingQuote_backslash_end : hasClosingQuote ['\\'] = false := by
  rw [hasClosingQuote, if_neg (by decide), if_pos rfl]

theorem hasClosingQuote_escape (x : Char) (r : List Char) :
    hasClosingQuote ('\\' :: x :: r) = hasClosingQuote r := by
  rw [hasClosingQuote, if_neg (by decide), if_pos rfl]

theorem hasClosingQuote_plain {c : Char} (r : List Char) (c1 : c ≠ '"') (c2 : c ≠ '\\') :
    hasClosingQuote (c :: r) = hasClosingQuote r := by
  rw [hasClosingQuote.eq_def]
  simp only []
  rw [if_neg c1, if_neg c2]

theorem hasClosingQuote_of_not_mem {t : List Char} (h : '"' ∉ t) : hasClosingQuote t = false := by
  suffices H : ∀ (n : Nat) (t : List Char), t.length ≤ n → '"' ∉ t → hasClosingQuote t = false
    from H _ t (Nat.le_refl _) h
  intro n
  induction n with
  | zero =>
    intro t ht _
    cases t with
    | nil => rfl
    | cons c r => simp at ht
  | succ n ih =>
    intro t ht hq
    cases t with
    | nil => rfl
    | cons c r =>
      have c1 : c ≠ '"' := fun hc => hq (by rw [hc]; exact List.mem_cons_self _ _)
      have hr : '"' ∉ r := fun hm => hq (List.mem_cons_of_mem _ hm)
      have hlen : r.length ≤ n := by simpa using ht
      by_cases c2 : c = '\\'
      · subst c2
        cases r with
        | nil => exact hasClosingQuote_backslash_end
        | cons x r2 =>
          rw [hasClosingQuote_escape]
          exact ih r2 (by simp at hlen; omega) (fun hm => hr (List.mem_cons_of_mem _ hm))
      · rw [hasClosingQuote_plain r c1 c2]
        exact ih r hlen hr

namespace ListView

/-- The raw scan of a text without a closing quote ends in an Invalid token. -/
theorem rawScan_unclosed (t : List Char) (h : hasClosingQuote t = false) (raw : List Char) :
    (rawScan t raw).1.type = TokenType.Invalid := by
  suffices H : ∀ (n : Nat) (t : List Char), t.length ≤ n → hasClosingQuote t = false →
      ∀ raw, (rawScan t raw).1.type = TokenType.Invalid from H _ t (Nat.le_refl _) h raw
  intro n
  induction n with
  | zero =>
    intro t ht _ raw
    cases t with
    | nil => rw [rawScan_nil]
    | cons c r => simp at ht
  | succ n ih =>
    intro t ht hq raw
    cases t with
    | nil => rw [rawScan_nil]
    | cons c r =>
      have hlen : r.length ≤ n := by simpa using ht
      by_cases c0 : c = NUL
      · subst c0
        rw [rawScan_cons_nul]
      by_cases c1 : c = '"'
      · subst c1
        rw [hasClosingQuote_quote] at hq
        cases hq
      by_cases c2 : c = '\\'
      · subst c2
        cases r with
        | nil => rw [rawScan_backslash_end]
        | cons x r2 =>
          rw [hasClosingQuote_escape] at hq
          by_cases x0 : x = NUL
          · subst x0
            rw [rawScan_backslash_nul]
          · rw [rawScan_cons_escape x r2 raw x0]
            exact ih r2 (by simp at hlen; omega) hq _
      · rw [hasClosingQuote_plain r c1 c2] at hq
        rw [rawScan_cons_plain c r raw c0 c1 c2]
        exact ih r hlen hq _

end ListView

namespace IndexView

/-- The token builder finds no closing quote in a text without one. -/
theorem findClose_unclosed (t : List Char) (h : hasClosingQuote t = false) (prev : Char) :
    findClose prev t = none := by
  suffices H : ∀ (n : Nat) (t : List Char), t.length ≤ n → hasClosingQuote t = false →
      ∀ prev, findClose prev t = none from H _ t (Nat.le_refl _) h prev
  intro n
  induction n with
  | zero =>
    intro t ht _ prev
    cases t with
    | nil => exact findClose_nil prev
    | cons c r => simp at ht
  | succ n ih =>
    intro t ht hq prev
    cases t with
    | nil => exact findClose_nil prev
    | cons c r =>
      have hlen : r.length ≤ n := by simpa using ht
      by_cases c1 : c = '"'
      · subst c1
        rw [hasClosingQuote_quote] at hq
        cases hq
      rw [findClose_cons, if_neg (fun hc => c1 hc.1)]
      by_cases c2 : c = '\\'
      · subst c2
        cases r with
        | nil => rw [findClose_nil]; rfl
        | cons x r2 =>
          rw [hasClosingQuote_escape] at hq
          rw [findClose_cons, if_neg (fun hc => hc.2 rfl),
            ih r2 (by simp at hlen; omega) hq x]
          rfl
      · rw [hasClosingQuote_plain r c1 c2] at hq
        rw [ih r hlen hq c]
        rfl

end IndexView

end

section
open ListView IndexView

/-- The Baseline pipeline rejects a text that opens a string and never closes
it. -/
theorem baseline_unclosed (body : List Char) (h : hasClosingQuote body = false) :
    Baseline.parse ('"' :: body) = .error Baseline.ParseError.unexpectedToken := by
  apply Baseline.parse_of_first_invalid
  rw [Baseline.nextToken_eq, List.drop_zero]
  have hl := @lex_quote [] body (by simp)
  rw [List.nil_append] at hl
  rw [hl]
  exact string_of_raw_invalid (rawScan_unclosed body h [])

/-- The Indexed pipeline returns a String node with the empty text on a text that
opens a string and never closes it. -/
theorem indexed_unclosed (body : List Char) (h : hasClosingQuote body = false) :
    Indexed.parse ('"' :: body) = .ok (Indexed.Node.mk .String [] [] [], 1) := by
  unfold Indexed.parse
  rw [Indexed.parseJsonWithIndex_eq, List.dropWhile_cons_of_neg (by decide),
    structTokens_quote_none (findClose_unclosed body h '"')]
  exact Indexed.parseValue_string (t := ⟨TokenType.String, []⟩) _ List.getElem?_cons_zero rfl

end

section
open ListView IndexView

theorem sourceText_map_plain (key : List Char) :
    sourceText (key.map StrItem.plain) = key ∧ decodedText (key.map StrItem.plain) = key := by
  induction key with
  | nil => exact ⟨rfl, rfl⟩
  | cons c r ih =>
    constructor
    · show [c] ++ sourceText (r.map StrItem.plain) = c :: r
      rw [ih.1]; rfl
    · show [c] ++ decodedText (r.map StrItem.plain) = c :: r
      rw [ih.2]; rfl

/-- The tokenizer on a quoted key of ordinary characters. -/
theorem lex_plain_key (key rest : List Char)
    (hk : ∀ c ∈ key, c ≠ NUL ∧ c ≠ '"' ∧ c ≠ '\\') :
    lex ('"' :: (key ++ '"' :: rest)) = (⟨TokenType.String, key⟩, key.length + 2) := by
  have hl := @lex_quote [] (key ++ '"' :: rest) (by simp)
  rw [List.nil_append] at hl
  have hv : ∀ it ∈ key.map StrItem.plain, it.Valid := by
    intro it hit
    obtain ⟨c, hc, rfl⟩ := List.mem_map.mp hit
    exact hk c hc
  have hs := string_valid (key.map StrItem.plain) rest hv
  rw [(sourceText_map_plain key).1, (sourceText_map_plain key).2] at hs
  rw [hl, hs]
  exact Prod.ext rfl (by show [].length + (1 + (key.length + 1)) = key.length + 2; simp; omega)

namespace Baseline

/-- The Baseline parser on the tokens `{`, a String key, `:`, `}`: `parseValue`
throws on the closing brace. -/
theorem parse_missing_value (input : List Char) (k : Token) (p1 p2 p3 : Nat)
    (hlen : 1 ≤ input.length)
    (h0 : nextToken input 0 = (⟨TokenType.LeftBrace, ['{']⟩, 1))
    (h1 : nextToken input 1 = (k, p1)) (hk : k.type = TokenType.String)
    (h2 : nextToken input p1 = (⟨TokenType.Colon, [':']⟩, p2))
    (h3 : nextToken input p2 = (⟨TokenType.RightBrace, ['}']⟩, p3)) :
    parse input = .error ParseError.unexpectedToken := by
  unfold parse Parser.init advance
  rw [show 3 * input.length + 3 = (3 * input.length) + 1 + 1 + 1 by omega]
  simp only [h0]
  rw [parseValue]
  simp only []
  rw [parseObject]
  simp only [advance, h1, hk]
  rw [if_neg (by decide), parseObjectLoop]
  simp only [advance, hk, h2, h3, ne_eq, not_true_eq_false, if_false]
  cases hf : 3 * input.length with
  | zero => omega
  | succ f => rfl

end Baseline

/-- The Baseline pipeline on an object whose key and colon are directly followed
by the closing brace. -/
theorem baseline_missing_value (key : List Char)
    (hk : ∀ c ∈ key, c ≠ NUL ∧ c ≠ '"' ∧ c ≠ '\\') :
    Baseline.parse ('{' :: '"' :: (key ++ ['"', ':', '}']))
      = .error Baseline.ParseError.unexpectedToken := by
  have hd1 : ('{' :: '"' :: (key ++ ['"', ':', '}'])).drop 1
      = '"' :: (key ++ '"' :: [':', '}']) := rfl
  have hd2 : ('{' :: '"' :: (key ++ ['"', ':', '}'])).drop (1 + (key.length + 2))
      = [':', '}'] := by
    rw [← List.drop_drop, hd1, show key.length + 2 = (key.length + 1) + 1 by omega,
      List.drop_succ_cons, ← List.drop_drop, List.drop_left]
    rfl
  have hd3 : ('{' :: '"' :: (key ++ ['"', ':', '}'])).drop (1 + (key.length + 2) + 1)
      = ['}'] := by
    rw [← List.drop_drop, hd2]
    rfl
  refine Baseline.parse_missing_value _ ⟨TokenType.String, key⟩ (1 + (key.length + 2))
    (1 + (key.length + 2) + 1) (1 + (key.length + 2) + 1 + 1) (by simp) ?_ ?_ rfl ?_ ?_
  · rw [Baseline.nextToken_eq, List.drop_zero]
    rfl
  · rw [Baseline.nextToken_eq, hd1, lex_plain_key key _ hk]
  · rw [Baseline.nextToken_eq, hd2]
    rfl
  · rw [Baseline.nextToken_eq, hd3]
    rfl

/-- The tokens of the Indexed pipeline on such an object. -/
theorem indexed_missing_value_tokens (key : List Char)
    (hk : ∀ c ∈ key, c ≠ NUL ∧ c ≠ '"' ∧ c ≠ '\\') :
    Indexed.parseJsonWithIndex ('{' :: '"' :: (key ++ ['"', ':', '}']))
        (Indexed.find_structurals ('{' :: '"' :: (key ++ ['"', ':', '}'])))
      = [⟨TokenType.LeftBrace, ['{']⟩, ⟨TokenType.String, key⟩, ⟨TokenType.Colon, [':']⟩,
        ⟨TokenType.RightBrace, ['}']⟩] := by
  rw [Indexed.parseJsonWithIndex_eq_ixLex _ (by
    rw [List.takeWhile_cons_of_neg (by decide)]
    intro c hc
    cases hc)]
  have hfc : findClose '"' (key ++ '"' :: [':', '}']) = some key.length :=
    findClose_body key _ '"' (by decide) (fun c hc => (hk c hc).2.1) (fun c hc => (hk c hc).2.2)
  have hafter : (key ++ '"' :: [':', '}']).drop (key.length + 1) = [':', '}'] := by
    rw [← List.drop_drop, List.drop_left]
    rfl
  rw [ixLex_cons_punct _ (by decide) (by decide),
    ixLex_quote hfc (by rw [hafter]; decide) (by rw [hafter]; decide), hafter, List.take_left,
    ixLex_cons_punct _ (by decide) (by decide), ixLex_cons_punct _ (by decide) (by decide),
    ixLex_nil]
  rfl

/-- The Indexed pipeline on such an object: `parseValue` throws on the closing
brace, after reading the tokens at the indices 0 to 3 of the four tokens. -/
theorem indexed_missing_value (key : List Char)
    (hk : ∀ c ∈ key, c ≠ NUL ∧ c ≠ '"' ∧ c ≠ '\\') :
    Indexed.parse ('{' :: '"' :: (key ++ ['"', ':', '}']))
      = .error (Indexed.ParseError.unexpectedToken TokenType.RightBrace) := by
  unfold Indexed.parse
  rw [indexed_missing_value_tokens key hk]
  rfl

end

theorem fieldsKeysUnique_iff (o : List (List Char × JsonValue)) :
    fieldsKeysUnique o ↔ ∀ kv ∈ o, kv.2.KeysUnique := by
  induction o with
  | nil =>
    rw [fieldsKeysUnique]
    exact ⟨fun _ kv hkv => absurd hkv (List.not_mem_nil _), fun _ => trivial⟩
  | cons kv r ih =>
    obtain ⟨k, v⟩ := kv
    rw [fieldsKeysUnique, ih, List.forall_mem_cons]

theorem listKeysUnique_iff (a : List JsonValue) :
    listKeysUnique a ↔ ∀ v ∈ a, v.KeysUnique := by
  induction a with
  | nil =>
    rw [listKeysUnique]
    exact ⟨fun _ v hv => absurd hv (List.not_mem_nil _), fun _ => trivial⟩
  | cons v r ih =>
    rw [listKeysUnique, ih, List.forall_mem_cons]

namespace Baseline

theorem assign_keys_nodup (obj : List (List Char × JsonValue)) (key : List Char)
    (v : JsonValue) (h : (obj.map Prod.fst).Nodup) :
    ((assign obj key v).map Prod.fst).Nodup := by
  unfold assign
  by_cases ha : obj.any (fun kv => decide (kv.1 = key)) = true
  · rw [if_pos ha]
    have hm : (obj.map (fun kv => if kv.1 = key then (key, v) else kv)).map Prod.fst
        = obj.map Prod.fst := by
      rw [List.map_map]
      apply List.map_congr_left
      intro kv _
      show (if kv.1 = key then (key, v) else kv).1 = kv.1
      split_ifs with hk
      · exact hk.symm
      · rfl
    rw [hm]
    exact h
  · rw [if_neg ha, List.map_append]
    have hnot : key ∉ obj.map Prod.fst := by
      intro hm
      obtain ⟨kv, hkv, hk⟩ := List.mem_map.mp hm
      exact ha (List.any_eq_true.mpr ⟨kv, hkv, by simpa using hk⟩)
    exact List.Nodup.append h (List.nodup_singleton _) (by
      intro x hx hx2
      have hx3 : x = key := by simpa using hx2
      exact hnot (hx3 ▸ hx))

theorem assign_fields_unique (obj : List (List Char × JsonValue)) (key : List Char)
    (v : JsonValue) (h : fieldsKeysUnique obj) (hv : v.KeysUnique) :
    fieldsKeysUnique (assign obj key v) := by
  rw [fieldsKeysUnique_iff] at h ⊢
  unfold assign
  split_ifs
  · intro kv hkv
    obtain ⟨kv0, h0, rfl⟩ := List.mem_map.mp hkv
    split_ifs
    · exact hv
    · exact h kv0 h0
  · intro kv hkv
    rcases List.mem_append.mp hkv with h1 | h1
    · exact h kv h1
    · rw [List.mem_singleton] at h1
      rw [h1]
      exact hv

theorem append_list_unique (arr : List JsonValue) (v : JsonValue) (h : listKeysUnique arr)
    (hv : v.KeysUnique) : listKeysUnique (arr ++ [v]) := by
  rw [listKeysUnique_iff] at h ⊢
  intro x hx
  rcases List.mem_append.mp hx with h1 | h1
  · exact h x h1
  · rw [List.mem_singleton] at h1
    rw [h1]
    exact hv

/-- Every function of the Baseline parser returns trees whose objects hold each
key once. -/
theorem parser_keys_unique (input : List Char) (fuel : Nat) :
    (∀ p v q, parseValue input fuel p = .ok (v, q) → v.KeysUnique)
    ∧ (∀ p o q, parseObject input fuel p = .ok (o, q) →
        (o.map Prod.fst).Nodup ∧ fieldsKeysUnique o)
    ∧ (∀ p obj o q, parseObjectLoop input fuel p obj = .ok (o, q) →
        (obj.map Prod.fst).Nodup → fieldsKeysUnique obj →
        (o.map Prod.fst).Nodup ∧ fieldsKeysUnique o)
    ∧ (∀ p a q, parseArray input fuel p = .ok (a, q) → listKeysUnique a)
    ∧ (∀ p arr a q, parseArrayLoop input fuel p arr = .ok (a, q) →
        listKeysUnique arr → listKeysUnique a) := by
  induction fuel with
  | zero =>
    refine ⟨?_, ?_, ?_, ?_, ?_⟩
    · intro p v q h
      rw [parseValue] at h; cases h
    · intro p o q h
      rw [parseObject] at h; cases h
    · intro p obj o q h
      rw [parseObjectLoop] at h; cases h
    · intro p a q h
      rw [parseArray] at h; cases h
    · intro p arr a q h
      rw [parseArrayLoop] at h; cases h
  | succ f ih =>
    obtain ⟨ihV, ihO, ihOL, ihA, ihAL⟩ := ih
    refine ⟨?_, ?_, ?_, ?_, ?_⟩
    · intro p v q h
      rw [parseValue] at h
      cases hty : p.current.type with
      | String =>
        rw [hty] at h
        simp only [Except.ok.injEq, Prod.mk.injEq] at h
        rw [← h.1, JsonValue.KeysUnique]
        trivial
      | Number =>
        rw [hty] at h
        simp only [] at h
        cases hs : stod p.current.value with
        | none => rw [hs] at h; cases h
        | some d =>
          rw [hs] at h
          simp only [Except.ok.injEq, Prod.mk.injEq] at h
          rw [← h.1, JsonValue.KeysUnique]
          trivial
      | True =>
        rw [hty] at h
        simp only [Except.ok.injEq, Prod.mk.injEq] at h
        rw [← h.1, JsonValue.KeysUnique]
        trivial
      | False =>
        rw [hty] at h
        simp only [Except.ok.injEq, Prod.mk.injEq] at h
        rw [← h.1, JsonValue.KeysUnique]
        trivial
      | Null =>
        rw [hty] at h
        simp only [Except.ok.injEq, Prod.mk.injEq] at h
        rw [← h.1, JsonValue.KeysUnique]
        trivial
      | LeftBrace =>
        rw [hty] at h
        simp only [] at h
        cases ho : parseObject input f p with
        | error e => rw [ho] at h; cases h
        | ok r =>
          obtain ⟨o, q2⟩ := r
          rw [ho] at h
          simp only [Except.ok.injEq, Prod.mk.injEq] at h
          rw [← h.1, JsonValue.KeysUnique]
          exact ihO p o q2 ho
      | LeftBracket =>
        rw [hty] at h
        simp only [] at h
        cases ho : parseArray input f p with
        | error e => rw [ho] at h; cases h
        | ok r =>
          obtain ⟨a, q2⟩ := r
          rw [ho] at h
          simp only [Except.ok.injEq, Prod.mk.injEq] at h
          rw [← h.1, JsonValue.KeysUnique]
          exact ihA p a q2 ho
      | RightBrace => rw [hty] at h; cases h
      | RightBracket => rw [hty] at h; cases h
      | Colon => rw [hty] at h; cases h
      | Comma => rw [hty] at h; cases h
      | EndOfFile => rw [hty] at h; cases h
      | Invalid => rw [hty] at h; cases h
    · intro p o q h
      rw [parseObject] at h
      by_cases hrb : (advance input p).current.type = TokenType.RightBrace
      · rw [if_pos hrb] at h
        simp only [Except.ok.injEq, Prod.mk.injEq] at h
        rw [← h.1]
        exact ⟨List.nodup_nil, trivial⟩
      · rw [if_neg hrb] at h
        exact ihOL _ [] o q h List.nodup_nil trivial
    · intro p obj o q h hnd hfu
      rw [parseObjectLoop] at h
      by_cases hk : p.current.type ≠ TokenType.String
      · rw [if_pos hk] at h; cases h
      rw [if_neg hk] at h
      by_cases hc : (advance input p).current.type ≠ TokenType.Colon
      · rw [if_pos hc] at h; cases h
      rw [if_neg hc] at h
      cases hv : parseValue input f (advance input (advance input p)) with
      | error e => rw [hv] at h; cases h
      | ok r =>
        obtain ⟨v, q1⟩ := r
        rw [hv] at h
        simp only [] at h
        have hvu := ihV _ v q1 hv
        by_cases hcm : q1.current.type = TokenType.Comma
        · rw [if_pos hcm] at h
          exact ihOL _ _ o q h (assign_keys_nodup obj _ v hnd)
            (assign_fields_unique obj _ v hfu hvu)
        · rw [if_neg hcm] at h
          by_cases hrb : q1.current.type = TokenType.RightBrace
          · rw [if_pos hrb] at h
            simp only [Except.ok.injEq, Prod.mk.injEq] at h
            rw [← h.1]
            exact ⟨assign_keys_nodup obj _ v hnd, assign_fields_unique obj _ v hfu hvu⟩
          · rw [if_neg hrb] at h
            cases h
    · intro p a q h
      rw [parseArray] at h
      by_cases hrb : (advance input p).current.type = TokenType.RightBracket
      · rw [if_pos hrb] at h
        simp only [Except.ok.injEq, Prod.mk.injEq] at h
        rw [← h.1]
        trivial
      · rw [if_neg hrb] at h
        exact ihAL _ [] a q h trivial
    · intro p arr a q h harr
      rw [parseArrayLoop] at h
      cases hv : parseValue input f p with
      | error e => rw [hv] at h; cases h
      | ok r =>
        obtain ⟨v, q1⟩ := r
        rw [hv] at h
        simp only [] at h
        have hvu := ihV _ v q1 hv
        by_cases hcm : q1.current.type = TokenType.Comma
        · rw [if_pos hcm] at h
          exact ihAL _ _ a q h (append_list_unique arr v harr hvu)
        · rw [if_neg hcm] at h
          by_cases hrb : q1.current.type = TokenType.RightBracket
          · rw [if_pos hrb] at h
            simp only [Except.ok.injEq, Prod.mk.injEq] at h
            rw [← h.1]
            exact append_list_unique arr v harr hvu
          · rw [if_neg hrb] at h
            cases h

end Baseline

theorem lastValue_nil {α : Type} (k : List Char) :
    lastValue ([] : List (List Char × α)) k = none := rfl

theorem lastValue_cons {α : Type} (k0 : List Char) (v0 : α) (rest : List (List Char × α))
    (k : List Char) :
    lastValue ((k0, v0) :: rest) k
      = if k0 = k then some ((lastValue rest k).getD v0) else lastValue rest k := by
  unfold lastValue
  by_cases h : k0 = k
  · rw [if_pos h, List.filter_cons_of_pos (by simpa using h), List.getLast?_cons]
    cases (rest.filter (fun kv => decide (kv.1 = k))).getLast? <;> rfl
  · rw [if_neg h, List.filter_cons_of_neg (by simpa using h)]

theorem lastValue_of_not_mem {α : Type} (ps : List (List Char × α)) (k : List Char)
    (h : k ∉ ps.map Prod.fst) : lastValue ps k = none := by
  induction ps with
  | nil => rfl
  | cons kv r ih =>
    obtain ⟨k0, v0⟩ := kv
    rw [List.map_cons, List.mem_cons, not_or] at h
    rw [lastValue_cons, if_neg (fun e => h.1 e.symm)]
    exact ih h.2

theorem lastValue_append {α : Type} (a b : List (List Char × α)) (k : List Char) :
    lastValue (a ++ b) k
      = match lastValue b k with
        | some w => some w
        | none => lastValue a k := by
  induction a with
  | nil =>
    rw [List.nil_append, lastValue_nil]
    cases lastValue b k <;> rfl
  | cons kv r ih =>
    obtain ⟨k0, v0⟩ := kv
    rw [List.cons_append, lastValue_cons, lastValue_cons, ih]
    cases lastValue b k with
    | some w => by_cases h : k0 = k <;> simp [h]
    | none => rfl

theorem lastValue_filter_ne {α : Type} (ps : List (List Char × α)) (k x : List Char)
    (h : x ≠ k) : lastValue (ps.filter (fun kv => kv.1 ≠ k)) x = lastValue ps x := by
  induction ps with
  | nil => rfl
  | cons kv r ih =>
    obtain ⟨k0, v0⟩ := kv
    by_cases h0 : k0 = k
    · rw [List.filter_cons_of_neg (by simpa using h0), ih, lastValue_cons,
        if_neg (fun e => h (e.symm.trans h0))]
    · rw [List.filter_cons_of_pos (by simpa using h0), lastValue_cons, lastValue_cons, ih]

theorem filter_ne_comm {α : Type} (l : List (List Char × α)) (a b : List Char) :
    (l.filter (fun kv => kv.1 ≠ a)).filter (fun kv => kv.1 ≠ b)
      = (l.filter (fun kv => kv.1 ≠ b)).filter (fun kv => kv.1 ≠ a) := by
  rw [List.filter_filter, List.filter_filter]
  congr 1
  funext kv
  exact Bool.and_comm _ _

theorem filter_ne_idem {α : Type} (l : List (List Char × α)) (a : List Char) :
    (l.filter (fun kv => kv.1 ≠ a)).filter (fun kv => kv.1 ≠ a)
      = l.filter (fun kv => kv.1 ≠ a) := by
  rw [List.filter_filter]
  congr 1
  funext kv
  exact Bool.and_self _

/-- Removing a key from the denoted map is removing its pairs from the source. -/
theorem denotedObject_filter {α : Type} (ps : List (List Char × α)) (k : List Char) :
    (denotedObject ps).filter (fun kv => kv.1 ≠ k)
      = denotedObject (ps.filter (fun kv => kv.1 ≠ k)) := by
  induction ps with
  | nil => rfl
  | cons kv r ih =>
    obtain ⟨k0, v0⟩ := kv
    by_cases h0 : k0 = k
    · rw [List.filter_cons_of_neg (by simpa using h0), denotedObject,
        List.filter_cons_of_neg (by simpa using h0), h0, filter_ne_idem]
      exact ih
    · rw [List.filter_cons_of_pos (by simpa using h0), denotedObject, denotedObject,
        List.filter_cons_of_pos (by simpa using h0), lastValue_filter_ne r k k0 h0,
        filter_ne_comm, ih]

/-- A list of pairs with distinct keys denotes itself. -/
theorem denotedObject_of_nodup {α : Type} (ps : List (List Char × α))
    (h : (ps.map Prod.fst).Nodup) : denotedObject ps = ps := by
  induction ps with
  | nil => rfl
  | cons kv r ih =>
    obtain ⟨k0, v0⟩ := kv
    rw [List.map_cons, List.nodup_cons] at h
    rw [denotedObject, ih h.2, lastValue_of_not_mem r k0 h.1]
    congr 1
    rw [List.filter_eq_self]
    intro kv hkv
    have : kv.1 ≠ k0 := by
      intro e
      have hm : kv.1 ∈ r.map Prod.fst := List.mem_map_of_mem Prod.fst hkv
      rw [e] at hm
      exact h.1 hm
    simpa using this

namespace Baseline

theorem assign_nil (k : List Char) (v : JsonValue) : assign [] k v = [(k, v)] := rfl

theorem assign_cons_eq (k : List Char) (v v0 : JsonValue)
    (o : List (List Char × JsonValue)) (h : k ∉ o.map Prod.fst) :
    assign ((k, v0) :: o) k v = (k, v) :: o := by
  unfold assign
  rw [if_pos (by simp), List.map_cons, if_pos rfl]
  congr 1
  have : ∀ kv ∈ o, (if kv.1 = k then (k, v) else kv) = kv := by
    intro kv hkv
    have hm : kv.1 ∈ o.map Prod.fst := List.mem_map_of_mem Prod.fst hkv
    rw [if_neg (fun e => h (by rw [e] at hm; exact hm))]
  calc o.map (fun kv => if kv.1 = k then (k, v) else kv) = o.map id :=
        List.map_congr_left this
    _ = o := List.map_id _

theorem assign_cons_ne (k k0 : List Char) (v v0 : JsonValue)
    (o : List (List Char × JsonValue)) (h : k0 ≠ k) :
    assign ((k0, v0) :: o) k v = (k0, v0) :: assign o k v := by
  unfold assign
  have e : ((k0, v0) :: o).any (fun kv => decide (kv.1 = k))
      = o.any (fun kv => decide (kv.1 = k)) := by
    rw [List.any_cons]
    simp [h]
  rw [e]
  by_cases ha : o.any (fun kv => decide (kv.1 = k)) = true
  · rw [if_pos ha, if_pos ha, List.map_cons, if_neg h]
  · rw [if_neg ha, if_neg ha]
    rfl

/-- One `obj[key] = v` on a map adds a last pair to its source. -/
theorem denotedObject_assign (obj : List (List Char × JsonValue)) (k : List Char)
    (v : JsonValue) (ps : List (List Char × JsonValue)) (h : (obj.map Prod.fst).Nodup) :
    denotedObject (assign obj k v ++ ps) = denotedObject (obj ++ (k, v) :: ps) := by
  induction obj with
  | nil => rfl
  | cons kv o ih =>
    obtain ⟨k0, v0⟩ := kv
    rw [List.map_cons, List.nodup_cons] at h
    by_cases h0 : k0 = k
    · subst h0
      rw [assign_cons_eq k0 v v0 o h.1, List.cons_append, List.cons_append, denotedObject,
        denotedObject, denotedObject_filter, denotedObject_filter, lastValue_append,
        lastValue_append, lastValue_of_not_mem o k0 h.1, lastValue_cons, if_pos rfl,
        List.filter_append, List.filter_append,
        List.filter_cons_of_neg (by simp)]
      cases lastValue ps k0 <;> rfl
    · rw [assign_cons_ne k k0 v v0 o h0, List.cons_append, List.cons_append, denotedObject,
        denotedObject, ih h.2]
      congr 2
      rw [lastValue_append, lastValue_append, lastValue_cons, if_neg (fun e => h0 e.symm),
        lastValue_of_not_mem o k0 h.1]
      have : lastValue (assign o k v) k0 = none := by
        apply lastValue_of_not_mem
        intro hm
        unfold assign at hm
        split_ifs at hm
        · rw [List.map_map] at hm
          obtain ⟨kv, hkv, e⟩ := List.mem_map.mp hm
          by_cases hk : kv.1 = k
          · simp only [Function.comp, hk, if_true] at e
            exact h0 e.symm
          · simp only [Function.comp, hk, if_false] at e
            have hm2 : kv.1 ∈ o.map Prod.fst := List.mem_map_of_mem Prod.fst hkv
            rw [e] at hm2
            exact h.1 hm2
        · rw [List.map_append, List.mem_append] at hm
          rcases hm with h1 | h1
          · exact h.1 h1
          · simp at h1
            exact h0 h1
      rw [this]

/-- The map that the loop of `parseObject` builds by assigning the pairs `ps` in
source order to the map `obj` is the map that `obj` followed by `ps` denotes. -/
theorem foldl_assign_eq (ps obj : List (List Char × JsonValue))
    (h : (obj.map Prod.fst).Nodup) :
    ps.foldl (fun o kv => assign o kv.1 kv.2) obj = denotedObject (obj ++ ps) := by
  induction ps generalizing obj with
  | nil => rw [List.foldl_nil, List.append_nil, denotedObject_of_nodup obj h]
  | cons kv r ih =>
    obtain ⟨k, v⟩ := kv
    rw [List.foldl_cons, ih _ (assign_keys_nodup obj k v h)]
    exact denotedObject_assign obj k v r h

end Baseline

namespace Baseline

theorem reads_nil (input : List Char) (p : Parser) : Reads input p [] p := rfl

theorem reads_cons {input : List Char} {p q : Parser} {ts : List Token}
    (h : Reads input (advance input p) ts q) : Reads input p (p.current :: ts) q :=
  ⟨rfl, h⟩

theorem reads_one (input : List Char) (p : Parser) :
    Reads input p [p.current] (advance input p) := ⟨rfl, rfl⟩

theorem reads_append {input : List Char} {a b : List Token} {p m q : Parser}
    (h1 : Reads input p a m) (h2 : Reads input m b q) : Reads input p (a ++ b) q := by
  induction a generalizing p with
  | nil =>
    have : m = p := h1
    rw [List.nil_append, ← this]
    exact h2
  | cons t ts ih => exact ⟨h1.1, ih h1.2⟩

theorem reads_append_inv {input : List Char} {a b : List Token} {p q : Parser}
    (h : Reads input p (a ++ b) q) : ∃ m, Reads input p a m ∧ Reads input m b q := by
  induction a generalizing p with
  | nil => exact ⟨p, rfl, h⟩
  | cons t ts ih =>
    obtain ⟨m, h1, h2⟩ := ih h.2
    exact ⟨m, ⟨h.1, h1⟩, h2⟩

/-- Soundness of the five functions of the Baseline parser for the grammar: what a
function returns is the denotation of a derivation of the tokens it has read. -/
theorem parser_sound (input : List Char) (fuel : Nat) :
    (∀ p v q, parseValue input fuel p = .ok (v, q) →
        ∃ ts, DerivesValue ts v ∧ Reads input p ts q)
    ∧ (∀ p o q, parseObject input fuel p = .ok (o, q) → p.current.type = TokenType.LeftBrace →
        ∃ ts, DerivesValue ts (JsonValue.object o) ∧ Reads input p ts q)
    ∧ (∀ p obj o q, parseObjectLoop input fuel p obj = .ok (o, q) →
        ∃ ts ps r, DerivesPairs ts ps ∧ r.type = TokenType.RightBrace
          ∧ o = ps.foldl (fun m kv => assign m kv.1 kv.2) obj
          ∧ Reads input p (ts ++ [r]) q)
    ∧ (∀ p a q, parseArray input fuel p = .ok (a, q) →
        p.current.type = TokenType.LeftBracket →
        ∃ ts, DerivesValue ts (JsonValue.array a) ∧ Reads input p ts q)
    ∧ (∀ p arr a q, parseArrayLoop input fuel p arr = .ok (a, q) →
        ∃ ts vs r, DerivesElems ts vs ∧ r.type = TokenType.RightBracket
          ∧ a = arr ++ vs ∧ Reads input p (ts ++ [r]) q) := by
  induction fuel with
  | zero =>
    refine ⟨?_, ?_, ?_, ?_, ?_⟩
    · intro p v q h
      rw [parseValue] at h; cases h
    · intro p o q h
      rw [parseObject] at h; cases h
    · intro p obj o q h
      rw [parseObjectLoop] at h; cases h
    · intro p a q h
      rw [parseArray] at h; cases h
    · intro p arr a q h
      rw [parseArrayLoop] at h; cases h
  | succ f ih =>
    obtain ⟨ihV, ihO, ihOL, ihA, ihAL⟩ := ih
    refine ⟨?_, ?_, ?_, ?_, ?_⟩
    · intro p v q h
      rw [parseValue] at h
      cases hty : p.current.type with
      | String =>
        rw [hty] at h
        simp only [Except.ok.injEq, Prod.mk.injEq] at h
        rw [← h.1, ← h.2]
        exact ⟨_, DerivesValue.string p.current hty, reads_one input p⟩
      | Number =>
        rw [hty] at h
        simp only [] at h
        cases hs : stod p.current.value with
        | none => rw [hs] at h; cases h
        | some d =>
          rw [hs] at h
          simp only [Except.ok.injEq, Prod.mk.injEq] at h
          rw [← h.1, ← h.2]
          exact ⟨_, DerivesValue.number p.current d hty hs, reads_one input p⟩
      | True =>
        rw [hty] at h
        simp only [Except.ok.injEq, Prod.mk.injEq] at h
        rw [← h.1, ← h.2]
        exact ⟨_, DerivesValue.litTrue p.current hty, reads_one input p⟩
      | False =>
        rw [hty] at h
        simp only [Except.ok.injEq, Prod.mk.injEq] at h
        rw [← h.1, ← h.2]
        exact ⟨_, DerivesValue.litFalse p.current hty, reads_one input p⟩
      | Null =>
        rw [hty] at h
        simp only [Except.ok.injEq, Prod.mk.injEq] at h
        rw [← h.1, ← h.2]
        exact ⟨_, DerivesValue.litNull p.current hty, reads_one input p⟩
      | LeftBrace =>
        rw [hty] at h
        simp only [] at h
        cases ho : parseObject input f p with
        | error e => rw [ho] at h; cases h
        | ok r =>
          obtain ⟨o, q2⟩ := r
          rw [ho] at h
          simp only [Except.ok.injEq, Prod.mk.injEq] at h
          rw [← h.1, ← h.2]
          exact ihO p o q2 ho hty
      | LeftBracket =>
        rw [hty] at h
        simp only [] at h
        cases ho : parseArray input f p with
        | error e => rw [ho] at h; cases h
        | ok r =>
          obtain ⟨a, q2⟩ := r
          rw [ho] at h
          simp only [Except.ok.injEq, Prod.mk.injEq] at h
          rw [← h.1, ← h.2]
          exact ihA p a q2 ho hty
      | RightBrace => rw [hty] at h; cases h
      | RightBracket => rw [hty] at h; cases h
      | Colon => rw [hty] at h; cases h
      | Comma => rw [hty] at h; cases h
      | EndOfFile => rw [hty] at h; cases h
      | Invalid => rw [hty] at h; cases h
    · intro p o q h hty
      rw [parseObject] at h
      by_cases hrb : (advance input p).current.type = TokenType.RightBrace
      · rw [if_pos hrb] at h
        simp only [Except.ok.injEq, Prod.mk.injEq] at h
        rw [← h.1, ← h.2]
        exact ⟨_, DerivesValue.emptyObject p.current (advance input p).current hty hrb,
          reads_cons (reads_one input _)⟩
      · rw [if_neg hrb] at h
        obtain ⟨ts, ps, r, hd, hr, ho, hreads⟩ := ihOL _ [] o q h
        have e : ps.foldl (fun m kv => assign m kv.1 kv.2) [] = denotedObject ps :=
          foldl_assign_eq ps [] List.nodup_nil
        rw [ho, e]
        exact ⟨_, DerivesValue.object p.current r ts ps hty hd hr, reads_cons hreads⟩
    · intro p obj o q h
      rw [parseObjectLoop] at h
      by_cases hk : p.current.type ≠ TokenType.String
      · rw [if_pos hk] at h; cases h
      rw [if_neg hk] at h
      have hk2 : p.current.type = TokenType.String := not_not.mp hk
      by_cases hc : (advance input p).current.type ≠ TokenType.Colon
      · rw [if_pos hc] at h; cases h
      rw [if_neg hc] at h
      have hc2 : (advance input p).current.type = TokenType.Colon := not_not.mp hc
      cases hv : parseValue input f (advance input (advance input p)) with
      | error e => rw [hv] at h; cases h
      | ok r =>
        obtain ⟨v, q1⟩ := r
        rw [hv] at h
        simp only [] at h
        obtain ⟨tv, hdv, hrv⟩ := ihV _ v q1 hv
        by_cases hcm : q1.current.type = TokenType.Comma
        · rw [if_pos hcm] at h
          obtain ⟨ts, ps, r, hd, hr, ho, hreads⟩ := ihOL _ _ o q h
          refine ⟨_, _, r, DerivesPairs.more p.current (advance input p).current q1.current
            tv ts v ps hk2 hc2 hdv hcm hd, hr, ho, ?_⟩
          refine reads_cons (reads_cons ?_)
          show Reads input _ ((tv ++ q1.current :: ts) ++ [r]) q
          rw [List.append_assoc]
          exact reads_append hrv (reads_cons hreads)
        · rw [if_neg hcm] at h
          by_cases hrb : q1.current.type = TokenType.RightBrace
          · rw [if_pos hrb] at h
            simp only [Except.ok.injEq, Prod.mk.injEq] at h
            rw [← h.1, ← h.2]
            refine ⟨_, _, q1.current, DerivesPairs.one p.current (advance input p).current tv v
              hk2 hc2 hdv, hrb, rfl, ?_⟩
            refine reads_cons (reads_cons ?_)
            exact reads_append hrv (reads_one input q1)
          · rw [if_neg hrb] at h
            cases h
    · intro p a q h hty
      rw [parseArray] at h
      by_cases hrb : (advance input p).current.type = TokenType.RightBracket
      · rw [if_pos hrb] at h
        simp only [Except.ok.injEq, Prod.mk.injEq] at h
        rw [← h.1, ← h.2]
        exact ⟨_, DerivesValue.emptyArray p.current (advance input p).current hty hrb,
          reads_cons (reads_one input _)⟩
      · rw [if_neg hrb] at h
        obtain ⟨ts, vs, r, hd, hr, ha, hreads⟩ := ihAL _ [] a q h
        rw [ha, List.nil_append]
        exact ⟨_, DerivesValue.array p.current r ts vs hty hd hr, reads_cons hreads⟩
    · intro p arr a q h
      rw [parseArrayLoop] at h
      cases hv : parseValue input f p with
      | error e => rw [hv] at h; cases h
      | ok r =>
        obtain ⟨v, q1⟩ := r
        rw [hv] at h
        simp only [] at h
        obtain ⟨tv, hdv, hrv⟩ := ihV _ v q1 hv
        by_cases hcm : q1.current.type = TokenType.Comma
        · rw [if_pos hcm] at h
          obtain ⟨ts, vs, r, hd, hr, ha, hreads⟩ := ihAL _ _ a q h
          refine ⟨_, _, r, DerivesElems.more q1.current tv ts v vs hdv hcm hd, hr, ?_, ?_⟩
          · rw [ha, List.append_assoc]
            rfl
          · rw [List.append_assoc]
            exact reads_append hrv (reads_cons hreads)
        · rw [if_neg hcm] at h
          by_cases hrb : q1.current.type = TokenType.RightBracket
          · rw [if_pos hrb] at h
            simp only [Except.ok.injEq, Prod.mk.injEq] at h
            rw [← h.1, ← h.2]
            exact ⟨_, _, q1.current, DerivesElems.one tv v hdv, hrb, rfl,
              reads_append hrv (reads_one input q1)⟩
          · rw [if_neg hrb] at h
            cases h

end Baseline

/-- The first token of a value is not a closer. -/
theorem derivesValue_head {ts : List Token} {v : JsonValue} (h : DerivesValue ts v) :
    ∃ t rest, ts = t :: rest ∧ t.type ≠ TokenType.RightBracket
      ∧ t.type ≠ TokenType.RightBrace := by
  cases h with
  | string t h => exact ⟨t, [], rfl, by rw [h]; decide, by rw [h]; decide⟩
  | number t d h hd => exact ⟨t, [], rfl, by rw [h]; decide, by rw [h]; decide⟩
  | litTrue t h => exact ⟨t, [], rfl, by rw [h]; decide, by rw [h]; decide⟩
  | litFalse t h => exact ⟨t, [], rfl, by rw [h]; decide, by rw [h]; decide⟩
  | litNull t h => exact ⟨t, [], rfl, by rw [h]; decide, by rw [h]; decide⟩
  | emptyObject l r hl hr => exact ⟨l, [r], rfl, by rw [hl]; decide, by rw [hl]; decide⟩
  | object l r ts ps hl hp hr =>
    exact ⟨l, ts ++ [r], rfl, by rw [hl]; decide, by rw [hl]; decide⟩
  | emptyArray l r hl hr => exact ⟨l, [r], rfl, by rw [hl]; decide, by rw [hl]; decide⟩
  | array l r ts vs hl he hr =>
    exact ⟨l, ts ++ [r], rfl, by rw [hl]; decide, by rw [hl]; decide⟩

theorem derivesElems_head {ts : List Token} {vs : List JsonValue} (h : DerivesElems ts vs) :
    ∃ t rest, ts = t :: rest ∧ t.type ≠ TokenType.RightBracket := by
  cases h with
  | one ts v hv =>
    obtain ⟨t, rest, h1, h2, _⟩ := derivesValue_head hv
    exact ⟨t, rest, h1, h2⟩
  | more s ts rest v vs hv hs he =>
    obtain ⟨t, r2, h1, h2, _⟩ := derivesValue_head hv
    exact ⟨t, r2 ++ s :: rest, by rw [h1]; rfl, h2⟩

theorem derivesPairs_head {ts : List Token} {ps : List (List Char × JsonValue)}
    (h : DerivesPairs ts ps) : ∃ t rest, ts = t :: rest ∧ t.type ≠ TokenType.RightBrace := by
  cases h with
  | one k c ts v hk hc hv => exact ⟨k, c :: ts, rfl, by rw [hk]; decide⟩
  | more k c s ts rest v ps hk hc hv hs hp =>
    exact ⟨k, c :: (ts ++ s :: rest), rfl, by rw [hk]; decide⟩

namespace Baseline

/-- Completeness of the five functions of the Baseline parser for the grammar: on
the tokens of a derivation, with fuel for twice their number, a function returns
the denotation and has read exactly these tokens. -/
theorem parser_complete (input : List Char) (fuel : Nat) :
    (∀ ts v p q, DerivesValue ts v → Reads input p ts q → 2 * ts.length ≤ fuel →
        parseValue input fuel p = .ok (v, q))
    ∧ (∀ ts v p q, DerivesValue ts v → ∀ o, v = JsonValue.object o → Reads input p ts q →
        2 * ts.length ≤ fuel + 1 → parseObject input fuel p = .ok (o, q))
    ∧ (∀ ts ps p q r obj, DerivesPairs ts ps → r.type = TokenType.RightBrace →
        Reads input p (ts ++ [r]) q → 2 * ts.length + 1 ≤ fuel →
        parseObjectLoop input fuel p obj
          = .ok (ps.foldl (fun m kv => assign m kv.1 kv.2) obj, q))
    ∧ (∀ ts v p q, DerivesValue ts v → ∀ a, v = JsonValue.array a → Reads input p ts q →
        2 * ts.length ≤ fuel + 1 → parseArray input fuel p = .ok (a, q))
    ∧ (∀ ts vs p q r arr, DerivesElems ts vs → r.type = TokenType.RightBracket →
        Reads input p (ts ++ [r]) q → 2 * ts.length + 1 ≤ fuel →
        parseArrayLoop input fuel p arr = .ok (arr ++ vs, q)) := by
  induction fuel with
  | zero =>
    refine ⟨?_, ?_, ?_, ?_, ?_⟩
    · intro ts v p q hd _ hb
      obtain ⟨t, rest, h1, _⟩ := derivesValue_head hd
      rw [h1] at hb
      simp only [List.length_cons] at hb
      omega
    · intro ts v p q hd o _ _ hb
      obtain ⟨t, rest, h1, _⟩ := derivesValue_head hd
      rw [h1] at hb
      simp only [List.length_cons] at hb
      omega
    · intro ts ps p q r obj _ _ _ hb
      omega
    · intro ts v p q hd a _ _ hb
      obtain ⟨t, rest, h1, _⟩ := derivesValue_head hd
      rw [h1] at hb
      simp only [List.length_cons] at hb
      omega
    · intro ts vs p q r arr _ _ _ hb
      omega
  | succ f ih =>
    obtain ⟨ihV, ihO, ihOL, ihA, ihAL⟩ := ih
    refine ⟨?_, ?_, ?_, ?_, ?_⟩
    · -- parseValue
      intro ts v p q hd hr hb
      rw [parseValue]
      cases hd with
      | string t h =>
        obtain ⟨h1, h2⟩ := hr
        have h3 : q = advance input p := h2
        rw [h1, h]
        simp only []
        rw [h3, ← h1]
      | number t d h hs =>
        obtain ⟨h1, h2⟩ := hr
        have h3 : q = advance input p := h2
        rw [h1, h]
        simp only []
        rw [hs]
        simp only []
        rw [h3]
      | litTrue t h =>
        obtain ⟨h1, h2⟩ := hr
        have h3 : q = advance input p := h2
        rw [h1, h]
        simp only []
        rw [h3]
      | litFalse t h =>
        obtain ⟨h1, h2⟩ := hr
        have h3 : q = advance input p := h2
        rw [h1, h]
        simp only []
        rw [h3]
      | litNull t h =>
        obtain ⟨h1, h2⟩ := hr
        have h3 : q = advance input p := h2
        rw [h1, h]
        simp only []
        rw [h3]
      | emptyObject l r hl hrr =>
        have hb2 := ihO _ _ p q (DerivesValue.emptyObject l r hl hrr) _ rfl hr (by omega)
        rw [hr.1, hl]
        simp only []
        rw [hb2]
      | object l r ts2 ps hl hp hrr =>
        have hb2 := ihO _ _ p q (DerivesValue.object l r ts2 ps hl hp hrr) _ rfl hr (by omega)
        rw [hr.1, hl]
        simp only []
        rw [hb2]
      | emptyArray l r hl hrr =>
        have hb2 := ihA _ _ p q (DerivesValue.emptyArray l r hl hrr) _ rfl hr (by omega)
        rw [hr.1, hl]
        simp only []
        rw [hb2]
      | array l r ts2 vs hl he hrr =>
        have hb2 := ihA _ _ p q (DerivesValue.array l r ts2 vs hl he hrr) _ rfl hr (by omega)
        rw [hr.1, hl]
        simp only []
        rw [hb2]
    · -- parseObject
      intro ts v p q hd o hvo hr hb
      rw [parseObject]
      cases hd with
      | string t h => cases hvo
      | number t d h hs => cases hvo
      | litTrue t h => cases hvo
      | litFalse t h => cases hvo
      | litNull t h => cases hvo
      | emptyArray l r hl hrr => cases hvo
      | array l r ts2 vs hl he hrr => cases hvo
      | emptyObject l r hl hrr =>
        cases hvo
        obtain ⟨_, h2, h3⟩ := hr
        have h4 : q = advance input (advance input p) := h3
        rw [if_pos (by rw [h2]; exact hrr), h4]
      | object l r ts2 ps hl hp hrr =>
        cases hvo
        obtain ⟨_, h2⟩ := hr
        obtain ⟨k, rest, hk1, hk2⟩ := derivesPairs_head hp
        have hcur : (advance input p).current = k := by
          rw [hk1] at h2
          exact h2.1
        rw [if_neg (by rw [hcur]; exact hk2)]
        simp only [List.length_cons, List.length_append, List.length_nil] at hb
        have e : ps.foldl (fun m kv => assign m kv.1 kv.2) [] = denotedObject ps :=
          foldl_assign_eq ps [] List.nodup_nil
        rw [← e]
        exact ihOL ts2 ps _ q r [] hp hrr h2 (by omega)
    · -- parseObjectLoop
      intro ts ps p q r obj hd hrr hr hb
      rw [parseObjectLoop]
      cases hd with
      | one k c tv v hk hc hv =>
        obtain ⟨h1, h2, h3⟩ := hr
        obtain ⟨m, hm1, hm2, hm3⟩ := reads_append_inv h3
        have hq : q = advance input m := hm3
        simp only [List.length_cons] at hb
        rw [if_neg (by rw [h1, hk]; exact fun hn => hn rfl),
          if_neg (by rw [h2, hc]; exact fun hn => hn rfl), ihV tv v _ m hv hm1 (by omega)]
        simp only []
        rw [if_neg (by rw [hm2, hrr]; decide), if_pos (by rw [hm2]; exact hrr), hq, h1]
        rfl
      | more k c s tv rest v ps2 hk hc hv hs hp =>
        obtain ⟨h1, h2, h3⟩ := hr
        have h4 : Reads input (advance input (advance input p)) (tv ++ s :: (rest ++ [r])) q := by
          have e : (tv ++ s :: rest) ++ [r] = tv ++ s :: (rest ++ [r]) := by
            rw [List.append_assoc]; rfl
          rw [← e]
          exact h3
        obtain ⟨m, hm1, hm2, hm3⟩ := reads_append_inv h4
        simp only [List.length_cons, List.length_append] at hb
        rw [if_neg (by rw [h1, hk]; exact fun hn => hn rfl),
          if_neg (by rw [h2, hc]; exact fun hn => hn rfl), ihV tv v _ m hv hm1 (by omega)]
        simp only []
        rw [if_pos (by rw [hm2]; exact hs), h1,
          ihOL rest ps2 _ q r _ hp hrr hm3 (by omega)]
        rfl
    · -- parseArray
      intro ts v p q hd a hva hr hb
      rw [parseArray]
      cases hd with
      | string t h => cases hva
      | number t d h hs => cases hva
      | litTrue t h => cases hva
      | litFalse t h => cases hva
      | litNull t h => cases hva
      | emptyObject l r hl hrr => cases hva
      | object l r ts2 ps hl hp hrr => cases hva
      | emptyArray l r hl hrr =>
        cases hva
        obtain ⟨_, h2, h3⟩ := hr
        have h4 : q = advance input (advance input p) := h3
        rw [if_pos (by rw [h2]; exact hrr), h4]
      | array l r ts2 vs hl he hrr =>
        cases hva
        obtain ⟨_, h2⟩ := hr
        obtain ⟨k, rest, hk1, hk2⟩ := derivesElems_head he
        have hcur : (advance input p).current = k := by
          rw [hk1] at h2
          exact h2.1
        rw [if_neg (by rw [hcur]; exact hk2)]
        simp only [List.length_cons, List.length_append, List.length_nil] at hb
        have := ihAL ts2 a _ q r [] he hrr h2 (by omega)
        rw [List.nil_append] at this
        exact this
    · -- parseArrayLoop
      intro ts vs p q r arr hd hrr hr hb
      rw [parseArrayLoop]
      cases hd with
      | one _ v hv =>
        obtain ⟨m, hm1, hm2, hm3⟩ := reads_append_inv hr
        have hq : q = advance input m := hm3
        rw [ihV ts v _ m hv hm1 (by omega)]
        simp only []
        rw [if_neg (by rw [hm2, hrr]; decide), if_pos (by rw [hm2]; exact hrr), hq]
      | more s tv rest v vs2 hv hs he =>
        have h4 : Reads input p (tv ++ s :: (rest ++ [r])) q := by
          have e : (tv ++ s :: rest) ++ [r] = tv ++ s :: (rest ++ [r]) := by
            rw [List.append_assoc]; rfl
          rw [← e]
          exact hr
        obtain ⟨m, hm1, hm2, hm3⟩ := reads_append_inv h4
        simp only [List.length_cons, List.length_append] at hb
        rw [ihV tv v _ m hv hm1 (by omega)]
        simp only []
        rw [if_pos (by rw [hm2]; exact hs), ihAL rest vs2 _ q r _ he hrr hm3 (by omega),
          List.append_assoc]
        rfl

end Baseline

/-- No token of a derivation is EndOfFile. -/
theorem derives_no_eof (n : Nat) :
    (∀ ts v, ts.length ≤ n → DerivesValue ts v → ∀ t ∈ ts, t.type ≠ TokenType.EndOfFile)
    ∧ (∀ ts ps, ts.length ≤ n → DerivesPairs ts ps → ∀ t ∈ ts, t.type ≠ TokenType.EndOfFile)
    ∧ (∀ ts vs, ts.length ≤ n → DerivesElems ts vs →
        ∀ t ∈ ts, t.type ≠ TokenType.EndOfFile) := by
  induction n with
  | zero =>
    refine ⟨?_, ?_, ?_⟩
    · intro ts v hl _ t ht
      have : ts = [] := List.length_eq_zero.mp (by omega)
      rw [this] at ht
      cases ht
    · intro ts ps hl _ t ht
      have : ts = [] := List.length_eq_zero.mp (by omega)
      rw [this] at ht
      cases ht
    · intro ts vs hl _ t ht
      have : ts = [] := List.length_eq_zero.mp (by omega)
      rw [this] at ht
      cases ht
  | succ n ih =>
    obtain ⟨ihV, ihP, ihE⟩ := ih
    have one : ∀ (a t : Token), a.type ≠ TokenType.EndOfFile → t ∈ [a] →
        t.type ≠ TokenType.EndOfFile := by
      intro a t ha ht
      rw [List.mem_singleton] at ht
      rw [ht]
      exact ha
    have hV : ∀ ts v, ts.length ≤ n + 1 → DerivesValue ts v →
        ∀ t ∈ ts, t.type ≠ TokenType.EndOfFile := by
      intro ts v hl hd t ht
      cases hd with
      | string a h => exact one a t (by rw [h]; decide) ht
      | number a d h hs => exact one a t (by rw [h]; decide) ht
      | litTrue a h => exact one a t (by rw [h]; decide) ht
      | litFalse a h => exact one a t (by rw [h]; decide) ht
      | litNull a h => exact one a t (by rw [h]; decide) ht
      | emptyObject l r hl2 hr =>
        rcases List.mem_cons.mp ht with h1 | h1
        · rw [h1, hl2]; decide
        · exact one r t (by rw [hr]; decide) h1
      | emptyArray l r hl2 hr =>
        rcases List.mem_cons.mp ht with h1 | h1
        · rw [h1, hl2]; decide
        · exact one r t (by rw [hr]; decide) h1
      | object l r ts2 ps hl2 hp hr =>
        simp only [List.length_cons, List.length_append, List.length_nil] at hl
        rcases List.mem_cons.mp ht with h1 | h1
        · rw [h1, hl2]; decide
        · rcases List.mem_append.mp h1 with h2 | h2
          · exact ihP ts2 ps (by omega) hp t h2
          · exact one r t (by rw [hr]; decide) h2
      | array l r ts2 vs hl2 he hr =>
        simp only [List.length_cons, List.length_append, List.length_nil] at hl
        rcases List.mem_cons.mp ht with h1 | h1
        · rw [h1, hl2]; decide
        · rcases List.mem_append.mp h1 with h2 | h2
          · exact ihE ts2 vs (by omega) he t h2
          · exact one r t (by rw [hr]; decide) h2
    refine ⟨hV, ?_, ?_⟩
    · intro ts ps hl hd t ht
      cases hd with
      | one k c tv v hk hc hv =>
        simp only [List.length_cons] at hl
        rcases List.mem_cons.mp ht with h1 | h1
        · rw [h1, hk]; decide
        · rcases List.mem_cons.mp h1 with h2 | h2
          · rw [h2, hc]; decide
          · exact ihV tv v (by omega) hv t h2
      | more k c s tv rest v ps2 hk hc hv hs hp =>
        simp only [List.length_cons, List.length_append] at hl
        rcases List.mem_cons.mp ht with h1 | h1
        · rw [h1, hk]; decide
        · rcases List.mem_cons.mp h1 with h2 | h2
          · rw [h2, hc]; decide
          · rcases List.mem_append.mp h2 with h3 | h3
            · exact ihV tv v (by omega) hv t h3
            · rcases List.mem_cons.mp h3 with h4 | h4
              · rw [h4, hs]; decide
              · exact ihP rest ps2 (by omega) hp t h4
    · intro ts vs hl hd t ht
      cases hd with
      | one _ v hv => exact hV ts v hl hv t ht
      | more s tv rest v vs2 hv hs he =>
        simp only [List.length_cons, List.length_append] at hl
        rcases List.mem_append.mp ht with h3 | h3
        · exact ihV tv v (by omega) hv t h3
        · rcases List.mem_cons.mp h3 with h4 | h4
          · rw [h4, hs]; decide
          · exact ihE rest vs2 (by omega) he t h4

namespace Baseline

/-- Every token before EndOfFile takes at least one character: the tokens read
after a cursor are no more than the characters after it. -/
theorem reads_length (input : List Char) (ts : List Token)
    (hne : ∀ t ∈ ts, t.type ≠ TokenType.EndOfFile) (p0 q : Parser)
    (h : Reads input (advance input p0) ts q) :
    ts = [] ∨ ts.length + p0.pos ≤ input.length := by
  induction ts generalizing p0 with
  | nil => exact Or.inl rfl
  | cons t r ih =>
    right
    have hcur : (nextToken input p0.pos).1.type ≠ TokenType.EndOfFile := by
      have h1 : (advance input p0).current = t := h.1
      unfold advance at h1
      simp only [] at h1
      rw [h1]
      exact hne t (List.mem_cons_self _ _)
    have hp := nextToken_progress input p0.pos hcur
    have hpos : (advance input p0).pos = (nextToken input p0.pos).2 := rfl
    rcases ih (fun x hx => hne x (List.mem_cons_of_mem _ hx)) (advance input p0) h.2 with h2 | h2
    · rw [h2]
      simp only [List.length_cons, List.length_nil]
      omega
    · simp only [List.length_cons]
      omega

/-- The fuel of the Baseline pipeline is enough for every text that starts with a
derivable token list. -/
theorem parse_complete (input : List Char) (ts : List Token) (v : JsonValue) (q : Parser)
    (hd : DerivesValue ts v) (hr : Reads input (Parser.init input) ts q) :
    parse input = .ok (v, q) := by
  unfold parse
  refine (parser_complete input (3 * input.length + 3)).1 ts v _ q hd hr ?_
  have hne := (derives_no_eof ts.length).1 ts v (Nat.le_refl _) hd
  rcases reads_length input ts hne ⟨0, ⟨TokenType.EndOfFile, []⟩⟩ q hr with h | h
  · rw [h]
    simp
  · simp only [] at h
    omega

end Baseline

namespace Indexed

end Indexed

namespace Indexed
open IndexView ListView

theorem dropWhile_plain_append (pre s : List Char) (h : ∀ c ∈ pre, c ∉ chars) :
    (pre ++ s).dropWhile plainChar = s.dropWhile plainChar := by
  induction pre with
  | nil => rfl
  | cons c r ih =>
    rw [List.cons_append, List.dropWhile_cons_of_pos
      (plain_of_not_structural (h c (List.mem_cons_self _ _))),
      ih (fun x hx => h x (List.mem_cons_of_mem _ hx))]

/-- The bytes before the first structural character give no token. -/
theorem parseJsonWithIndex_skip_prefix (pre s : List Char) (h : ∀ c ∈ pre, c ∉ chars) :
    parseJsonWithIndex (pre ++ s) (find_structurals (pre ++ s))
      = parseJsonWithIndex s (find_structurals s) := by
  rw [parseJsonWithIndex_eq, parseJsonWithIndex_eq, dropWhile_plain_append pre s h]

theorem find_structurals_plain_text (s : List Char) (h : ∀ c ∈ s, c ∉ chars) :
    find_structurals s = [] := by
  rw [find_structurals_eq_offsetsFrom]
  exact offsetsFrom_plain s 0 (fun c hc => plain_of_not_structural (h c hc))

theorem parseJsonWithIndex_plain_text (s : List Char) (h : ∀ c ∈ s, c ∉ chars) :
    parseJsonWithIndex s (find_structurals s) = [] := by
  have := parseJsonWithIndex_skip_prefix s [] h
  rw [List.append_nil] at this
  rw [this]
  rfl

theorem parse_plain_text (s : List Char) (h : ∀ c ∈ s, c ∉ chars) :
    parse s = .error ParseError.outOfRange := by
  unfold parse
  rw [parseJsonWithIndex_plain_text s h]
  rfl

end Indexed
namespace Indexed

/-- The loop of `extractString` stops at the first later index of the offset list
whose offset passes the closing-quote test. -/
theorem extractStringLoop_first (json : List Char) (S : List Nat) (start j : Nat)
    (hj : j < S.length) (hc : closingQuoteAt json (S.getD j 0)) :
    ∀ (fuel i : Nat), i < j → j ≤ fuel + i →
      (∀ k, i < k → k < j → ¬ closingQuoteAt json (S.getD k 0)) →
      extractStringLoop json S start fuel i = (S.getD j 0, j) := by
  intro fuel
  induction fuel with
  | zero => intro i h1 h2; omega
  | succ f ih =>
    intro i h1 h2 hno
    unfold extractStringLoop
    rw [if_pos (by omega)]
    by_cases e : i + 1 = j
    · subst e
      have hc2 : json.getD (S.getD (i + 1) 0) NUL = '"'
          ∧ json.getD (S.getD (i + 1) 0 - 1) NUL ≠ '\\' := hc
      rw [if_pos hc2]
    · have hn2 : ¬ (json.getD (S.getD (i + 1) 0) NUL = '"'
          ∧ json.getD (S.getD (i + 1) 0 - 1) NUL ≠ '\\') := hno (i + 1) (by omega) (by omega)
      rw [if_neg hn2]
      exact ih (i + 1) (by omega) (by omega) (fun k hk1 hk2 => hno k (by omega) hk2)

/-- When no later offset of the list passes the closing-quote test, the loop of
`extractString` runs to the end of the list and leaves `end` at `start`. -/
theorem extractStringLoop_none (json : List Char) (S : List Nat) (start : Nat) :
    ∀ (fuel i : Nat), i < S.length → S.length ≤ fuel + i →
      (∀ k, i < k → k < S.length → ¬ closingQuoteAt json (S.getD k 0)) →
      extractStringLoop json S start fuel i = (start, S.length) := by
  intro fuel
  induction fuel with
  | zero => intro i h1 h2; omega
  | succ f ih =>
    intro i h1 h2 hno
    unfold extractStringLoop
    by_cases e : i + 1 < S.length
    · have hn2 : ¬ (json.getD (S.getD (i + 1) 0) NUL = '"'
          ∧ json.getD (S.getD (i + 1) 0 - 1) NUL ≠ '\\') := hno (i + 1) (by omega) e
      rw [if_pos e, if_neg hn2]
      exact ih (i + 1) e (by omega) (fun k hk1 hk2 => hno k (by omega) hk2)
    · rw [if_neg e]
      have : i + 1 = S.length := by omega
      rw [this]

theorem find_structurals_pairwise (json : List Char) :
    List.Pairwise (fun a b => a < b) (find_structurals json) := by
  have h : find_structurals json = (List.range json.length).filter (structuralAt json) :=
    find_structurals_with_eq 16 (by decide) json
  rw [h]
  exact List.Pairwise.filter _ (List.pairwise_lt_range _)

theorem mem_find_structurals (json : List Char) (j : Nat) :
    j ∈ find_structurals json ↔ j < json.length ∧ json.getD j NUL ∈ chars := by
  have h : find_structurals json = (List.range json.length).filter (structuralAt json) :=
    find_structurals_with_eq 16 (by decide) json
  rw [h, List.mem_filter, List.mem_range]
  unfold structuralAt
  rw [decide_eq_true_iff]

/-- In the offset list, a smaller index holds a smaller offset. -/
theorem find_structurals_getD_lt (json : List Char) (a b : Nat) (hab : a < b)
    (hb : b < (find_structurals json).length) :
    (find_structurals json).getD a 0 < (find_structurals json).getD b 0 := by
  have hp := List.pairwise_iff_getElem.mp (find_structurals_pairwise json) a b (by omega) hb hab
  rw [List.getD_eq_getElem _ _ (by omega : a < _), List.getD_eq_getElem _ _ hb]
  exact hp

/-- The index order and the offset order of the offset list agree. -/
theorem find_structurals_getD_lt_iff (json : List Char) (a b : Nat)
    (ha : a < (find_structurals json).length) (hb : b < (find_structurals json).length) :
    (find_structurals json).getD a 0 < (find_structurals json).getD b 0 ↔ a < b := by
  constructor
  · intro h
    by_contra hcon
    rcases Nat.lt_or_ge b a with h1 | h1
    · have := find_structurals_getD_lt json b a h1 ha
      omega
    · have : a = b := by omega
      subst this
      omega
  · intro h
    exact find_structurals_getD_lt json a b h hb

/-- Every offset of the list lies inside the text. -/
theorem find_structurals_getD_lt_length (json : List Char) (a : Nat)
    (ha : a < (find_structurals json).length) :
    (find_structurals json).getD a 0 < json.length := by
  have h : (find_structurals json).getD a 0 ∈ find_structurals json := by
    rw [List.getD_eq_getElem _ _ ha]
    exact List.getElem_mem _
  exact ((mem_find_structurals json _).mp h).1

/-- An offset that passes the closing-quote test is in the offset list. -/
theorem closingQuoteAt_index (json : List Char) (q : Nat) (hq : q < json.length)
    (hc : closingQuoteAt json q) :
    ∃ j, j < (find_structurals json).length ∧ (find_structurals json).getD j 0 = q := by
  have h : q ∈ find_structurals json := by
    rw [mem_find_structurals]
    refine ⟨hq, ?_⟩
    rw [hc.1]
    decide
  obtain ⟨j, hj, e⟩ := List.getElem_of_mem h
  exact ⟨j, hj, by rw [List.getD_eq_getElem _ _ hj, e]⟩

/-- The result of `extractString` when a closing quote exists: `q` is the least
offset after `p` that passes the test. -/
theorem extractString_closed (json : List Char) (i p q : Nat)
    (hi : i < (find_structurals json).length) (hp : (find_structurals json).getD i 0 = p)
    (hpq : p < q) (hq : q < json.length) (hc : closingQuoteAt json q)
    (hmin : ∀ r, p < r → r < q → ¬ closingQuoteAt json r) :
    ∃ j, extractString json p (find_structurals json) i
        = ((json.drop (p + 1)).take (q - (p + 1)), q + 1, j)
      ∧ i < j ∧ j < (find_structurals json).length ∧ (find_structurals json).getD j 0 = q := by
  obtain ⟨j, hj, ej⟩ := closingQuoteAt_index json q hq hc
  have hij : i < j := by
    rw [← find_structurals_getD_lt_iff json i j hi hj, hp, ej]
    exact hpq
  have hloop := extractStringLoop_first json (find_structurals json) (p + 1) j hj
    (by rw [ej]; exact hc) ((find_structurals json).length + 1) i hij (by omega)
    (fun k hk1 hk2 => hmin _
      (by rw [← hp]; exact find_structurals_getD_lt json i k hk1 (by omega))
      (by rw [← ej]; exact find_structurals_getD_lt json k j hk2 hj))
  refine ⟨j, ?_, hij, hj, ej⟩
  unfold extractString
  simp only [hloop, ej]
  rfl

/-- The result of `extractString` when no later offset passes the test. -/
theorem extractString_unclosed (json : List Char) (i p : Nat)
    (hi : i < (find_structurals json).length) (hp : (find_structurals json).getD i 0 = p)
    (hno : ∀ r, p < r → r < json.length → ¬ closingQuoteAt json r) :
    extractString json p (find_structurals json) i
      = ([], p + 2, (find_structurals json).length) := by
  have hloop := extractStringLoop_none json (find_structurals json) (p + 1)
    ((find_structurals json).length + 1) i hi (by omega)
    (fun k hk1 hk2 => hno _
      (by rw [← hp]; exact find_structurals_getD_lt json i k hk1 hk2)
      (find_structurals_getD_lt_length json k hk2))
  unfold extractString
  simp only [hloop]
  simp [substr]

end Indexed
namespace ListView

theorem length_of_hd {l : List Char} (h : hd l ≠ NUL) : l.length = l.tail.length + 1 := by
  cases l with
  | nil => exact absurd rfl h
  | cons c r => rfl

theorem length_takeWhile_add_dropWhile (p : Char → Bool) (l : List Char) :
    (l.takeWhile p).length + (l.dropWhile p).length = l.length := by
  rw [← List.length_append, List.takeWhile_append_dropWhile]

theorem takeWhile_length_le (p : Char → Bool) (l : List Char) :
    (l.takeWhile p).length ≤ l.length := by
  have := length_takeWhile_add_dropWhile p l
  omega

theorem hd_ne_NUL_of_isdigit {l : List Char} (h : isdigit (hd l) = true) : hd l ≠ NUL := by
  intro e
  rw [e, Baseline.isdigit_NUL] at h
  cases h

theorem exponent_le (l num : List Char) : (exponent l num).2 ≤ l.length := by
  unfold exponent
  by_cases h1 : hd l = 'e' ∨ hd l = 'E'
  · rw [if_pos h1]
    have n1 : hd l ≠ NUL := by
      rcases h1 with h | h <;> rw [h] <;> decide
    have e1 := length_of_hd n1
    by_cases h2 : hd l.tail = '+' ∨ hd l.tail = '-'
    · rw [if_pos h2]
      have n2 : hd l.tail ≠ NUL := by
        rcases h2 with h | h <;> rw [h] <;> decide
      have e2 := length_of_hd n2
      have e3 := takeWhile_length_le isdigit l.tail.tail
      by_cases h3 : ¬ isdigit (hd l.tail.tail) = true
      · rw [if_pos h3]
        show 2 ≤ _
        omega
      · rw [if_neg h3]
        show 2 + _ ≤ _
        omega
    · rw [if_neg h2]
      have e3 := takeWhile_length_le isdigit l.tail
      by_cases h3 : ¬ isdigit (hd l.tail) = true
      · rw [if_pos h3]
        show 1 ≤ _
        omega
      · rw [if_neg h3]
        show 1 + _ ≤ _
        omega
  · rw [if_neg h1]
    exact Nat.zero_le _

theorem fraction_le (l num : List Char) : (fraction l num).2 ≤ l.length := by
  unfold fraction
  by_cases h1 : hd l = '.'
  · rw [if_pos h1]
    have n1 : hd l ≠ NUL := by rw [h1]; decide
    have e1 := length_of_hd n1
    by_cases h3 : ¬ isdigit (hd l.tail) = true
    · rw [if_pos h3]
      show 1 ≤ _
      omega
    · rw [if_neg h3]
      have e2 := length_takeWhile_add_dropWhile isdigit l.tail
      have e3 := exponent_le (l.tail.dropWhile isdigit) (num ++ ['.'] ++ l.tail.takeWhile isdigit)
      show 1 + _ + _ ≤ _
      omega
  · rw [if_neg h1]
    exact exponent_le l num

theorem digits_le (l num : List Char) : (digits l num).2 ≤ l.length := by
  unfold digits
  by_cases h1 : isdigit (hd l) = true
  · rw [if_pos h1]
    have e1 := length_of_hd (hd_ne_NUL_of_isdigit h1)
    by_cases h2 : hd l = '0'
    · rw [if_pos h2]
      have e2 := fraction_le l.tail (num ++ ['0'])
      show 1 + _ ≤ _
      omega
    · rw [if_neg h2]
      have e2 := length_takeWhile_add_dropWhile isdigit l
      have e3 := fraction_le (l.dropWhile isdigit) (num ++ l.takeWhile isdigit)
      show _ + _ ≤ _
      omega
  · rw [if_neg h1]
    exact Nat.zero_le _

theorem number_le (l : List Char) : (number l).2 ≤ l.length := by
  unfold number
  by_cases h1 : hd l = '-'
  · rw [if_pos h1]
    have n1 : hd l ≠ NUL := by rw [h1]; decide
    have e1 := length_of_hd n1
    have e2 := digits_le l.tail ['-']
    show 1 + _ ≤ _
    omega
  · rw [if_neg h1]
    exact digits_le l []

theorem rawScan_le : ∀ (n : Nat) (l raw : List Char), l.length ≤ n →
    (rawScan l raw).2 ≤ l.length := by
  intro n
  induction n using Nat.strong_induction_on with
  | _ n ih =>
    intro l raw hn
    cases l with
    | nil => exact Nat.le_refl _
    | cons c rest =>
      unfold rawScan
      simp only [List.length_cons] at hn ⊢
      by_cases h1 : c = NUL
      · rw [if_pos h1]
        show 1 ≤ _
        omega
      rw [if_neg h1]
      by_cases h2 : c = '"'
      · rw [if_pos h2]
        show 1 ≤ _
        omega
      rw [if_neg h2]
      by_cases h3 : c = '\\'
      · rw [if_pos h3]
        cases rest with
        | nil => exact Nat.le_refl _
        | cons next rest2 =>
          simp only [List.length_cons]
          by_cases h4 : next = NUL
          · rw [if_pos h4]
            show 2 ≤ _
            omega
          · rw [if_neg h4]
            have := ih rest2.length (by simp only [List.length_cons] at hn; omega) rest2
              (raw ++ ['\\', next]) (Nat.le_refl _)
            show _ + 2 ≤ _
            omega
      · rw [if_neg h3]
        have := ih rest.length (by omega) rest (raw ++ [c]) (Nat.le_refl _)
        show _ + 1 ≤ _
        omega

theorem string_le (l : List Char) (h : hd l ≠ NUL) : (string l).2 ≤ l.length := by
  have e1 := length_of_hd h
  have e2 := rawScan_le l.tail.length l.tail [] (Nat.le_refl _)
  unfold string
  split_ifs
  · show 1 + _ ≤ _; omega
  · show 1 + _ ≤ _; omega
  · show 1 + _ ≤ _; omega

/-- No token takes more characters than the text holds. -/
theorem token_le (l : List Char) : (token l).2 ≤ l.length := by
  unfold token
  by_cases h0 : hd l = NUL
  · rw [if_pos h0]
    exact Nat.zero_le _
  rw [if_neg h0]
  have e1 := length_of_hd h0
  have one : 1 ≤ l.length := by omega
  by_cases p1 : hd l = '{'
  · rw [if_pos p1]; exact one
  rw [if_neg p1]
  by_cases p2 : hd l = '}'
  · rw [if_pos p2]; exact one
  rw [if_neg p2]
  by_cases p3 : hd l = '['
  · rw [if_pos p3]; exact one
  rw [if_neg p3]
  by_cases p4 : hd l = ']'
  · rw [if_pos p4]; exact one
  rw [if_neg p4]
  by_cases p5 : hd l = ':'
  · rw [if_pos p5]; exact one
  rw [if_neg p5]
  by_cases p6 : hd l = ','
  · rw [if_pos p6]; exact one
  rw [if_neg p6]
  by_cases hal : isalpha (hd l) = true
  · rw [if_pos hal]
    have := takeWhile_length_le isalpha l
    split_ifs <;> exact this
  rw [if_neg hal]
  by_cases hn : hd l = '-' ∨ isdigit (hd l) = true
  · rw [if_pos hn]
    exact number_le l
  rw [if_neg hn]
  by_cases hq : hd l = '"'
  · rw [if_pos hq]; exact string_le l h0
  · rw [if_neg hq]; exact one

theorem lex_le (l : List Char) : (lex l).2 ≤ l.length := by
  unfold lex
  have e1 := length_takeWhile_add_dropWhile isspace l
  have e2 := token_le (l.dropWhile isspace)
  show _ + _ ≤ _
  omega

end ListView

namespace Baseline
open ListView

/-- A call of `nextToken` never moves the cursor back. -/
theorem nextToken_ge (input : List Char) (pos : Nat) : pos ≤ (nextToken input pos).2 := by
  rw [nextToken_eq]
  show pos ≤ pos + _
  omega

/-- A call of `nextToken` with the cursor inside the text leaves it inside the
text. -/
theorem nextToken_le (input : List Char) (pos : Nat) (h : pos ≤ input.length) :
    (nextToken input pos).2 ≤ input.length := by
  rw [nextToken_eq]
  have := lex_le (input.drop pos)
  rw [List.length_drop] at this
  show pos + _ ≤ _
  omega

theorem cursorAfter_le (input : List Char) : ∀ n, cursorAfter input n ≤ input.length := by
  intro n
  induction n with
  | zero => exact Nat.zero_le _
  | succ k ih => exact nextToken_le input _ ih

/-- While the tokens are not EndOfFile, each call has moved the cursor by at
least one character. -/
theorem cursorAfter_ge (input : List Char) :
    ∀ n, (∀ m, m < n → (tokenAt input m).type ≠ TokenType.EndOfFile) →
      n ≤ cursorAfter input n := by
  intro n
  induction n with
  | zero => intro _; exact Nat.zero_le _
  | succ k ih =>
    intro h
    have h1 := ih (fun m hm => h m (by omega))
    have h2 := (nextToken_progress input (cursorAfter input k) (h k (by omega))).1
    show k + 1 ≤ (nextToken input (cursorAfter input k)).2
    omega

/-- Some call of `nextToken` among the first `input.length + 1` returns
EndOfFile, and it is the first to do so. -/
theorem tokenAt_eof (input : List Char) :
    ∃ n, n ≤ input.length ∧ (∀ m, m < n → (tokenAt input m).type ≠ TokenType.EndOfFile)
      ∧ (tokenAt input n).type = TokenType.EndOfFile := by
  by_contra hcon
  have hall : ∀ n, n ≤ input.length + 1 →
      ∀ m, m < n → (tokenAt input m).type ≠ TokenType.EndOfFile := by
    intro n
    induction n with
    | zero => intro _ m hm; omega
    | succ k ih =>
      intro hk m hm
      have hprev := ih (by omega)
      by_cases e : m = k
      · subst e
        intro heof
        exact hcon ⟨m, by omega, hprev, heof⟩
      · exact hprev m (by omega)
  have h1 := cursorAfter_ge input (input.length + 1) (hall _ (Nat.le_refl _))
  have h2 := cursorAfter_le input (input.length + 1)
  omega

/-- Once a call has returned EndOfFile, every later call returns it and the
cursor stays. -/
theorem tokenAt_eof_stays (input : List Char) (n : Nat)
    (h : (tokenAt input n).type = TokenType.EndOfFile) :
    ∀ k, (tokenAt input (n + k)).type = TokenType.EndOfFile
      ∧ cursorAfter input (n + k + 1) = cursorAfter input (n + 1) := by
  intro k
  induction k with
  | zero => exact ⟨h, rfl⟩
  | succ k ih =>
    have hag := nextToken_eof_again input (cursorAfter input (n + k)) ih.1
    have e1 : cursorAfter input (n + (k + 1)) = (nextToken input (cursorAfter input (n + k))).2 :=
      rfl
    refine ⟨?_, ?_⟩
    · unfold tokenAt
      rw [e1, hag]
    · show (nextToken input (cursorAfter input (n + (k + 1)))).2 = _
      rw [e1, hag]
      exact ih.2

theorem tokenRun_length (input : List Char) :
    ∀ (fuel pos : Nat), (tokenRun input fuel pos).length ≤ input.length - pos := by
  intro fuel
  induction fuel with
  | zero => intro pos; exact Nat.zero_le _
  | succ f ih =>
    intro pos
    unfold tokenRun
    by_cases heof : (nextToken input pos).1.type = TokenType.EndOfFile
    · rw [if_pos heof]
      exact Nat.zero_le _
    · rw [if_neg heof]
      have hp := nextToken_progress input pos heof
      have := ih (nextToken input pos).2
      simp only [List.length_cons]
      omega

/-- The tokens before EndOfFile are no more than the characters of the text. -/
theorem tokens_length (input : List Char) : (tokens input).length ≤ input.length := by
  unfold tokens
  rw [List.length_map]
  exact tokenRun_length input _ 0

end Baseline
namespace Baseline

theorem unread_advance (input : List Char) (p : Parser) :
    unread input (advance input p) ≤ input.length - p.pos := by
  unfold unread
  by_cases h : (advance input p).current.type = TokenType.EndOfFile
  · rw [if_pos h]
    exact Nat.zero_le _
  · rw [if_neg h]
    have hp := nextToken_progress input p.pos h
    have e : (advance input p).pos = (nextToken input p.pos).2 := rfl
    rw [e]
    omega

theorem unread_of_ne (input : List Char) (p : Parser)
    (h : p.current.type ≠ TokenType.EndOfFile) : unread input p = input.length - p.pos + 1 := by
  unfold unread
  rw [if_neg h]

/-- Each `advance` from a lookahead token other than EndOfFile lowers the bound. -/
theorem unread_advance_lt (input : List Char) (p : Parser)
    (h : p.current.type ≠ TokenType.EndOfFile) :
    unread input (advance input p) + 1 ≤ unread input p := by
  rw [unread_of_ne input p h]
  have := unread_advance input p
  omega

theorem unread_init (input : List Char) : unread input (Parser.init input) ≤ input.length := by
  have := unread_advance input ⟨0, ⟨TokenType.EndOfFile, []⟩⟩
  exact this

/-- Each of the five functions of the Baseline parser that returns has consumed
at least one token: the bound of the state after the call is lower. -/
theorem parser_consumes (input : List Char) (fuel : Nat) :
    (∀ p v q, parseValue input fuel p = .ok (v, q) → unread input q + 1 ≤ unread input p)
    ∧ (∀ p o q, parseObject input fuel p = .ok (o, q) →
        unread input q + 1 ≤ input.length - p.pos)
    ∧ (∀ p obj o q, parseObjectLoop input fuel p obj = .ok (o, q) →
        unread input q + 1 ≤ unread input p)
    ∧ (∀ p a q, parseArray input fuel p = .ok (a, q) →
        unread input q + 1 ≤ input.length - p.pos)
    ∧ (∀ p arr a q, parseArrayLoop input fuel p arr = .ok (a, q) →
        unread input q + 1 ≤ unread input p) := by
  induction fuel with
  | zero =>
    refine ⟨?_, ?_, ?_, ?_, ?_⟩
    · intro p v q h
      rw [parseValue] at h; cases h
    · intro p o q h
      rw [parseObject] at h; cases h
    · intro p obj o q h
      rw [parseObjectLoop] at h; cases h
    · intro p a q h
      rw [parseArray] at h; cases h
    · intro p arr a q h
      rw [parseArrayLoop] at h; cases h
  | succ f ih =>
    obtain ⟨ihV, ihO, ihOL, ihA, ihAL⟩ := ih
    refine ⟨?_, ?_, ?_, ?_, ?_⟩
    · intro p v q h
      rw [parseValue] at h
      cases hty : p.current.type with
      | String =>
        have hne : p.current.type ≠ TokenType.EndOfFile := by rw [hty]; decide
        rw [hty] at h
        simp only [Except.ok.injEq, Prod.mk.injEq] at h
        rw [← h.2]
        exact unread_advance_lt input p hne
      | Number =>
        have hne : p.current.type ≠ TokenType.EndOfFile := by rw [hty]; decide
        rw [hty] at h
        simp only [] at h
        cases hs : stod p.current.value with
        | none => rw [hs] at h; cases h
        | some d =>
          rw [hs] at h
          simp only [Except.ok.injEq, Prod.mk.injEq] at h
          rw [← h.2]
          exact unread_advance_lt input p hne
      | True =>
        have hne : p.current.type ≠ TokenType.EndOfFile := by rw [hty]; decide
        rw [hty] at h
        simp only [Except.ok.injEq, Prod.mk.injEq] at h
        rw [← h.2]
        exact unread_advance_lt input p hne
      | False =>
        have hne : p.current.type ≠ TokenType.EndOfFile := by rw [hty]; decide
        rw [hty] at h
        simp only [Except.ok.injEq, Prod.mk.injEq] at h
        rw [← h.2]
        exact unread_advance_lt input p hne
      | Null =>
        have hne : p.current.type ≠ TokenType.EndOfFile := by rw [hty]; decide
        rw [hty] at h
        simp only [Except.ok.injEq, Prod.mk.injEq] at h
        rw [← h.2]
        exact unread_advance_lt input p hne
      | LeftBrace =>
        have hne : p.current.type ≠ TokenType.EndOfFile := by rw [hty]; decide
        rw [hty] at h
        simp only [] at h
        cases ho : parseObject input f p with
        | error e => rw [ho] at h; cases h
        | ok r =>
          obtain ⟨o, q2⟩ := r
          rw [ho] at h
          simp only [Except.ok.injEq, Prod.mk.injEq] at h
          rw [← h.2, unread_of_ne input p hne]
          have := ihO p o q2 ho
          omega
      | LeftBracket =>
        have hne : p.current.type ≠ TokenType.EndOfFile := by rw [hty]; decide
        rw [hty] at h
        simp only [] at h
        cases ho : parseArray input f p with
        | error e => rw [ho] at h; cases h
        | ok r =>
          obtain ⟨a, q2⟩ := r
          rw [ho] at h
          simp only [Except.ok.injEq, Prod.mk.injEq] at h
          rw [← h.2, unread_of_ne input p hne]
          have := ihA p a q2 ho
          omega
      | RightBrace => rw [hty] at h; cases h
      | RightBracket => rw [hty] at h; cases h
      | Colon => rw [hty] at h; cases h
      | Comma => rw [hty] at h; cases h
      | EndOfFile => rw [hty] at h; cases h
      | Invalid => rw [hty] at h; cases h
    · intro p o q h
      rw [parseObject] at h
      have h0 := unread_advance input p
      by_cases hrb : (advance input p).current.type = TokenType.RightBrace
      · rw [if_pos hrb] at h
        simp only [Except.ok.injEq, Prod.mk.injEq] at h
        rw [← h.2]
        have := unread_advance_lt input (advance input p) (by rw [hrb]; decide)
        omega
      · rw [if_neg hrb] at h
        have := ihOL _ [] o q h
        omega
    · intro p obj o q h
      rw [parseObjectLoop] at h
      by_cases hk : p.current.type ≠ TokenType.String
      · rw [if_pos hk] at h; cases h
      rw [if_neg hk] at h
      have hk2 : p.current.type = TokenType.String := not_not.mp hk
      by_cases hc : (advance input p).current.type ≠ TokenType.Colon
      · rw [if_pos hc] at h; cases h
      rw [if_neg hc] at h
      have hc2 : (advance input p).current.type = TokenType.Colon := not_not.mp hc
      have d1 := unread_advance_lt input p (by rw [hk2]; decide)
      have d2 := unread_advance_lt input (advance input p) (by rw [hc2]; decide)
      cases hv : parseValue input f (advance input (advance input p)) with
      | error e => rw [hv] at h; cases h
      | ok r =>
        obtain ⟨v, q1⟩ := r
        rw [hv] at h
        simp only [] at h
        have d3 := ihV _ v q1 hv
        by_cases hcm : q1.current.type = TokenType.Comma
        · rw [if_pos hcm] at h
          have d4 := unread_advance_lt input q1 (by rw [hcm]; decide)
          have d5 := ihOL _ _ o q h
          omega
        · rw [if_neg hcm] at h
          by_cases hrb : q1.current.type = TokenType.RightBrace
          · rw [if_pos hrb] at h
            simp only [Except.ok.injEq, Prod.mk.injEq] at h
            rw [← h.2]
            have d4 := unread_advance_lt input q1 (by rw [hrb]; decide)
            omega
          · rw [if_neg hrb] at h
            cases h
    · intro p a q h
      rw [parseArray] at h
      have h0 := unread_advance input p
      by_cases hrb : (advance input p).current.type = TokenType.RightBracket
      · rw [if_pos hrb] at h
        simp only [Except.ok.injEq, Prod.mk.injEq] at h
        rw [← h.2]
        have := unread_advance_lt input (advance input p) (by rw [hrb]; decide)
        omega
      · rw [if_neg hrb] at h
        have := ihAL _ [] a q h
        omega
    · intro p arr a q h
      rw [parseArrayLoop] at h
      cases hv : parseValue input f p with
      | error e => rw [hv] at h; cases h
      | ok r =>
        obtain ⟨v, q1⟩ := r
        rw [hv] at h
        simp only [] at h
        have d3 := ihV _ v q1 hv
        by_cases hcm : q1.current.type = TokenType.Comma
        · rw [if_pos hcm] at h
          have d4 := unread_advance_lt input q1 (by rw [hcm]; decide)
          have d5 := ihAL _ _ a q h
          omega
        · rw [if_neg hcm] at h
          by_cases hrb : q1.current.type = TokenType.RightBracket
          · rw [if_pos hrb] at h
            simp only [Except.ok.injEq, Prod.mk.injEq] at h
            rw [← h.2]
            have d4 := unread_advance_lt input q1 (by rw [hrb]; decide)
            omega
          · rw [if_neg hrb] at h
            cases h

end Baseline
namespace Baseline

/-- The recursion of the Baseline parser ends before the fuel does: with
`3 * unread + 1` units of fuel, `parseValue` does not report `outOfFuel`, and
likewise the four functions it calls. -/
theorem parser_fuel_enough (input : List Char) (fuel : Nat) :
    (∀ p, 3 * unread input p + 1 ≤ fuel → parseValue input fuel p ≠ .error .outOfFuel)
    ∧ (∀ p, 3 * unread input (advance input p) + 3 ≤ fuel →
        parseObject input fuel p ≠ .error .outOfFuel)
    ∧ (∀ p obj, 3 * unread input p + 2 ≤ fuel →
        parseObjectLoop input fuel p obj ≠ .error .outOfFuel)
    ∧ (∀ p, 3 * unread input (advance input p) + 3 ≤ fuel →
        parseArray input fuel p ≠ .error .outOfFuel)
    ∧ (∀ p arr, 3 * unread input p + 2 ≤ fuel →
        parseArrayLoop input fuel p arr ≠ .error .outOfFuel) := by
  induction fuel with
  | zero =>
    refine ⟨?_, ?_, ?_, ?_, ?_⟩
    · intro p hb; omega
    · intro p hb; omega
    · intro p obj hb; omega
    · intro p hb; omega
    · intro p arr hb; omega
  | succ f ih =>
    obtain ⟨ihV, ihO, ihOL, ihA, ihAL⟩ := ih
    refine ⟨?_, ?_, ?_, ?_, ?_⟩
    · intro p hb h
      rw [parseValue] at h
      cases hty : p.current.type with
      | String => rw [hty] at h; cases h
      | Number =>
        rw [hty] at h
        simp only [] at h
        cases hs : stod p.current.value with
        | none => rw [hs] at h; cases h
        | some d => rw [hs] at h; cases h
      | True => rw [hty] at h; cases h
      | False => rw [hty] at h; cases h
      | Null => rw [hty] at h; cases h
      | LeftBrace =>
        have hne : p.current.type ≠ TokenType.EndOfFile := by rw [hty]; decide
        have d1 := unread_advance_lt input p hne
        rw [hty] at h
        simp only [] at h
        cases ho : parseObject input f p with
        | error e =>
          rw [ho] at h
          simp only [Except.error.injEq] at h
          rw [h] at ho
          exact ihO p (by omega) ho
        | ok r => rw [ho] at h; cases h
      | LeftBracket =>
        have hne : p.current.type ≠ TokenType.EndOfFile := by rw [hty]; decide
        have d1 := unread_advance_lt input p hne
        rw [hty] at h
        simp only [] at h
        cases ho : parseArray input f p with
        | error e =>
          rw [ho] at h
          simp only [Except.error.injEq] at h
          rw [h] at ho
          exact ihA p (by omega) ho
        | ok r => rw [ho] at h; cases h
      | RightBrace => rw [hty] at h; cases h
      | RightBracket => rw [hty] at h; cases h
      | Colon => rw [hty] at h; cases h
      | Comma => rw [hty] at h; cases h
      | EndOfFile => rw [hty] at h; cases h
      | Invalid => rw [hty] at h; cases h
    · intro p hb h
      rw [parseObject] at h
      by_cases hrb : (advance input p).current.type = TokenType.RightBrace
      · rw [if_pos hrb] at h; cases h
      · rw [if_neg hrb] at h
        exact ihOL _ [] (by omega) h
    · intro p obj hb h
      rw [parseObjectLoop] at h
      by_cases hk : p.current.type ≠ TokenType.String
      · rw [if_pos hk] at h; cases h
      rw [if_neg hk] at h
      have hk2 : p.current.type = TokenType.String := not_not.mp hk
      by_cases hc : (advance input p).current.type ≠ TokenType.Colon
      · rw [if_pos hc] at h; cases h
      rw [if_neg hc] at h
      have hc2 : (advance input p).current.type = TokenType.Colon := not_not.mp hc
      have d1 := unread_advance_lt input p (by rw [hk2]; decide)
      have d2 := unread_advance_lt input (advance input p) (by rw [hc2]; decide)
      cases hv : parseValue input f (advance input (advance input p)) with
      | error e =>
        rw [hv] at h
        simp only [Except.error.injEq] at h
        rw [h] at hv
        exact ihV _ (by omega) hv
      | ok r =>
        obtain ⟨v, q1⟩ := r
        rw [hv] at h
        simp only [] at h
        have d3 := (parser_consumes input f).1 _ v q1 hv
        by_cases hcm : q1.current.type = TokenType.Comma
        · rw [if_pos hcm] at h
          have d4 := unread_advance_lt input q1 (by rw [hcm]; decide)
          exact ihOL _ _ (by omega) h
        · rw [if_neg hcm] at h
          by_cases hrb : q1.current.type = TokenType.RightBrace
          · rw [if_pos hrb] at h; cases h
          · rw [if_neg hrb] at h; cases h
    · intro p hb h
      rw [parseArray] at h
      by_cases hrb : (advance input p).current.type = TokenType.RightBracket
      · rw [if_pos hrb] at h; cases h
      · rw [if_neg hrb] at h
        exact ihAL _ [] (by omega) h
    · intro p arr hb h
      rw [parseArrayLoop] at h
      cases hv : parseValue input f p with
      | error e =>
        rw [hv] at h
        simp only [Except.error.injEq] at h
        rw [h] at hv
        exact ihV _ (by omega) hv
      | ok r =>
        obtain ⟨v, q1⟩ := r
        rw [hv] at h
        simp only [] at h
        have d3 := (parser_consumes input f).1 _ v q1 hv
        by_cases hcm : q1.current.type = TokenType.Comma
        · rw [if_pos hcm] at h
          have d4 := unread_advance_lt input q1 (by rw [hcm]; decide)
          exact ihAL _ _ (by omega) h
        · rw [if_neg hcm] at h
          by_cases hrb : q1.current.type = TokenType.RightBracket
          · rw [if_pos hrb] at h; cases h
          · rw [if_neg hrb] at h; cases h

/-- One more unit of fuel does not change a result other than `outOfFuel`. -/
theorem parser_fuel_succ (input : List Char) (fuel : Nat) :
    (∀ p, parseValue input fuel p ≠ .error .outOfFuel →
        parseValue input (fuel + 1) p = parseValue input fuel p)
    ∧ (∀ p, parseObject input fuel p ≠ .error .outOfFuel →
        parseObject input (fuel + 1) p = parseObject input fuel p)
    ∧ (∀ p obj, parseObjectLoop input fuel p obj ≠ .error .outOfFuel →
        parseObjectLoop input (fuel + 1) p obj = parseObjectLoop input fuel p obj)
    ∧ (∀ p, parseArray input fuel p ≠ .error .outOfFuel →
        parseArray input (fuel + 1) p = parseArray input fuel p)
    ∧ (∀ p arr, parseArrayLoop input fuel p arr ≠ .error .outOfFuel →
        parseArrayLoop input (fuel + 1) p arr = parseArrayLoop input fuel p arr) := by
  induction fuel with
  | zero =>
    refine ⟨?_, ?_, ?_, ?_, ?_⟩
    · intro p h
      rw [parseValue] at h; exact absurd rfl h
    · intro p h
      rw [parseObject] at h; exact absurd rfl h
    · intro p obj h
      rw [parseObjectLoop] at h; exact absurd rfl h
    · intro p h
      rw [parseArray] at h; exact absurd rfl h
    · intro p arr h
      rw [parseArrayLoop] at h; exact absurd rfl h
  | succ f ih =>
    obtain ⟨ihV, ihO, ihOL, ihA, ihAL⟩ := ih
    refine ⟨?_, ?_, ?_, ?_, ?_⟩
    · intro p h
      rw [parseValue] at h
      conv_lhs => rw [parseValue]
      conv_rhs => rw [parseValue]
      cases hty : p.current.type with
      | LeftBrace =>
        rw [hty] at h
        simp only [] at h ⊢
        have hne : parseObject input f p ≠ .error .outOfFuel := by
          intro hx
          rw [hx] at h
          exact h rfl
        rw [ihO p hne]
      | LeftBracket =>
        rw [hty] at h
        simp only [] at h ⊢
        have hne : parseArray input f p ≠ .error .outOfFuel := by
          intro hx
          rw [hx] at h
          exact h rfl
        rw [ihA p hne]
      | String => rfl
      | Number => rfl
      | True => rfl
      | False => rfl
      | Null => rfl
      | RightBrace => rfl
      | RightBracket => rfl
      | Colon => rfl
      | Comma => rfl
      | EndOfFile => rfl
      | Invalid => rfl
    · intro p h
      rw [parseObject] at h
      conv_lhs => rw [parseObject]
      conv_rhs => rw [parseObject]
      by_cases hrb : (advance input p).current.type = TokenType.RightBrace
      · rw [if_pos hrb, if_pos hrb]
      · rw [if_neg hrb] at h
        rw [if_neg hrb, if_neg hrb]
        exact ihOL _ [] h
    · intro p obj h
      rw [parseObjectLoop] at h
      conv_lhs => rw [parseObjectLoop]
      conv_rhs => rw [parseObjectLoop]
      by_cases hk : p.current.type ≠ TokenType.String
      · rw [if_pos hk, if_pos hk]
      rw [if_neg hk] at h
      rw [if_neg hk, if_neg hk]
      by_cases hc : (advance input p).current.type ≠ TokenType.Colon
      · rw [if_pos hc, if_pos hc]
      rw [if_neg hc] at h
      rw [if_neg hc, if_neg hc]
      have hne : parseValue input f (advance input (advance input p)) ≠ .error .outOfFuel := by
        intro hx
        rw [hx] at h
        exact h rfl
      rw [ihV _ hne]
      cases hv : parseValue input f (advance input (advance input p)) with
      | error e => rfl
      | ok r =>
        obtain ⟨v, q1⟩ := r
        rw [hv] at h
        simp only [] at h ⊢
        by_cases hcm : q1.current.type = TokenType.Comma
        · rw [if_pos hcm] at h
          rw [if_pos hcm, if_pos hcm]
          exact ihOL _ _ h
        · rw [if_neg hcm, if_neg hcm]
    · intro p h
      rw [parseArray] at h
      conv_lhs => rw [parseArray]
      conv_rhs => rw [parseArray]
      by_cases hrb : (advance input p).current.type = TokenType.RightBracket
      · rw [if_pos hrb, if_pos hrb]
      · rw [if_neg hrb] at h
        rw [if_neg hrb, if_neg hrb]
        exact ihAL _ [] h
    · intro p arr h
      rw [parseArrayLoop] at h
      conv_lhs => rw [parseArrayLoop]
      conv_rhs => rw [parseArrayLoop]
      have hne : parseValue input f p ≠ .error .outOfFuel := by
        intro hx
        rw [hx] at h
        exact h rfl
      rw [ihV _ hne]
      cases hv : parseValue input f p with
      | error e => rfl
      | ok r =>
        obtain ⟨v, q1⟩ := r
        rw [hv] at h
        simp only [] at h ⊢
        by_cases hcm : q1.current.type = TokenType.Comma
        · rw [if_pos hcm] at h
          rw [if_pos hcm, if_pos hcm]
          exact ihAL _ _ h
        · rw [if_neg hcm, if_neg hcm]

/-- With at least `3 * unread + 1` units of fuel the result of `parseValue` does
not depend on the fuel. -/
theorem parseValue_fuel (input : List Char) (p : Parser) :
    ∀ d, parseValue input (3 * unread input p + 1 + d) p
      = parseValue input (3 * unread input p + 1) p := by
  intro d
  induction d with
  | zero => rfl
  | succ k ih =>
    have hne := (parser_fuel_enough input (3 * unread input p + 1 + k)).1 p (by omega)
    have := (parser_fuel_succ input (3 * unread input p + 1 + k)).1 p hne
    rw [← ih, ← this]
    rfl

end Baseline
/-- No token of a derivation is Invalid. -/
theorem derives_no_invalid (n : Nat) :
    (∀ ts v, ts.length ≤ n → DerivesValue ts v → ∀ t ∈ ts, t.type ≠ TokenType.Invalid)
    ∧ (∀ ts ps, ts.length ≤ n → DerivesPairs ts ps → ∀ t ∈ ts, t.type ≠ TokenType.Invalid)
    ∧ (∀ ts vs, ts.length ≤ n → DerivesElems ts vs →
        ∀ t ∈ ts, t.type ≠ TokenType.Invalid) := by
  induction n with
  | zero =>
    refine ⟨?_, ?_, ?_⟩
    · intro ts v hl _ t ht
      have : ts = [] := List.length_eq_zero.mp (by omega)
      rw [this] at ht
      cases ht
    · intro ts ps hl _ t ht
      have : ts = [] := List.length_eq_zero.mp (by omega)
      rw [this] at ht
      cases ht
    · intro ts vs hl _ t ht
      have : ts = [] := List.length_eq_zero.mp (by omega)
      rw [this] at ht
      cases ht
  | succ n ih =>
    obtain ⟨ihV, ihP, ihE⟩ := ih
    have one : ∀ (a t : Token), a.type ≠ TokenType.Invalid → t ∈ [a] →
        t.type ≠ TokenType.Invalid := by
      intro a t ha ht
      rw [List.mem_singleton] at ht
      rw [ht]
      exact ha
    have hV : ∀ ts v, ts.length ≤ n + 1 → DerivesValue ts v →
        ∀ t ∈ ts, t.type ≠ TokenType.Invalid := by
      intro ts v hl hd t ht
      cases hd with
      | string a h => exact one a t (by rw [h]; decide) ht
      | number a d h hs => exact one a t (by rw [h]; decide) ht
      | litTrue a h => exact one a t (by rw [h]; decide) ht
      | litFalse a h => exact one a t (by rw [h]; decide) ht
      | litNull a h => exact one a t (by rw [h]; decide) ht
      | emptyObject l r hl2 hr =>
        rcases List.mem_cons.mp ht with h1 | h1
        · rw [h1, hl2]; decide
        · exact one r t (by rw [hr]; decide) h1
      | emptyArray l r hl2 hr =>
        rcases List.mem_cons.mp ht with h1 | h1
        · rw [h1, hl2]; decide
        · exact one r t (by rw [hr]; decide) h1
      | object l r ts2 ps hl2 hp hr =>
        simp only [List.length_cons, List.length_append, List.length_nil] at hl
        rcases List.mem_cons.mp ht with h1 | h1
        · rw [h1, hl2]; decide
        · rcases List.mem_append.mp h1 with h2 | h2
          · exact ihP ts2 ps (by omega) hp t h2
          · exact one r t (by rw [hr]; decide) h2
      | array l r ts2 vs hl2 he hr =>
        simp only [List.length_cons, List.length_append, List.length_nil] at hl
        rcases List.mem_cons.mp ht with h1 | h1
        · rw [h1, hl2]; decide
        · rcases List.mem_append.mp h1 with h2 | h2
          · exact ihE ts2 vs (by omega) he t h2
          · exact one r t (by rw [hr]; decide) h2
    refine ⟨hV, ?_, ?_⟩
    · intro ts ps hl hd t ht
      cases hd with
      | one k c tv v hk hc hv =>
        simp only [List.length_cons] at hl
        rcases List.mem_cons.mp ht with h1 | h1
        · rw [h1, hk]; decide
        · rcases List.mem_cons.mp h1 with h2 | h2
          · rw [h2, hc]; decide
          · exact ihV tv v (by omega) hv t h2
      | more k c s tv rest v ps2 hk hc hv hs hp =>
        simp only [List.length_cons, List.length_append] at hl
        rcases List.mem_cons.mp ht with h1 | h1
        · rw [h1, hk]; decide
        · rcases List.mem_cons.mp h1 with h2 | h2
          · rw [h2, hc]; decide
          · rcases List.mem_append.mp h2 with h3 | h3
            · exact ihV tv v (by omega) hv t h3
            · rcases List.mem_cons.mp h3 with h4 | h4
              · rw [h4, hs]; decide
              · exact ihP rest ps2 (by omega) hp t h4
    · intro ts vs hl hd t ht
      cases hd with
      | one _ v hv => exact hV ts v hl hv t ht
      | more s tv rest v vs2 hv hs he =>
        simp only [List.length_cons, List.length_append] at hl
        rcases List.mem_append.mp ht with h3 | h3
        · exact ihV tv v (by omega) hv t h3
        · rcases List.mem_cons.mp h3 with h4 | h4
          · rw [h4, hs]; decide
          · exact ihE rest vs2 (by omega) he t h4


namespace Baseline

theorem init_eq (input : List Char) :
    Parser.init input = ⟨cursorAfter input 1, tokenAt input 0⟩ := rfl

theorem advance_tokenAt (input : List Char) (k : Nat) :
    advance input ⟨cursorAfter input (k + 1), tokenAt input k⟩
      = ⟨cursorAfter input (k + 1 + 1), tokenAt input (k + 1)⟩ := rfl

/-- The tokens the parser reads are the tokens that the calls of `nextToken`
return, in order. -/
theorem reads_tokenAt (input : List Char) :
    ∀ (ts : List Token) (k : Nat) (q : Parser),
      Reads input ⟨cursorAfter input (k + 1), tokenAt input k⟩ ts q →
      ts = (List.range' k ts.length).map (tokenAt input)
      ∧ q = ⟨cursorAfter input (k + ts.length + 1), tokenAt input (k + ts.length)⟩ := by
  intro ts
  induction ts with
  | nil =>
    intro k q h
    exact ⟨rfl, h⟩
  | cons t r ih =>
    intro k q h
    obtain ⟨h1, h2⟩ := h
    rw [advance_tokenAt] at h2
    obtain ⟨e1, e2⟩ := ih (k + 1) q h2
    have h3 : tokenAt input k = t := h1
    refine ⟨?_, ?_⟩
    · rw [List.length_cons, List.range'_succ, List.map_cons, h3, ← e1]
    · rw [e2, List.length_cons]
      have e : k + 1 + r.length = k + (r.length + 1) := by omega
      rw [e]

/-- When the Baseline pipeline returns a value, the value is the denotation of the
first `k` tokens of the text for some `k ≥ 1`, none of them is Invalid, and the
lookahead is token `k`. -/
theorem parse_ok_prefix (input : List Char) (v : JsonValue) (q : Parser)
    (h : parse input = .ok (v, q)) :
    ∃ k, 1 ≤ k ∧ DerivesValue ((List.range k).map (tokenAt input)) v
      ∧ q = ⟨cursorAfter input (k + 1), tokenAt input k⟩
      ∧ ∀ m, m < k → (tokenAt input m).type ≠ TokenType.Invalid := by
  obtain ⟨ts, hd, hr⟩ := (parser_sound input _).1 _ v q h
  rw [init_eq] at hr
  obtain ⟨e1, e2⟩ := reads_tokenAt input ts 0 q hr
  rw [Nat.zero_add] at e2
  rw [← List.range_eq_range'] at e1
  obtain ⟨t, rest, ht, _⟩ := derivesValue_head hd
  refine ⟨ts.length, by rw [ht]; simp, ?_, e2, ?_⟩
  · rw [← e1]
    exact hd
  · intro m hm
    have hmem : tokenAt input m ∈ ts := by
      rw [e1]
      exact List.mem_map_of_mem _ (List.mem_range.mpr hm)
    exact (derives_no_invalid ts.length).1 ts v (Nat.le_refl _) hd _ hmem

/-- The result of the Baseline pipeline is a value or an exception of the
program, never the end of the fuel. -/
theorem parse_result (input : List Char) :
    (∃ v q, parse input = .ok (v, q)) ∨ (∃ e, parse input = .error e ∧ e ≠ .outOfFuel) := by
  have hne : parse input ≠ .error .outOfFuel := by
    unfold parse
    have := unread_init input
    exact (parser_fuel_enough input _).1 _ (by omega)
  cases hp : parse input with
  | ok r => exact Or.inl ⟨r.1, r.2, rfl⟩
  | error e =>
    refine Or.inr ⟨e, rfl, ?_⟩
    intro he
    rw [he] at hp
    exact hne hp

/-- A token that is Invalid stops the Baseline pipeline unless a complete value
stands before it. -/
theorem parse_invalid_token (input : List Char) (n : Nat)
    (hn : (tokenAt input n).type = TokenType.Invalid) :
    (∀ v q, parse input = .ok (v, q) →
        ∃ k, 1 ≤ k ∧ k ≤ n ∧ DerivesValue ((List.range k).map (tokenAt input)) v
          ∧ q = ⟨cursorAfter input (k + 1), tokenAt input k⟩)
    ∧ ((∀ k v, k ≤ n → ¬ DerivesValue ((List.range k).map (tokenAt input)) v) →
        ∃ e, parse input = .error e ∧ e ≠ .outOfFuel) := by
  have h1 : ∀ v q, parse input = .ok (v, q) →
      ∃ k, 1 ≤ k ∧ k ≤ n ∧ DerivesValue ((List.range k).map (tokenAt input)) v
        ∧ q = ⟨cursorAfter input (k + 1), tokenAt input k⟩ := by
    intro v q h
    obtain ⟨k, hk1, hd, hq, hinv⟩ := parse_ok_prefix input v q h
    refine ⟨k, hk1, ?_, hd, hq⟩
    by_contra hcon
    exact hinv n (by omega) hn
  refine ⟨h1, ?_⟩
  intro hno
  rcases parse_result input with ⟨v, q, h⟩ | h
  · obtain ⟨k, _, hk, hd, _⟩ := h1 v q h
    exact absurd hd (hno k v hk)
  · exact h

end Baseline

/-- A derivation of a single token is a scalar: the token is a String, a Number
or a literal. -/
theorem derivesValue_single {ts : List Token} {v : JsonValue} (h : DerivesValue ts v)
    (hl : ts.length = 1) :
    ∃ t, ts = [t] ∧ (t.type = TokenType.String ∨ t.type = TokenType.Number
      ∨ t.type = TokenType.True ∨ t.type = TokenType.False ∨ t.type = TokenType.Null) := by
  cases h with
  | string t h => exact ⟨t, rfl, Or.inl h⟩
  | number t d h hd => exact ⟨t, rfl, Or.inr (Or.inl h)⟩
  | litTrue t h => exact ⟨t, rfl, Or.inr (Or.inr (Or.inl h))⟩
  | litFalse t h => exact ⟨t, rfl, Or.inr (Or.inr (Or.inr (Or.inl h)))⟩
  | litNull t h => exact ⟨t, rfl, Or.inr (Or.inr (Or.inr (Or.inr h)))⟩
  | emptyObject l r hl2 hr => simp at hl
  | emptyArray l r hl2 hr => simp at hl
  | object l r ts2 ps hl2 hp hr => simp at hl
  | array l r ts2 vs hl2 he hr => simp at hl

theorem derivesValue_ne_nil {v : JsonValue} (h : DerivesValue [] v) : False := by
  obtain ⟨t, rest, ht, _⟩ := derivesValue_head h
  cases ht

namespace Baseline

theorem reads_range (input : List Char) :
    ∀ (len k : Nat),
      Reads input ⟨cursorAfter input (k + 1), tokenAt input k⟩
        ((List.range' k len).map (tokenAt input))
        ⟨cursorAfter input (k + len + 1), tokenAt input (k + len)⟩ := by
  intro len
  induction len with
  | zero =>
    intro k
    exact rfl
  | succ m ih =>
    intro k
    rw [List.range'_succ, List.map_cons]
    refine ⟨rfl, ?_⟩
    rw [advance_tokenAt]
    have := ih (k + 1)
    have e : k + 1 + m = k + (m + 1) := by omega
    rw [e] at this
    exact this

/-- When the first `k` tokens of a text are a complete value, the Baseline
pipeline returns it and stops with token `k` as its lookahead. -/
theorem parse_of_prefix (input : List Char) (k : Nat) (v : JsonValue)
    (hd : DerivesValue ((List.range k).map (tokenAt input)) v) :
    parse input = .ok (v, ⟨cursorAfter input (k + 1), tokenAt input k⟩) := by
  refine parse_complete input _ v _ hd ?_
  rw [init_eq, List.range_eq_range']
  have := reads_range input k 0
  simp only [Nat.zero_add] at this
  exact this

end Baseline

namespace Indexed

end Indexed

namespace Indexed

/-- C2: for every input `s`, `find_structurals s` is the strictly increasing list
of exactly the offsets `j < |s|` whose byte is one of `{ } [ ] : , "`. Every quote
is listed, whatever byte precedes it (a backslash included), and no other offset
is listed. -/
theorem find_structurals_spec (s : List Char) :
    find_structurals s = (List.range s.length).filter (structuralAt s)
    ∧ List.Pairwise (fun a b => a < b) (find_structurals s)
    ∧ (∀ j, j ∈ find_structurals s
        ↔ j < s.length ∧ s.getD j NUL ∈ ['{', '}', '[', ']', ':', ',', '"'])
    ∧ (∀ j, j < s.length → s.getD j NUL = '"' → j ∈ find_structurals s) := by
  have h : find_structurals s = (List.range s.length).filter (structuralAt s) :=
    find_structurals_with_eq 16 (by decide) s
  have hmem : ∀ j, j ∈ find_structurals s
      ↔ j < s.length ∧ s.getD j NUL ∈ ['{', '}', '[', ']', ':', ',', '"'] := by
    intro j
    rw [h, List.mem_filter, List.mem_range]
    unfold structuralAt chars
    rw [decide_eq_true_iff]
  refine ⟨h, ?_, hmem, ?_⟩
  · rw [h]
    exact List.Pairwise.filter _ (List.pairwise_lt_range _)
  · intro j hj hq
    rw [hmem]
    refine ⟨hj, ?_⟩
    rw [hq]
    decide

/-- C3: the offset list does not depend on the chunk size. With the block size a
parameter, every block size `b ≥ 1` gives the list that the block size 16 gives,
which is also the list of one plain loop over all offsets. -/
theorem find_structurals_block_size (s : List Char) (b : Nat) (hb : 1 ≤ b) :
    find_structurals_with b s = find_structurals_with 16 s
    ∧ find_structurals_with b s = find_structurals_plain s := by
  refine ⟨?_, ?_⟩
  · rw [find_structurals_with_eq b hb, find_structurals_with_eq 16 (by decide)]
  · rw [find_structurals_with_eq b hb]
    unfold find_structurals_plain
    rw [scanBlock_eq s s.length s.length 0 [] (by omega), List.range_eq_range']
    simp

/-- C3 at block size 3 on the text `{"a":[1,2,{"b":true}]}` (22 bytes, two
blocks of 16). -/
theorem find_structurals_block_size_witness :
    1 ≤ 3
    ∧ (find_structurals_with 3
          ['{', '"', 'a', '"', ':', '[', '1', ',', '2', ',', '{', '"', 'b', '"', ':', 't', 'r',
            'u', 'e', '}', ']', '}']
        = find_structurals_with 16
          ['{', '"', 'a', '"', ':', '[', '1', ',', '2', ',', '{', '"', 'b', '"', ':', 't', 'r',
            'u', 'e', '}', ']', '}']
      ∧ find_structurals_with 3
          ['{', '"', 'a', '"', ':', '[', '1', ',', '2', ',', '{', '"', 'b', '"', ':', 't', 'r',
            'u', 'e', '}', ']', '}']
        = find_structurals_plain
          ['{', '"', 'a', '"', ':', '[', '1', ',', '2', ',', '{', '"', 'b', '"', ':', 't', 'r',
            'u', 'e', '}', ']', '}']) :=
  ⟨by decide, find_structurals_block_size _ 3 (by decide)⟩

end Indexed

namespace Baseline
open ListView

/-- C6: in the Baseline Lexer, when the text at the cursor is (after whitespace)
a string literal whose body is made of ordinary characters (no NUL, quote or
backslash) and of the escapes `\\ \" \n \t \r \b \f`, and that ends with a closing
quote, `nextToken` returns a String token whose text is the body with each escape
replaced by the character it names and every other character kept in order; the
cursor ends right after the closing quote. -/
theorem nextToken_string_literal (input : List Char) (pos : Nat) (ws : List Char)
    (items : List StrItem) (rest : List Char)
    (hdrop : input.drop pos = ws ++ '"' :: (sourceText items ++ '"' :: rest))
    (hws : ∀ c ∈ ws, isspace c = true) (hitems : ∀ it ∈ items, it.Valid) :
    nextToken input pos
      = (⟨TokenType.String, decodedText items⟩,
          pos + (ws.length + (1 + ((sourceText items).length + 1)))) := by
  rw [nextToken_eq, hdrop, lex_quote hws, string_valid items rest hitems]

/-- C6 on the source text `"a\nb"` (quote, a, backslash, n, b, quote): the token
is the String of the three characters a, newline, b. -/
theorem nextToken_string_literal_witness :
    nextToken ['"', 'a', '\\', 'n', 'b', '"'] 0
      = (⟨TokenType.String, ['a', '\n', 'b']⟩, 6) :=
  nextToken_string_literal ['"', 'a', '\\', 'n', 'b', '"'] 0 []
    [StrItem.plain 'a', StrItem.escape 'n', StrItem.plain 'b'] [] rfl
    (fun _ h => absurd h (List.not_mem_nil _))
    (fun it h => by
      rcases List.mem_cons.mp h with e | h
      · subst e; exact ⟨by decide, by decide, by decide⟩
      rcases List.mem_cons.mp h with e | h
      · subst e; exact (by decide : (namedChar 'n').isSome = true)
      rcases List.mem_cons.mp h with e | h
      · subst e; exact ⟨by decide, by decide, by decide⟩
      · exact absurd h (List.not_mem_nil _))

/-- C7: in the Baseline Lexer, for a NUL-free input whose next non-whitespace
character is a quote, `nextToken` returns an Invalid token if and only if the
input ends before an unescaped closing quote, or ends right after a backslash, or
the closed body contains a backslash followed by a character other than
`\ " n t r b f`; in every other case it returns a String token. -/
theorem nextToken_string_invalid_iff (input : List Char) (pos : Nat) (ws t : List Char)
    (hnul : ∀ c ∈ input, c ≠ NUL) (hdrop : input.drop pos = ws ++ '"' :: t)
    (hws : ∀ c ∈ ws, isspace c = true) :
    ((nextToken input pos).1.type = TokenType.Invalid
      ↔ EndsUnclosed t ∨ EndsAfterBackslash t ∨ HasBadEscape t)
    ∧ ((nextToken input pos).1.type ≠ TokenType.Invalid
      → (nextToken input pos).1.type = TokenType.String) := by
  have hlex : (nextToken input pos).1 = (string ('"' :: t)).1 := by
    rw [nextToken_eq, hdrop, lex_quote hws]
  have hmem : ∀ c ∈ t, c ≠ NUL := fun c hc =>
    hnul c (mem_of_drop_eq hdrop (List.mem_cons_of_mem _ hc))
  rw [hlex]
  constructor
  · constructor
    · intro hinv
      obtain ⟨items, hsc, hshape⟩ := scan_shapes t
      rcases hshape with e | ⟨r, e⟩ | e | ⟨r, e⟩ | ⟨r, e⟩
      · exact Or.inl ⟨items, hsc, e⟩
      · exact absurd rfl (hmem NUL (by rw [e]; simp))
      · exact Or.inr (Or.inl ⟨items, hsc, e⟩)
      · exact absurd rfl (hmem NUL (by rw [e]; simp))
      · right; right
        refine ⟨items, r, hsc, e, ?_⟩
        by_cases hv : ∀ it ∈ items, it.Valid
        · rw [e, string_valid items r hv] at hinv
          cases hinv
        · have hbad : ∃ it ∈ items, ¬ it.Valid := by
            by_contra hcon
            apply hv
            intro it hit
            by_contra hnv
            exact hcon ⟨it, hit, hnv⟩
          obtain ⟨it, hit, hnv⟩ := hbad
          obtain ⟨x, hx, hnone⟩ := bad_escape_of_not_valid (hsc it hit) hnv
          exact ⟨x, hx ▸ hit, hnone⟩
    · rintro (⟨items, hsc, e⟩ | ⟨items, hsc, e⟩ | ⟨items, r, hsc, e, x, hx, hnone⟩)
      · exact string_of_raw_invalid (by rw [e]; exact rawScan_ended items hsc [])
      · exact string_of_raw_invalid (by rw [e]; exact rawScan_dangling items hsc [])
      · rw [e]
        refine string_bad_escape items r hsc ⟨StrItem.escape x, hx, ?_⟩
        intro hv
        have hv2 : (namedChar x).isSome = true := hv
        rw [hnone] at hv2
        cases hv2
  · intro hne
    rcases string_type ('"' :: t) with h | h
    · exact absurd h hne
    · exact h

/-- C7 on the unterminated text `"ab`, which is NUL-free: the token is Invalid
exactly when one of the three conditions holds of `ab`, and it is Invalid. -/
theorem nextToken_string_invalid_iff_witness :
    (∀ c ∈ ['"', 'a', 'b'], c ≠ NUL)
    ∧ (((nextToken ['"', 'a', 'b'] 0).1.type = TokenType.Invalid
        ↔ EndsUnclosed ['a', 'b'] ∨ EndsAfterBackslash ['a', 'b'] ∨ HasBadEscape ['a', 'b'])
      ∧ ((nextToken ['"', 'a', 'b'] 0).1.type ≠ TokenType.Invalid
        → (nextToken ['"', 'a', 'b'] 0).1.type = TokenType.String))
    ∧ (nextToken ['"', 'a', 'b'] 0).1.type = TokenType.Invalid :=
  ⟨by decide,
    nextToken_string_invalid_iff ['"', 'a', 'b'] 0 [] ['a', 'b'] (by decide) rfl
      (fun _ h => absurd h (List.not_mem_nil _)),
    by decide⟩

/-- C8: whenever `Tokenizer::nextToken` returns a Number token, its text is
exactly the slice of the input that the call consumed after the whitespace it
skipped, and the text matches
`-?(0|[1-9][0-9]*)(\.[0-9]+)?([eE][+-]?[0-9]+)?`. -/
theorem nextToken_number_text (input : List Char) (pos : Nat)
    (h : (nextToken input pos).1.type = TokenType.Number) :
    skipWhitespace input pos ≤ (nextToken input pos).2
    ∧ (nextToken input pos).1.value
        = (input.drop (skipWhitespace input pos)).take
            ((nextToken input pos).2 - skipWhitespace input pos)
    ∧ IsJsonNumber (nextToken input pos).1.value := by
  have hl : input.drop (pos + ((input.drop pos).takeWhile isspace).length)
      = (input.drop pos).dropWhile isspace := by
    rw [drop_add_of_drop rfl, drop_takeWhile_length]
  rw [nextToken_eq] at h ⊢
  rw [skipWhitespace_eq, hl]
  unfold lex at h ⊢
  simp only [] at h ⊢
  have ht := token_number _ h
  rw [ht] at h ⊢
  obtain ⟨hv, hj⟩ := number_spec _ h
  refine ⟨by omega, ?_, hj⟩
  rw [hv]
  congr 1
  omega

/-- C8 on the text ` -0.5e3` (a space, then the number): the call returns the
whole of `-0.5e3` as one Number token, the slice from offset 1 to offset 7. -/
theorem nextToken_number_text_witness :
    nextToken [' ', '-', '0', '.', '5', 'e', '3'] 0
      = (⟨TokenType.Number, ['-', '0', '.', '5', 'e', '3']⟩, 7)
    ∧ skipWhitespace [' ', '-', '0', '.', '5', 'e', '3'] 0 = 1
    ∧ IsJsonNumber (nextToken [' ', '-', '0', '.', '5', 'e', '3'] 0).1.value :=
  ⟨by decide, by decide,
    (nextToken_number_text [' ', '-', '0', '.', '5', 'e', '3'] 0 (by decide)).2.2⟩

/-- C9, as stated, fails: on the text `1 1.` the call of `nextToken` at the second
number returns an Invalid token, but the Baseline pipeline does not fail. It
returns the number 1 and leaves the Invalid token as the lookahead, which it never
inspects. -/
theorem parse_malformed_number_accepted :
    nextToken ['1', ' ', '1', '.'] 1 = (⟨TokenType.Invalid, ['1', '.']⟩, 4)
    ∧ parse ['1', ' ', '1', '.']
      = Except.ok (JsonValue.number ⟨1, 0⟩, ⟨4, ⟨TokenType.Invalid, ['1', '.']⟩⟩) := by
  refine ⟨by rfl, by rfl⟩

/-- C9, amended: in the Baseline Lexer's number lexing, `nextToken` returns an
Invalid token whenever a `.` after the integer part is not followed by a digit,
whenever an `e` or `E` (with its optional sign) is not followed by a digit, and
whenever a leading `-` is not followed by a digit. When that number is the first
token of the input, the Baseline pipeline fails with `Unexpected token in
parseValue`. When it is token `n`, the pipeline returns a value only if the first
`k` tokens, for some `1 ≤ k ≤ n`, are a complete value; it then returns that value
and stops with token `k` as its lookahead. When no such tokens stand before the
malformed number, the pipeline fails with an exception of the program. -/
theorem nextToken_malformed_number (input : List Char) (pos : Nat) (ws rest : List Char)
    (hdrop : input.drop pos = ws ++ rest) (hws : ∀ c ∈ ws, isspace c = true)
    (hbad : MalformedNumber rest) :
    (nextToken input pos).1.type = TokenType.Invalid
    ∧ (pos = 0 → parse input = Except.error ParseError.unexpectedToken)
    ∧ (∀ n, cursorAfter input n = pos →
        (∀ v q, parse input = .ok (v, q) →
          ∃ k, 1 ≤ k ∧ k ≤ n ∧ DerivesValue ((List.range k).map (tokenAt input)) v
            ∧ q = ⟨cursorAfter input (k + 1), tokenAt input k⟩)
        ∧ (∀ k v, k ≤ n → DerivesValue ((List.range k).map (tokenAt input)) v →
          parse input = .ok (v, ⟨cursorAfter input (k + 1), tokenAt input k⟩))
        ∧ ((∀ k v, k ≤ n → ¬ DerivesValue ((List.range k).map (tokenAt input)) v) →
          ∃ e, parse input = .error e ∧ e ≠ ParseError.outOfFuel)) := by
  have h1 : (nextToken input pos).1.type = TokenType.Invalid := by
    rw [nextToken_eq, hdrop, lex_number_start hws (hd_malformed hbad)]
    exact number_malformed hbad
  refine ⟨h1, ?_, ?_⟩
  · intro hp
    subst hp
    exact parse_of_first_invalid input h1
  · intro n hn
    have h2 : (tokenAt input n).type = TokenType.Invalid := by
      unfold tokenAt
      rw [hn]
      exact h1
    have h3 := parse_invalid_token input n h2
    exact ⟨h3.1, fun k v _ hd => parse_of_prefix input k v hd, h3.2⟩

/-- C9, amended, on the text `[1.]`, where the malformed number is token 1 and no
complete value stands before it, and on the four texts `1.`, `1e`, `1e+` and `-`,
where it is the first token: each lexes to an Invalid token and the pipeline
fails on each. -/
theorem nextToken_malformed_number_witness :
    ((nextToken ['[', '1', '.', ']'] 1).1.type = TokenType.Invalid
      ∧ ∃ e, parse ['[', '1', '.', ']'] = .error e ∧ e ≠ ParseError.outOfFuel)
    ∧ ((nextToken ['1', '.'] 0).1.type = TokenType.Invalid
      ∧ parse ['1', '.'] = Except.error ParseError.unexpectedToken)
    ∧ ((nextToken ['1', 'e'] 0).1.type = TokenType.Invalid
      ∧ parse ['1', 'e'] = Except.error ParseError.unexpectedToken)
    ∧ ((nextToken ['1', 'e', '+'] 0).1.type = TokenType.Invalid
      ∧ parse ['1', 'e', '+'] = Except.error ParseError.unexpectedToken)
    ∧ ((nextToken ['-'] 0).1.type = TokenType.Invalid
      ∧ parse ['-'] = Except.error ParseError.unexpectedToken) := by
  have one : IsIntPart ['1'] :=
    Or.inr ⟨'1', [], rfl, by decide, by decide, fun _ h => absurd h (List.not_mem_nil _)⟩
  have nows : ∀ c ∈ ([] : List Char), isspace c = true :=
    fun _ h => absurd h (List.not_mem_nil _)
  have h0 := nextToken_malformed_number ['[', '1', '.', ']'] 1 [] ['1', '.', ']'] rfl nows
    (MalformedNumber.point [] ['1'] [']'] (Or.inl rfl) one rfl)
  have h1 := nextToken_malformed_number ['1', '.'] 0 [] ['1', '.'] rfl nows
    (MalformedNumber.point [] ['1'] [] (Or.inl rfl) one rfl)
  have h2 := nextToken_malformed_number ['1', 'e'] 0 [] ['1', 'e'] rfl nows
    (MalformedNumber.exponent [] ['1'] [] 'e' [] (Or.inl rfl) one (Or.inl rfl) (Or.inl rfl)
      rfl rfl)
  have h3 := nextToken_malformed_number ['1', 'e', '+'] 0 [] ['1', 'e', '+'] rfl nows
    (MalformedNumber.signedExponent [] ['1'] [] 'e' '+' [] (Or.inl rfl) one (Or.inl rfl)
      (Or.inl rfl) (Or.inl rfl) rfl)
  have h4 := nextToken_malformed_number ['-'] 0 [] ['-'] rfl nows
    (MalformedNumber.minus [] rfl)
  have hfail : ∃ e, parse ['[', '1', '.', ']'] = .error e ∧ e ≠ ParseError.outOfFuel := by
    refine (h0.2.2 1 rfl).2.2 ?_
    intro k v hk hd
    have hk2 : k = 0 ∨ k = 1 := by omega
    rcases hk2 with e | e
    · subst e
      exact derivesValue_ne_nil hd
    · subst e
      obtain ⟨t, ht, hty⟩ := derivesValue_single hd rfl
      have e0 : t = ⟨TokenType.LeftBracket, ['[']⟩ := by
        have e1 : [tokenAt ['[', '1', '.', ']'] 0] = [t] := ht
        have e2 : tokenAt ['[', '1', '.', ']'] 0 = ⟨TokenType.LeftBracket, ['[']⟩ := by rfl
        rw [e2] at e1
        exact (List.cons.inj e1).1.symm
      rw [e0] at hty
      revert hty
      decide
  exact ⟨⟨h0.1, hfail⟩, ⟨h1.1, h1.2.1 rfl⟩, ⟨h2.1, h2.2.1 rfl⟩, ⟨h3.1, h3.2.1 rfl⟩,
    ⟨h4.1, h4.2.1 rfl⟩⟩

/-- C10, as stated, fails: on the input `01` the Baseline pipeline does not end
in failure. `parseValue` returns the number 0, and the parser is left with the
cursor at offset 2 and the Number token `1` as its lookahead. -/
theorem parse_leading_zero_accepted :
    parse ['0', '1']
      = Except.ok (JsonValue.number ⟨0, 0⟩, ⟨2, ⟨TokenType.Number, ['1']⟩⟩) := by
  rfl

/-- C10, amended: on an input that starts with `0` followed immediately by
another digit, the Baseline pipeline ends in the parsed value 0: the tokenizer
lexes the `0` alone as a Number token, `parseValue` converts it, and the digits
after it are left to the lookahead token, which `parseValue` never inspects. The
same literal is rejected where the grammar requires a separator after it: the
input `[01]` fails with `Expected ',' or ']' in array`. -/
theorem parse_leading_zero (d : Char) (rest : List Char) (hd1 : isdigit d = true) :
    nextToken ('0' :: d :: rest) 0 = (⟨TokenType.Number, ['0']⟩, 1)
    ∧ parse ('0' :: d :: rest)
        = Except.ok (JsonValue.number ⟨0, 0⟩,
            ⟨(nextToken ('0' :: d :: rest) 1).2, (nextToken ('0' :: d :: rest) 1).1⟩)
    ∧ parse ['[', '0', '1', ']'] = Except.error ParseError.expectedCommaOrBracket := by
  refine ⟨?_, ?_, by rfl⟩
  · rw [nextToken_eq, List.drop_zero, lex_zero_digit d rest hd1]
    rfl
  · rw [parse_zero_digit d rest hd1]
    rfl

/-- C10, amended, on the input `012`. -/
theorem parse_leading_zero_witness :
    isdigit '1' = true
    ∧ nextToken ['0', '1', '2'] 0 = (⟨TokenType.Number, ['0']⟩, 1)
    ∧ parse ['0', '1', '2']
        = Except.ok (JsonValue.number ⟨0, 0⟩,
            ⟨(nextToken ['0', '1', '2'] 1).2, (nextToken ['0', '1', '2'] 1).1⟩)
    ∧ parse ['[', '0', '1', ']'] = Except.error ParseError.expectedCommaOrBracket :=
  ⟨by decide, parse_leading_zero '1' ['2'] (by decide)⟩

end Baseline

/-- C5, amended: only the tokenizer of the Baseline pipeline hands over unescaped
text. A String token of `nextToken` was read from a quoted body of characters and
valid escape pairs and carries that body with every pair replaced by its
character. A String token of `parseJsonWithIndex` carries a slice of the input as
it stands: the text right after a quote, up to a later quote when the token is
not empty, with every backslash kept. -/
theorem string_token_text :
    (∀ (input : List Char) (pos : Nat),
      (Baseline.nextToken input pos).1.type = TokenType.String →
      ∃ (ws : List Char) (items : List StrItem) (rest : List Char),
        input.drop pos = ws ++ '"' :: (sourceText items ++ '"' :: rest)
        ∧ (∀ c ∈ ws, isspace c = true) ∧ (∀ it ∈ items, it.Valid)
        ∧ (Baseline.nextToken input pos).1.value = decodedText items)
    ∧ (∀ (json : List Char) (tok : Token),
      tok ∈ Indexed.parseJsonWithIndex json (Indexed.find_structurals json) →
      tok.type = TokenType.String →
      ∃ pre post, json = pre ++ '"' :: (tok.value ++ post)
        ∧ (tok.value = [] ∨ ∃ post2, post = '"' :: post2)) :=
  ⟨Baseline.string_token_decoded, Indexed.string_token_slice⟩

/-- C5 fails for the Indexed stage: on the source text `"a\nb"` (six characters:
quote, a, backslash, n, b, quote) the tokenizer of the Baseline pipeline returns
the String token a, newline, b, and `parseJsonWithIndex` returns the String token
a, backslash, n, b. -/
theorem string_token_text_raw :
    (Baseline.nextToken ['"', 'a', '\\', 'n', 'b', '"'] 0).1
      = ⟨TokenType.String, ['a', '\n', 'b']⟩
    ∧ decodedText [StrItem.plain 'a', StrItem.escape 'n', StrItem.plain 'b'] = ['a', '\n', 'b']
    ∧ Indexed.parseJsonWithIndex ['"', 'a', '\\', 'n', 'b', '"']
        (Indexed.find_structurals ['"', 'a', '\\', 'n', 'b', '"'])
      = [⟨TokenType.String, ['a', '\\', 'n', 'b']⟩] := by
  refine ⟨by rfl, by rfl, by rfl⟩

/-- C4, amended: the token list of `parseJsonWithIndex(s, find_structurals(s))` is
the sequence of tokens that repeated `nextToken` calls return before EndOfFile for
every text `s` that contains no NUL and no backslash, in which only whitespace
precedes the first structural character, and on which the tokenizer returns no
Invalid token, no Number token directly followed by one of the characters
`0`..`9`, `-`, `+`, `.`, `e`, `E`, and no String token directly followed by a
digit, a `-` or a letter. -/
theorem parseJsonWithIndex_tokens (input : List Char)
    (hinv : ∀ t ∈ Baseline.tokens input, t.type ≠ TokenType.Invalid)
    (hnul : ∀ c ∈ input, c ≠ NUL) (hbs : ∀ c ∈ input, c ≠ '\\')
    (hlead : ∀ c ∈ input.takeWhile IndexView.plainChar, isspace c = true)
    (hnum : ∀ p ∈ Baseline.tokenRun input (input.length + 1) 0,
      p.1.type = TokenType.Number → IndexView.numClass (input.getD p.2 NUL) = false)
    (hstr : ∀ p ∈ Baseline.tokenRun input (input.length + 1) 0,
      p.1.type = TokenType.String → IndexView.startsGapToken (input.getD p.2 NUL) = false) :
    Indexed.parseJsonWithIndex input (Indexed.find_structurals input)
      = Baseline.tokens input := by
  rw [Indexed.parseJsonWithIndex_eq_ixLex input hlead]
  unfold Baseline.tokens at hinv ⊢
  have h := Baseline.tokenRun_ixLex input hnul hbs (input.length + 1) 0 (by omega)
    (fun p hp => hinv p.1 (List.mem_map_of_mem _ hp)) hnum hstr
  rw [List.drop_zero] at h
  exact h

/-- The text `{"k": [1, true]}` meets the conditions of the amended C4, and both
stages give its nine tokens. -/
theorem parseJsonWithIndex_tokens_witness :
    Indexed.parseJsonWithIndex
        ['{', '"', 'k', '"', ':', ' ', '[', '1', ',', ' ', 't', 'r', 'u', 'e', ']', '}']
        (Indexed.find_structurals
          ['{', '"', 'k', '"', ':', ' ', '[', '1', ',', ' ', 't', 'r', 'u', 'e', ']', '}'])
      = Baseline.tokens
        ['{', '"', 'k', '"', ':', ' ', '[', '1', ',', ' ', 't', 'r', 'u', 'e', ']', '}']
    ∧ Baseline.tokens
        ['{', '"', 'k', '"', ':', ' ', '[', '1', ',', ' ', 't', 'r', 'u', 'e', ']', '}']
      = [⟨TokenType.LeftBrace, ['{']⟩, ⟨TokenType.String, ['k']⟩, ⟨TokenType.Colon, [':']⟩,
        ⟨TokenType.LeftBracket, ['[']⟩, ⟨TokenType.Number, ['1']⟩, ⟨TokenType.Comma, [',']⟩,
        ⟨TokenType.True, ['t', 'r', 'u', 'e']⟩, ⟨TokenType.RightBracket, [']']⟩,
        ⟨TokenType.RightBrace, ['}']⟩] :=
  ⟨parseJsonWithIndex_tokens
      ['{', '"', 'k', '"', ':', ' ', '[', '1', ',', ' ', 't', 'r', 'u', 'e', ']', '}']
      (by decide) (by decide) (by decide) (by decide) (by decide) (by decide), by rfl⟩

/-- C4 fails as stated. On each of the texts `1`, `[1-2]` and `["a\nb"]` the
tokenizer returns no Invalid token, and the token builder gives another list: no
token at all for the text before the first structural character, one Number
token `1-2` where the tokenizer returns `1` and `-2`, and the String token with
the backslash kept. -/
theorem parseJsonWithIndex_tokens_differ :
    (Baseline.tokens ['1'] = [⟨TokenType.Number, ['1']⟩]
      ∧ Indexed.parseJsonWithIndex ['1'] (Indexed.find_structurals ['1']) = [])
    ∧ (Baseline.tokens ['[', '1', '-', '2', ']']
        = [⟨TokenType.LeftBracket, ['[']⟩, ⟨TokenType.Number, ['1']⟩,
          ⟨TokenType.Number, ['-', '2']⟩, ⟨TokenType.RightBracket, [']']⟩]
      ∧ Indexed.parseJsonWithIndex ['[', '1', '-', '2', ']']
          (Indexed.find_structurals ['[', '1', '-', '2', ']'])
        = [⟨TokenType.LeftBracket, ['[']⟩, ⟨TokenType.Number, ['1', '-', '2']⟩,
          ⟨TokenType.RightBracket, [']']⟩])
    ∧ (Baseline.tokens ['[', '"', 'a', '\\', 'n', 'b', '"', ']']
        = [⟨TokenType.LeftBracket, ['[']⟩, ⟨TokenType.String, ['a', '\n', 'b']⟩,
          ⟨TokenType.RightBracket, [']']⟩]
      ∧ Indexed.parseJsonWithIndex ['[', '"', 'a', '\\', 'n', 'b', '"', ']']
          (Indexed.find_structurals ['[', '"', 'a', '\\', 'n', 'b', '"', ']'])
        = [⟨TokenType.LeftBracket, ['[']⟩, ⟨TokenType.String, ['a', '\\', 'n', 'b']⟩,
          ⟨TokenType.RightBracket, [']']⟩]) := by
  refine ⟨⟨by rfl, by rfl⟩, ⟨by rfl, by rfl⟩, ⟨by rfl, by rfl⟩⟩

/-- C1, amended: the two pipelines agree on every text that contains no NUL and
no backslash and in which only whitespace precedes the first structural
character. Whenever the Baseline pipeline returns a value on such a text, the
Indexed pipeline returns a node too, and the node denotes the Baseline value: the
same variant at every node, the same string, a Number text that `stod` reads as
the Baseline number, the elements in order, and the entries assigned in order to
the same map. -/
theorem parse_trees_agree (input : List Char)
    (hnul : ∀ c ∈ input, c ≠ NUL) (hbs : ∀ c ∈ input, c ≠ '\\')
    (hlead : ∀ c ∈ input.takeWhile IndexView.plainChar, isspace c = true)
    (v : JsonValue) (q : Baseline.Parser) (h : Baseline.parse input = .ok (v, q)) :
    ∃ n idx, Indexed.parse input = .ok (n, idx) ∧ n.toJson = some v :=
  pipelines_agree input (3 * input.length + 3) hnul hbs hlead v q h

/-- The text `{"k": [1, true]}` meets the conditions of the amended C1: the
Baseline pipeline returns the object that maps `k` to the array of 1 and true, and
so the Indexed pipeline returns a node that denotes it. -/
theorem parse_trees_agree_witness :
    ∃ n idx, Indexed.parse
        ['{', '"', 'k', '"', ':', ' ', '[', '1', ',', ' ', 't', 'r', 'u', 'e', ']', '}']
        = .ok (n, idx)
      ∧ n.toJson = some (JsonValue.object
          [(['k'], JsonValue.array [JsonValue.number ⟨1, 0⟩, JsonValue.bool true])]) :=
  parse_trees_agree
    ['{', '"', 'k', '"', ':', ' ', '[', '1', ',', ' ', 't', 'r', 'u', 'e', ']', '}']
    (by decide) (by decide) (by decide) _ ⟨16, ⟨TokenType.EndOfFile, []⟩⟩ (by rfl)

/-- C1 fails as stated. On the text `1[2]` the Baseline pipeline returns the
number 1 and the Indexed pipeline, whose tokens start at the first structural
character, returns the array of 2. On the text `"a\nb"` the Baseline pipeline
returns the string a, newline, b and the Indexed pipeline the string a, backslash,
n, b. Both pipelines succeed on both texts. -/
theorem parse_trees_differ :
    (Baseline.parse ['1', '[', '2', ']']
        = .ok (JsonValue.number ⟨1, 0⟩, ⟨2, ⟨TokenType.LeftBracket, ['[']⟩⟩)
      ∧ Indexed.parse ['1', '[', '2', ']']
        = .ok (Indexed.Node.mk .Array [] [] [Indexed.Node.mk .Number ['2'] [] []], 3)
      ∧ (Indexed.Node.mk .Array [] [] [Indexed.Node.mk .Number ['2'] [] []]).toJson
        = some (JsonValue.array [JsonValue.number ⟨2, 0⟩]))
    ∧ (Baseline.parse ['"', 'a', '\\', 'n', 'b', '"']
        = .ok (JsonValue.string ['a', '\n', 'b'], ⟨6, ⟨TokenType.EndOfFile, []⟩⟩)
      ∧ Indexed.parse ['"', 'a', '\\', 'n', 'b', '"']
        = .ok (Indexed.Node.mk .String ['a', '\\', 'n', 'b'] [] [], 1)
      ∧ (Indexed.Node.mk .String ['a', '\\', 'n', 'b'] [] []).toJson
        = some (JsonValue.string ['a', '\\', 'n', 'b'])) := by
  refine ⟨⟨by rfl, by rfl, by rfl⟩, ⟨by rfl, by rfl, by rfl⟩⟩

namespace Baseline

/-- C17: once `nextToken` has returned EndOfFile, every later call on the same
tokenizer returns EndOfFile and leaves the cursor where that first EndOfFile left
it. The cursor after `n` later calls is still the one after the first EndOfFile,
and the call made there returns EndOfFile with the cursor unchanged. -/
theorem nextToken_eof_idempotent (input : List Char) (pos : Nat)
    (h : (nextToken input pos).1.type = TokenType.EndOfFile) (n : Nat) :
    Nat.iterate (fun c => (nextToken input c).2) n (nextToken input pos).2
        = (nextToken input pos).2
    ∧ nextToken input (Nat.iterate (fun c => (nextToken input c).2) n (nextToken input pos).2)
        = (⟨TokenType.EndOfFile, []⟩, (nextToken input pos).2) := by
  have hit : Nat.iterate (fun c => (nextToken input c).2) n (nextToken input pos).2
      = (nextToken input pos).2 := by
    induction n with
    | zero => rfl
    | succ k ih =>
      rw [Function.iterate_succ_apply, nextToken_eof_again input pos h]
      exact ih
  rw [hit]
  exact ⟨rfl, nextToken_eof_again input pos h⟩

/-- On the text `1` followed by two spaces, the call at offset 1 skips the spaces
and returns EndOfFile at offset 3; three calls later the tokenizer is still
there. -/
theorem nextToken_eof_idempotent_witness :
    Nat.iterate (fun c => (nextToken ['1', ' ', ' '] c).2) 3 (nextToken ['1', ' ', ' '] 1).2
        = (nextToken ['1', ' ', ' '] 1).2
    ∧ nextToken ['1', ' ', ' ']
        (Nat.iterate (fun c => (nextToken ['1', ' ', ' '] c).2) 3
          (nextToken ['1', ' ', ' '] 1).2)
        = (⟨TokenType.EndOfFile, []⟩, (nextToken ['1', ' ', ' '] 1).2) :=
  nextToken_eof_idempotent ['1', ' ', ' '] 1 (by decide) 3

end Baseline

/-- C19: both pipelines accept the text `{}` and return an object with no
entries, and accept the text `[]` and return an array with no elements. -/
theorem parse_empty_containers :
    Baseline.parse ['{', '}'] = .ok (JsonValue.object [], ⟨2, ⟨TokenType.EndOfFile, []⟩⟩)
    ∧ Indexed.parse ['{', '}'] = .ok (Indexed.Node.mk .Object [] [] [], 2)
    ∧ Baseline.parse ['[', ']'] = .ok (JsonValue.array [], ⟨2, ⟨TokenType.EndOfFile, []⟩⟩)
    ∧ Indexed.parse ['[', ']'] = .ok (Indexed.Node.mk .Array [] [] [], 2) := by
  refine ⟨by rfl, by rfl, by rfl, by rfl⟩

set_option maxHeartbeats 4000000 in
/-- C12: both pipelines parse the text `{"a":[1,2,{"b":true}]}` to an object with
the single key `a` whose value is the array of the number 1, the number 2 and an
object with the single key `b` mapped to true, in this order. The Indexed node
holds the same entries and elements, with the Number texts `1` and `2`. -/
theorem parse_nested_document :
    Baseline.parse ['{', '"', 'a', '"', ':', '[', '1', ',', '2', ',', '{', '"', 'b', '"', ':',
        't', 'r', 'u', 'e', '}', ']', '}']
      = .ok (JsonValue.object [(['a'], JsonValue.array [JsonValue.number ⟨1, 0⟩,
          JsonValue.number ⟨2, 0⟩, JsonValue.object [(['b'], JsonValue.bool true)]])],
        ⟨22, ⟨TokenType.EndOfFile, []⟩⟩)
    ∧ Indexed.parse ['{', '"', 'a', '"', ':', '[', '1', ',', '2', ',', '{', '"', 'b', '"', ':',
        't', 'r', 'u', 'e', '}', ']', '}']
      = .ok (Indexed.Node.mk .Object []
          [(['a'], Indexed.Node.mk .Array [] []
            [Indexed.Node.mk .Number ['1'] [] [], Indexed.Node.mk .Number ['2'] [] [],
              Indexed.Node.mk .Object []
                [(['b'], Indexed.Node.mk .True ['t', 'r', 'u', 'e'] [] [])] []])] [], 15)
    ∧ (Indexed.Node.mk .Object []
          [(['a'], Indexed.Node.mk .Array [] []
            [Indexed.Node.mk .Number ['1'] [] [], Indexed.Node.mk .Number ['2'] [] [],
              Indexed.Node.mk .Object []
                [(['b'], Indexed.Node.mk .True ['t', 'r', 'u', 'e'] [] [])] []])] []).toJson
      = some (JsonValue.object [(['a'], JsonValue.array [JsonValue.number ⟨1, 0⟩,
          JsonValue.number ⟨2, 0⟩, JsonValue.object [(['b'], JsonValue.bool true)]])]) := by
  refine ⟨by rfl, by rfl, by rfl⟩

namespace Baseline
open ListView

/-- C20: when the text at the cursor is `0` (after an optional `-`) followed by a
digit, `nextToken` consumes only the sign and the single `0` and returns the
Number token `0` (or `-0`). The digit after the `0` is left in the input, the
cursor stands at it, and the next call returns a token whose text begins with
that digit. -/
theorem nextToken_zero_then_digit (input : List Char) (pos : Nat) (d : Char)
    (rest : List Char) (hd1 : isdigit d = true) :
    (input.drop pos = '0' :: d :: rest →
      nextToken input pos = (⟨TokenType.Number, ['0']⟩, pos + 1)
      ∧ input.drop (pos + 1) = d :: rest
      ∧ ∃ s, (nextToken input (pos + 1)).1.value = d :: s)
    ∧ (input.drop pos = '-' :: '0' :: d :: rest →
      nextToken input pos = (⟨TokenType.Number, ['-', '0']⟩, pos + 2)
      ∧ input.drop (pos + 2) = d :: rest
      ∧ ∃ s, (nextToken input (pos + 2)).1.value = d :: s) := by
  constructor
  · intro h
    have h1 : input.drop (pos + 1) = d :: rest := by
      rw [← List.drop_drop, h]
      rfl
    refine ⟨?_, h1, ?_⟩
    · rw [nextToken_eq, h, lex_zero_digit d rest hd1]
    · rw [nextToken_eq, h1]
      exact lex_digit_value d rest hd1
  · intro h
    have h1 : input.drop (pos + 2) = d :: rest := by
      rw [← List.drop_drop, h]
      rfl
    refine ⟨?_, h1, ?_⟩
    · rw [nextToken_eq, h, lex_minus_zero_digit d rest hd1]
    · rw [nextToken_eq, h1]
      exact lex_digit_value d rest hd1

/-- The text `01` lexes as the Number token `0` followed by the Number token `1`,
and `-07` as the Number token `-0` followed by the Number token `7`. -/
theorem nextToken_zero_then_digit_witness :
    (nextToken ['0', '1'] 0 = (⟨TokenType.Number, ['0']⟩, 1)
      ∧ nextToken ['0', '1'] 1 = (⟨TokenType.Number, ['1']⟩, 2))
    ∧ (nextToken ['-', '0', '7'] 0 = (⟨TokenType.Number, ['-', '0']⟩, 2)
      ∧ nextToken ['-', '0', '7'] 2 = (⟨TokenType.Number, ['7']⟩, 3)) :=
  ⟨⟨((nextToken_zero_then_digit ['0', '1'] 0 '1' [] (by decide)).1 rfl).1, by decide⟩,
    ⟨((nextToken_zero_then_digit ['-', '0', '7'] 0 '7' [] (by decide)).2 rfl).1, by decide⟩⟩

end Baseline

/-- C11, amended: on every text that consists of an opening quote followed by
characters with no closing quote (no quote other than the character after the
backslash of an escape pair), the Baseline pipeline fails with the error of
`parseValue` on the Invalid token, and the Indexed pipeline does not fail: it
returns a String node with the empty text. -/
theorem parse_unterminated_string (body : List Char) (h : hasClosingQuote body = false) :
    Baseline.parse ('"' :: body) = .error Baseline.ParseError.unexpectedToken
    ∧ Indexed.parse ('"' :: body) = .ok (Indexed.Node.mk .String [] [] [], 1) :=
  ⟨baseline_unclosed body h, indexed_unclosed body h⟩

/-- The texts `"abc` and `"ab\"c` have no closing quote: the Baseline pipeline
fails on both and the Indexed pipeline returns the empty string on both. -/
theorem parse_unterminated_string_witness :
    (Baseline.parse ['"', 'a', 'b', 'c'] = .error Baseline.ParseError.unexpectedToken
      ∧ Indexed.parse ['"', 'a', 'b', 'c'] = .ok (Indexed.Node.mk .String [] [] [], 1))
    ∧ (Baseline.parse ['"', 'a', 'b', '\\', '"', 'c']
        = .error Baseline.ParseError.unexpectedToken
      ∧ Indexed.parse ['"', 'a', 'b', '\\', '"', 'c']
        = .ok (Indexed.Node.mk .String [] [] [], 1)) :=
  ⟨parse_unterminated_string ['a', 'b', 'c'] (by decide),
    parse_unterminated_string ['a', 'b', '\\', '"', 'c'] (by decide)⟩

/-- C11 fails for the Indexed pipeline: on the text `"abc` the token builder
gives one String token with the empty text and `parseValue` returns a value
tree, the String node with the empty text. -/
theorem parse_unterminated_string_accepted :
    Indexed.parseJsonWithIndex ['"', 'a', 'b', 'c'] (Indexed.find_structurals ['"', 'a', 'b', 'c'])
      = [⟨TokenType.String, []⟩]
    ∧ Indexed.parse ['"', 'a', 'b', 'c'] = .ok (Indexed.Node.mk .String [] [] [], 1) := by
  refine ⟨by rfl, by rfl⟩

/-- On every text `{"key":}` whose key holds no quote, no backslash and no NUL,
both pipelines fail with the error that `parseValue` raises on the unexpected
closing brace. The token list of the Indexed pipeline is the four tokens `{`, the
key, `:`, `}`, and its parser fails on the token at index 3 without an access
outside the list (which would be the error `outOfRange`). -/
theorem parse_missing_value_fails (key : List Char)
    (hk : ∀ c ∈ key, c ≠ NUL ∧ c ≠ '"' ∧ c ≠ '\\') :
    Baseline.parse ('{' :: '"' :: (key ++ ['"', ':', '}']))
      = .error Baseline.ParseError.unexpectedToken
    ∧ Indexed.parseJsonWithIndex ('{' :: '"' :: (key ++ ['"', ':', '}']))
        (Indexed.find_structurals ('{' :: '"' :: (key ++ ['"', ':', '}'])))
      = [⟨TokenType.LeftBrace, ['{']⟩, ⟨TokenType.String, key⟩, ⟨TokenType.Colon, [':']⟩,
        ⟨TokenType.RightBrace, ['}']⟩]
    ∧ Indexed.parse ('{' :: '"' :: (key ++ ['"', ':', '}']))
      = .error (Indexed.ParseError.unexpectedToken TokenType.RightBrace) :=
  ⟨baseline_missing_value key hk, indexed_missing_value_tokens key hk,
    indexed_missing_value key hk⟩

/-- The text `{"a":}` is such an object: both pipelines fail on the closing
brace. -/
theorem parse_missing_value_fails_witness :
    Baseline.parse ['{', '"', 'a', '"', ':', '}'] = .error Baseline.ParseError.unexpectedToken
    ∧ Indexed.parseJsonWithIndex ['{', '"', 'a', '"', ':', '}']
        (Indexed.find_structurals ['{', '"', 'a', '"', ':', '}'])
      = [⟨TokenType.LeftBrace, ['{']⟩, ⟨TokenType.String, ['a']⟩, ⟨TokenType.Colon, [':']⟩,
        ⟨TokenType.RightBrace, ['}']⟩]
    ∧ Indexed.parse ['{', '"', 'a', '"', ':', '}']
      = .error (Indexed.ParseError.unexpectedToken TokenType.RightBrace) :=
  parse_missing_value_fails ['a'] (by decide)

/-- C13: the Indexed pipeline departs from the claim on the text `{"a\\":}`, an
object whose key (a, backslash) and colon are followed directly by the closing
brace. The Baseline pipeline fails with the error that `parseValue` raises on the
closing brace, as the claim says. The token builder of the Indexed pipeline tests
the one character before a quote, takes the quote after the escaped backslash for
an escaped quote, finds no closing quote and gives the two tokens `{` and an empty
String; the Indexed parser then reads the token list at index 2, outside the list,
instead of raising a grammar error. -/
theorem parse_missing_value_out_of_range :
    Baseline.parse ['{', '"', 'a', '\\', '\\', '"', ':', '}']
      = .error Baseline.ParseError.unexpectedToken
    ∧ Indexed.parseJsonWithIndex ['{', '"', 'a', '\\', '\\', '"', ':', '}']
        (Indexed.find_structurals ['{', '"', 'a', '\\', '\\', '"', ':', '}'])
      = [⟨TokenType.LeftBrace, ['{']⟩, ⟨TokenType.String, []⟩]
    ∧ Indexed.parse ['{', '"', 'a', '\\', '\\', '"', ':', '}']
      = .error Indexed.ParseError.outOfRange := by
  refine ⟨by rfl, by rfl, by rfl⟩

/-- C18, amended: in every object of a value tree returned by the Baseline
pipeline the keys are unique, also when the source object repeats a key: the
entry of a repeated key is assigned again and holds the last value. (The Indexed
pipeline appends one entry for every pair it parses.) -/
theorem parse_keys_unique (input : List Char) (v : JsonValue) (q : Baseline.Parser)
    (h : Baseline.parse input = .ok (v, q)) : v.KeysUnique :=
  (Baseline.parser_keys_unique input (3 * input.length + 3)).1 _ v q h

/-- The Baseline pipeline on `{"a":1,"a":2}`: one entry for `a`, with the value
2. -/
theorem parse_keys_unique_witness :
    Baseline.parse ['{', '"', 'a', '"', ':', '1', ',', '"', 'a', '"', ':', '2', '}']
      = .ok (JsonValue.object [(['a'], JsonValue.number ⟨2, 0⟩)],
        ⟨13, ⟨TokenType.EndOfFile, []⟩⟩)
    ∧ (JsonValue.object [(['a'], JsonValue.number ⟨2, 0⟩)]).KeysUnique :=
  ⟨by rfl, parse_keys_unique
    ['{', '"', 'a', '"', ':', '1', ',', '"', 'a', '"', ':', '2', '}'] _
    ⟨13, ⟨TokenType.EndOfFile, []⟩⟩ (by rfl)⟩

/-- C18 fails for the Indexed pipeline: on `{"a":1,"a":2}` it returns an object
node with two entries for the key `a`. -/
theorem parse_keys_repeated :
    Indexed.parse ['{', '"', 'a', '"', ':', '1', ',', '"', 'a', '"', ':', '2', '}']
      = .ok (Indexed.Node.mk .Object []
          [(['a'], Indexed.Node.mk .Number ['1'] [] []),
            (['a'], Indexed.Node.mk .Number ['2'] [] [])] [], 9)
    ∧ ¬ (([(['a'], Indexed.Node.mk .Number ['1'] [] []),
          (['a'], Indexed.Node.mk .Number ['2'] [] [])] :
        List (List Char × Indexed.Node)).map Prod.fst).Nodup := by
  refine ⟨by rfl, by decide⟩

set_option exponentiation.threshold 2000 in
/-- C14: the Baseline `parseValue` succeeds exactly on a token stream that starts
with a list derivable from `value` (a derivation gives every Number token of the
list the number `stod` reads, so its Number texts are convertible). Whenever
`parseValue` returns, for whatever fuel, it has read a derivable list, returns the
tree the derivation denotes, and its lookahead is the token after the list.
Whenever the stream at the parser starts with a derivable list, `parseValue`
returns the denoted tree in the state after the list, for every fuel of at least
twice the number of tokens; the fuel of the Baseline pipeline is enough for every
text. The denoted tree keeps the elements of an array in source order and gives an
object one entry for each key, with the value of the last pair of that key
(`denotedObject`, defined on the pairs without reference to the parser). A Number
token denotes the `double` nearest to its text, so `1.0` and `1` denote one number;
a text outside the range of `double`, such as `1e999`, is not convertible, and the
pipeline fails on it with the exception of `stod`. -/
theorem parseValue_iff_grammar (input : List Char) (p : Baseline.Parser) :
    (∀ fuel v q, Baseline.parseValue input fuel p = .ok (v, q) →
        ∃ ts, DerivesValue ts v ∧ Baseline.Reads input p ts q)
    ∧ (∀ ts v q fuel, DerivesValue ts v → Baseline.Reads input p ts q →
        2 * ts.length ≤ fuel → Baseline.parseValue input fuel p = .ok (v, q))
    ∧ (∀ ts v q, DerivesValue ts v → Baseline.Reads input (Baseline.Parser.init input) ts q →
        Baseline.parse input = .ok (v, q))
    ∧ denotedObject [(['a'], JsonValue.null), (['b'], JsonValue.bool true),
          (['a'], JsonValue.bool false)]
        = [(['a'], JsonValue.bool false), (['b'], JsonValue.bool true)]
    ∧ Baseline.parse ['{', '"', 'a', '"', ':', 'n', 'u', 'l', 'l', ',', '"', 'b', '"', ':',
          't', 'r', 'u', 'e', ',', '"', 'a', '"', ':', 'f', 'a', 'l', 's', 'e', '}']
        = .ok (JsonValue.object [(['a'], JsonValue.bool false), (['b'], JsonValue.bool true)],
            ⟨29, ⟨TokenType.EndOfFile, []⟩⟩)
    ∧ stod ['1', '.', '0'] = stod ['1']
    ∧ stod ['1', 'e', '9', '9', '9'] = none
    ∧ stod ['1', 'e', '-', '9', '9', '9'] = none
    ∧ Baseline.parse ['1', 'e', '9', '9', '9'] = .error Baseline.ParseError.stodFailed :=
  ⟨fun fuel v q h => (Baseline.parser_sound input fuel).1 p v q h,
    fun ts v q fuel hd hr hb => (Baseline.parser_complete input fuel).1 ts v p q hd hr hb,
    fun ts v q hd hr => Baseline.parse_complete input ts v q hd hr,
    by rfl, by rfl, by rfl, by rfl, by rfl, by rfl⟩

/-- C16 fails for the parser of the Indexed pipeline: `peek` and `get` index the
token list without a bounds test. On the empty text the token list is empty and
`parseValue` reads it at index 0; on a lone `[` it holds one token and
`parseArray` reads it at index 1; on `{"a"` it holds two tokens and `parseObject`
reads it at index 2. The embedding reports each of these accesses as
`outOfRange`. The Baseline pipeline ends with a reported error on all three. -/
theorem indexed_reads_past_tokens :
    (Indexed.parseJsonWithIndex [] (Indexed.find_structurals []) = []
      ∧ Indexed.parse [] = .error Indexed.ParseError.outOfRange
      ∧ Baseline.parse [] = .error Baseline.ParseError.unexpectedToken)
    ∧ (Indexed.parseJsonWithIndex ['['] (Indexed.find_structurals ['['])
        = [⟨TokenType.LeftBracket, ['[']⟩]
      ∧ Indexed.parse ['['] = .error Indexed.ParseError.outOfRange
      ∧ Baseline.parse ['['] = .error Baseline.ParseError.unexpectedToken)
    ∧ (Indexed.parseJsonWithIndex ['{', '"', 'a', '"']
          (Indexed.find_structurals ['{', '"', 'a', '"'])
        = [⟨TokenType.LeftBrace, ['{']⟩, ⟨TokenType.String, ['a']⟩]
      ∧ Indexed.parse ['{', '"', 'a', '"'] = .error Indexed.ParseError.outOfRange
      ∧ Baseline.parse ['{', '"', 'a', '"'] = .error Baseline.ParseError.expectedColon) := by
  refine ⟨⟨by rfl, by rfl, by rfl⟩, ⟨by rfl, by rfl, by rfl⟩, ⟨by rfl, by rfl, by rfl⟩⟩

/-- C22: the token builder derives tokens only from the structural offsets and the
gaps after them. For every text `s` that holds none of `{ } [ ] : , "`, the
structural scan finds no offset, `parseJsonWithIndex(s, find_structurals(s))` is
the empty token list, and such a text in front of any other text adds no token to
it. The Indexed pipeline returns no value for `s`: `parseValue` reads the empty
token list at index 0, which the embedding reports as `outOfRange`. -/
theorem parseJsonWithIndex_before_first_structural (s : List Char)
    (h : ∀ c ∈ s, c ∉ Indexed.chars) :
    Indexed.find_structurals s = []
    ∧ Indexed.parseJsonWithIndex s (Indexed.find_structurals s) = []
    ∧ (∀ rest, Indexed.parseJsonWithIndex (s ++ rest) (Indexed.find_structurals (s ++ rest))
        = Indexed.parseJsonWithIndex rest (Indexed.find_structurals rest))
    ∧ Indexed.parse s = .error Indexed.ParseError.outOfRange :=
  ⟨Indexed.find_structurals_plain_text s h, Indexed.parseJsonWithIndex_plain_text s h,
    fun rest => Indexed.parseJsonWithIndex_skip_prefix s rest h, Indexed.parse_plain_text s h⟩

/-- The text `-0.5e3` holds no structural character: no offset, no token, and no
value from the Indexed pipeline. -/
theorem parseJsonWithIndex_before_first_structural_witness :
    Indexed.find_structurals ['-', '0', '.', '5', 'e', '3'] = []
    ∧ Indexed.parseJsonWithIndex ['-', '0', '.', '5', 'e', '3']
        (Indexed.find_structurals ['-', '0', '.', '5', 'e', '3']) = []
    ∧ (∀ rest, Indexed.parseJsonWithIndex (['-', '0', '.', '5', 'e', '3'] ++ rest)
          (Indexed.find_structurals (['-', '0', '.', '5', 'e', '3'] ++ rest))
        = Indexed.parseJsonWithIndex rest (Indexed.find_structurals rest))
    ∧ Indexed.parse ['-', '0', '.', '5', 'e', '3'] = .error Indexed.ParseError.outOfRange :=
  parseJsonWithIndex_before_first_structural ['-', '0', '.', '5', 'e', '3'] (by decide)

namespace Indexed

/-- C21: in the token builder, let `p` be the offset at index `i` of the offset
list (the opening quote). If `q` is the least offset greater than `p` with
`json[q] = '"'` and `json[q - 1] ≠ '\\'`, then `extractString` returns the slice
of the text strictly between `p` and `q`, sets `pos` to `q + 1` and leaves `i` at
the index of `q` in the offset list, so that the outer scan goes on with the
offsets after `q`. If no such offset exists, it returns the empty string, sets
`pos` to `p + 2` and leaves `i` at the length of the offset list: all remaining
offsets are consumed. -/
theorem extractString_spec (json : List Char) (i p : Nat)
    (hi : i < (find_structurals json).length) (hp : (find_structurals json).getD i 0 = p) :
    (∀ q, p < q → q < json.length → closingQuoteAt json q →
        (∀ r, p < r → r < q → ¬ closingQuoteAt json r) →
        ∃ j, extractString json p (find_structurals json) i
            = ((json.drop (p + 1)).take (q - (p + 1)), q + 1, j)
          ∧ i < j ∧ j < (find_structurals json).length
          ∧ (find_structurals json).getD j 0 = q)
    ∧ ((∀ r, p < r → r < json.length → ¬ closingQuoteAt json r) →
        extractString json p (find_structurals json) i
          = ([], p + 2, (find_structurals json).length)) :=
  ⟨fun q hpq hq hc hmin => extractString_closed json i p q hi hp hpq hq hc hmin,
    fun hno => extractString_unclosed json i p hi hp hno⟩

/-- C21 on the text `"a\\"` (quote, `a`, two backslashes, quote): the only later
quote, at offset 4, follows a backslash, so the string token is empty and both
offsets are consumed; and on the text `"ab",` where the closing quote is at
offset 3. -/
theorem extractString_spec_witness :
    (0 < (find_structurals ['"', 'a', '\\', '\\', '"']).length
      ∧ (find_structurals ['"', 'a', '\\', '\\', '"']).getD 0 0 = 0
      ∧ extractString ['"', 'a', '\\', '\\', '"'] 0
          (find_structurals ['"', 'a', '\\', '\\', '"']) 0 = ([], 2, 2))
    ∧ (0 < (find_structurals ['"', 'a', 'b', '"', ',']).length
      ∧ (find_structurals ['"', 'a', 'b', '"', ',']).getD 0 0 = 0
      ∧ ∃ j, extractString ['"', 'a', 'b', '"', ','] 0
            (find_structurals ['"', 'a', 'b', '"', ',']) 0 = (['a', 'b'], 4, j)
          ∧ 0 < j ∧ j < 3 ∧ (find_structurals ['"', 'a', 'b', '"', ',']).getD j 0 = 3) :=
  ⟨⟨by decide, by decide,
      (extractString_spec ['"', 'a', '\\', '\\', '"'] 0 0 (by decide) (by decide)).2
        (by
          intro r h1 h2
          have h3 : r < 5 := h2
          interval_cases r <;> decide)⟩,
    ⟨by decide, by decide,
      (extractString_spec ['"', 'a', 'b', '"', ','] 0 0 (by decide) (by decide)).1 3
        (by decide) (by decide) (by decide)
        (by
          intro r h1 h2
          interval_cases r <;> decide)⟩⟩

end Indexed

namespace Baseline

/-- C23: termination of the Baseline tokenizer and parser, for every text `input`.
(1) A call of `nextToken` with the cursor inside the text leaves it inside the
text, so the cursor after any number of calls is at most `input.length`. (2) Every
call that returns a token other than EndOfFile moves the cursor forward. (3) Hence
some call `n ≤ input.length` returns EndOfFile after `n` tokens other than
EndOfFile, and the tokens before EndOfFile are at most `input.length`. (4) Every
call of `parseValue` that returns has consumed a token: the bound `unread` of the
state it leaves is lower than that of the state it found. (5) So the recursion
ends: from any parser state, `3 * unread + 1` units of fuel are enough, the result
is then never `outOfFuel` and does not depend on the fuel; in particular the
pipeline `parse` never stops for lack of fuel, and more fuel gives the same
result. -/
theorem tokenizer_parser_terminate (input : List Char) :
    (∀ pos, pos ≤ input.length → (nextToken input pos).2 ≤ input.length)
    ∧ (∀ n, cursorAfter input n ≤ input.length)
    ∧ (∀ pos, (nextToken input pos).1.type ≠ TokenType.EndOfFile →
        pos < (nextToken input pos).2)
    ∧ (∃ n, n ≤ input.length
        ∧ (∀ m, m < n → (tokenAt input m).type ≠ TokenType.EndOfFile)
        ∧ (tokenAt input n).type = TokenType.EndOfFile)
    ∧ (tokens input).length ≤ input.length
    ∧ (∀ fuel p v q, parseValue input fuel p = .ok (v, q) →
        unread input q + 1 ≤ unread input p)
    ∧ (∀ p fuel, 3 * unread input p + 1 ≤ fuel →
        parseValue input fuel p ≠ .error .outOfFuel
        ∧ parseValue input fuel p = parseValue input (3 * unread input p + 1) p)
    ∧ parse input ≠ .error .outOfFuel
    ∧ (∀ fuel, 3 * input.length + 3 ≤ fuel →
        parseValue input fuel (Parser.init input) = parse input) := by
  have hfuel : ∀ p fuel, 3 * unread input p + 1 ≤ fuel →
      parseValue input fuel p = parseValue input (3 * unread input p + 1) p := by
    intro p fuel hb
    have e : fuel = 3 * unread input p + 1 + (fuel - (3 * unread input p + 1)) := by omega
    rw [e]
    exact parseValue_fuel input p _
  have hinit := unread_init input
  refine ⟨nextToken_le input, cursorAfter_le input, ?_, tokenAt_eof input, tokens_length input,
    ?_, ?_, ?_, ?_⟩
  · intro pos h
    have := (nextToken_progress input pos h).1
    omega
  · intro fuel p v q h
    exact (parser_consumes input fuel).1 p v q h
  · intro p fuel hb
    exact ⟨(parser_fuel_enough input fuel).1 p hb, hfuel p fuel hb⟩
  · unfold parse
    exact (parser_fuel_enough input _).1 _ (by omega)
  · intro fuel hb
    unfold parse
    rw [hfuel _ fuel (by omega), hfuel _ (3 * input.length + 3) (by omega)]

end Baseline
